import Mathlib

/-!
# tela: resource matching, the YAML subset and the run of a test

A shallow embedding of parts of `src/resource.c`, `src/yaml.c`, `src/misc.c`,
`src/log.c`, `src/record.c` and `src/tela.c` of the tela test framework, and
theorems about them.

C strings are lists of characters (without the terminating NUL), a `NULL`
pointer of type `char *` is `none`.  Machine integers are `Int` with explicit
wrap-around and saturation where the C code can overflow.
-/

namespace Tela

/-- A C string: the characters before the terminating NUL. -/
abbrev Str := List Char

/-! ## Characters (`<ctype.h>`, C locale) -/

/-- The double quote character. -/
def dquote : Char := Char.ofNat 34

/-- The single quote character. -/
def squote : Char := Char.ofNat 39

/-- The backslash character. -/
def bslash : Char := Char.ofNat 92

/-- C `isspace` in the C locale: blank, `\t`, `\n`, `\v`, `\f`, `\r`. -/
def isspace (c : Char) : Bool :=
  c.toNat == 32 || (9 ≤ c.toNat && c.toNat ≤ 13)

/-- C `isdigit`. -/
def isdigit (c : Char) : Bool := 48 ≤ c.toNat && c.toNat ≤ 57

/-- C `isupper`. -/
def isupper (c : Char) : Bool := 65 ≤ c.toNat && c.toNat ≤ 90

/-- C `islower`. -/
def islower (c : Char) : Bool := 97 ≤ c.toNat && c.toNat ≤ 122

/-- C `isalnum`. -/
def isalnum (c : Char) : Bool := isdigit c || isupper c || islower c

/-- C `tolower`. -/
def tolower (c : Char) : Char := if isupper c then Char.ofNat (c.toNat + 32) else c

/-- C `toupper`. -/
def toupper (c : Char) : Char := if islower c then Char.ofNat (c.toNat - 32) else c

/-! ## String helpers (`src/misc.c`, `src/misc.h`, `<string.h>`) -/

/-- The macro `misc_skip_space(s)`: advance `s` over leading white space. -/
def misc_skip_space : Str → Str
  | [] => []
  | c :: r => if isspace c then misc_skip_space r else c :: r

/-- The function `misc_strip_space`: cut trailing white space. -/
def misc_strip_space (s : Str) : Str :=
  (misc_skip_space s.reverse).reverse

/-- The function `misc_starts_with(str, s)`. -/
def misc_starts_with : Str → Str → Bool
  | _, [] => true
  | [], _ :: _ => false
  | a :: r, b :: t => a == b && misc_starts_with r t

/-- The function `misc_ends_with(str, s)`. -/
def misc_ends_with (str s : Str) : Bool :=
  misc_starts_with str.reverse s.reverse

/-- C `strcmp`, reduced to the sign of its result. -/
def strcmp : Str → Str → Int
  | [], [] => 0
  | [], _ :: _ => -1
  | _ :: _, [] => 1
  | a :: r, b :: t =>
    if a.toNat < b.toNat then -1 else if b.toNat < a.toNat then 1 else strcmp r t

/-- C `strstr(s, pat)`: the text before the first occurrence of `pat` and the
suffix of `s` that starts with it, or `none`. -/
def strstr (pat : Str) : Str → Option (Str × Str)
  | [] => if pat.isEmpty then some ([], []) else none
  | c :: r =>
    if misc_starts_with (c :: r) pat then some ([], c :: r)
    else match strstr pat r with
      | some (pre, suf) => some (c :: pre, suf)
      | none => none

/-- C `strchr(s, c)` for a character `c` other than NUL: the text before the
first `c` and the suffix of `s` starting at it, or `none`. -/
def strchr (c : Char) : Str → Option (Str × Str)
  | [] => none
  | d :: r =>
    if d == c then some ([], d :: r)
    else match strchr c r with
      | some (pre, suf) => some (d :: pre, suf)
      | none => none

/-- C `strsep(&s, delim)` on a non-NULL `s`: the token before the first
delimiter, and the new value of `s` (`none` when no delimiter was found). -/
def strsep (delim : Str) : Str → Str × Option Str
  | [] => ([], none)
  | c :: r =>
    if delim.contains c then ([], some r)
    else let (tok, rest) := strsep delim r
      (c :: tok, rest)

/-! ## `strtol` -/

/-- Largest value of a C `long` on the 64-bit targets of tela. -/
def LONG_MAX : Int := 2 ^ 63 - 1

/-- Smallest value of a C `long`. -/
def LONG_MIN : Int := -(2 ^ 63)

/-- Value of a digit character for `strtol`, any base up to 36. -/
def digit_val (c : Char) : Option Nat :=
  if isdigit c then some (c.toNat - 48)
  else if islower c then some (c.toNat - 97 + 10)
  else if isupper c then some (c.toNat - 65 + 10)
  else none

/-- The digits of `strtol` in `base`: the value accumulated so far, the count
of digits taken and the unread rest. -/
def strtol_digits (base : Nat) : Str → Nat → Nat → Nat × Nat × Str
  | [], acc, k => (acc, k, [])
  | c :: r, acc, k =>
    match digit_val c with
    | some d => if d < base then strtol_digits base r (acc * base + d) (k + 1) else (acc, k, c :: r)
    | none => (acc, k, c :: r)

/-- The result of `strtol` once sign and magnitude are known: out-of-range
values saturate to `LONG_MAX` and `LONG_MIN`. -/
def strtol_clamp (neg : Bool) (v : Nat) : Int :=
  if neg then (if (v : Int) ≤ 2 ^ 63 then -(v : Int) else LONG_MIN)
  else (if (v : Int) ≤ LONG_MAX then (v : Int) else LONG_MAX)

/-- The prefix `0x` of `strtol` for the bases 0 and 16: it is taken when a
hexadecimal digit follows it; the result is the text after the prefix. -/
def strtol_hex (base : Nat) (s : Str) : Option Str :=
  match s with
  | c0 :: x :: h :: r =>
    if (base == 0 || base == 16) && c0 == '0' && (x == 'x' || x == 'X') &&
       (match digit_val h with | some d => decide (d < 16) | none => false)
    then some (h :: r) else none
  | _ => none

/-- After the optional sign: select the base (for `base == 0`: a `0x` that a
hexadecimal digit follows selects 16, another leading `0` selects 8, otherwise
10) and read the digits.  `none` when no digit could be read. -/
def strtol_body (base : Nat) (neg : Bool) (s : Str) : Option (Int × Str) :=
  match strtol_hex base s with
  | some t =>
    let (v, _, rest) := strtol_digits 16 t 0 0
    some (strtol_clamp neg v, rest)
  | none =>
    let b := if base == 0 then (if misc_starts_with s ['0'] then 8 else 10) else base
    let (v, k, rest) := strtol_digits b s 0 0
    if k == 0 then none else some (strtol_clamp neg v, rest)

/-- C `strtol(s, &next, base)` for `base` 0 or 10: the value and the text
`next` points to.  When no conversion is done the value is 0 and `next` is
`s` itself, which callers test as `next == s`; as every conversion consumes a
character, that test is `next.length = s.length` here. -/
def strtol (s : Str) (base : Nat) : Int × Str :=
  let t := misc_skip_space s
  let neg := t.head? == some '-'
  let u := if neg || t.head? == some '+' then t.tail else t
  match strtol_body base neg u with
  | some (v, rest) => (v, rest)
  | none => (0, s)

/-! ## Operators, numbers and versions (`src/resource.c`) -/

/-- The enum `op_t`. -/
inductive op_t where
  | op_none | op_ne | op_lt | op_le | op_gt | op_ge
deriving DecidableEq, Repr

open op_t

/-- The function `parse_op`: the operator at the start of `*str` and the
advanced string. -/
def parse_op : Str → op_t × Str
  | '!' :: '=' :: r => (op_ne, r)
  | '<' :: '=' :: r => (op_le, r)
  | '<' :: r => (op_lt, r)
  | '>' :: '=' :: r => (op_ge, r)
  | '>' :: r => (op_gt, r)
  | s => (op_none, s)

/-- The function `cmp_number`. -/
def cmp_number (a b : Int) : op_t → Bool
  | op_none => a == b
  | op_ne => a != b
  | op_lt => decide (a < b)
  | op_le => decide (a ≤ b)
  | op_gt => decide (a > b)
  | op_ge => decide (a ≥ b)

/-- The function `cmp_string`. -/
def cmp_string (a b : Str) : op_t → Bool
  | op_none => strcmp a b == 0
  | op_ne => strcmp a b != 0
  | op_lt => decide (strcmp a b < 0)
  | op_le => decide (strcmp a b ≤ 0)
  | op_gt => decide (strcmp a b > 0)
  | op_ge => decide (strcmp a b ≥ 0)

/-- One side of `cmp_subver`: the value and whether the component counts as a
string (`strtol` in base 10 did not reach its end). -/
def subver_value (a : Option Str) : Int × Bool × Str :=
  match a with
  | none => (0, false, [])
  | some [] => (0, false, [])
  | some (c :: r) =>
    let (v, e) := strtol (c :: r) 10
    if e.isEmpty then (v, false, c :: r) else (0, true, c :: r)

/-- The function `cmp_subver`. -/
def cmp_subver (a b : Option Str) (op : op_t) : Bool :=
  let (av, astr, a1) := subver_value a
  let (bv, bstr, b1) := subver_value b
  if astr || bstr then cmp_string a1 b1 op else cmp_number av bv op

/-- The characters of `VERSION_DELIM`. -/
def VERSION_DELIM : Str := ['.', '-', '_']

/-- Conversion of the `unsigned long` product in `match_number` back to
`long`: reduction modulo 2^64 into the signed range. -/
def wrap_long (v : Int) : Int :=
  let m := v % 2 ^ 64
  if m < 2 ^ 63 then m else m - 2 ^ 64

/-- The function `parse_scale`: factor and advanced string. -/
def parse_scale (s : Str) : Nat × Str :=
  match s with
  | [] => (1, s)
  | c :: r =>
    let unit := tolower c
    let unit2 : Option Char := match r with | [] => none | d :: _ => some (tolower d)
    let bin : Bool := unit2 == some 'i'
    if unit == 'k' then (if bin then (2 ^ 10, r.tail) else (1000, r))
    else if unit == 'm' then (if bin then (2 ^ 20, r.tail) else (1000000, r))
    else if unit == 'g' then (if bin then (2 ^ 30, r.tail) else (1000000000, r))
    else if unit == 't' then (if bin then (2 ^ 40, r.tail) else (1000000000000, r))
    else (1, s)

/-! ## YAML documents (`src/yaml.h`) -/

/-- The struct `yaml_node` without its `next` pointer: a sibling chain is a
list of nodes and `NULL` is the empty list.  The key of a mapping, which the
parser always creates as a scalar, is given by its content.  File name, line
number and the `handled` flag are only used for messages and are left out; the
`data` slot is the `match_state` below. -/
inductive yaml_node where
  | scalar (content : Str)
  | seq (content : List yaml_node)
  | map (key : Str) (value : List yaml_node)
deriving Repr

/-- Identity of a node of a document, in place of its address: the index of
the node in its sibling chain, followed by the identity of its parent (empty
for a top-level node). -/
abbrev node_id := List Nat

/-- The sibling chain `node->next`. -/
def id_next : node_id → node_id
  | [] => []
  | i :: p => (i + 1) :: p

/-- The first child (`map.value` or `seq.content`) of the node `p`. -/
def id_child (p : node_id) : node_id := 0 :: p

/-- The children of a node: `get_child` of `src/yaml.c`. -/
def get_child : yaml_node → List yaml_node
  | .scalar _ => []
  | .seq c => c
  | .map _ v => v

/-- The chain of nodes a pointer designates: the node with identity `p` and
its following siblings; empty for a `NULL` pointer. -/
def yaml_chain (doc : List yaml_node) : node_id → List yaml_node
  | [] => []
  | [i] => doc.drop i
  | i :: j :: p =>
    match yaml_chain doc (j :: p) with
    | [] => []
    | n :: _ => (get_child n).drop i

/-- The node a pointer designates, `none` for `NULL`. -/
def yaml_deref (doc : List yaml_node) (p : node_id) : Option yaml_node :=
  (yaml_chain doc p).head?

/-- The function `get_key`. -/
def get_key : Option yaml_node → Option Str
  | some (.map k _) => some k
  | _ => none

/-- The function `get_scalar`. -/
def get_scalar : Option yaml_node → Option Str
  | some (.scalar c) => some c
  | _ => none

/-! ## Attribute variables (`src/resource.c`) -/

/-- The struct `attr_var`; `req` is the identity of the owning requirement
node. -/
structure attr_var where
  name : Str
  value : Str
  req : node_id
deriving DecidableEq, Repr

/-- The function `add_attr_var`: the new variable becomes the list head. -/
def add_attr_var (vars : List attr_var) (name value : Str) (req : node_id) : List attr_var :=
  { name := name, value := value, req := req } :: vars

/-- The function `del_attr_var`: unlink the first variable owned by `req`. -/
def del_attr_var : List attr_var → node_id → List attr_var
  | [], _ => []
  | v :: r, req => if v.req = req then r else v :: del_attr_var r req

/-- The function `get_attr_var_value`. -/
def get_attr_var_value : List attr_var → Str → Option Str
  | [], _ => none
  | v :: r, name => if v.name = name then some v.value else get_attr_var_value r name

/-- The function `scan_attr_var`: `none` when `str` has no `%{`; otherwise the
text before `%{` and, when a closing brace follows, the variable name and the
text after the brace. -/
def scan_attr_var (str : Str) : Option (Str × Option (Str × Str)) :=
  match strstr ['%', '\x7b'] str with
  | none => none
  | some (pre, s) =>
    match strchr '\x7d' s with
    | none => some (pre, none)
    | some (v, e) => some (pre, some (v.drop 2, e.drop 1))

/-- The loop of `resolve_attr_var`: `done` is the part of `result` before
`curr`.  `none` is the error exit (unterminated or undefined variable). -/
def resolve_attr_var_loop (vars : List attr_var) : Nat → Str → Str → Option Str
  | 0, _, _ => none
  | fuel + 1, done, curr =>
    match scan_attr_var curr with
    | none => some (done ++ curr)
    | some (_, none) => none
    | some (pre, some (name, post)) =>
      match get_attr_var_value vars name with
      | none => none
      | some val => resolve_attr_var_loop vars fuel (done ++ pre ++ val) post

/-- The function `resolve_attr_var`.  Every round of the loop removes at least
the three characters of a reference from `curr`, so the fuel is never used
up. -/
def resolve_attr_var (vars : List attr_var) (str : Str) : Option Str :=
  resolve_attr_var_loop vars (str.length + 1) [] str

/-- The function `assign_attr_var`: whether an assignment was made, and the
variables afterwards. -/
def assign_attr_var (vars : List attr_var) (req res : Str) (node : node_id) :
    Bool × List attr_var :=
  if (parse_op req).1 ≠ op_none then (false, vars)
  else
    match scan_attr_var (parse_op req).2 with
    | none => (false, vars)
    | some (_, none) => (false, vars)
    | some (_, some (name, _)) =>
      match get_attr_var_value vars name with
      | some _ => (false, vars)
      | none => (true, add_attr_var vars name res node)

/-- The function `match_number`, on the contents of the two scalars. -/
def match_number_str (vars : List attr_var) (node : node_id) (req res : Str) :
    Bool × List attr_var :=
  let (asg, vars1) := assign_attr_var vars req res node
  if asg then (true, vars1)
  else
    match resolve_attr_var vars req with
    | none => (false, vars)
    | some req1 =>
      let (op, req2) := parse_op req1
      let (req_value, next) := strtol req2 0
      if next.length == req2.length then (false, vars)
      else
        let req_value := wrap_long (req_value * (parse_scale (misc_skip_space next)).1)
        let (res_value, next) := strtol res 0
        if next.length == res.length then (false, vars)
        else
          let res_value := wrap_long (res_value * (parse_scale (misc_skip_space next)).1)
          (cmp_number res_value req_value op, vars)

/-- The function `match_number`. -/
def match_number (vars : List attr_var) (node : node_id) (req_node res_node : Option yaml_node) :
    Bool × List attr_var :=
  match get_scalar req_node, get_scalar res_node with
  | some req, some res => match_number_str vars node req res
  | _, _ => (false, vars)

/-- The loop of `match_version` and the comparison that follows it. -/
def match_version_loop (op : op_t) : Nat → Option Str → Option Str → Bool
  | 0, _, _ => false
  | fuel + 1, some req, some res =>
    let (a, res1) := strsep VERSION_DELIM (misc_skip_space res)
    let (b, req1) := strsep VERSION_DELIM (misc_skip_space req)
    if !cmp_subver (some a) (some b) op_none then cmp_subver (some a) (some b) op
    else match_version_loop op fuel req1 res1
  | _ + 1, req, res => cmp_subver res req op

/-- The function `match_version`, on the contents of the two scalars.  Every
round of the loop shortens `res`, so the fuel is never used up. -/
def match_version_str (vars : List attr_var) (node : node_id) (req res : Str) :
    Bool × List attr_var :=
  let (asg, vars1) := assign_attr_var vars req res node
  if asg then (true, vars1)
  else
    match resolve_attr_var vars req with
    | none => (false, vars)
    | some req1 =>
      let (op, req2) := parse_op req1
      (match_version_loop op (res.length + 2) (some req2) (some res), vars)

/-- The function `match_version`. -/
def match_version (vars : List attr_var) (node : node_id) (req_node res_node : Option yaml_node) :
    Bool × List attr_var :=
  match get_scalar req_node, get_scalar res_node with
  | some req, some res => match_version_str vars node req res
  | _, _ => (false, vars)

/-- The function `match_scalar_attr`, on the contents of the two scalars. -/
def match_scalar_attr_str (vars : List attr_var) (node : node_id) (req res : Str) :
    Bool × List attr_var :=
  let (asg, vars1) := assign_attr_var vars req res node
  if asg then (true, vars1)
  else
    match resolve_attr_var vars req with
    | none => (false, vars)
    | some req1 =>
      let (op, req2) := parse_op req1
      let req3 := misc_skip_space req2
      match op with
      | op_none => (strcmp req3 res == 0, vars)
      | op_ne => (strcmp req3 res != 0, vars)
      | _ => (strcmp req res == 0, vars)

/-- The function `match_scalar_attr`. -/
def match_scalar_attr (vars : List attr_var) (node : node_id)
    (req_node res_node : Option yaml_node) : Bool × List attr_var :=
  match get_scalar req_node, get_scalar res_node with
  | some req, some res => match_scalar_attr_str vars node req res
  | _, _ => (false, vars)

/-! ## The parser (`src/yaml.c`) -/

/-- The enum `yaml_type`. -/
inductive yaml_type where
  | yaml_scalar | yaml_seq | yaml_map
deriving DecidableEq, Repr

/-- The field `type` of a node. -/
def yaml_node.type : yaml_node → yaml_type
  | .scalar _ => .yaml_scalar
  | .seq _ => .yaml_seq
  | .map _ _ => .yaml_map

/-- The scan of `strchr_unquoted(str, c)`, with the variables `quote` (`none`
for 0) and `escape`: the text before the first unquoted `c` and the text from
`c` on, or `none`. -/
def strchr_unquoted_scan (c : Char) : Str → Option Char → Bool → Option (Str × Str)
  | [], _, _ => none
  | d :: r, none, esc =>
    if d == c then some ([], d :: r)
    else
      let q := if d == dquote || d == squote then some d else none
      match strchr_unquoted_scan c r q esc with
      | some (pre, suf) => some (d :: pre, suf)
      | none => none
  | d :: r, some q, esc =>
    let next : Option Char × Bool :=
      if q == dquote then
        (if !esc && d == bslash then (some q, true)
         else if esc then (some q, false)
         else if d == dquote then (none, esc)
         else (some q, esc))
      else
        (if !esc && d == bslash && r.head? == some bslash then (some q, true)
         else if esc then (some q, false)
         else if d == squote then (none, esc)
         else (some q, esc))
    match strchr_unquoted_scan c r next.1 next.2 with
    | some (pre, suf) => some (d :: pre, suf)
    | none => none

/-- The function `strchr_unquoted`. -/
def strchr_unquoted (str : Str) (c : Char) : Option (Str × Str) :=
  strchr_unquoted_scan c str none false

/-- The second and later rounds of the loop of `find_map`: `str` points to a
colon, `pre` is the text before it. -/
def find_map_next : Nat → Str → Str → Option (Str × Str)
  | 0, _, _ => none
  | fuel + 1, pre, str =>
    match str with
    | [] => none
    | c :: r =>
      match r with
      | [] => some (pre, c :: r)
      | d :: _ =>
        if isspace d then some (pre, c :: r)
        else match strchr ':' r with
          | none => none
          | some (mid, suf) => find_map_next fuel (pre ++ c :: mid) suf

/-- The function `find_map`: the text before the map key delimiter and the
text from the delimiter on, or `none`. -/
def find_map (str : Str) : Option (Str × Str) :=
  match strchr_unquoted str ':' with
  | none => none
  | some (pre, suf) => find_map_next (str.length + 1) pre suf

/-- The function `misc_replace_map` for the map `single_quote_map`. -/
def replace_single_quote_map : Str → Str
  | [] => []
  | [c] => [c]
  | c :: d :: t =>
    if c == squote && d == squote then squote :: replace_single_quote_map t
    else c :: replace_single_quote_map (d :: t)

/-- The function `misc_replace_map` for the map `double_quote_map`. -/
def replace_double_quote_map : Str → Str
  | [] => []
  | [c] => [c]
  | c :: d :: t =>
    if c == bslash && d == dquote then dquote :: replace_double_quote_map t
    else if c == bslash && d == 'n' then '\n' :: replace_double_quote_map t
    else if c == bslash && d == bslash then bslash :: replace_double_quote_map t
    else c :: replace_double_quote_map (d :: t)

/-- The function `misc_unquote` with the two maps of `unquote_string`: the
string afterwards, and whether the closing quote was found. -/
def misc_unquote (str : Str) : Str × Bool :=
  match str with
  | [] => ([], true)
  | q :: r =>
    if q != squote && q != dquote then (str, true)
    else if r.isEmpty || r.getLast? != some q then (r, false)
    else if q == squote then (replace_single_quote_map r.dropLast, true)
    else (replace_double_quote_map r.dropLast, true)

/-- The function `unquote_string`: a missing closing quote is only reported
by a message, `pos->error` stays as it is. -/
def unquote_string (str : Str) : Str := (misc_unquote str).1

/-- The struct `filepos`: `fd` is the unread input. -/
structure filepos where
  fd : Str
  lineno : Nat
  error : Bool
  eof : Bool
  line : Option Str
deriving Repr

/-- C `getline`: the next line with its newline, and the rest of the input;
`none` at the end of the input. -/
def getline (fd : Str) : Option (Str × Str) :=
  match fd with
  | [] => none
  | _ :: _ =>
    match strchr '\n' fd with
    | none => some (fd, [])
    | some (pre, suf) => some (pre ++ ['\n'], suf.drop 1)

/-- The function `pos_getline`. -/
def pos_getline (pos : filepos) : Option (Str × filepos) :=
  if pos.error || pos.eof then none
  else match pos.line with
    | some l => some (l, { pos with line := none })
    | none =>
      match getline pos.fd with
      | none => none
      | some (l, rest) => some (l, { pos with fd := rest })

/-- The variable `prev` of `_parse`: `none` for `NULL`, otherwise the type of
the node and whether the node is the last one of the chain that starts at
`root`.  A node that was created while `prev` was `NULL` and `root` was set
is linked to nothing, and neither are the nodes linked after it. -/
abbrev prev_t := Option (yaml_type × Bool)

/-- The statements after the label `next` of `_parse`, for a new node. -/
def parse_link (root : List yaml_node) (prev : prev_t) (node : yaml_node) :
    List yaml_node × prev_t :=
  match root with
  | [] => ([node], some (node.type, true))
  | _ :: _ =>
    match prev with
    | some (_, true) => (root ++ [node], some (node.type, true))
    | some (_, false) => (root, some (node.type, false))
    | none => (root, some (node.type, false))

/-- The function `append_scalar` applied to `prev`. -/
def append_scalar (root : List yaml_node) (prev : prev_t) (new_s : Str) : List yaml_node :=
  match prev, root.getLast? with
  | some (_, true), some (.scalar old_s) => root.dropLast ++ [.scalar (old_s ++ ' ' :: new_s)]
  | _, _ => root

/-- The number of leading blanks of a line. -/
def count_indent : Str → Nat
  | ' ' :: r => count_indent r + 1
  | _ => 0

/-- Does the node type `t` differ from the type of `prev`?  (`prev &&
prev->type != t`.) -/
def prev_differs (prev : prev_t) (t : yaml_type) : Bool :=
  match prev with
  | some (pt, _) => pt != t
  | none => false

/-- What one round of the loop of `_parse` decides from the line it has read,
before it builds a node. -/
inductive line_action where
  /-- A `continue` without a node: document start marker or empty line. -/
  | skip
  /-- The document end marker. -/
  | doc_end
  /-- The line is indented less than the block: it is put back. -/
  | block_end (line : Str)
  /-- Tab indentation or a node of another type than its neighbour. -/
  | error
  /-- A sequence indicator at column `i`; `s` is the text after it. -/
  | seq (i : Nat) (s : Str)
  /-- A mapping at column `i` with the text `s` after the colon. -/
  | map (i : Nat) (key s : Str)
  /-- A scalar with the unquoted content `text`. -/
  | scalar (text : Str)
deriving Repr

/-- The line without its newline and without its comment. -/
def clean_line (line0 : Str) : Str :=
  let line1 := line0.takeWhile (fun c => c != '\n')
  match strchr_unquoted line1 '#' with
  | some (pre, _) => pre
  | none => line1

/-- The tests of one round of the loop of `_parse`, in their order. -/
def line_action_of (line0 : Str) (indent : Nat) (prev : prev_t) : line_action :=
  let line := clean_line line0
  if misc_starts_with line ['-', '-', '-'] then .skip
  else if misc_starts_with line ['.', '.', '.'] then .doc_end
  else
    let i := count_indent line
    match line.drop i with
    | [] => .skip
    | c :: s1 =>
      if i < indent then .block_end line
      else if c == '\t' && prev_differs prev .yaml_scalar then .error
      else if c == '-' && (match s1 with | d :: _ => isspace d | [] => false) then
        if prev_differs prev .yaml_seq then .error else .seq i (s1.drop 1)
      else
        match find_map (c :: s1) with
        | some (k, colon) =>
          if prev_differs prev .yaml_map then .error
          else .map i (misc_strip_space k) (colon.drop 1)
        | none =>
          if prev_differs prev .yaml_scalar then .error
          else .scalar (unquote_string (misc_strip_space (c :: s1)))

/-- The function `_parse_implicit`, with `rec` for its call of `_parse`. -/
def _parse_implicit (rec : filepos → Nat → List yaml_node × filepos) (pos : filepos)
    (indent : Nat) (s : Str) : List yaml_node × filepos :=
  let s := misc_strip_space (misc_skip_space s)
  if s.isEmpty then rec pos (indent + 1)
  else (if pos.error then [] else [.scalar (unquote_string s)], pos)

/-- The function `_parse`; `root` and `prev` are its local variables.  Every
round of the loop and every nested call takes one unit of fuel; running out of
fuel is reported like a parse error. -/
def _parse : Nat → filepos → Nat → List yaml_node → prev_t → List yaml_node × filepos
  | 0, pos, _, root, _ => (root, { pos with error := true })
  | fuel + 1, pos, indent, root, prev =>
    match pos_getline pos with
    | none => (root, pos)
    | some (line0, pos0) =>
      let pos := { pos0 with lineno := pos0.lineno + 1 }
      match line_action_of line0 indent prev with
      | .skip => _parse fuel pos indent root prev
      | .doc_end => (root, { pos with eof := true })
      | .block_end line => (root, { pos with lineno := pos.lineno - 1, line := some line })
      | .error => (root, { pos with error := true })
      | .seq i s =>
        match _parse_implicit (fun p k => _parse fuel p k [] none) pos i s with
        | (content, pos1) =>
          if pos1.error then (root, pos1)
          else
            _parse fuel pos1 indent (parse_link root prev (.seq content)).1
              (parse_link root prev (.seq content)).2
      | .map i key s =>
        match _parse_implicit (fun p k => _parse fuel p k [] none) pos i s with
        | (value, pos1) =>
          if pos1.error then (root, pos1)
          else
            _parse fuel pos1 indent (parse_link root prev (.map key value)).1
              (parse_link root prev (.map key value)).2
      | .scalar text =>
        if pos.error then (root, pos)
        else
          match prev with
          | some _ => _parse fuel pos indent (append_scalar root prev text) none
          | none =>
            _parse fuel pos indent (parse_link root prev (.scalar text)).1
              (parse_link root prev (.scalar text)).2

/-- The function `yaml_parse_stream` on the content of the stream: `[]` is
`NULL`.  Each round of the loop of `_parse` reads a line, and a line is read
again only after a nested call has put it back, so twice the number of lines
(at most the number of characters plus one) bounds the rounds. -/
def yaml_parse_stream (input : Str) : List yaml_node :=
  let r := _parse (2 * input.length + 4)
    { fd := input, lineno := 0, error := false, eof := false, line := none } 0 [] none
  if r.2.error then [] else r.1

/-- The function `yaml_parse_string` for an already formatted text. -/
def yaml_parse_string (str : Str) : List yaml_node := yaml_parse_stream str

/-! ## The emitter (`src/yaml.c`) -/

/-- The output of `fprintf(file, "%*s", ind, "")`. -/
def indent_str (ind : Nat) : Str := List.replicate ind ' '

mutual
/-- The function `_yaml_write_stream`, for one node of the chain: the text
written for it. -/
def write_node (node : yaml_node) (ind : Nat) (cont : Bool) : Str :=
  (if cont then [] else indent_str ind) ++
  match node with
  | .scalar content => content ++ ['\n']
  | .seq c =>
    match c with
    | .scalar content :: rest =>
      ['-', ' '] ++ (content ++ ['\n']) ++ write_chain rest (ind + 2) false
    | _ => []
  | .map key value =>
    key ++ [':'] ++
    match value with
    | [] => ['\n']
    | .scalar content :: _ => ' ' :: content ++ ['\n']
    | v :: rest => '\n' :: write_chain (v :: rest) (ind + 2) false
/-- The loop of `_yaml_write_stream` over the chain, without `single`. -/
def write_chain (root : List yaml_node) (ind : Nat) (cont : Bool) : Str :=
  match root with
  | [] => []
  | node :: rest => write_node node ind cont ++ write_chain rest ind false
end

/-- The function `_yaml_write_stream`: the text written to `file`. -/
def _yaml_write_stream (root : List yaml_node) (ind : Nat) (single cont : Bool) : Str :=
  match root with
  | [] => []
  | node :: rest => if single then write_node node ind cont else write_chain (node :: rest) ind cont

/-- The function `yaml_write_stream`. -/
def yaml_write_stream (root : List yaml_node) (indent : Nat) (single : Bool) : Str :=
  _yaml_write_stream root indent single false

/-! ## Matching requirements with resources (`src/resource.c`) -/

/-- The matching functions a `match_fn_t` pointer can hold. -/
inductive match_fn_id where
  | match_objects | match_number | match_version | match_by_type
  | match_scalar_attr | match_seq_attr | no_match
deriving DecidableEq, Repr

/-- The rows of the array `type_list`: the resource data types `object`,
`number`, `version` and the type with the empty name. -/
inductive type_id where
  | object | number | version | generic
deriving DecidableEq, Repr

/-- The field `name` of a row of `type_list`. -/
def type_id.name : type_id → Str
  | .object => "object".toList
  | .number => "number".toList
  | .version => "version".toList
  | .generic => []

/-- The field `fn` of a row of `type_list`. -/
def type_id.fn : type_id → match_fn_id
  | .object => .match_objects
  | .number => .match_number
  | .version => .match_version
  | .generic => .match_by_type

/-- The function `id_to_type_idx`: `none` for -1. -/
def id_to_type_idx (id : Str) : Option type_id :=
  if id == "object".toList then some .object
  else if id == "number".toList then some .number
  else if id == "version".toList then some .version
  else if id == [] then some .generic
  else none

/-- One line `pattern: type[: tags]` of a types file as `get_types` stores
it in `path_list`: the row of `type_list` that the type names and the two
tags.  The pattern is given by the set of paths it accepts: `pattern path`
stands for `fnmatch(pattern, path, FNM_PATHNAME) == 0`. -/
structure path_entry where
  pattern : Str → Bool
  idx : type_id
  noupper : Bool
  sysin : Bool

/-- The struct `path_type_t` without its pattern. -/
structure path_type_t where
  type : Str
  fn : match_fn_id
  noupper : Bool
  sysin : Bool
deriving Repr

/-- The entry of `path_list` that `get_types` makes of a line. -/
def path_entry.path_type (e : path_entry) : path_type_t :=
  { type := e.idx.name, fn := e.idx.fn, noupper := e.noupper, sysin := e.sysin }

/-- The array `internal` of `get_path_type`, indexed by the node type. -/
def internal_path_type : yaml_type → path_type_t
  | .yaml_scalar => ⟨"scalar".toList, .match_scalar_attr, false, false⟩
  | .yaml_seq => ⟨"seq".toList, .match_seq_attr, false, false⟩
  | .yaml_map => ⟨"map".toList, .match_objects, false, false⟩

/-- The function `get_path_type`: the first entry of `path_list` whose
pattern accepts `path`, else the generic entry for the node type. -/
def get_path_type (path_list : List path_entry) (path : Str) (type : yaml_type) : path_type_t :=
  match path_list.find? (fun e => e.pattern path) with
  | some e => e.path_type
  | none => internal_path_type type

/-- The function `is_object`. -/
def is_object (path_list : List path_entry) (path : Str) : Bool :=
  (get_path_type path_list path .yaml_map).type == "object".toList

/-- The function `node_path` of `src/resource.c`.  For a sequence node the
name is the content of its scalar (sanitised documents have one); where the
content is no scalar the C code reads through the wrong union member, which is
given as the empty name here. -/
def node_path (node : yaml_node) (parent : Str) : Str :=
  match node with
  | .scalar _ => parent ++ ['/']
  | .seq c => let name := (get_scalar c.head?).getD []
    if parent.isEmpty then name else parent ++ '/' :: name
  | .map key _ => if parent.isEmpty then key else parent ++ '/' :: key

/-- The field `path` of the `match_data` that `alloc_md` attaches to the node
`p` of document `doc`. -/
def md_path (doc : List yaml_node) : node_id → Str
  | [] => []
  | i :: p =>
    match yaml_deref doc (i :: p) with
    | none => []
    | some n => node_path n (md_path doc p)

/-- The documents and the type table of one call of `match_req`:
`path_list`, the requirements and the resources. -/
structure match_cfg where
  path_list : List path_entry
  req : List yaml_node
  res : List yaml_node

/-- The mutable fields of all `match_data` records and the list
`attr_vars`.  For requirement nodes `res` is the array of assigned resources
(`num_res` is its length) and `num_matched` the counter; for resource nodes
`assigned` is the flag.  The fields `path`, `path_type` and `next_compat`
never change after `alloc_md` and are computed from the documents. -/
structure match_state where
  res : node_id → List node_id
  num_matched : node_id → Nat
  assigned : node_id → Bool
  attr_vars : List attr_var

/-- The state after `alloc_md`: `misc_malloc` clears the memory. -/
def match_state.init : match_state :=
  { res := fun _ => [], num_matched := fun _ => 0, assigned := fun _ => false, attr_vars := [] }

/-- The function `_match_type` on two keys. -/
def _match_type_str : Str → Str → Bool
  | [], [] => true
  | [], b :: _ => isspace b
  | a :: _, [] => isspace a
  | a :: r, b :: t => if !isspace a && a == b then _match_type_str r t else a == b

/-- The function `match_type` (`_match_type`). -/
def match_type (node_a node_b : Option yaml_node) : Bool :=
  match get_key node_a, get_key node_b with
  | some a, some b => _match_type_str a b
  | _, _ => false

/-- The string `SYSLOCAL`. -/
def SYSLOCAL : Str := "system localhost".toList

/-- The function `is_syslocal`. -/
def is_syslocal (node : Option yaml_node) : Bool :=
  match get_key node with
  | some key => key == SYSLOCAL
  | none => false

/-- The function `is_wildcard`. -/
def is_wildcard (node : Option yaml_node) : Bool :=
  match get_key node with
  | some key => misc_ends_with key [' ', '*']
  | none => false

/-- The chain of `next_compat` pointers that `alloc_md` builds, from the
node `cur` on: `rest` are the siblings after `cur`, the first of which has the
identity `p`. -/
def compat_chain (cur : yaml_node) : node_id → List yaml_node → List node_id
  | _, [] => []
  | p, n :: rest =>
    if match_type (some cur) (some n) then p :: compat_chain n (id_next p) rest
    else compat_chain cur (id_next p) rest

/-- The function `next_res`.  A pointer into a chain of compatible resources
is given by the resources of the chain from that pointer on, `[]` for `NULL`:
the result is the chain that starts at `md(res)->next_compat`. -/
def next_res (cfg : match_cfg) (res : node_id) : List node_id :=
  match yaml_chain cfg.res res with
  | [] => []
  | n :: rest => compat_chain n (id_next res) rest

/-- The loop of `first_res` over the chain `nodes`, whose head has the
identity `p`. -/
def first_res_scan (req : Option yaml_node) : node_id → List yaml_node → List node_id
  | _, [] => []
  | p, n :: rest =>
    if match_type (some n) req && (is_syslocal (some n) == is_syslocal req) then
      p :: compat_chain n (id_next p) rest
    else first_res_scan req (id_next p) rest

/-- The function `first_res`. -/
def first_res (cfg : match_cfg) (res_list : node_id) (req : node_id) : List node_id :=
  first_res_scan (yaml_deref cfg.req req) res_list (yaml_chain cfg.res res_list)

/-- The function `assign_req`. -/
def assign_req (st : match_state) (req res : node_id) : match_state :=
  { st with
    res := fun q => if q = req then st.res req ++ [res] else st.res q
    assigned := fun q => if q = res then true else st.assigned q }

/-- The statement `md(req)->num_matched++`. -/
def inc_matched (st : match_state) (req : node_id) : match_state :=
  { st with num_matched := fun q => if q = req then st.num_matched req + 1 else st.num_matched q }

mutual
/-- The function `unassign_req` for the requirement node `n` with identity
`req`. -/
def unassign_req (st : match_state) (req : node_id) (n : yaml_node) : match_state :=
  let st1 : match_state :=
    { st with
      assigned := fun q => if q ∈ st.res req then false else st.assigned q
      res := fun q => if q = req then [] else st.res q
      attr_vars := del_attr_var st.attr_vars req }
  match n with
  | .scalar _ => st1
  | .seq c => unassign_chain st1 (id_child req) c
  | .map _ v => unassign_chain st1 (id_child req) v
/-- The loops of `unassign_req` over the child nodes. -/
def unassign_chain (st : match_state) (p : node_id) (nodes : List yaml_node) : match_state :=
  match nodes with
  | [] => st
  | n :: rest => unassign_chain (unassign_req st p n) (id_next p) rest
end

/-- The type of the recursive calls of `match_one`: the arguments are the
state and the two node pointers, the result is `none` when the fuel of the
model is used up or the C code reads a union member of the wrong node type. -/
abbrev match_fn_t := match_state → node_id → node_id → Option (Bool × match_state)

/-- The first inner loop of `match_objects`: find a free resource object that
fulfils the requirement `req`, starting at the pointer `res`.  The result is
the pointer at which the loop stopped. -/
def find_free (one : match_fn_t) (req : node_id) :
    List node_id → match_state → Option (List node_id × match_state)
  | [], st => some ([], st)
  | res :: rest, st =>
    if st.assigned res then find_free one req rest st
    else
      match one st (id_child req) (id_child res) with
      | none => none
      | some (true, st1) => some (res :: rest, st1)
      | some (false, st1) => find_free one req rest st1

/-- The loop `while ((req = prev_req(req_list, req)) && md(req)->num_res == 0)`
for the requirement with index `i` in a chain that starts at index `first`
below `parent`. -/
def prev_assigned (st : match_state) (parent : node_id) (first : Nat) : Nat → Option node_id
  | 0 => none
  | i + 1 =>
    if i + 1 = first then none
    else if (st.res (i :: parent)).length != 0 then some (i :: parent)
    else prev_assigned st parent first i

/-- The first loop of `match_objects` from the label `retry` on, for the
requirement `req` and the resource pointer `res`; a `continue` is the call for
the next requirement with its `first_res`.  Every round takes one unit of
fuel. -/
def match_objects_loop (one : match_fn_t) (cfg : match_cfg) (req_list res_list : node_id) :
    Nat → node_id → List node_id → match_state → Option (Bool × match_state)
  | 0, _, _, _ => none
  | fuel + 1, req, res, st =>
    match yaml_deref cfg.req req with
    | none => some (true, st)
    | some rn =>
      if is_wildcard (some rn) then
        match_objects_loop one cfg req_list res_list fuel (id_next req)
          (first_res cfg res_list (id_next req)) st
      else
        match find_free one req res st with
        | none => none
        | some (r :: _, st1) =>
          match_objects_loop one cfg req_list res_list fuel (id_next req)
            (first_res cfg res_list (id_next req)) (inc_matched (assign_req st1 req r) req)
        | some ([], st1) =>
          match prev_assigned st1 req.tail (req_list.headD 0) (req.headD 0) with
          | none => some (false, st1)
          | some req1 =>
            match st1.res req1, yaml_deref cfg.req req1 with
            | r0 :: _, some n1 =>
              match_objects_loop one cfg req_list res_list fuel req1 (next_res cfg r0)
                (unassign_req st1 req1 n1)
            | _, _ => none

/-- The inner loop of the second loop of `match_objects`: assign every free
resource that fulfils the wildcard requirement `req`. -/
def assign_wildcard (one : match_fn_t) (req : node_id) :
    List node_id → match_state → Option match_state
  | [], st => some st
  | res :: rest, st =>
    if st.assigned res then assign_wildcard one req rest st
    else
      match one st (id_child req) (id_child res) with
      | none => none
      | some (true, st1) => assign_wildcard one req rest (inc_matched (assign_req st1 req res) req)
      | some (false, st1) => assign_wildcard one req rest st1

/-- The second loop of `match_objects`, over the requirements `nodes`, the
first of which has the identity `req`. -/
def match_objects_wildcards (one : match_fn_t) (cfg : match_cfg) (res_list : node_id) :
    node_id → List yaml_node → match_state → Option match_state
  | _, [], st => some st
  | req, rn :: rest, st =>
    if !is_wildcard (some rn) then match_objects_wildcards one cfg res_list (id_next req) rest st
    else
      match assign_wildcard one req (first_res cfg res_list req) st with
      | none => none
      | some st1 => match_objects_wildcards one cfg res_list (id_next req) rest st1

/-- The function `match_objects`, with `one` for its calls of `match_one`. -/
def match_objects_with (one : match_fn_t) (cfg : match_cfg) (fuel : Nat) : match_fn_t :=
  fun st req_list res_list =>
    match match_objects_loop one cfg req_list res_list fuel req_list
        (first_res cfg res_list req_list) st with
    | none => none
    | some (false, st1) => some (false, st1)
    | some (true, st1) =>
      match match_objects_wildcards one cfg res_list req_list (yaml_chain cfg.req req_list) st1 with
      | none => none
      | some st2 => some (true, st2)

/-- The inner loop of `match_seq_attr`: is there an element of `res` that
matches the element `req_node`?  Reading `seq.content` of a node that is no
sequence is undefined. -/
def match_seq_find (one : match_fn_t) (req_node : node_id) :
    node_id → List yaml_node → match_state → Option (Bool × match_state)
  | _, [], st => some (false, st)
  | res_node, .seq _ :: rest, st =>
    match one st (id_child req_node) (id_child res_node) with
    | none => none
    | some (true, st1) => some (true, st1)
    | some (false, st1) => match_seq_find one req_node (id_next res_node) rest st1
  | _, _ :: _, _ => none

/-- The outer loop of `match_seq_attr`. -/
def match_seq_loop (one : match_fn_t) (cfg : match_cfg) (res : node_id) :
    node_id → List yaml_node → match_state → Option (Bool × match_state)
  | _, [], st => some (true, st)
  | req_node, .seq _ :: rest, st =>
    match match_seq_find one req_node res (yaml_chain cfg.res res) st with
    | none => none
    | some (false, st1) => some (false, st1)
    | some (true, st1) => match_seq_loop one cfg res (id_next req_node) rest (inc_matched st1 req_node)
  | _, _ :: _, _ => none

/-- The function `match_seq_attr`, with `one` for its calls of `match_one`. -/
def match_seq_attr_with (one : match_fn_t) (cfg : match_cfg) : match_fn_t :=
  fun st req res => match_seq_loop one cfg res req (yaml_chain cfg.req req) st

/-- A matching function for scalars as a `match_fn_t`. -/
def lift_scalar_fn
    (f : List attr_var → node_id → Option yaml_node → Option yaml_node → Bool × List attr_var)
    (cfg : match_cfg) : match_fn_t :=
  fun st req res =>
    let r := f st.attr_vars req (yaml_deref cfg.req req) (yaml_deref cfg.res res)
    some (r.1, { st with attr_vars := r.2 })

/-- The call `fn(req, res)` through a `match_fn_t` pointer; `one` stands for
`match_one` in the functions that call it. -/
def call_match_fn (one : match_fn_t) (cfg : match_cfg) (fuel : Nat) : match_fn_id → match_fn_t
  | .match_objects => match_objects_with one cfg fuel
  | .match_number => lift_scalar_fn match_number cfg
  | .match_version => lift_scalar_fn match_version cfg
  | .match_scalar_attr => lift_scalar_fn match_scalar_attr cfg
  | .match_seq_attr => match_seq_attr_with one cfg
  | .no_match => fun st _ _ => some (false, st)
  | .match_by_type => fun st a b =>
    match yaml_deref cfg.req a, yaml_deref cfg.res b with
    | some (.scalar _), some (.scalar _) => lift_scalar_fn match_scalar_attr cfg st a b
    | some (.seq _), some (.seq _) => match_seq_attr_with one cfg st a b
    | some (.map _ _), some (.map _ _) => match_objects_with one cfg fuel st a b
    | _, _ => some (false, st)

/-- The function `match_one`.  The fuel bounds the nesting of the calls and
the rounds of the loop of `match_objects`. -/
def match_one : Nat → match_cfg → match_fn_t
  | 0, _ => fun _ _ _ => none
  | fuel + 1, cfg => fun st req res =>
    match yaml_deref cfg.req req with
    | none => some (true, st)
    | some rn =>
      match yaml_deref cfg.res res with
      | none => some (false, st)
      | some _ =>
        let p := get_path_type cfg.path_list (md_path cfg.req req) rn.type
        match call_match_fn (match_one fuel cfg) cfg fuel p.fn st req res with
        | none => none
        | some (true, st1) => some (true, inc_matched st1 req)
        | some (false, st1) => some (false, st1)

/-- The function `match_objects`. -/
def match_objects (fuel : Nat) (cfg : match_cfg) : match_fn_t :=
  match_objects_with (match_one fuel cfg) cfg fuel

/-! ## Environment variables for a match (`src/resource.c`) -/

/-- The decimal digit `d`. -/
def digit_char (d : Nat) : Char := Char.ofNat (48 + d)

/-- The digits of `n` in front of `acc`, most significant first. -/
def show_nat_aux : Nat → Nat → Str → Str
  | 0, _, acc => acc
  | fuel + 1, n, acc =>
    if n < 10 then digit_char n :: acc
    else show_nat_aux fuel (n / 10) (digit_char (n % 10) :: acc)

/-- The output of `printf("%d", n)` for `n >= 0`. -/
def show_nat (n : Nat) : Str := show_nat_aux (n + 1) n []

/-- The output of `printf("%ld", n)`. -/
def show_int (n : Int) : Str :=
  if n < 0 then '-' :: show_nat n.natAbs else show_nat n.natAbs

/-- The function `sys_short`. -/
def sys_short (sys : Str) : Str :=
  if sys == SYSLOCAL then "system".toList else sys

/-- The first loop of `extend_prefix` over `v`: the converted characters and
the value of `spos`; `i` is the index of the head of `v` and `spos` the value
so far. -/
def convert_special : Str → Nat → Nat → Str × Nat
  | [], _, spos => ([], spos)
  | c :: r, i, spos =>
    let c1 := if isspace c then '_' else if !isalnum c && c != '_' then '_' else c
    let (r1, spos1) := convert_special r (i + 1) (if isspace c then i else spos)
    (c1 :: r1, spos1)

/-- The function `extend_prefix`. -/
def extend_prefix (path value : Str) (upper : Bool) : Str :=
  let value := sys_short value
  let result := if path.isEmpty then value else path ++ '_' :: value
  let vstart := if path.isEmpty then 0 else path.length + 1
  let result := if misc_ends_with result [' ', '*'] then result.take (result.length - 2) else result
  let v := result.drop vstart
  let (v1, spos) := convert_special v 0 v.length
  let v2 := if upper then (v1.take spos).map toupper ++ v1.drop spos else v1
  result.take vstart ++ v2

/-- The function `misc_add_one_env`: the array with `key=value` appended. -/
def misc_add_one_env (env : List Str) (key value : Str) : List Str :=
  env ++ [key ++ '=' :: value]

/-- The identifier of a resource object for `_add_env`: the text after the
first blank of its key. -/
def object_id (node : Option yaml_node) : Option Str :=
  match get_key node with
  | none => none
  | some key =>
    match strchr ' ' key with
    | none => none
    | some (_, suf) => some (suf.drop 1)

/-- The loop of `_add_env` over the resources `md(node)->res[i]`, with `rec`
for the call of `add_env` on the content of a resource. -/
def add_env_assigned (rec : List Str → node_id → Str → Option (List Str)) (cfg : match_cfg)
    (wildcard : Bool) (pfx : Str) : List node_id → Nat → List Str → Option (List Str)
  | [], _, env => some env
  | r :: rest, i, env =>
    let one_pfx := if wildcard then pfx ++ '_' :: show_nat i else pfx
    match object_id (yaml_deref cfg.res r) with
    | none => add_env_assigned rec cfg wildcard pfx rest (i + 1) env
    | some id =>
      match rec (misc_add_one_env env one_pfx id) (id_child r) one_pfx with
      | none => none
      | some env1 => add_env_assigned rec cfg wildcard pfx rest (i + 1) env1

/-- The functions `add_env` and `_add_env`: the loop of `add_env` over the
chain that starts at `root`, with the body of `_add_env` for each node.  The
node belongs to the requirements when `req` is set and to the resources
otherwise.  `none` when the fuel is used up. -/
def add_env : Nat → match_cfg → match_state → List Str → node_id → Str → Bool →
    Option (List Str)
  | 0, _, _, _, _, _, _ => none
  | fuel + 1, cfg, st, env, root, parent, req =>
    let doc := if req then cfg.req else cfg.res
    match yaml_deref doc root with
    | none => some env
    | some node =>
      let path := md_path doc root
      let one : Option (List Str) :=
        if !req && is_object cfg.path_list path then some env
        else
          let wildcard := req && is_wildcard (some node)
          let pfx := match node with
            | .map key _ =>
              extend_prefix parent key (!(get_path_type cfg.path_list path node.type).noupper)
            | _ => parent
          let env1 : Option (List Str) :=
            if req then
              add_env_assigned (fun e r p => add_env fuel cfg st e r p false) cfg wildcard pfx
                (st.res root) 0 env
            else some env
          match env1 with
          | none => none
          | some env1 =>
            match node with
            | .scalar content => some (if !req then misc_add_one_env env1 pfx content else env1)
            | .seq _ => add_env fuel cfg st env1 (id_child root) pfx req
            | .map _ _ => add_env fuel cfg st env1 (id_child root) pfx req
      match one with
      | none => none
      | some env2 => add_env fuel cfg st env2 (id_next root) parent req

/-- The function `req_to_env` (without the terminating `NULL` entry). -/
def req_to_env (fuel : Nat) (cfg : match_cfg) (st : match_state) : Option (List Str) :=
  add_env fuel cfg st [] [0] "TELA".toList true

/-- The function `match_req` without the match file: `none` when the fuel is
used up, `some none` for `NULL` (no match), otherwise the environment. -/
def match_req (fuel : Nat) (cfg : match_cfg) : Option (Option (List Str)) :=
  match match_objects fuel cfg match_state.init [0] [0] with
  | none => none
  | some (false, _) => some none
  | some (true, st) =>
    match req_to_env fuel cfg st with
    | none => none
    | some env => some (some env)

/-! ## Reading and cleaning documents (`src/resource.c`) -/

/-- The loop of `sanitize_spacing`: `started` is `to != 0` and `last_space` is
`isspace(last_c)`. -/
def sanitize_spacing_loop : Str → Bool → Bool → Str
  | [], _, _ => []
  | c :: r, started, last_space =>
    if isspace c then
      if last_space || !started then sanitize_spacing_loop r started last_space
      else ' ' :: sanitize_spacing_loop r true true
    else c :: sanitize_spacing_loop r true false

/-- The function `sanitize_spacing`. -/
def sanitize_spacing (s : Str) : Str :=
  misc_strip_space (sanitize_spacing_loop s false false)

/-- The function `is_nonempty_scalar`. -/
def is_nonempty_scalar : Option yaml_node → Bool
  | some (.scalar c) => !c.isEmpty
  | _ => false

mutual
/-- The body of the loop of `_sanitize_yaml` for one node: `none` when the
node is removed. -/
def sanitize_node (node : yaml_node) (toplevel : Bool) : Option yaml_node :=
  match node with
  | .scalar c => if toplevel || c.isEmpty then none else some (.scalar c)
  | .seq c => if toplevel || !is_nonempty_scalar c.head? then none else some (.seq c)
  | .map key value =>
    if key.isEmpty then none
    else some (.map (sanitize_spacing key) (_sanitize_yaml value false))
/-- The function `_sanitize_yaml`. -/
def _sanitize_yaml (yaml : List yaml_node) (toplevel : Bool) : List yaml_node :=
  match yaml with
  | [] => []
  | node :: rest =>
    match sanitize_node node toplevel with
    | none => _sanitize_yaml rest toplevel
    | some n => n :: _sanitize_yaml rest toplevel
end

/-- The function `sanitize_yaml`. -/
def sanitize_yaml (yaml : List yaml_node) : List yaml_node := _sanitize_yaml yaml true

/-- The function `match_key`. -/
def match_key (node : Option yaml_node) (name : Str) : Bool :=
  match get_key node with
  | some key => key == name
  | none => false

/-- The function `match_type_name`. -/
def match_type_name (node : Option yaml_node) (name : Str) : Bool :=
  match get_key node with
  | some key =>
    misc_starts_with key name &&
      (match key.drop name.length with | [] => true | c :: _ => c == ' ')
  | none => false

/-- The loop of `cleanup_system` after its first round: `kept` are the nodes
that stay at the top level after the root, `moved` the nodes that became
children of the root. -/
def cleanup_system_loop : List yaml_node → List yaml_node → List yaml_node →
    List yaml_node × List yaml_node
  | [], kept, moved => (kept, moved)
  | node :: rest, kept, moved =>
    match node with
    | .map key value =>
      if key == "system".toList then
        cleanup_system_loop rest (kept ++ [.map SYSLOCAL value]) moved
      else if key == "test".toList then cleanup_system_loop rest kept moved
      else if !match_type_name (some node) "system".toList then
        cleanup_system_loop rest kept (moved ++ [node])
      else cleanup_system_loop rest (kept ++ [node]) moved
    | _ => cleanup_system_loop rest kept (moved ++ [node])

/-- The function `cleanup_system`.  In its first round `prev` is `NULL`, so
the root has to be a system section; `none` where the C code writes through
`NULL`.  A node that is no mapping has no key and is moved like a mapping of
another type. -/
def cleanup_system (root : List yaml_node) : Option (List yaml_node) :=
  match root with
  | [] => some []
  | .map key value :: rest =>
    let key1 := if key == "system".toList then SYSLOCAL else key
    if key != "system".toList &&
        (key == "test".toList || !match_type_name (some (.map key value)) "system".toList) then
      none
    else
      let (kept, moved) := cleanup_system_loop rest [] []
      some (.map key1 (value ++ moved) :: kept)
  | _ :: _ => none

/-- The function `handle_duplicates` on the values of two mappings. -/
def handle_duplicates (a b : List yaml_node) : List yaml_node :=
  match a, b with
  | .scalar _ :: ar, .scalar cb :: _ => .scalar cb :: ar
  | _, _ => a ++ b

/-- The inner loop of `merge_yaml` for the mapping `key`: `aval` is its
value, `done` are the nodes up to `b_prev` and `skipped` the nodes after
`b_prev` that the loop passed by `continue`; they are unlinked together with
the next removed node. -/
def merge_into (key : Str) : List yaml_node → List yaml_node → List yaml_node →
    List yaml_node → List yaml_node × List yaml_node
  | [], aval, done, skipped => (aval, done ++ skipped)
  | b :: rest, aval, done, skipped =>
    match b with
    | .map kb bval =>
      if strcmp key kb != 0 then merge_into key rest aval (done ++ skipped ++ [b]) []
      else
        let aval1 :=
          if !aval.isEmpty && !bval.isEmpty then handle_duplicates aval bval
          else if aval.isEmpty then bval else aval
        merge_into key rest aval1 done []
    | _ => merge_into key rest aval done (skipped ++ [b])

/-- The function `merge_yaml`; the fuel bounds the rounds of the outer loop
and the nesting. -/
def merge_yaml : Nat → List yaml_node → List yaml_node
  | 0, root => root
  | _ + 1, [] => []
  | fuel + 1, a :: rest =>
    match a with
    | .map key value =>
      let (aval, rest1) := merge_into key rest value [] []
      let aval1 := match aval with
        | .map _ _ :: _ => merge_yaml fuel aval
        | _ => aval
      .map key aval1 :: merge_yaml fuel rest1
    | _ => a :: merge_yaml fuel rest

mutual
/-- The number of nodes of a node and its content. -/
def yaml_size (node : yaml_node) : Nat :=
  match node with
  | .scalar _ => 1
  | .seq c => 1 + yaml_size_chain c
  | .map _ v => 1 + yaml_size_chain v
/-- The number of nodes of a chain. -/
def yaml_size_chain (nodes : List yaml_node) : Nat :=
  match nodes with
  | [] => 0
  | n :: rest => yaml_size n + yaml_size_chain rest
end

/-- The document of `yaml_parse_string("<internal>", SYSLOCAL ":")`. -/
def syslocal_doc : List yaml_node := [.map SYSLOCAL []]

/-- The functions `get_requirements` and `get_resources` for a file whose
content, as returned by the filter program, parses to `file`: the local
system is put in front, then the document is sanitised, its system sections
are cleaned up and duplicates are merged. -/
def get_requirements (file : List yaml_node) : Option (List yaml_node) :=
  match cleanup_system (sanitize_yaml (syslocal_doc ++ file)) with
  | none => none
  | some doc => some (merge_yaml (yaml_size_chain doc + 1) doc)

/-- See `get_requirements`. -/
def get_resources (file : List yaml_node) : Option (List yaml_node) :=
  get_requirements file

/-- The function `res_resolve` with `do_state` unset and without a match
file, for the type table `path_list` that `get_types` has read:
`none` when the fuel is used up, `some none` for `NULL` (no match). -/
def res_resolve (fuel : Nat) (path_list : List path_entry) (reqfile resfile : List yaml_node) :
    Option (Option (List Str)) :=
  match get_requirements reqfile, get_resources resfile with
  | some req, some res => match_req fuel { path_list := path_list, req := req, res := res }
  | _, _ => none

/-- The function `res_eval`.  The nodes have no match data here, which
`match_number`, `match_version` and `match_scalar_attr` do not need; `none`
where the C code would read it (a requirement or resource that does not parse
to a scalar, with the types `object` and the empty type). -/
def res_eval (type req res : Str) : Option Bool :=
  let req_node := (yaml_parse_string (dquote :: req ++ [dquote])).head?
  let res_node := (yaml_parse_string (dquote :: res ++ [dquote])).head?
  match id_to_type_idx type with
  | none => some false
  | some .number => some (match_number [] [0] req_node res_node).1
  | some .version => some (match_version [] [0] req_node res_node).1
  | some .generic =>
    match req_node, res_node with
    | some (.scalar _), some (.scalar _) => some (match_scalar_attr [] [0] req_node res_node).1
    | some a, some b => if a.type != b.type then some false else none
    | _, _ => none
  | some .object =>
    match req_node with
    | none => some true
    | some rn =>
      if (first_res_scan (some rn) [0] res_node.toList).isEmpty then some (is_wildcard (some rn))
      else none

/-! ## Notions used in the statements -/

/-- A text that can stand between double quotes on one line as it is: it has
no double quote, no backslash and no newline. -/
def plain_text (s : Str) : Bool :=
  s.all (fun c => c != dquote && c != bslash && c != '\n')

/-- The text after a number ends the number for `strtol` with base 0 or 10:
it is empty or starts with a character that is no digit below ten and no
`x`. -/
def num_end (rest : Str) : Bool :=
  match rest with
  | [] => true
  | c :: _ =>
    (match digit_val c with | some d => decide (10 ≤ d) | none => true) && c != 'x' && c != 'X'

/-- The scale letters with their upper case forms, decimal exponents and
binary exponents. -/
def scale_letters : List (Char × Char × Nat × Nat) :=
  [('k', 'K', 3, 10), ('m', 'M', 6, 20), ('g', 'G', 9, 30), ('t', 'T', 12, 40)]

/-- The scale suffixes in either letter case with their factors: the decimal
power for `k`, `m`, `g`, `t`, the binary power for `ki`, `mi`, `gi`, `ti`;
the empty suffix has the factor 1. -/
def scale_table : List (Str × Nat) :=
  ([], 1) :: scale_letters.flatMap (fun e =>
    [([e.1], 10 ^ e.2.2.1), ([e.2.1], 10 ^ e.2.2.1),
     ([e.1, 'i'], 2 ^ e.2.2.2), ([e.1, 'I'], 2 ^ e.2.2.2),
     ([e.2.1, 'i'], 2 ^ e.2.2.2), ([e.2.1, 'I'], 2 ^ e.2.2.2)])

/-- The text has no percent sign, so it refers to no attribute variable. -/
def no_percent (s : Str) : Bool := s.all (fun c => c != '%')

/-- The characters of a decimal number: a minus sign or digits. -/
def num_chars : List Char := ['-', '0', '1', '2', '3', '4', '5', '6', '7', '8', '9']

/-- A numeric version component: a non-empty text of decimal digits. -/
def is_digits (s : Str) : Bool := !s.isEmpty && s.all isdigit

/-- The text of a version: the first component, then every further component
after its delimiter. -/
def version_text (c0 : Str) (rest : List (Char × Str)) : Str :=
  c0 ++ rest.flatMap (fun p => p.1 :: p.2)

/-- A version made of numeric components that `.`, `-` or `_` separate. -/
def numeric_version (c0 : Str) (rest : List (Char × Str)) : Bool :=
  is_digits c0 && rest.all (fun p => VERSION_DELIM.contains p.1 && is_digits p.2)

/-- The text that follows the common part of a resource version: nothing, or
a point and one more component. -/
def extra_text : Option Str → Str
  | none => []
  | some e => '.' :: e

/-- C `isalpha`. -/
def isalpha (c : Char) : Bool := isupper c || islower c

/-- The text of a reference to the attribute variable `name`. -/
def var_ref (name : Str) : Str := '%' :: '\x7b' :: name ++ ['\x7d']

/-! ## Type tables and documents of the examples -/

/-- The part of `fnmatch(pattern, path, FNM_PATHNAME)` that the type tables of
the examples need: literal characters, `?` and `*`, neither of which matches a
slash.  The fuel bounds the steps. -/
def fnmatch : Nat → Str → Str → Bool
  | 0, _, _ => false
  | _ + 1, [], s => s.isEmpty
  | fuel + 1, '*' :: p, s =>
    fnmatch fuel p s ||
      (match s with
       | [] => false
       | c :: r => c != '/' && fnmatch fuel ('*' :: p) r)
  | fuel + 1, q :: p, s =>
    match s with
    | [] => false
    | c :: r => (q == c || (q == '?' && c != '/')) && fnmatch fuel p r

/-- A line `pattern: type` of a types file, without tags. -/
def type_line (pattern : String) (idx : type_id) : path_entry :=
  { pattern := fun path => fnmatch (pattern.length + path.length + 1) pattern.toList path
    idx := idx, noupper := false, sysin := false }

/-- A type table: systems and disks are objects, the size of a disk is a
number. -/
def disk_types : List path_entry :=
  [type_line "system *" .object, type_line "system */disk *" .object,
   type_line "system */disk */size/" .number]

/-- A type table: systems and disks are objects, no attribute has a type. -/
def object_types : List path_entry :=
  [type_line "system *" .object, type_line "system */disk *" .object]

/-- The requirements `{system: {disk my_d: {size: "1G"}}}`. -/
def env_req_text : Str := "system:\n  disk my_d:\n    size: \"1G\"\n".toList

/-- The requirements `{system: {disk my_d: {size: ">=1G"}}}`. -/
def env_req_ge_text : Str := "system:\n  disk my_d:\n    size: \">=1G\"\n".toList

/-- The resources `{system localhost: {disk 0.0.100: {size: "2G"}}}`. -/
def env_res_text : Str := "system localhost:\n  disk 0.0.100:\n    size: \"2G\"\n".toList

/-- The environment of the claim on environment names. -/
def env_claimed : List Str :=
  ["TELA_SYSTEM=localhost".toList, "TELA_SYSTEM_DISK_MY_D=0.0.100".toList,
   "TELA_SYSTEM_DISK_MY_D_SIZE=2G".toList]

/-- The environment the code produces for the requirement `>=1G`. -/
def env_produced : List Str :=
  ["TELA_SYSTEM=localhost".toList, "TELA_SYSTEM_DISK_my_d=0.0.100".toList,
   "TELA_SYSTEM_DISK_my_d_SIZE=2G".toList]

/-! ## The search of match_objects -/

/-- The two states agree in what the loops of one call of `match_objects`
read of the nodes of its own lists: the resources assigned to the requirements
`i :: rp` and the flags `assigned` of the resources `j :: sp`. -/
def same_top (rp sp : node_id) (st st1 : match_state) : Prop :=
  (∀ i, st1.res (i :: rp) = st.res (i :: rp)) ∧
  (∀ j, st1.assigned (j :: sp) = st.assigned (j :: sp))

/-- No requirement node below the list of the requirements `i :: rp` holds
a resource `j :: sp` of the resource list. -/
def hygienic (rp sp : node_id) (st : match_state) : Prop :=
  ∀ p : node_id, rp.length + 1 < p.length → ∀ q ∈ st.res p, ∀ j, q ≠ j :: sp

/-- A matching function that returns `verdict i q` for the children of the
requirement `i :: rp` and of the resource `q` in every state and leaves the
bookkeeping of the two lists as it is.  `match_one` is such a function where
the children bind nothing, as for objects without children; for requirements
with children see `verdict_at`. -/
def fixed_verdict (rp sp : node_id) (one : match_fn_t) (verdict : Nat → node_id → Bool) : Prop :=
  ∀ (st : match_state) (i : Nat) (q : node_id), hygienic rp sp st →
    ∃ st1, one st (id_child (i :: rp)) (id_child q) = some (verdict i q, st1) ∧
      same_top rp sp st st1 ∧ hygienic rp sp st1

/-- The first step of `unassign_req`, before the child nodes. -/
def unassign_one (st : match_state) (req : node_id) : match_state :=
  { st with
    assigned := fun q => if q ∈ st.res req then false else st.assigned q
    res := fun q => if q = req then [] else st.res q
    attr_vars := del_attr_var st.attr_vars req }

/-- The resource `q` is a node of the resource list below `sp`. -/
def is_top (sp q : node_id) : Prop := ∃ j, q = j :: sp

/-- The pointers `next_compat` lead through the list `c`: the chain behind
each of its resources is the rest of the list. -/
def chain_ok (cfg : match_cfg) : List node_id → Prop
  | [] => True
  | q :: rest => next_res cfg q = rest ∧ chain_ok cfg rest

/-- The type word of a key: the text in front of the first white space. -/
def type_word (key : Str) : Str := key.takeWhile (fun c => !isspace c)

/-- The white space in the key is blanks only. -/
def blank_ok (key : Str) : Bool := key.all (fun c => !isspace c || c == ' ')

/-- The type word of a node, `none` where there is no node or no key. -/
def word_of (node : Option yaml_node) : Option Str := (get_key node).map type_word

/-- The requirements: two disks, of at least 1G and at least 2G. -/
def two_disks_req_text : Str :=
  "system:\n  disk d1:\n    size: \">=1G\"\n  disk d2:\n    size: \">=2G\"\n".toList

/-- The resources: disk `b` of 2G, then disk `a` of 1G. -/
def two_disks_rev_text : Str :=
  "system localhost:\n  disk b:\n    size: 2G\n  disk a:\n    size: 1G\n".toList

/-- Two requirement objects and two resource objects without children. -/
def bare_cfg : match_cfg :=
  { path_list := object_types
    req := [.map "disk d1".toList [], .map "disk d2".toList []]
    res := [.map "disk a".toList [], .map "disk b".toList []] }

/-- The character `YAML_PATH_SLASH`. -/
def YAML_PATH_SLASH : Char := Char.ofNat 255

/-- The function `replace_char`. -/
def replace_char (str : Str) (c_from c_to : Char) : Str :=
  str.map (fun c => if c == c_from then c_to else c)

/-- The function `yaml_decode_path`. -/
def yaml_decode_path (path : Str) : Str := replace_char path YAML_PATH_SLASH '/'

/-- The name of a node in a path, as `node_path` of `src/yaml.c` reads it:
the content of the key of a mapping and the content of the scalar that is the
content of a sequence element.  The result is `none` where the C code
dereferences a `NULL` pointer or reads a union member of another variant: for
a sequence element whose content is absent or no scalar.  A scalar has no
name. -/
def node_name : yaml_node → Option Str
  | .scalar _ => none
  | .seq (.scalar s :: _) => some s
  | .seq _ => none
  | .map key _ => some key

/-- The function `node_path` of `src/yaml.c`; `none` where the name of the
node is undefined. -/
def Yaml.node_path (node : yaml_node) (parent : Str) : Option Str :=
  match node with
  | .scalar _ => some (parent ++ ['/'])
  | _ =>
    match node_name node with
    | none => none
    | some s =>
      some (if parent.isEmpty then replace_char s '/' YAML_PATH_SLASH
        else parent ++ '/' :: replace_char s '/' YAML_PATH_SLASH)

/-- The path of a node for which `node_path` is defined. -/
def path_text (node : yaml_node) (parent : Str) : Str := (Yaml.node_path node parent).getD []

mutual
/-- Is `node_path` defined for the node and for all nodes of its content? -/
def named_node (n : yaml_node) : Bool :=
  match n with
  | .scalar _ => true
  | .seq c => (node_name (.seq c)).isSome && named_chain c
  | .map _ v => named_chain v
/-- Is `node_path` defined for all nodes of the chain and of their content? -/
def named_chain (nodes : List yaml_node) : Bool :=
  match nodes with
  | [] => true
  | n :: r => named_node n && named_chain r
end

/-- The field `path` of the iterator when a traversal of the document `doc`
is at the node `p`: `node_path` of the node with the path of its parent;
`none` where there is no such node or `node_path` is undefined. -/
def iter_path (doc : List yaml_node) : node_id → Option Str
  | [] => some []
  | i :: p =>
    match yaml_deref doc (i :: p), iter_path doc p with
    | some n, some pp => Yaml.node_path n pp
    | _, _ => none

/-- The tokens that the calls `strsep(&str, "/")` return until `str` is
`NULL`. -/
def strsep_tokens : Nat → Option Str → List Str
  | 0, _ => []
  | _ + 1, none => []
  | fuel + 1, some s => (strsep ['/'] s).1 :: strsep_tokens fuel (strsep ['/'] s).2

/-- The inner loop of `yaml_get_node` for a component that is not empty: the
first mapping with the key `comp` in the chain whose head has the identity
`p`. -/
def get_node_find (comp : Str) : node_id → List yaml_node → Option (node_id × yaml_node)
  | _, [] => none
  | p, n :: rest =>
    match n with
    | .map key _ =>
      if strcmp key comp == 0 then some (p, n) else get_node_find comp (id_next p) rest
    | _ => get_node_find comp (id_next p) rest

/-- The outer loop of `yaml_get_node` over the components of the path; `node`
is the chain that starts at the identity `p`.  The result is the identity of
the node the C function returns a pointer to.  For a node that is no mapping
`node->map.value` reads a union member of another variant, which is given as
`NULL` here. -/
def get_node_walk : List Str → node_id → List yaml_node → Option node_id
  | [], _, _ => none
  | comp :: more, p, node =>
    let comp := yaml_decode_path comp
    let found := if comp.isEmpty then node.head?.map (fun n => (p, n))
      else get_node_find comp p node
    match found with
    | none => none
    | some (q, n) =>
      if more.isEmpty then some q
      else get_node_walk more (id_child q) (match n with | .map _ v => v | _ => [])

/-- The function `yaml_get_node`: the identity of the node it returns, `none`
for `NULL`. -/
def yaml_get_node (root : List yaml_node) (path : Str) : Option node_id :=
  get_node_walk (strsep_tokens (path.length + 1) (some path)) [0] root

/-- What a callback does to the current node of its iterator: nothing, a call
of `yaml_iter_del`, or a call of `yaml_iter_replace` with a chain of nodes that
is not empty. -/
inductive iter_op where
  | keep
  | del
  | replace (first : yaml_node) (more : List yaml_node)

/-- A callback of `yaml_traverse` that decides by the fields `path` and `node`
of the iterator: its return value and what it does to the node. -/
abbrev yaml_cb_t := Str → yaml_node → Bool × iter_op

/-- The function `set_child`. -/
def set_child (parent : yaml_node) (node : List yaml_node) : yaml_node :=
  match parent with
  | .scalar c => .scalar c
  | .seq _ => .seq node
  | .map key _ => .map key node

/-- The loop of `_traverse` over one chain, with `rec` for the nested call.
The chain consists of the nodes `done` in front of `iter.prev`, of `prev`
(`iter.prev`), of the nodes `gap` between `iter.prev` and `iter.next` (the rest
of a replacement chain whose head is `iter.prev`) and of `next`, the chain at
`iter.next`.  `yaml_iter_replace` sets `iter.prev->next`, so it unlinks
`gap`.  The result is the return value and the chain afterwards, `none`
where `iter_advance` calls `node_path` for a node without a name. -/
def traverse_loop (rec : Str → yaml_node → Option (Bool × yaml_node)) (cb : yaml_cb_t)
    (parent_path : Str) :
    List yaml_node → Option yaml_node → List yaml_node → List yaml_node →
    Option (Bool × List yaml_node)
  | done, prev, gap, [] => some (true, done ++ prev.toList ++ gap)
  | done, prev, gap, t :: next =>
    match Yaml.node_path t parent_path with
    | none => none
    | some path =>
      match cb path t with
      | (false, .keep) => some (false, done ++ prev.toList ++ gap ++ t :: next)
      | (false, .del) => some (false, done ++ prev.toList ++ next)
      | (false, .replace r more) => some (false, done ++ prev.toList ++ r :: more ++ next)
      | (true, .keep) =>
        match rec path t with
        | none => none
        | some (false, t1) => some (false, done ++ prev.toList ++ gap ++ t1 :: next)
        | some (true, t1) =>
          traverse_loop rec cb parent_path (done ++ prev.toList ++ gap) (some t1) [] next
      | (true, .del) => traverse_loop rec cb parent_path done prev [] next
      | (true, .replace r more) =>
        match rec path r with
        | none => none
        | some (false, r1) => some (false, done ++ prev.toList ++ r1 :: more ++ next)
        | some (true, r1) =>
          traverse_loop rec cb parent_path (done ++ prev.toList) (some r1) more next

/-- The function `_traverse` for the chain `nodes` below a parent with the
path `parent_path`: the return value and the chain afterwards.  The nesting of
the calls is bounded by the fuel, `none` when it is used up. -/
def _traverse (cb : yaml_cb_t) : Nat → Str → List yaml_node → Option (Bool × List yaml_node)
  | 0, _, _ => none
  | fuel + 1, parent_path, nodes =>
    traverse_loop
      (fun path t =>
        match _traverse cb fuel path (get_child t) with
        | none => none
        | some (r, c) => some (r, set_child t c))
      cb parent_path [] none [] nodes

/-- The function `yaml_traverse`: the return value and the document that
`*root` designates afterwards. -/
def yaml_traverse (cb : yaml_cb_t) (fuel : Nat) (root : List yaml_node) :
    Option (Bool × List yaml_node) :=
  _traverse cb fuel [] root

/-- A callback that deletes each node it is called for whose path satisfies
`P`, and returns `true`. -/
def del_cb (P : Str → Bool) : yaml_cb_t :=
  fun path _ => (true, if P path then .del else .keep)

/-- The inner loops of `_traverse2`: the first node of the chain `nodes` below
the parent path `pp` whose path is `path`, `some none` for `NULL`; `none`
where `iter_advance` calls `node_path` for a node without a name before a node
with the path is found. -/
def find_same_path (pp path : Str) : List yaml_node → Option (Option yaml_node)
  | [] => some none
  | n :: rest =>
    match Yaml.node_path n pp with
    | none => none
    | some p => if strcmp path p == 0 then some (some n) else find_same_path pp path rest

/-- A callback of `yaml_traverse2` that leaves both documents as they are and
decides by the fields `path` and `node` of its two iterators, `none` for a
`NULL` iterator. -/
abbrev yaml_cb2_t := Option (Str × yaml_node) → Option (Str × yaml_node) → Bool

/-- The first pass of `_traverse2` over the chain of `a`, with `rec` for the
nested call.  The path of the second iterator is the text of the path of the
first, as `strcmp` found them equal. -/
def traverse2_first (rec : Str → List yaml_node → List yaml_node → Option Bool)
    (cb : yaml_cb2_t) (pp : Str) (b : List yaml_node) : List yaml_node → Option Bool
  | [] => some true
  | a_node :: rest =>
    match Yaml.node_path a_node pp with
    | none => none
    | some path =>
      match find_same_path pp path b with
      | none => none
      | some b_node =>
        if !cb (some (path, a_node)) (b_node.map (fun n => (path, n))) then some false
        else
          match rec path (get_child a_node)
              (match b_node with | some n => get_child n | none => []) with
          | none => none
          | some false => some false
          | some true => traverse2_first rec cb pp b rest

/-- The second pass of `_traverse2` over the chain of `b`, with `rec` for the
nested call. -/
def traverse2_second (rec : Str → List yaml_node → List yaml_node → Option Bool)
    (cb : yaml_cb2_t) (pp : Str) (a : List yaml_node) : List yaml_node → Option Bool
  | [] => some true
  | b_node :: rest =>
    match Yaml.node_path b_node pp with
    | none => none
    | some path =>
      match find_same_path pp path a with
      | none => none
      | some (some _) => traverse2_second rec cb pp a rest
      | some none =>
        if !cb none (some (path, b_node)) then some false
        else
          match rec path [] (get_child b_node) with
          | none => none
          | some false => some false
          | some true => traverse2_second rec cb pp a rest

/-- The function `_traverse2` for callbacks that leave the documents as they
are: `a` and `b` are the chains of the two iterators (`[]` where root and
parent are `NULL`).  The nesting of the calls is bounded by the fuel, `none`
when it is used up or `node_path` is called for a node without a name. -/
def _traverse2 (cb : yaml_cb2_t) : Nat → Str → List yaml_node → List yaml_node → Option Bool
  | 0, _, _, _ => none
  | fuel + 1, parent_path, a, b =>
    match traverse2_first (fun p x y => _traverse2 cb fuel p x y) cb parent_path b a with
    | none => none
    | some false => some false
    | some true => traverse2_second (fun p x y => _traverse2 cb fuel p x y) cb parent_path a b

/-- The function `yaml_traverse2`. -/
def yaml_traverse2 (cb : yaml_cb2_t) (fuel : Nat) (a b : List yaml_node) : Option Bool :=
  _traverse2 cb fuel [] a b

/-- The callback `is_subset_cb`. -/
def is_subset_cb : yaml_cb2_t := fun _ b => b.isSome

/-- The function `yaml_is_subset`. -/
def yaml_is_subset (fuel : Nat) (a b : List yaml_node) : Option Bool :=
  yaml_traverse2 is_subset_cb fuel a b

/-- The callback `cmp_cb`. -/
def cmp_cb : yaml_cb2_t := fun a b =>
  match a, b with
  | some (_, a_node), some (_, b_node) =>
    if a_node.type != b_node.type then false
    else
      match a_node, b_node with
      | .scalar a_s, .scalar b_s => strcmp a_s b_s == 0
      | _, _ => true
  | _, _ => false

/-- The function `yaml_cmp`. -/
def yaml_cmp (fuel : Nat) (a b : List yaml_node) : Option Bool :=
  yaml_traverse2 cmp_cb fuel a b

/-! ## Documents of the examples for the parser and the traversal -/

/-- A callback that replaces the node with the path `x` by the two mappings
`r1` and `r2`, and deletes the node with the path `y`. -/
def splice_cb : yaml_cb_t := fun path _ =>
  (true,
    if path == "x".toList then .replace (.map "r1".toList []) [.map "r2".toList []]
    else if path == "y".toList then .del
    else .keep)

/-! ## Deleting nodes in a traversal -/

/-- The first node of the chain `nodes` below the parent path `pp` whose path
is `path`. -/
def counterpart (pp path : Str) : List yaml_node → Option yaml_node
  | [] => none
  | n :: rest =>
    if strcmp path (path_text n pp) == 0 then some n else counterpart pp path rest

mutual
/-- The node `n` below the parent path `pp` without the nodes of its content
whose path satisfies `P`. -/
def prune_node (P : Str → Bool) (pp : Str) (n : yaml_node) : yaml_node :=
  match n with
  | .scalar c => .scalar c
  | .seq c => .seq (prune P (path_text (.seq c) pp) c)
  | .map k v => .map k (prune P (path_text (.map k v) pp) v)
/-- The chain `nodes` below the parent path `pp` without the nodes whose path
satisfies `P`; the path of a node is the one of the document before. -/
def prune (P : Str → Bool) (pp : Str) (nodes : List yaml_node) : List yaml_node :=
  match nodes with
  | [] => []
  | n :: rest =>
    if P (path_text n pp) then prune P pp rest
    else prune_node P pp n :: prune P pp rest
end

mutual
/-- The nodes of a node and its content in pre-order, each without its
content. -/
def node_labels (n : yaml_node) : List yaml_node :=
  match n with
  | .scalar c => [.scalar c]
  | .seq c => .seq [] :: labels c
  | .map k v => .map k [] :: labels v
/-- The nodes of a chain in pre-order, each without its content. -/
def labels (nodes : List yaml_node) : List yaml_node :=
  match nodes with
  | [] => []
  | n :: rest => node_labels n ++ labels rest
end

mutual
/-- The nodes of a node and its content in pre-order: the path, the node
without its content, and whether the node lies in a deleted subtree, that is,
whether the path of the node or of a node above it satisfies `P` (`dead` says
so for the nodes above). -/
def visit_node (P : Str → Bool) (dead : Bool) (pp : Str) (n : yaml_node) :
    List (Str × yaml_node × Bool) :=
  match n with
  | .scalar c => [(path_text (.scalar c) pp, .scalar c, dead || P (path_text (.scalar c) pp))]
  | .seq c =>
    (path_text (.seq c) pp, .seq [], dead || P (path_text (.seq c) pp))
      :: visit P (dead || P (path_text (.seq c) pp)) (path_text (.seq c) pp) c
  | .map k v =>
    (path_text (.map k v) pp, .map k [], dead || P (path_text (.map k v) pp))
      :: visit P (dead || P (path_text (.map k v) pp)) (path_text (.map k v) pp) v
/-- The nodes of a chain in pre-order, see `visit_node`. -/
def visit (P : Str → Bool) (dead : Bool) (pp : Str) (nodes : List yaml_node) :
    List (Str × yaml_node × Bool) :=
  match nodes with
  | [] => []
  | n :: rest => visit_node P dead pp n ++ visit P dead pp rest
end

/-- The predicate of the example: the path is `a/b` or `c`. -/
def ab_or_c (path : Str) : Bool := path == "a/b".toList || path == "c".toList

/-- The document of the example for the deleting callback. -/
def del_doc_text : Str := "c:\na:\n  b:\n    d: 1\n  e: 2\nf: 3\n".toList

/-! ## Paths of mappings -/

/-- The key of a mapping as it stands in a path. -/
def path_name (key : Str) : Str := replace_char key '/' YAML_PATH_SLASH

/-- The node `p` of the document and all nodes above it are mappings, each
with a key that is not empty, has no `YAML_PATH_SLASH` in it and is the key of
no mapping in front of it in its chain. -/
def key_path_ok (doc : List yaml_node) : node_id → Prop
  | [] => True
  | i :: q =>
    key_path_ok doc q
    ∧ ∃ key v, yaml_deref doc (i :: q) = some (.map key v) ∧ key ≠ []
      ∧ YAML_PATH_SLASH ∉ key
      ∧ ∀ j, j < i → ∀ k2 v2, yaml_deref doc (j :: q) = some (.map k2 v2) → k2 ≠ key

/-- The components of the path of the node `p`, the outermost first. -/
def path_comps (doc : List yaml_node) : node_id → List Str
  | [] => []
  | i :: q =>
    match yaml_deref doc (i :: q) with
    | some (.map key _) => path_comps doc q ++ [path_name key]
    | _ => path_comps doc q

/-- The components with a slash between them. -/
def join_path : List Str → Str
  | [] => []
  | [c] => c
  | c :: d :: r => c ++ '/' :: join_path (d :: r)

/-- The document `{a: [x, y]}`. -/
def seq_doc_text : Str := "a:\n  - x\n  - y\n".toList

/-- The document with the key `a` twice. -/
def twice_doc_text : Str := "a: 1\na: 2\n".toList

/-- The document `{a: {b: c}}`. -/
def nested_doc_text : Str := "a:\n  b: c\n".toList

/-! ## Counterparts in a second document -/

mutual
/-- Has the node `a` below the parent path `pp` a counterpart in the chain
`b`, and has every node of its content one in the content of that
counterpart?  The counterpart of a node is the first node of the chain with
the path of the node. -/
def covers_node (pp : Str) (a : yaml_node) (b : List yaml_node) : Bool :=
  match a with
  | .scalar c => (counterpart pp (path_text (.scalar c) pp) b).isSome
  | .seq c =>
    match counterpart pp (path_text (.seq c) pp) b with
    | none => false
    | some n => covers (path_text (.seq c) pp) c (get_child n)
  | .map k v =>
    match counterpart pp (path_text (.map k v) pp) b with
    | none => false
    | some n => covers (path_text (.map k v) pp) v (get_child n)
/-- Has every node of the chain `a` and of its content a counterpart in the
chain `b`? -/
def covers (pp : Str) (a b : List yaml_node) : Bool :=
  match a with
  | [] => true
  | n :: rest => covers_node pp n b && covers pp rest b
end

/-- Every node of the chain `b` has the path of a node of the chain `a`. -/
def all_found (pp : Str) (a b : List yaml_node) : Bool :=
  b.all (fun n => (counterpart pp (path_text n pp) a).isSome)

/-- The two nodes are of the same variant, and of the same content where they
are scalars. -/
def same_kind (a b : yaml_node) : Bool :=
  match a, b with
  | .scalar x, .scalar y => x == y
  | .seq _, .seq _ => true
  | .map _ _, .map _ _ => true
  | _, _ => false

mutual
/-- Has the node `a` below the parent path `pp` a counterpart of its kind in
the chain `b`, and do its content and the content of the counterpart agree? -/
def agrees_node (pp : Str) (a : yaml_node) (b : List yaml_node) : Bool :=
  match a with
  | .scalar c =>
    match counterpart pp (path_text (.scalar c) pp) b with
    | none => false
    | some n => same_kind (.scalar c) n
  | .seq c =>
    match counterpart pp (path_text (.seq c) pp) b with
    | none => false
    | some n =>
      same_kind (.seq c) n && agrees_chain (path_text (.seq c) pp) c (get_child n)
        && all_found (path_text (.seq c) pp) c (get_child n)
  | .map k v =>
    match counterpart pp (path_text (.map k v) pp) b with
    | none => false
    | some n =>
      same_kind (.map k v) n && agrees_chain (path_text (.map k v) pp) v (get_child n)
        && all_found (path_text (.map k v) pp) v (get_child n)
/-- Has every node of the chain `a` a counterpart of its kind in the chain
`b` with which it agrees? -/
def agrees_chain (pp : Str) (a b : List yaml_node) : Bool :=
  match a with
  | [] => true
  | n :: rest => agrees_node pp n b && agrees_chain pp rest b
end

/-- The chains `a` and `b` agree: every node of `a` has a counterpart of its
kind in `b`, every node of `b` has the path of a node of `a`, and so on for
the content of each node of `a` and the content of its counterpart. -/
def agrees (pp : Str) (a b : List yaml_node) : Bool :=
  agrees_chain pp a b && all_found pp a b

mutual
/-- The paths of a node and of the nodes of its content, in pre-order. -/
def node_paths (pp : Str) (n : yaml_node) : List Str :=
  match n with
  | .scalar c => [path_text (.scalar c) pp]
  | .seq c => path_text (.seq c) pp :: paths (path_text (.seq c) pp) c
  | .map k v => path_text (.map k v) pp :: paths (path_text (.map k v) pp) v
/-- The paths of the nodes of a chain and of their content, in pre-order. -/
def paths (pp : Str) (nodes : List yaml_node) : List Str :=
  match nodes with
  | [] => []
  | n :: rest => node_paths pp n ++ paths pp rest
end

/-- The document `{k: {x: 1}}`. -/
def kx_doc : List yaml_node := [.map "k".toList [.map "x".toList [.scalar "1".toList]]]

/-- The document with the two mappings `k: {y: 1}` and `k: {x: 1}`. -/
def kk_doc : List yaml_node :=
  [.map "k".toList [.map "y".toList [.scalar "1".toList]],
   .map "k".toList [.map "x".toList [.scalar "1".toList]]]

/-- The document `{a: 1}`. -/
def a_doc : List yaml_node := [.map "a".toList [.scalar "1".toList]]

/-- The document `{a: 1, b: 2}`. -/
def ab_doc : List yaml_node :=
  [.map "a".toList [.scalar "1".toList], .map "b".toList [.scalar "2".toList]]

/-- The document `{b: 2, a: 1}`. -/
def ba_doc : List yaml_node :=
  [.map "b".toList [.scalar "2".toList], .map "a".toList [.scalar "1".toList]]

/-! ## Wildcard requirements with children -/

/-- A type table: systems, disks and partitions are objects, the size of a
partition is a number. -/
def wild_types : List path_entry :=
  [type_line "system *" .object, type_line "system */disk *" .object,
   type_line "system */disk */part *" .object,
   type_line "system */disk */part */size/" .number]

/-- The requirements: every disk with a partition of at least size 1 and
another one of at least size 2. -/
def wild_req_text : Str :=
  ("system:\n  disk *:\n    part p1:\n      size: \">=1\"\n" ++
   "    part p2:\n      size: \">=2\"\n").toList

/-- The resources: the disk `b` with the partitions `u` of size 2 and `v` of
size 1. -/
def wild_res_b_text : Str :=
  ("system localhost:\n  disk b:\n    part u:\n      size: 2\n" ++
   "    part v:\n      size: 1\n").toList

/-- The resources: the disk `a` with the partitions `x` of size 2 and `y` of
size 1, and the disk `b` of `wild_res_b_text`. -/
def wild_res_ab_text : Str :=
  ("system localhost:\n  disk a:\n    part x:\n      size: 2\n    part y:\n      size: 1\n" ++
   "  disk b:\n    part u:\n      size: 2\n    part v:\n      size: 1\n").toList

/-- The environment for `wild_req_text` and `wild_res_b_text`. -/
def wild_env_b : List Str :=
  ["TELA_SYSTEM=localhost".toList, "TELA_SYSTEM_DISK_0=b".toList,
   "TELA_SYSTEM_DISK_PART_p1=v".toList, "TELA_SYSTEM_DISK_PART_p1_SIZE=1".toList,
   "TELA_SYSTEM_DISK_PART_p2=u".toList, "TELA_SYSTEM_DISK_PART_p2_SIZE=2".toList]

/-- The environment for `wild_req_text` and `wild_res_ab_text`. -/
def wild_env_ab : List Str :=
  ["TELA_SYSTEM=localhost".toList, "TELA_SYSTEM_DISK_0=a".toList,
   "TELA_SYSTEM_DISK_PART_p2=x".toList, "TELA_SYSTEM_DISK_PART_p2_SIZE=2".toList]

/-! ## Documents of words -/

/-- A letter, a digit or an underscore. -/
def name_char (c : Char) : Bool := isalnum c || c == '_'

/-- A text of letters, digits and underscores that is not empty. -/
def word_ok (s : Str) : Bool := !s.isEmpty && s.all name_char

/-- A mapping whose key is a word and whose value is one scalar that is a
word. -/
def flat_entry : yaml_node → Bool
  | .map key [.scalar content] => word_ok key && word_ok content
  | _ => false

/-- The line that the emitter writes for a mapping with a scalar value at
indentation 0. -/
def entry_line (key content : Str) : Str := key ++ ':' :: ' ' :: content ++ ['\n']

/-- The document `{a: x, b_1: y2}`. -/
def words_doc : List yaml_node :=
  [.map "a".toList [.scalar "x".toList], .map "b_1".toList [.scalar "y2".toList]]

/-! ## Test names (`src/misc.c`) -/

/-- The function `valid_testname_char`. -/
def valid_testname_char (c : Char) : Bool :=
  islower c || isupper c || isdigit c || c == '.' || c == '_' || c == '-'

/-- The loop of `misc_fix_testname`: `out` is `name[0..to)`, the first
argument what is left from `name[from]` on. -/
def misc_fix_testname_loop : Str → Str → Bool → Str × Bool
  | [], out, insert => (out, insert)
  | c :: r, out, insert =>
    if valid_testname_char c then
      if insert && (!out.isEmpty && out.getLast? != some '_') then
        misc_fix_testname_loop r (out ++ ['_'] ++ [c]) false
      else misc_fix_testname_loop r (out ++ [c]) false
    else misc_fix_testname_loop r out true

/-- The function `misc_fix_testname`. -/
def misc_fix_testname (name : Str) : Str :=
  let (out, insert) := misc_fix_testname_loop name [] false
  if insert && out.isEmpty then ['_'] else out

/-! ## Producing and parsing TAP (`src/log.c`) -/

/-- The enumeration `tela_result_t`. -/
inductive tela_result_t where
  | TELA_PASS
  | TELA_FAIL
  | TELA_SKIP
  | TELA_TODO
deriving DecidableEq, Repr

/-- What the macros of `<sys/wait.h>` tell about the status of a child:
`WIFEXITED` with `WEXITSTATUS`, `WIFSIGNALED` with `WTERMSIG`, or neither. -/
inductive wait_status where
  | exited (code : Nat)
  | signaled (sig : Nat)
  | other
deriving DecidableEq, Repr

/-- The struct `rec_result` as far as `rec_print` reads it: the status of the
child, and in `rest` the lines that `rec_print` writes after it (times,
resource usage and the recorded output, which depend on the clock and the time
zone), without the indentation of the first level. -/
structure rec_result where
  status_valid : Bool
  status : wait_status
  rest : List Str

/-- The function `rec_print`: the lines it writes. -/
def rec_print (res : rec_result) (indent : Nat) : List Str :=
  let st := if res.status_valid then
      match res.status with
      | .exited code => ["exitcode: ".toList ++ show_nat code ++ ['\n']]
      | .signaled sig => ["signal: ".toList ++ show_nat sig ++ ['\n']]
      | .other => []
    else []
  (st ++ res.rest).map (fun l => indent_str indent ++ l)

/-- The function `misc_relpath`; `base` is its argument or, when that is
`NULL`, the variable `TELA_TESTBASE` of the environment. -/
def misc_relpath (path : Str) (base : Option Str) : Str :=
  match base with
  | some b =>
    if misc_starts_with path b then
      match path.drop b.length with
      | '/' :: r => r
      | r => r
    else path
  | none => path

/-- The function `twarn` when `is_stdout_tap` is set, as it is in `cmd_run`:
the line written to standard output.  `testbase` is the variable
`TELA_TESTBASE`, `str` the formatted message. -/
def twarn (testbase : Option Str) (filename : Option Str) (lineno : Int) (str : Str) : Str :=
  "# WARNING: ".toList ++
    (match filename with
      | some f =>
        if lineno > 0 then misc_relpath f testbase ++ ':' :: show_int lineno ++ ": ".toList
        else misc_relpath f testbase ++ ": ".toList
      | none => []) ++
    misc_strip_space str ++ ['\n']

/-- The function `log_plan`: the lines it writes. -/
def log_plan (plan : Int) : List Str :=
  if plan > 0 then ["1..".toList ++ show_int plan ++ ['\n']] else []

/-- The function `log_line`: the line it writes. -/
def log_line (num : Int) (name : Option Str) (result : tela_result_t) (reason : Option Str) :
    Str :=
  let name := name.getD []
  let reason := reason.getD []
  match result with
  | .TELA_PASS =>
    "ok     ".toList ++ show_int num ++ " - ".toList ++ name ++
      (if reason.isEmpty then [] else " # ".toList ++ reason) ++ ['\n']
  | .TELA_FAIL =>
    "not ok ".toList ++ show_int num ++ " - ".toList ++ name ++
      (if reason.isEmpty then [] else " # ".toList ++ reason) ++ ['\n']
  | .TELA_SKIP =>
    "ok     ".toList ++ show_int num ++ " - ".toList ++ name ++ " # SKIP ".toList ++ reason ++ ['\n']
  | .TELA_TODO =>
    "not ok ".toList ++ show_int num ++ " - ".toList ++ name ++ " # TODO ".toList ++ reason ++ ['\n']

/-- The function `get_result_str`. -/
def get_result_str : tela_result_t → Str
  | .TELA_PASS => "pass".toList
  | .TELA_SKIP => "skip".toList
  | .TELA_TODO => "todo".toList
  | .TELA_FAIL => "fail".toList

/-- The function `misc_replace_map` for a map whose `from` strings are single
characters. -/
def misc_replace_map (map : List (Char × Str)) (str : Str) : Str :=
  str.flatMap (fun c => match map.find? (fun m => m.1 == c) with
    | some m => m.2
    | none => [c])

/-- The function `yaml_quote`. -/
def yaml_quote (src : Str) : Str :=
  misc_replace_map [(bslash, [bslash, bslash]), (dquote, [bslash, dquote]),
    ('\n', [bslash, bslash, 'n'])] src

/-- The nodes that `yaml_get_node` marks as handled on its way: every node it
finds for a component of the path. -/
def get_node_handled : List Str → node_id → List yaml_node → List node_id
  | [], _, _ => []
  | comp :: more, p, node =>
    let comp := yaml_decode_path comp
    let found := if comp.isEmpty then node.head?.map (fun n => (p, n))
      else get_node_find comp p node
    match found with
    | none => []
    | some (q, n) =>
      if more.isEmpty then [q]
      else q :: get_node_handled more (id_child q) (match n with | .map _ v => v | _ => [])

/-- The nodes that a call `yaml_get_node(root, path)` marks as handled. -/
def yaml_get_node_handled (root : List yaml_node) (path : Str) : List node_id :=
  get_node_handled (strsep_tokens (path.length + 1) (some path)) [0] root

/-- The function `type_str` of `src/yaml.c`. -/
def type_str : yaml_type → Str
  | .yaml_scalar => "scalar".toList
  | .yaml_seq => "sequence".toList
  | .yaml_map => "mapping".toList

/-- The function `yaml_get_scalar`: the content it returns, and the type it
warns of when the value is no scalar.  For a node that is no mapping
`node->map.value` reads a union member of another variant, which is given as
`NULL` here. -/
def yaml_get_scalar (root : List yaml_node) (path : Str) : Option Str × Option yaml_type :=
  match yaml_get_node root path with
  | none => (none, none)
  | some p =>
    match yaml_deref root p with
    | some (.map _ (.scalar c :: _)) => (some c, none)
    | some (.map _ (n :: _)) => (none, some n.type)
    | _ => (none, none)

/-- The function `log_result`: the lines it writes.  The warning of
`yaml_get_scalar` is written without the position of the node, which the
documents here do not record. -/
def log_result (testbase : Option Str) (name testexec : Str) (num : Int)
    (result : tela_result_t) (reason : Option Str) (res : Option rec_result)
    (desc : List yaml_node) (testrexec : Option Str) : List Str :=
  let s := match testrexec with
    | some r => r ++ ':' :: name
    | none => name
  [log_line num (some s) result reason, "  ---\n".toList] ++
    (match yaml_get_scalar desc name with
      | (some v, _) => ["  desc: ".toList ++ dquote :: yaml_quote v ++ [dquote, '\n']]
      | (none, some t) =>
        [twarn testbase none 0 ("Found ".toList ++ type_str t ++ " instead of scalar\n".toList)]
      | (none, none) => []) ++
    ["  testresult: ".toList ++ dquote :: get_result_str result ++ [dquote, '\n']] ++
    (match reason with
      | some r => ["  reason: ".toList ++ dquote :: r ++ [dquote, '\n']]
      | none => []) ++
    ["  testexec: ".toList ++ dquote :: testexec ++ [dquote, '\n']] ++
    (match res with
      | some r => rec_print r 2
      | none => []) ++
    ["  ...\n".toList]

/-- The conversion `%d` of `sscanf`: white space, an optional sign and at
least one digit. -/
def scan_int (s : Str) : Option Int :=
  let t := misc_skip_space s
  let neg := t.head? == some '-'
  let u := if neg || t.head? == some '+' then t.tail else t
  let (v, k, _) := strtol_digits 10 u 0 0
  if k == 0 then none else some (if neg then -(v : Int) else (v : Int))

/-- The function `log_parse_plan`: the number of tests of a line `1..N`. -/
def log_parse_plan (s : Str) : Option Int :=
  match s with
  | '1' :: '.' :: '.' :: r => scan_int r
  | _ => none

/-- The macro `misc_skip_digit(s)`. -/
def misc_skip_digit : Str → Str
  | [] => []
  | c :: r => if isdigit c then misc_skip_digit r else c :: r

/-- C `atoi`: `strtol` in base 10, converted to `int`. -/
def atoi (s : Str) : Int :=
  let v := (strtol s 10).1 % 2 ^ 32
  if v < 2 ^ 31 then v else v - 2 ^ 32

/-- C `strcasecmp(a, b) == 0`. -/
def strcasecmp_eq (a b : Str) : Bool := a.map tolower == b.map tolower

/-- C `strncasecmp(a, b, n) == 0` for a string `b` of `n` characters. -/
def strncasecmp_eq (a b : Str) : Bool := (a.take b.length).map tolower == b.map tolower

/-- What `log_parse_line` passes to its caller. -/
structure tap_line where
  name : Option Str
  num : Int
  result : tela_result_t
  reason : Option Str

/-- The end of `log_parse_line` from the label `out` on. -/
def log_parse_out (ok : Bool) (desc : Option Str) (num : Int) (dir reason : Option Str) :
    Option tap_line :=
  match dir with
  | none =>
    some { name := desc, num := num,
           result := if ok then .TELA_PASS else .TELA_FAIL, reason := reason }
  | some d =>
    if strcasecmp_eq d "skip".toList then
      some { name := desc, num := num, result := .TELA_SKIP, reason := reason }
    else if strcasecmp_eq d "todo".toList then
      some { name := desc, num := num, result := .TELA_TODO, reason := reason }
    else none

/-- The part of `log_parse_line` from the description on: `s` is the text
after the number and the dash. -/
def log_parse_desc (ok : Bool) (num : Int) (s : Str) : Option tap_line :=
  let e := strchr '#' s
  let s4 := match e with
    | some (pre, _) => pre
    | none => s
  let desc := if s4.isEmpty then none else some (misc_strip_space s4)
  match e with
  | none => log_parse_out ok desc num none none
  | some (_, suf) =>
    let s5 := misc_skip_space suf.tail
    if !strncasecmp_eq s5 "skip".toList && !strncasecmp_eq s5 "todo".toList then
      log_parse_out ok desc num none (some (misc_strip_space s5))
    else
      let dir := s5.takeWhile (fun c => !isspace c)
      match s5.dropWhile (fun c => !isspace c) with
      | [] => log_parse_out ok desc num (some dir) none
      | _ :: s6 => log_parse_out ok desc num (some dir) (some (misc_strip_space (misc_skip_space s6)))

/-- The part of `log_parse_line` after `ok` or `not ok`: the number and the
dash, then the description. -/
def log_parse_rest (ok : Bool) (s0 : Str) : Option tap_line :=
  let s1 := misc_skip_space s0
  let num := if (s1.head?.map isdigit).getD false then atoi s1 else -1
  let s2 := if (s1.head?.map isdigit).getD false then misc_skip_space (misc_skip_digit s1) else s1
  let s3 := if s2.head? == some '-' then misc_skip_space s2.tail else s2
  log_parse_desc ok num s3

/-- The function `log_parse_line`: `none` when it returns false. -/
def log_parse_line (line : Str) : Option tap_line :=
  if misc_starts_with line "ok".toList then log_parse_rest true (line.drop 2)
  else if misc_starts_with line "not ok".toList then log_parse_rest false (line.drop 6)
  else none

/-- The function `log_parse_bail`. -/
def log_parse_bail (line : Str) : Bool := misc_starts_with line "Bail out!".toList

/-- The loop of `log_all_result` over the names of `desc`: `idx` is the index
of the first node of `nodes` at the top level of `desc`, `i` the number of the
last result.  The result consists of the lines written, the identities of the
handled nodes and the new value of `i`. -/
def log_all_names (testbase : Option Str) (testexec : Str) (result : tela_result_t)
    (reason : Option Str) (res : Option rec_result) (testrexec : Str) (desc : List yaml_node)
    (plan : Int) : List yaml_node → Nat → List node_id → Int → List Str × List node_id × Int
  | [], _, handled, i => ([], handled, i)
  | node :: rest, idx, handled, i =>
    match node with
    | .map name _ =>
      if handled.contains [idx] then
        log_all_names testbase testexec result reason res testrexec desc plan rest (idx + 1)
          handled i
      else
        let base := !(plan == 1 && strcmp name testrexec == 0)
        let out := log_result testbase name testexec (i + 1) result reason res desc
          (if base then some testrexec else none)
        let handled1 := handled ++ yaml_get_node_handled desc name ++ [[idx]]
        let (out1, handled2, i2) :=
          log_all_names testbase testexec result reason res testrexec desc plan rest (idx + 1)
            handled1 (i + 1)
        (out ++ out1, handled2, i2)
    | _ =>
      log_all_names testbase testexec result reason res testrexec desc plan rest (idx + 1)
        handled i

/-- The last loop of `log_all_result`: `count` results with the names
`missing_name_<i + 1>` and so on. -/
def log_all_missing (testbase : Option Str) (testexec : Str) (result : tela_result_t)
    (reason : Option Str) (res : Option rec_result) (testrexec : Str) (desc : List yaml_node) :
    Nat → Int → List Str
  | 0, _ => []
  | count + 1, i =>
    log_result testbase ("missing_name_".toList ++ show_int (i + 1)) testexec (i + 1) result
      reason res desc (some testrexec) ++
    log_all_missing testbase testexec result reason res testrexec desc count (i + 1)

/-- The function `log_all_result`: the lines it writes.  `handled` are the
identities of the nodes of `desc` whose flag `handled` is set. -/
def log_all_result (testbase : Option Str) (testexec : Str) (result : tela_result_t)
    (reason : Option Str) (res : Option rec_result) (testrexec : Str) (desc : List yaml_node)
    (handled : List node_id) (num plan : Int) : List Str :=
  if plan == -1 then log_result testbase testrexec testexec num result reason res desc none
  else
    let (out, _, i) :=
      log_all_names testbase testexec result reason res testrexec desc plan desc 0 handled num
    out ++ log_all_missing testbase testexec result reason res testrexec desc (plan - i).toNat i

/-! ## Running a test (`src/tela.c`) -/

/-- The struct `run_data` of `src/tela.c` with the variable `TELA_TESTBASE`
of the environment; `handled` are the identities of the nodes of `desc` whose
flag `handled` is set, `bailed` tells that the run was ended by `exit(1)`.
The run log, a file of its own, is left out. -/
structure run_data where
  check_done : Bool
  is_tap13 : Bool
  num : Int
  plan : Int
  exec : Str
  rexec : Str
  last_stderr : Option Str
  desc : List yaml_node
  handled : List node_id
  testbase : Option Str
  bailed : Bool

/-- The data that `prepare_data` sets up for the test `exec` with the
configuration `plan` and `desc`. -/
def prepare_data (testbase : Option Str) (exec : Str) (plan : Int) (desc : List yaml_node) :
    run_data :=
  { check_done := false, is_tap13 := false, num := 0, plan := plan, exec := exec,
    rexec := misc_relpath exec testbase, last_stderr := none, desc := desc, handled := [],
    testbase := testbase, bailed := false }

/-- The function `handle_tap_line`: the new data and what is written to
standard output. -/
def handle_tap_line (data : run_data) (line stream : Str) : run_data × List Str :=
  if strcmp stream "stdout".toList != 0 then
    (data, [twarn data.testbase (some data.exec) 0 line])
  else if misc_starts_with line "TAP ".toList then (data, [])
  else
    match log_parse_plan line with
    | some num =>
      if data.plan != -1 then
        if data.plan != num then
          (data, [twarn data.testbase (some data.exec) 0
            ("Plan in TAP output (".toList ++ show_int num ++
              ") does not match expected plan (".toList ++ show_int data.plan ++ ")\n".toList)])
        else (data, [])
      else ({ data with plan := num }, [line])
    | none =>
      match log_parse_line line with
      | some r =>
        let num1 := data.num + 1
        match r.name with
        | some s =>
          let fixed := misc_fix_testname s
          let warn :=
            if strcmp s fixed != 0 then
              [twarn data.testbase (some data.rexec) 0
                ("Invalid characters in test name '".toList ++ s ++
                  "': only use 0-9a-zA-Z._-".toList)]
            else []
          ({ data with num := num1,
                       handled := data.handled ++ yaml_get_node_handled data.desc fixed },
            warn ++ [log_line num1 (some (data.rexec ++ ':' :: fixed)) r.result r.reason])
        | none =>
          let num := if r.num == -1 then num1 else r.num
          ({ data with num := num1 },
            [log_line num1 (some (data.rexec ++ ':' :: show_int num)) r.result r.reason])
      | none =>
        if log_parse_bail line then
          let reason := misc_skip_space
            (match strchr '!' line with
              | some p => p.2.tail
              | none => [])
          ({ data with bailed := true },
            [if reason.isEmpty then "Bail out! ".toList ++ data.rexec ++ ['\n']
             else "Bail out! ".toList ++ data.rexec ++ ": ".toList ++ reason])
        else if line.head? != some ' ' && line.head? != some '#' then
          (data, [twarn data.testbase (some data.exec) 0
            ("Output not in TAP13 format: ".toList ++ line)])
        else (data, [line])

/-- The function `handle_nontap_line`. -/
def handle_nontap_line (data : run_data) (line stream : Str) : run_data :=
  if strcmp stream "stderr".toList == 0 then { data with last_stderr := some line } else data

/-- The function `run_handler`, the handler of `cmd_run` for the lines of the
test: the new data and what is written to standard output. -/
def run_handler (d : run_data) (line stream : Str) : run_data × List Str :=
  let d1 :=
    if !d.check_done then
      { d with is_tap13 := d.is_tap13 ||
                 (strcmp stream "stdout".toList == 0 && misc_starts_with line "TAP ".toList),
               check_done := true }
    else d
  if d1.is_tap13 then handle_tap_line d1 line stream
  else (handle_nontap_line d1 line stream, [])

/-- The calls of `run_handler` for the lines that the recorder delivers, each
with the name of its stream, until the test ends or bails out. -/
def run_lines : run_data → List (Str × Str) → run_data × List Str
  | d, [] => (d, [])
  | d, (stream, line) :: rest =>
    let (d1, out) := run_handler d line stream
    if d1.bailed then (d1, out)
    else
      let (d2, out2) := run_lines d1 rest
      (d2, out ++ out2)

/-- The function `finish_tap`: what it writes. -/
def finish_tap (data : run_data) (res : rec_result) : List Str :=
  match res.status with
  | .signaled sig =>
    [twarn data.testbase (some data.exec) 0
      ("Test executable was killed by signal ".toList ++ show_nat sig ++ ['\n'])]
  | _ => []

/-- The result that `finish_nontap` derives from the status of the child. -/
def nontap_result : wait_status → tela_result_t
  | .exited 0 => .TELA_PASS
  | .exited 2 => .TELA_SKIP
  | .exited 3 => .TELA_TODO
  | _ => .TELA_FAIL

/-- The function `finish_nontap`: the new data and what it writes. -/
def finish_nontap (data : run_data) (res : rec_result) : run_data × List Str :=
  let result := nontap_result res.status
  let last_stderr :=
    if result != .TELA_SKIP && result != .TELA_TODO then none
    else data.last_stderr.map misc_strip_space
  ({ data with num := 1, last_stderr := last_stderr,
               handled := data.handled ++ yaml_get_node_handled data.desc data.rexec },
    log_plan data.plan ++
      log_result data.testbase data.rexec data.exec 1 result last_stderr (some res) data.desc none)

/-- The function `plan_mismatch`: what it writes. -/
def plan_mismatch (data : run_data) (names : Option Str) : List Str :=
  log_all_result data.testbase data.exec .TELA_FAIL none none data.rexec data.desc data.handled
      data.num data.plan ++
    [twarn data.testbase (some data.exec) 0
      (match names with
        | some n => "Plan mismatch (missing tests:".toList ++ n ++ ")\n".toList
        | none =>
          "Plan mismatch (plan=".toList ++ show_int data.plan ++ ", actual=".toList ++
            show_int data.num ++ ")\n".toList)]

/-- The function `skip_test`: what it writes. -/
def skip_test (data : run_data) (reason : Str) : List Str :=
  let max := if data.plan == -1 then 1 else data.plan
  log_plan max ++
    log_all_result data.testbase data.exec .TELA_SKIP (some reason) none data.rexec data.desc
      data.handled 0 data.plan

/-- The names that `cmd_run` collects from the nodes of `desc` that were not
handled: `none` where `names` stays `NULL`. -/
def missing_names (handled : List node_id) : List yaml_node → Nat → Option Str → Option Str
  | [], _, names => names
  | node :: rest, idx, names =>
    match node with
    | .map key _ =>
      if handled.contains [idx] then missing_names handled rest (idx + 1) names
      else missing_names handled rest (idx + 1) (some (names.getD [] ++ ' ' :: key))
    | _ => missing_names handled rest (idx + 1) names

/-- The check of the plan at the end of `cmd_run`: what it writes. -/
def check_plan (data : run_data) : List Str :=
  if !data.desc.isEmpty then
    match missing_names data.handled data.desc 0 none with
    | some names => plan_mismatch data (some names)
    | none =>
      if data.plan != -1 && data.num != data.plan then plan_mismatch data none else []
  else if data.plan != -1 && data.num != data.plan then plan_mismatch data none
  else []

/-- The function `cmd_run` after the command line is read: what it writes to
standard output.  `skip_reason` is the result of `prepare_data`, the reason why
the requirements could not be met, `lines` are the lines of the test in the
order in which the recorder delivers them, each with the name of its stream,
and `res` is the result of the recording. -/
def cmd_run (testbase : Option Str) (exec : Str) (plan : Int) (desc : List yaml_node)
    (skip_reason : Option Str) (lines : List (Str × Str)) (res : rec_result) : List Str :=
  let data := prepare_data testbase exec plan desc
  match skip_reason with
  | some reason => "TAP version 13\n".toList :: skip_test data reason
  | none =>
    let (d1, out) := run_lines data lines
    if d1.bailed then "TAP version 13\n".toList :: out
    else if d1.is_tap13 then
      "TAP version 13\n".toList :: (out ++ finish_tap d1 res ++ check_plan d1)
    else
      let (d2, out2) := finish_nontap d1 res
      "TAP version 13\n".toList :: (out ++ out2 ++ check_plan d2)

/-! ## Result lines -/

/-- A result line of TAP: a line that starts with `ok` or `not ok`. -/
def tap_result_line (l : Str) : Bool :=
  misc_starts_with l "ok".toList || misc_starts_with l "not ok".toList

/-- The last line of the stream `stderr` among the lines of a test. -/
def last_stderr_line (lines : List (Str × Str)) : Option Str :=
  ((lines.filter (fun p => p.1 == "stderr".toList)).getLast?).map (fun p => p.2)

/-- The name that `log_result` writes for the result `missing_name_<n>` of the
test `rexec`. -/
def missing_name (rexec : Str) (n : Int) : Str :=
  rexec ++ ':' :: ("missing_name_".toList ++ show_int n)

/-- A text without white space at its start and at its end. -/
def trimmed (s : Str) : Bool :=
  (match s.head? with | some c => !isspace c | none => true) &&
  (match s.getLast? with | some c => !isspace c | none => true)

/-- The directive `skip` or `todo`, in upper or lower case. -/
def directive (d : Str) : Bool :=
  strcasecmp_eq d "skip".toList || strcasecmp_eq d "todo".toList

/-- The text after the name of a result line: a directive `d` with the reason
`r`, and the newline. -/
def tap_tail : Option (Str × Str) → Str
  | some (d, r) => " # ".toList ++ d ++ ' ' :: r ++ ['\n']
  | none => ['\n']

/-- The text of a result line of TAP: `ok` or `not ok`, the digits `n` of a
number if there are any, a dash if `dash` is set, the name and the directive
with its reason. -/
def tap_text (ok : Bool) (n : Str) (dash : Bool) (name : Str) (dir : Option (Str × Str)) : Str :=
  (if ok then "ok".toList else "not ok".toList) ++
    ((if n.isEmpty then [] else ' ' :: n) ++
      ((if dash then " -".toList else []) ++ ' ' :: (name ++ tap_tail dir)))

/-- The result that a result line stands for. -/
def tap_result (ok : Bool) : Option (Str × Str) → tela_result_t
  | none => if ok then .TELA_PASS else .TELA_FAIL
  | some (d, _) => if strcasecmp_eq d "skip".toList then .TELA_SKIP else .TELA_TODO

/-- A name that `log_parse_line` reads as it stands after the digits `n` and
the dash: not empty, without `#`, without white space at its ends, not
starting with a digit where no number precedes it and not starting with a dash
where no dash precedes it. -/
def tap_name_ok (n : Str) (dash : Bool) (name : Str) : Bool :=
  !name.isEmpty && trimmed name && !name.contains '#' &&
    (!n.isEmpty || (match name.head? with | some c => !isdigit c | none => true)) &&
    (dash || name.head? != some '-')

/-- A directive `skip` or `todo` with a reason without white space at its
ends, or no directive. -/
def tap_dir_ok : Option (Str × Str) → Bool
  | some (d, r) => directive d && trimmed r
  | none => true

/-- A line that `handle_tap_line` takes as a result line: a line of stdout
that is neither the header nor a plan and that `log_parse_line` accepts. -/
def counts_as_result (p : Str × Str) : Bool :=
  p.1 == "stdout".toList && !misc_starts_with p.2 "TAP ".toList &&
    (log_parse_plan p.2).isNone && (log_parse_line p.2).isSome

/-! ## The recorder (`src/record.c`) -/

/-- The struct `rec_stream` without its file descriptor. -/
structure rec_stream where
  name : Str
  onclose : Bool

/-- The struct `timeval`. -/
structure timeval where
  tv_sec : Nat
  tv_usec : Nat

/-- The struct `stream_state`: the bytes `buffer[0..off)` that were read but
not yet handled, `none` where `buffer` is `NULL`. -/
structure stream_state where
  buffer : Option Str

/-- The byte NUL. -/
def NUL : Char := Char.ofNat 0

/-- C `strndup(buf, len)` for a buffer `buf` of `len` bytes: the bytes before
the first NUL. -/
def strndup (buf : Str) : Str := buf.takeWhile (fun c => c != NUL)

/-- The output of `printf` for a number with a minimum field width: padding
on the left. -/
def pad_left (width : Nat) (c : Char) (s : Str) : Str :=
  List.replicate (width - s.length) c ++ s

/-- The function `do_log_buf`: the bytes it writes to the log. -/
def do_log_buf (tv : timeval) (name buf : Str) : Str :=
  let nl := buf.getLast? == some '\n'
  '[' :: pad_left 4 ' ' (show_nat tv.tv_sec) ++ '.' :: pad_left 6 '0' (show_nat tv.tv_usec) ++
    "] ".toList ++ name ++ (if nl then [] else "(nonl)".toList) ++ ": ".toList ++ buf ++
    (if nl then [] else ['\n'])

/-- What the recorder does with its handler and its log: the call of the
handler with a copy of a line together with the entry of the log for that
line, or the call of the handler with `NULL` when a stream is closed. -/
inductive rec_item where
  | line (copy entry : Str)
  | close
deriving DecidableEq, Repr

/-- The function `handle_line` with a handler and a log, as `rec_record` sets
them up. -/
def handle_line (stream : rec_stream) (tv : timeval) (buf : Str) : rec_item :=
  .line (strndup buf) (do_log_buf tv stream.name buf)

/-- How the loop `while (rc > 0)` of `rec_log_line` ends: with all bytes
handled, by `break` with a partial line and more data to read, or by
`goto out` with a partial line saved in the stream state. -/
inductive line_rest where
  | done
  | more (buf : Str)
  | saved (buf : Str)
deriving DecidableEq, Repr

/-- The loop `while (rc > 0)` of `rec_log_line` on the bytes of the buffer:
`acc` are the bytes before the position `i` of the search for the line end,
`has_ss` tells that `ss` is not `NULL`. -/
def rec_split (stream : rec_stream) (tv : timeval) (cont has_ss : Bool) :
    Str → Str → List rec_item × line_rest
  | [], [] => ([], .done)
  | [], c :: acc =>
    if cont || has_ss then
      if cont then ([], .more (c :: acc)) else ([], .saved (c :: acc))
    else ([handle_line stream tv (c :: acc)], .done)
  | c :: r, acc =>
    if c == '\n' then
      ((handle_line stream tv (acc ++ [c])) :: (rec_split stream tv cont has_ss r []).1,
        (rec_split stream tv cont has_ss r []).2)
    else rec_split stream tv cont has_ss r (acc ++ [c])

/-- The result of `rec_log_line`: what was done with handler and log, the new
stream state, the reads that are left to later calls and the value returned. -/
structure rec_line_result where
  items : List rec_item
  ss : stream_state
  reads : List (Str × Bool)
  total : Nat

/-- The loop `while (cont && (rc = read(...)) > 0)` of `rec_log_line` and what
follows it.  `reads` are the results of the calls of `read` that have data,
each with the answer of the `poll` after it whether more data can be read;
after the last of them `read` returns 0.  `pend` are the bytes
`buffer[0..off)`. -/
def rec_log_loop (stream : rec_stream) (tv : timeval) (has_ss : Bool) :
    List (Str × Bool) → Str → Nat → rec_line_result
  | [], pend, total =>
    { items := if pend.isEmpty then [] else [handle_line stream tv pend],
      ss := { buffer := none }, reads := [], total := total }
  | (chunk, cont) :: rest, pend, total =>
    if chunk.isEmpty then
      { items := if pend.isEmpty then [] else [handle_line stream tv pend],
        ss := { buffer := none }, reads := rest, total := total }
    else
      match rec_split stream tv cont has_ss (pend ++ chunk) [] with
      | (items, .saved buf) =>
        { items := items, ss := { buffer := some buf }, reads := rest,
          total := total + chunk.length }
      | (items, .more buf) =>
        let r := rec_log_loop stream tv has_ss rest buf (total + chunk.length)
        { r with items := items ++ r.items }
      | (items, .done) =>
        if cont then
          let r := rec_log_loop stream tv has_ss rest [] (total + chunk.length)
          { r with items := items ++ r.items }
        else
          { items := items, ss := { buffer := none }, reads := rest,
            total := total + chunk.length }

/-- The function `rec_log_line` for a stream with the state `ss`. -/
def rec_log_line (stream : rec_stream) (tv : timeval) (ss : stream_state)
    (reads : List (Str × Bool)) : rec_line_result :=
  rec_log_loop stream tv true reads (ss.buffer.getD []) 0

/-- What `rec_log_streams` does when a stream has reached its end. -/
def rec_close (stream : rec_stream) (tv : timeval) (ss : stream_state) : List rec_item :=
  (match ss.buffer with
    | some buf => [handle_line stream tv buf]
    | none => []) ++
  (if stream.onclose then [.close] else [])

/-- The loop of `rec_log_streams` for one stream: `round` counts the rounds
and `clock` gives the time of each, `hup` tells whether `poll` reports the end
of the stream as a hang-up or as readable with a `read` that returns 0. -/
def rec_log_rounds (stream : rec_stream) (clock : Nat → timeval) (hup : Bool) :
    Nat → Nat → List (Str × Bool) → stream_state → List rec_item
  | 0, _, _, _ => []
  | fuel + 1, round, reads, ss =>
    if reads.isEmpty && hup then rec_close stream (clock round) ss
    else
      let r := rec_log_line stream (clock round) ss reads
      if r.total == 0 then r.items ++ rec_close stream (clock round) r.ss
      else r.items ++ rec_log_rounds stream clock hup fuel (round + 1) r.reads r.ss

/-- The function `rec_log_streams` for one stream; every round but the last
takes at least one of the reads. -/
def rec_log_streams (stream : rec_stream) (clock : Nat → timeval) (hup : Bool)
    (reads : List (Str × Bool)) : List rec_item :=
  rec_log_rounds stream clock hup (reads.length + 1) 0 reads { buffer := none }

/-- The lines of a byte string: `acc` is the start of the current line. -/
def frame_lines : Str → Str → List Str
  | [], acc => if acc.isEmpty then [] else [acc]
  | c :: r, acc =>
    if c == '\n' then (acc ++ [c]) :: frame_lines r [] else frame_lines r (acc ++ [c])

/-- The complete lines of a byte string and the bytes after the last newline;
`acc` is the start of the current line. -/
def split_lines : Str → Str → List Str × Str
  | [], acc => ([], acc)
  | c :: r, acc =>
    if c == '\n' then ((acc ++ [c]) :: (split_lines r []).1, (split_lines r []).2)
    else split_lines r (acc ++ [c])

/-- The time stamp at the start of an entry of the log. -/
def log_stamp (tv : timeval) : Str :=
  '[' :: pad_left 4 ' ' (show_nat tv.tv_sec) ++ '.' :: pad_left 6 '0' (show_nat tv.tv_usec) ++
    "] ".toList

/-- The lines that are handled in the rounds of the recorder, each in a round
of its own time. -/
def handled_as (stream : rec_stream) (clock : Nat → timeval) (item : rec_item) (l : Str) :
    Prop :=
  ∃ k, item = handle_line stream (clock k) l

/-! ## Documents after sanitising -/

/-- No two white space characters next to each other. -/
def no_double : Str → Bool
  | c :: d :: r => !(isspace c && isspace d) && no_double (d :: r)
  | _ => true

/-- Words that are separated by exactly one blank, without white space at
the start and at the end. -/
def words_ok (k : Str) : Bool := trimmed k && blank_ok k && no_double k

mutual
/-- A node as `_sanitize_yaml` leaves it: a mapping at the top level; a scalar
with content, a sequence whose content is a scalar with content, and a mapping
with a key of words and with a value of such nodes. -/
def clean_node (top : Bool) (n : yaml_node) : Bool :=
  match n with
  | .scalar c => !top && !c.isEmpty
  | .seq c => !top && is_nonempty_scalar c.head?
  | .map k v => words_ok k && clean_chain false v
/-- A chain of nodes as `_sanitize_yaml` leaves them. -/
def clean_chain (top : Bool) (nodes : List yaml_node) : Bool :=
  match nodes with
  | [] => true
  | n :: r => clean_node top n && clean_chain top r
end

mutual
/-- Is every key of the node and of the mappings below it, as far as they are
reached through values of mappings, a text that `P` holds for? -/
def keys_node (P : Str → Bool) (n : yaml_node) : Bool :=
  match n with
  | .map k v => P k && keys_chain P v
  | _ => true
/-- Is every key of the mappings of a chain and below them a text that `P`
holds for? -/
def keys_chain (P : Str → Bool) (nodes : List yaml_node) : Bool :=
  match nodes with
  | [] => true
  | n :: r => keys_node P n && keys_chain P r
end

/-- A text without white space at its end, as `misc_strip_space` leaves it. -/
def stripped (k : Str) : Bool := misc_strip_space k == k

/-! ## Documents after merging -/

/-- The keys of the mappings of a chain, in their order. -/
def map_keys (nodes : List yaml_node) : List Str :=
  nodes.filterMap (fun n => get_key (some n))

/-- The values of the mappings with the key `key` of a chain, in their
order. -/
def values_of (key : Str) (nodes : List yaml_node) : List (List yaml_node) :=
  nodes.filterMap (fun n => match n with
    | .map k v => if k = key then some v else none
    | _ => none)

/-- The value of the first mapping with the key `key` of a chain. -/
def value_of (key : Str) (nodes : List yaml_node) : Option (List yaml_node) :=
  (values_of key nodes).head?

/-- Does a chain start with a mapping? -/
def map_first : List yaml_node → Bool
  | .map _ _ :: _ => true
  | _ => false

/-- What `merge_yaml` does with the values `a` and `b` of two mappings with
the same key. -/
def combine (a b : List yaml_node) : List yaml_node :=
  if !a.isEmpty && !b.isEmpty then handle_duplicates a b
  else if a.isEmpty then b else a

/-- The values of the mappings of one key, combined in their order. -/
def combine_all : List (List yaml_node) → List yaml_node
  | [] => []
  | v :: r => r.foldl combine v

mutual
/-- A node without mappings of equal keys next to each other in its value and
below, as far as the values start with a mapping. -/
def merged_node (n : yaml_node) : Bool :=
  match n with
  | .map _ v => !map_first v || (decide (map_keys v).Nodup && merged_chain v)
  | _ => true
/-- A chain of such nodes. -/
def merged_chain (nodes : List yaml_node) : Bool :=
  match nodes with
  | [] => true
  | n :: r => merged_node n && merged_chain r
end

/-- The function `merge_yaml` with the fuel that `get_requirements` and
`get_resources` give it. -/
def merge_doc (doc : List yaml_node) : List yaml_node :=
  merge_yaml (yaml_size_chain doc + 1) doc

/-- The value of a mapping after `merge_yaml`: merged itself where it starts
with a mapping. -/
def merge_value (v : List yaml_node) : List yaml_node :=
  if map_first v then merge_doc v else v

/-- A document with the key `a` three times: once with a scalar and twice with
a mapping as value. -/
def mixed_doc : List yaml_node :=
  [.map ['a'] [.scalar ['x']], .map ['a'] [.map ['k'] [.scalar ['1']]],
    .map ['a'] [.map ['k'] [.scalar ['2']]]]

/-- A document with the keys `a` and `b` twice each. -/
def twice_doc : List yaml_node :=
  [.map ['a'] [.map ['k'] [.scalar ['1']], .map ['m'] [.scalar ['2']]], .map ['b'] [.scalar ['3']],
    .map ['a'] [.map ['k'] [.scalar ['4']], .map ['n'] [.scalar ['5']]], .map ['b'] [.scalar ['6']]]

/-! ## Canonical paths (`src/yaml.c`) -/

/-- C `strrchr(s, c)` for a character `c` other than NUL: the text before the
last `c`, or `none`. -/
def strrchr (c : Char) : Str → Option Str
  | [] => none
  | d :: r =>
    match strrchr c r with
    | some pre => some (d :: pre)
    | none => if d == c then some [] else none

/-- The test `(before && *before != '/') || (*after && *after != '/')` of the
loop of `yaml_canon_path`: the two dots between `left` and `after` are part of
the name of a component. -/
def canon_part (left after : Str) : Bool :=
  (match left.getLast? with | some b => b != '/' | none => false) ||
    (match after.head? with | some a => a != '/' | none => false)

/-- The change that a round of the loop of `yaml_canon_path` makes for two
dots that are a component: `left` is the text in front of them, `after` the
text behind them.  In front of the text the dots are removed, with the slash
behind them when more text follows it; elsewhere the text from the start of
the previous component on is removed. -/
def canon_change (left after : Str) : Str :=
  if left.isEmpty then (if 2 ≤ after.length then after.tail else after)
  else (strrchr '/' left.dropLast).getD [] ++ after

/-- The loop of `yaml_canon_path`: `result` is `pre ++ suf` and `d` points to
the start of `suf`.  Every round is one call of `strstr`; `none` when the
rounds allowed by the first argument do not suffice. -/
def canon_loop : Nat → Str → Str → Option Str
  | 0, _, _ => none
  | fuel + 1, pre, suf =>
    match strstr "..".toList suf with
    | none => some (pre ++ suf)
    | some (mid, dd) =>
      let left := pre ++ mid
      let after := dd.drop 2
      if canon_part left after then canon_loop fuel (left ++ "..".toList) after
      else canon_loop fuel [] (canon_change left after)

/-- The function `yaml_canon_path`.  The loop needs at most `(n + 1) * (n + 1)`
rounds for a path of `n` characters. -/
def yaml_canon_path (path : Str) : Option Str :=
  match canon_loop ((path.length + 1) * (path.length + 1)) [] path with
  | none => none
  | some result =>
    some (if result.head? == some '/' && 2 ≤ result.length then result.tail else result)

/-- The components of a path: the texts between its slashes. -/
def path_components : Str → List Str
  | [] => [[]]
  | c :: r =>
    if c == '/' then [] :: path_components r
    else
      match path_components r with
      | h :: t => (c :: h) :: t
      | [] => [[c]]

/-- Two dots at the index `i` of `s`. -/
def dotdot_at (s : Str) (i : Nat) : Prop := s[i]? = some '.' ∧ s[i + 1]? = some '.'

/-- Two dots at the index `i` of `s` that are a component of the path `s`:
the text starts or a slash stands in front of them, and the text ends or a
slash stands behind them. -/
def dotdot_comp (s : Str) (i : Nat) : Prop :=
  dotdot_at s i ∧ (i = 0 ∨ s[i - 1]? = some '/') ∧ (s[i + 2]? = none ∨ s[i + 2]? = some '/')

/-- A path without its leading slash, which stays when nothing follows it. -/
def strip_slash (s : Str) : Str :=
  if s.head? == some '/' && 2 ≤ s.length then s.tail else s

/-! ## The recorder with several streams (`src/record.c`) -/

/-- What `poll` reports for a stream in a round of `rec_log_streams`: nothing,
`POLLIN` (with the results of the calls of `read` that `rec_log_line` then
makes, as for `rec_log_loop`), or an event without `POLLIN` such as
`POLLHUP`. -/
inductive poll_event where
  | idle
  | input (reads : List (Str × Bool))
  | hangup
deriving DecidableEq, Repr

/-- The body of the loop `for (i = 0; i < streamc; i++)` of `rec_log_streams`
for the stream `i` with a name: what is done with handler and log, the array
`ss` afterwards and the value of `eof`.  At the end of a stream with pending
data the code handles `ss[i].buffer` and then executes `free(ss->buffer);
ss->buffer = NULL;`, which clears the entry 0 of the array. -/
def rec_stream_event (stream : rec_stream) (tv : timeval) (i : Nat) (ev : poll_event)
    (ss : List stream_state) : List rec_item × List stream_state × Bool :=
  let r : List rec_item × List stream_state × Bool :=
    match ev with
    | .idle => ([], ss, false)
    | .input reads =>
      let l := rec_log_line stream tv (ss.getD i { buffer := none }) reads
      (l.items, ss.set i l.ss, l.total == 0)
    | .hangup => ([], ss, true)
  if r.2.2 then
    match (r.2.1.getD i { buffer := none }).buffer with
    | some buf =>
      (r.1 ++ [handle_line stream tv buf] ++ (if stream.onclose then [.close] else []),
        r.2.1.set 0 { buffer := none }, true)
    | none => (r.1 ++ (if stream.onclose then [.close] else []), r.2.1, true)
  else (r.1, r.2.1, false)

/-- One round of the loop `while (openfd > 0 && !log_stop)` of
`rec_log_streams`: the streams from the index `i` on with what `poll`
reports for them.  `closed` tells for which streams `fds[i].fd` is -1; `poll`
reports nothing for them.  Every item is given with the index of its stream. -/
def rec_round (tv : timeval) : Nat → List (rec_stream × poll_event) → List stream_state →
    List Bool → List (Nat × rec_item) × List stream_state × List Bool
  | _, [], ss, closed => ([], ss, closed)
  | i, (stream, ev) :: rest, ss, closed =>
    if closed.getD i false then rec_round tv (i + 1) rest ss closed
    else
      let e := rec_stream_event stream tv i ev ss
      let r := rec_round tv (i + 1) rest e.2.1 (if e.2.2 then closed.set i true else closed)
      (e.1.map (fun item => (i, item)) ++ r.1, r.2.1, r.2.2)

/-- The loop `while (openfd > 0 && !log_stop)` of `rec_log_streams` for
several streams with names that all count as open: `rounds` gives for every
return of `poll` what it reports for each stream. -/
def rec_log_all_rounds (streams : List rec_stream) (clock : Nat → timeval) :
    Nat → List (List poll_event) → List stream_state → List Bool → List (Nat × rec_item)
  | _, [], _, _ => []
  | round, evs :: rest, ss, closed =>
    if closed.all id then []
    else
      let r := rec_round (clock round) 0 (streams.zip evs) ss closed
      r.1 ++ rec_log_all_rounds streams clock (round + 1) rest r.2.1 r.2.2

/-- The function `rec_log_streams` for several streams: the array `ss` is
allocated with zeroes and all streams are open. -/
def rec_log_streams_all (streams : List rec_stream) (clock : Nat → timeval)
    (rounds : List (List poll_event)) : List (Nat × rec_item) :=
  rec_log_all_rounds streams clock 0 rounds (List.replicate streams.length { buffer := none })
    (List.replicate streams.length false)

/-- The lines that the handler gets for the stream with the index `i`. -/
def stream_lines (i : Nat) : List (Nat × rec_item) → List Str
  | [] => []
  | (j, .line copy _) :: rest =>
    if j == i then copy :: stream_lines i rest else stream_lines i rest
  | (_, .close) :: rest => stream_lines i rest

/-- The streams of `rec_log`. -/
def rec_log_streams_std : List rec_stream :=
  [{ name := "stderr".toList, onclose := false }, { name := "stdout".toList, onclose := false }]

/-- A run in which both streams have a partial line pending when `stdout` ends
with a hang-up, after which `stderr` gets the rest of its line and ends. -/
def hangup_rounds : List (List poll_event) :=
  [[.input [("xyz".toList, false)], .input [("abc".toList, false)]],
   [.idle, .hangup],
   [.input [("w\n".toList, false)], .idle],
   [.hangup, .idle]]

/-- The same run with the end of `stdout` reported as readable, with a `read`
that returns 0. -/
def eof_rounds : List (List poll_event) :=
  [[.input [("xyz".toList, false)], .input [("abc".toList, false)]],
   [.idle, .input []],
   [.input [("w\n".toList, false)], .idle],
   [.hangup, .idle]]

/-! ## Documents after normalisation -/

/-- The nodes that `cleanup_system` moves below the root: all that are neither
system sections nor the section `test`, in their order. -/
def top_moved (doc : List yaml_node) : List yaml_node :=
  doc.filter (fun n => !match_type_name (some n) "system".toList &&
    !match_key (some n) "test".toList)

/-- A system section with the name of the local system where it has no name. -/
def rename_system : yaml_node → yaml_node
  | .map key value => if key == "system".toList then .map SYSLOCAL value else .map key value
  | n => n

/-- The nodes that `cleanup_system` leaves at the top level: the system
sections, in their order. -/
def top_kept (doc : List yaml_node) : List yaml_node :=
  (doc.filter (fun n => match_type_name (some n) "system".toList)).map rename_system

/-- A mapping with a key `system <name>`. -/
def system_node (n : yaml_node) : Prop :=
  ∃ name value, name ≠ [] ∧ n = .map ("system ".toList ++ name) value

/-! ## Candidates and variables of rejected resources -/

/-- The requirements: a disk on the local system. -/
def local_disk_req_text : Str := "system:\n  disk x:\n".toList

/-- The resources: the local system without a disk and the system `a` with
the disk `d`. -/
def remote_disk_res_text : Str := "system localhost:\nsystem a:\n  disk d:\n".toList

/-- The documents of `local_disk_req_text` and `remote_disk_res_text` after
`get_requirements` and `get_resources`, with the types of `disk_types`. -/
def local_remote_cfg : match_cfg :=
  { path_list := disk_types
    req := (get_requirements (yaml_parse_string local_disk_req_text)).getD []
    res := (get_resources (yaml_parse_string remote_disk_res_text)).getD [] }

/-- The requirements: a disk with two tags, the first of which gives the
variable `v` its value. -/
def tags_req_text : Str :=
  "system:\n  disk d:\n    tags:\n      - %\x7bv\x7d\n      - x\n".toList

/-- The resources: the disk `A` with the tags `a` and `y` and the disk `B`
with the tags `b` and `x`. -/
def tags_res_text : Str :=
  ("system localhost:\n  disk A:\n    tags:\n      - a\n      - y\n" ++
   "  disk B:\n    tags:\n      - b\n      - x\n").toList

/-- The resources: the disk `B` of `tags_res_text` alone. -/
def tags_res_b_text : Str :=
  "system localhost:\n  disk B:\n    tags:\n      - b\n      - x\n".toList

/-- The documents of `tags_req_text` and `tags_res_text` after
`get_requirements` and `get_resources`, with the types of `disk_types`. -/
def tags_cfg : match_cfg :=
  { path_list := disk_types
    req := (get_requirements (yaml_parse_string tags_req_text)).getD []
    res := (get_resources (yaml_parse_string tags_res_text)).getD [] }

/-! ## The bookkeeping of bound resources -/

/-- The bookkeeping of the bound resources is consistent: no requirement
holds a resource twice, no resource is held by two requirements, and the flag
`assigned` of a resource is set exactly when a requirement holds it. -/
def bound_once (st : match_state) : Prop :=
  (∀ p, (st.res p).Nodup) ∧
  (∀ p1 p2 q, q ∈ st.res p1 → q ∈ st.res p2 → p1 = p2) ∧
  (∀ q, st.assigned q = true ↔ ∃ p, q ∈ st.res p)

/-- Every bound resource lies as deep in its document as the requirement that
holds it. -/
def level_bound (st : match_state) : Prop := ∀ p q, q ∈ st.res p → q.length = p.length

/-- The two states agree in the bookkeeping of all nodes above the depth `d`. -/
def frame (d : Nat) (st st1 : match_state) : Prop :=
  (∀ p, p.length < d → st1.res p = st.res p) ∧
  (∀ q, q.length < d → st1.assigned q = st.assigned q)

/-- A matching function keeps the bookkeeping consistent and leaves the nodes
above its arguments alone. -/
def keeps_bound (one : match_fn_t) : Prop :=
  ∀ (st : match_state) (req res : node_id) (b : Bool) (st1 : match_state),
    req.length = res.length → bound_once st → level_bound st →
    one st req res = some (b, st1) →
    bound_once st1 ∧ level_bound st1 ∧ frame req.length st st1

/-! ## Termination of the matching -/

mutual
/-- No sequence is in the node or below it. -/
def seq_free (node : yaml_node) : Bool :=
  match node with
  | .scalar _ => true
  | .seq _ => false
  | .map _ v => seq_free_chain v
/-- No sequence is in the chain of nodes or below it. -/
def seq_free_chain (nodes : List yaml_node) : Bool :=
  match nodes with
  | [] => true
  | n :: rest => seq_free n && seq_free_chain rest
end

/-- A chain of sequence elements, each with one scalar that is a word. -/
def word_items : List yaml_node → Bool
  | [] => true
  | .seq [.scalar w] :: rest => word_ok w && word_items rest
  | _ => false

/-- One scalar that is a word. -/
def word_scalar : List yaml_node → Bool
  | [.scalar w] => word_ok w
  | _ => false

mutual
/-- A mapping whose key is a word and whose value is absent, one scalar that
is a word, a chain of sequence elements with a word each, or a chain of such
mappings. -/
def word_node (node : yaml_node) : Bool :=
  match node with
  | .scalar _ => false
  | .seq _ => false
  | .map key value => word_ok key && (word_scalar value || word_items value || word_chain value)
/-- A chain of mappings of words. -/
def word_chain (nodes : List yaml_node) : Bool :=
  match nodes with
  | [] => true
  | n :: rest => word_node n && word_chain rest
end

/-- The text has no newline, no comment sign and no quote. -/
def plain_body (b : Str) : Prop := ∀ d ∈ b, d ≠ '\n' ∧ d ≠ '#' ∧ d ≠ dquote ∧ d ≠ squote

/-- The line that the emitter writes for a mapping, without its newline:
`suffix` is the text behind the colon. -/
def map_line (ind : Nat) (key suffix : Str) : Str := indent_str ind ++ (key ++ ':' :: suffix)

/-- The line that the emitter writes for a sequence element with the scalar
`w`, without its newline. -/
def item_line (ind : Nat) (w : Str) : Str := indent_str ind ++ '-' :: ' ' :: w

/-- The text behind the colon of a line of the emitter: nothing, or a blank
and a word. -/
def suffix_ok (suffix : Str) : Prop := suffix = [] ∨ ∃ w, word_ok w = true ∧ suffix = ' ' :: w

/-- The parser is in front of the text `T`, no line is put back. -/
def fresh (pos : filepos) (T : Str) : Prop :=
  pos.error = false ∧ pos.eof = false ∧ pos.line = none ∧ pos.fd = T

/-- The parser is in front of the text `T`, the first line of which it has
read and put back. -/
def pushed (pos : filepos) (T : Str) : Prop :=
  pos.error = false ∧ pos.eof = false ∧
    ((T = [] ∧ pos.line = none ∧ pos.fd = []) ∨
      ∃ b rest, plain_body b ∧ T = b ++ '\n' :: rest ∧ pos.line = some b ∧ pos.fd = rest)

/-- The parser is in front of the text `T`. -/
def starts (pos : filepos) (T : Str) : Prop := fresh pos T ∨ pushed pos T

/-- The text ends a block of the indentation `bi`: it is empty or it starts
with the line of a mapping that is indented less. -/
def block_tail (bi : Nat) (tail : Str) : Prop :=
  tail = [] ∨ ∃ ind key suffix rest, ind < bi ∧ word_ok key = true ∧ suffix_ok suffix ∧
    tail = map_line ind key suffix ++ '\n' :: rest

/-- The variables `root` and `prev` of `_parse` in front of a node of the
type `t`: no node yet, or the last node of the chain, of this type. -/
def linkable (t : yaml_type) (root : List yaml_node) (prev : prev_t) : Prop :=
  (root = [] ∧ prev = none) ∨ (root ≠ [] ∧ prev = some (t, true))

/-- A document of words with all kinds of values: a nested mapping, a
scalar, no value and a list of sequence elements. -/
def nested_doc : List yaml_node :=
  [.map "a".toList
      [.map "b".toList [.scalar "x".toList], .map "c".toList [],
        .map "d".toList [.seq [.scalar "p".toList], .seq [.scalar "q".toList]]],
    .map "e".toList []]

/-- The node `p` lies below the node `P`: it is a child of `P` or lies below
a child of `P`. -/
def sbelow (P p : node_id) : Prop := ∃ i : Nat, (i :: P) <:+ p

/-- The three facts on the lists of bound resources after the nodes from
`i :: par` on and the nodes below them have been unassigned. -/
def cleared (doc : List yaml_node) (st st1 : match_state) (i : Nat) (par : node_id) : Prop :=
  (∀ x, (∀ i1, i ≤ i1 → ¬ (i1 :: par) <:+ x) → st1.res x = st.res x)
  ∧ (∀ x, st1.res x = [] ∨ st1.res x = st.res x)
  ∧ (∀ x i1, i ≤ i1 → (i1 :: par) <:+ x → (yaml_deref doc x).isSome = true → st1.res x = [])

mutual
/-- A requirement node without sequences, without wildcard keys and without
attribute variables, at any depth. -/
def plain_node (n : yaml_node) : Bool :=
  match n with
  | .scalar c => no_percent c
  | .seq _ => false
  | .map key v => !misc_ends_with key [' ', '*'] && plain_chain v
/-- A chain of requirement nodes without sequences, without wildcard keys and
without attribute variables, at any depth. -/
def plain_chain (nodes : List yaml_node) : Bool :=
  match nodes with
  | [] => true
  | n :: rest => plain_node n && plain_chain rest
end

/-- The resource `j` of the list below `sp` is compatible with the
requirement `i` of the list below `rp`: it has the type word of the requirement
and it is the local system exactly when the requirement is. -/
def compatible (cfg : match_cfg) (rp sp : node_id) (i j : Nat) : Prop :=
  word_of (yaml_deref cfg.res (j :: sp)) = word_of (yaml_deref cfg.req (i :: rp))
  ∧ is_syslocal (yaml_deref cfg.res (j :: sp)) = is_syslocal (yaml_deref cfg.req (i :: rp))

/-- Behind a resource that is compatible with a requirement, the resources
of the list with the type word of the requirement are compatible with it as
well. -/
def compatible_behind (cfg : match_cfg) (rp sp : node_id) : Prop :=
  ∀ i j0 j, j0 ≤ j → compatible cfg rp sp i j0 →
    word_of (yaml_deref cfg.res (j :: sp)) = word_of (yaml_deref cfg.req (i :: rp)) →
    is_syslocal (yaml_deref cfg.res (j :: sp)) = is_syslocal (yaml_deref cfg.req (i :: rp))

/-- The requirements: the local system with disk `d1` of at least 1G and disk
`d2` of at least 2G. -/
def disks_req : List yaml_node :=
  [.map SYSLOCAL [.map "disk d1".toList [.map "size".toList [.scalar ">=1G".toList]],
    .map "disk d2".toList [.map "size".toList [.scalar ">=2G".toList]]]]

/-- The resources: the local system with disk `b` of 2G and disk `a` of
1G. -/
def disks_rev : List yaml_node :=
  [.map SYSLOCAL [.map "disk b".toList [.map "size".toList [.scalar "2G".toList]],
    .map "disk a".toList [.map "size".toList [.scalar "1G".toList]]]]

theorem digit_val_digit_char (d : Nat) (h : d < 10) : digit_val (digit_char d) = some d := by
  interval_cases d <;> rfl

theorem isspace_digit_char (d : Nat) (h : d < 10) : isspace (digit_char d) = false := by
  interval_cases d <;> rfl

theorem show_nat_aux_eq (n : Nat) : ∀ fuel acc, n < fuel →
    show_nat_aux fuel n acc = show_nat n ++ acc := by
  induction n using Nat.strong_induction_on with
  | _ n ih =>
    intro fuel acc hf
    obtain ⟨f, rfl⟩ : ∃ f, fuel = f + 1 := ⟨fuel - 1, by omega⟩
    by_cases h10 : n < 10
    · simp [show_nat, show_nat_aux, h10]
    · have hlt : n / 10 < n := Nat.div_lt_self (by omega) (by omega)
      have e1 : show_nat_aux (f + 1) n acc
          = show_nat_aux f (n / 10) (digit_char (n % 10) :: acc) := by
        simp [show_nat_aux, h10]
      have e2 : show_nat n = show_nat_aux n (n / 10) [digit_char (n % 10)] := by
        simp [show_nat, show_nat_aux, h10]
      rw [e1, e2, ih _ hlt f _ (by omega), ih _ hlt n _ hlt]
      simp

theorem show_nat_small (n : Nat) (h : n < 10) : show_nat n = [digit_char n] := by
  simp [show_nat, show_nat_aux, h]

theorem show_nat_big (n : Nat) (h : 10 ≤ n) :
    show_nat n = show_nat (n / 10) ++ [digit_char (n % 10)] := by
  have hlt : n / 10 < n := Nat.div_lt_self (by omega) (by omega)
  have e2 : show_nat n = show_nat_aux n (n / 10) [digit_char (n % 10)] := by
    simp [show_nat, show_nat_aux, Nat.not_lt.mpr h]
  rw [e2, show_nat_aux_eq _ _ _ hlt]

theorem strtol_digits_stop (base : Nat) (hb : base ≤ 10) (rest : Str) (h : num_end rest = true)
    (acc k : Nat) : strtol_digits base rest acc k = (acc, k, rest) := by
  cases rest with
  | nil => rfl
  | cons c r =>
    unfold strtol_digits
    cases hd : digit_val c with
    | none => rfl
    | some d =>
      have : 10 ≤ d := by
        simp only [num_end, hd, Bool.and_eq_true, decide_eq_true_eq] at h
        exact h.1.1
      simp only []
      rw [if_neg (by omega)]

theorem num_end_not_x (c : Char) (r : Str) (h : num_end (c :: r) = true) :
    (c == 'x') = false ∧ (c == 'X') = false := by
  simp only [num_end, Bool.and_eq_true, bne_iff_ne, ne_eq] at h
  exact ⟨by simpa using h.1.2, by simpa using h.2⟩

theorem strtol_digits_show_nat (n : Nat) : ∀ (rest : Str) (acc k : Nat),
    strtol_digits 10 (show_nat n ++ rest) acc k
      = strtol_digits 10 rest (acc * 10 ^ (show_nat n).length + n) (k + (show_nat n).length) := by
  induction n using Nat.strong_induction_on with
  | _ n ih =>
    intro rest acc k
    by_cases h10 : n < 10
    · rw [show_nat_small n h10]
      simp only [List.singleton_append, List.length_singleton, pow_one]
      rw [strtol_digits]
      simp [digit_val_digit_char n h10, h10]
    · have hlt : n / 10 < n := Nat.div_lt_self (by omega) (by omega)
      have hm : n % 10 < 10 := Nat.mod_lt _ (by omega)
      rw [show_nat_big n (by omega), List.append_assoc, ih _ hlt]
      simp only [List.singleton_append, List.length_append, List.length_singleton]
      rw [strtol_digits]
      simp only [digit_val_digit_char _ hm, hm, if_true]
      congr 1
      · have := Nat.div_add_mod n 10
        rw [pow_succ]
        nlinarith [Nat.div_add_mod n 10]

theorem show_nat_length_pos (n : Nat) : 0 < (show_nat n).length := by
  by_cases h10 : n < 10
  · rw [show_nat_small n h10]; simp
  · rw [show_nat_big n (by omega)]; simp

theorem show_nat_digits (n : Nat) : ∀ c ∈ show_nat n, ∃ d, d < 10 ∧ c = digit_char d := by
  induction n using Nat.strong_induction_on with
  | _ n ih =>
    intro c hc
    by_cases h10 : n < 10
    · rw [show_nat_small n h10] at hc
      exact ⟨n, h10, by simpa using hc⟩
    · have hlt : n / 10 < n := Nat.div_lt_self (by omega) (by omega)
      rw [show_nat_big n (by omega)] at hc
      rcases List.mem_append.mp hc with h | h
      · exact ih _ hlt c h
      · exact ⟨n % 10, Nat.mod_lt _ (by omega), by simpa using h⟩

/-- The first digit of a positive number is not zero. -/
theorem show_nat_head (n : Nat) (hn : 0 < n) :
    ∃ d r, 1 ≤ d ∧ d < 10 ∧ show_nat n = digit_char d :: r := by
  induction n using Nat.strong_induction_on with
  | _ n ih =>
    by_cases h10 : n < 10
    · exact ⟨n, [], hn, h10, show_nat_small n h10⟩
    · have hlt : n / 10 < n := Nat.div_lt_self (by omega) (by omega)
      obtain ⟨d, r, h1, h2, h3⟩ := ih _ hlt (Nat.div_pos (by omega) (by omega))
      exact ⟨d, r ++ [digit_char (n % 10)], h1, h2, by rw [show_nat_big n (by omega), h3]; rfl⟩

theorem strtol_hex_show_nat (base n : Nat) (rest : Str) (h : num_end rest = true) :
    strtol_hex base (show_nat n ++ rest) = none := by
  rcases Nat.eq_zero_or_pos n with h0 | hpos
  · subst h0
    have e : show_nat 0 = ['0'] := rfl
    rw [e]
    cases rest with
    | nil => rfl
    | cons x r =>
      have hx := num_end_not_x x r h
      cases r with
      | nil => rfl
      | cons y r2 =>
        simp only [List.singleton_append, strtol_hex]
        simp [hx.1, hx.2]
  · obtain ⟨d, r, h1, h2, h3⟩ := show_nat_head n hpos
    rw [h3]
    have hd : (digit_char d == '0') = false := by
      interval_cases d <;> rfl
    rcases hr : r ++ rest with _ | ⟨x, _ | ⟨y, t⟩⟩
    · simp [strtol_hex, hr]
    · simp [strtol_hex, hr]
    · simp [strtol_hex, hr, hd]

theorem strtol_body_show_nat (neg : Bool) (n : Nat) (rest : Str) (h : num_end rest = true) :
    strtol_body 0 neg (show_nat n ++ rest) = some (strtol_clamp neg n, rest) := by
  unfold strtol_body
  rw [strtol_hex_show_nat 0 n rest h]
  rcases Nat.eq_zero_or_pos n with h0 | hpos
  · subst h0
    have e : show_nat 0 = ['0'] := rfl
    rw [e]
    have e2 : strtol_digits 8 ('0' :: rest) 0 0 = (0, 1, rest) := by
      rw [strtol_digits]
      have : digit_val '0' = some 0 := rfl
      simp only [this]
      exact strtol_digits_stop 8 (by omega) rest h _ _
    simp [misc_starts_with, e2]
  · obtain ⟨d, r, h1, h2, h3⟩ := show_nat_head n hpos
    have hd : (digit_char d == '0') = false := by
      interval_cases d <;> rfl
    have hs : misc_starts_with (show_nat n ++ rest) ['0'] = false := by
      rw [h3]; simp [misc_starts_with, hd]
    simp only [hs]
    rw [show (if (0 : Nat) == 0 then (if false = true then 8 else 10) else 0) = 10 from rfl]
    rw [strtol_digits_show_nat, strtol_digits_stop 10 (by omega) rest h]
    have := show_nat_length_pos n
    have hne : ((0 + (show_nat n).length == 0) = false) := by
      rw [beq_eq_false_iff_ne]; omega
    simp only [hne]
    simp

theorem show_nat_cons (n : Nat) : ∃ d r, d < 10 ∧ show_nat n = digit_char d :: r := by
  rcases Nat.eq_zero_or_pos n with h0 | hpos
  · exact ⟨0, [], by omega, by subst h0; rfl⟩
  · obtain ⟨d, r, _, h2, h3⟩ := show_nat_head n hpos
    exact ⟨d, r, h2, h3⟩

theorem misc_skip_space_cons (c : Char) (r : Str) (h : isspace c = false) :
    misc_skip_space (c :: r) = c :: r := by
  simp [misc_skip_space, h]

theorem strtol_minus (u : Str) (base : Nat) (v : Int) (rest : Str)
    (h : strtol_body base true u = some (v, rest)) : strtol ('-' :: u) base = (v, rest) := by
  have hs : isspace '-' = false := rfl
  have e : misc_skip_space ('-' :: u) = '-' :: u := misc_skip_space_cons _ _ hs
  unfold strtol
  rw [e]
  have h1 : ((('-' :: u).head? == some '-') = true) := rfl
  simp only [h1, Bool.true_or, if_true, List.tail_cons, h]

theorem strtol_plain (c : Char) (r : Str) (base : Nat) (v : Int) (rest : Str)
    (hs : isspace c = false) (hm : (c == '-') = false) (hp : (c == '+') = false)
    (h : strtol_body base false (c :: r) = some (v, rest)) :
    strtol (c :: r) base = (v, rest) := by
  have e : misc_skip_space (c :: r) = c :: r := misc_skip_space_cons _ _ hs
  unfold strtol
  rw [e]
  have h1 : (((c :: r).head? == some '-') = false) := by
    simpa using hm
  have h2 : (((c :: r).head? == some '+') = false) := by
    simpa using hp
  simp only [h1, h2, Bool.or_self, Bool.false_eq_true, if_false, h]

/-- `strtol` with base 0 reads back what `printf("%ld")` writes. -/
theorem strtol_show_int (n : Int) (hn : LONG_MIN ≤ n ∧ n ≤ LONG_MAX) (rest : Str)
    (h : num_end rest = true) : strtol (show_int n ++ rest) 0 = (n, rest) := by
  obtain ⟨d, r, hd, hr⟩ := show_nat_cons n.natAbs
  have hsp : isspace (digit_char d) = false := isspace_digit_char d hd
  have hm : (digit_char d == '-') = false := by interval_cases d <;> rfl
  have hp : (digit_char d == '+') = false := by interval_cases d <;> rfl
  unfold LONG_MIN LONG_MAX at hn
  by_cases hneg : n < 0
  · have e : show_int n ++ rest = '-' :: (show_nat n.natAbs ++ rest) := by
      simp [show_int, hneg]
    rw [e]
    apply strtol_minus
    rw [strtol_body_show_nat true _ rest h]
    have : ((n.natAbs : Int) ≤ 2 ^ 63) := by omega
    simp only [strtol_clamp, this, if_true]
    congr 2
    omega
  · have e : show_int n ++ rest = show_nat n.natAbs ++ rest := by
      simp [show_int, hneg]
    rw [e]
    have hb := strtol_body_show_nat false n.natAbs rest h
    rw [hr] at hb ⊢
    apply strtol_plain _ _ _ _ _ hsp hm hp
    rw [List.cons_append] at hb
    show strtol_body 0 false (digit_char d :: (r ++ rest)) = some (n, rest)
    rw [hb]
    have : ((n.natAbs : Int) ≤ LONG_MAX) := by unfold LONG_MAX; omega
    simp only [strtol_clamp, Bool.false_eq_true, if_false, this, if_true]
    congr 2
    omega

/-! ## Parsing a quoted scalar -/

theorem plain_text_mem (s : Str) (h : plain_text s = true) :
    ∀ c ∈ s, c ≠ dquote ∧ c ≠ bslash ∧ c ≠ '\n' := by
  intro c hc
  have := List.all_eq_true.mp h c hc
  simpa [Bool.and_eq_true, and_assoc] using this

theorem strchr_none (c : Char) (l : Str) (h : c ∉ l) : strchr c l = none := by
  induction l with
  | nil => rfl
  | cons d r ih =>
    have hd : (d == c) = false := by
      rw [beq_eq_false_iff_ne]; intro e; exact h (by simp [e])
    have hr : c ∉ r := fun e => h (by simp [e])
    simp [strchr, hd, ih hr]

theorem takeWhile_no_newline (l : Str) (h : '\n' ∉ l) :
    l.takeWhile (fun c => c != '\n') = l := by
  rw [List.takeWhile_eq_self_iff]
  intro c hc
  simp only [bne_iff_ne, ne_eq]
  intro e; exact h (e ▸ hc)

theorem scan_in_dquote (c : Char) (s : Str) (h : plain_text s = true) :
    strchr_unquoted_scan c (s ++ [dquote]) (some dquote) false = none := by
  induction s with
  | nil =>
    have h1 : (dquote == bslash) = false := rfl
    simp [strchr_unquoted_scan, h1]
  | cons d r ih =>
    have hd := plain_text_mem _ h d (by simp)
    have h1 : (d == bslash) = false := by rw [beq_eq_false_iff_ne]; exact hd.2.1
    have h2 : (d == dquote) = false := by rw [beq_eq_false_iff_ne]; exact hd.1
    have hr : plain_text r = true := by
      simp only [plain_text, List.all_cons, Bool.and_eq_true] at h ⊢
      exact h.2
    simp [strchr_unquoted_scan, h1, h2, ih hr]

theorem strchr_unquoted_quoted (c : Char) (s : Str) (h : plain_text s = true) (hc : c ≠ dquote) :
    strchr_unquoted (dquote :: s ++ [dquote]) c = none := by
  have h1 : (dquote == c) = false := by rw [beq_eq_false_iff_ne]; exact fun e => hc e.symm
  simp [strchr_unquoted, strchr_unquoted_scan, h1, scan_in_dquote c s h]

theorem misc_strip_space_snoc (l : Str) (c : Char) (h : isspace c = false) :
    misc_strip_space (l ++ [c]) = l ++ [c] := by
  simp [misc_strip_space, misc_skip_space, h]

theorem replace_double_quote_map_id (s : Str) (h : bslash ∉ s) :
    replace_double_quote_map s = s := by
  induction s with
  | nil => rfl
  | cons c r ih =>
    have hc : (c == bslash) = false := by
      rw [beq_eq_false_iff_ne]; intro e; exact h (by simp [e])
    have hr : bslash ∉ r := fun e => h (by simp [e])
    cases r with
    | nil => rfl
    | cons d t =>
      simp only [replace_double_quote_map, hc, Bool.false_and, Bool.false_eq_true, if_false]
      rw [ih hr]

theorem misc_unquote_quoted (s : Str) (h : plain_text s = true) :
    misc_unquote (dquote :: s ++ [dquote]) = (s, true) := by
  have hb : bslash ∉ s := fun e => (plain_text_mem _ h _ e).2.1 rfl
  have h1 : (dquote != squote && dquote != dquote) = false := rfl
  have h2 : (dquote == squote) = false := rfl
  simp [misc_unquote, h1, h2, replace_double_quote_map_id s hb]

theorem getline_one_line (l : Str) (hne : l ≠ []) (h : '\n' ∉ l) : getline l = some (l, []) := by
  cases l with
  | nil => exact absurd rfl hne
  | cons c r => simp [getline, strchr_none '\n' (c :: r) h]

theorem find_map_quoted (s : Str) (h : plain_text s = true) :
    find_map (dquote :: s ++ [dquote]) = none := by
  have := strchr_unquoted_quoted ':' s h (by decide)
  simp only [List.cons_append] at this
  simp [find_map, this]

theorem quoted_no_newline (s : Str) (h : plain_text s = true) :
    '\n' ∉ (dquote :: s ++ [dquote]) := by
  intro hm
  simp only [List.cons_append, List.mem_cons, List.mem_append, List.mem_singleton] at hm
  rcases hm with e | e | e
  · exact absurd e (by decide)
  · exact (plain_text_mem _ h _ e).2.2 rfl
  · exact absurd e (by decide)

theorem line_action_quoted (s : Str) (h : plain_text s = true) :
    line_action_of (dquote :: s ++ [dquote]) 0 none = .scalar s := by
  have hnl := quoted_no_newline s h
  have htw := takeWhile_no_newline _ hnl
  have hcm := strchr_unquoted_quoted '#' s h (by decide)
  have hfm := find_map_quoted s h
  have hst : misc_strip_space (dquote :: s ++ [dquote]) = dquote :: s ++ [dquote] := by
    have := misc_strip_space_snoc (dquote :: s) dquote rfl
    simpa using this
  have huq := misc_unquote_quoted s h
  have hcl : clean_line (dquote :: s ++ [dquote]) = dquote :: (s ++ [dquote]) := by
    simp only [clean_line, htw, hcm]; rfl
  have hd1 : (dquote == '-') = false := rfl
  have hd2 : (dquote == '.') = false := rfl
  have hd3 : (dquote == '\t') = false := rfl
  have hci : count_indent (dquote :: (s ++ [dquote])) = 0 := rfl
  simp only [List.cons_append] at hfm hst huq
  simp only [line_action_of, hcl, misc_starts_with, hd1, hd2, hd3, hci, List.drop_zero,
    Bool.false_and, Bool.false_eq_true, if_false, hfm, prev_differs, hst, unquote_string, huq,
    Nat.lt_irrefl]

/-- Parsing one double-quoted plain text yields the scalar with that text. -/
theorem parse_quoted (s : Str) (h : plain_text s = true) :
    yaml_parse_string (dquote :: s ++ [dquote]) = [.scalar s] := by
  have hnl := quoted_no_newline s h
  have hfuel : 2 * (dquote :: s ++ [dquote]).length + 4 = (2 * s.length + 6) + 1 + 1 := by
    simp; omega
  have hgl := getline_one_line (dquote :: s ++ [dquote]) (by simp) hnl
  have hla := line_action_quoted s h
  unfold yaml_parse_string yaml_parse_stream
  rw [hfuel]
  rw [_parse]
  simp only [pos_getline, hgl, hla, Bool.or_self, Bool.false_eq_true, if_false, parse_link]
  rw [_parse]
  simp [pos_getline, getline]

/-! ## Requirements without attribute variables -/

theorem strstr_no_percent (s : Str) (h : no_percent s = true) :
    strstr ['%', '\x7b'] s = none := by
  induction s with
  | nil => rfl
  | cons c r ih =>
    simp only [no_percent, List.all_cons, Bool.and_eq_true, bne_iff_ne, ne_eq] at h
    have hc : (c == '%') = false := by rw [beq_eq_false_iff_ne]; exact h.1
    have hr : no_percent r = true := h.2
    simp [strstr, misc_starts_with, hc, ih hr]

theorem scan_attr_var_none (s : Str) (h : no_percent s = true) : scan_attr_var s = none := by
  simp [scan_attr_var, strstr_no_percent s h]

theorem parse_op_drop (s : Str) : ∃ k, (parse_op s).2 = s.drop k := by
  unfold parse_op
  split
  · exact ⟨2, rfl⟩
  · exact ⟨2, rfl⟩
  · exact ⟨1, rfl⟩
  · exact ⟨2, rfl⟩
  · exact ⟨1, rfl⟩
  · exact ⟨0, rfl⟩

theorem no_percent_drop (s : Str) (k : Nat) (h : no_percent s = true) :
    no_percent (s.drop k) = true := by
  simp only [no_percent, List.all_eq_true] at h ⊢
  intro c hc
  exact h c (List.mem_of_mem_drop hc)

theorem assign_attr_var_none (vars : List attr_var) (req res : Str) (node : node_id)
    (h : no_percent req = true) : assign_attr_var vars req res node = (false, vars) := by
  obtain ⟨k, hk⟩ := parse_op_drop req
  have := scan_attr_var_none _ (no_percent_drop req k h)
  unfold assign_attr_var
  split
  · rfl
  · rw [hk, this]

theorem resolve_attr_var_id (vars : List attr_var) (req : Str) (h : no_percent req = true) :
    resolve_attr_var vars req = some req := by
  simp [resolve_attr_var, resolve_attr_var_loop, scan_attr_var_none req h]

theorem wrap_long_id (x : Int) (h : LONG_MIN ≤ x ∧ x ≤ LONG_MAX) : wrap_long x = x := by
  unfold LONG_MIN LONG_MAX at h
  unfold wrap_long
  by_cases hx : 0 ≤ x
  · have h1 : x % 2 ^ 64 = x := Int.emod_eq_of_lt hx (by omega)
    simp only [h1]
    rw [if_pos (by omega)]
  · have h1 : x % 2 ^ 64 = x + 2 ^ 64 := by
      have : (x + 2 ^ 64) % 2 ^ 64 = x + 2 ^ 64 := Int.emod_eq_of_lt (by omega) (by omega)
      rw [← this]
      simp
    simp only [h1]
    rw [if_neg (by omega)]
    omega

theorem show_int_ne_nil (n : Int) : show_int n ≠ [] := by
  unfold show_int
  split
  · simp
  · have := show_nat_length_pos n.natAbs
    intro e; rw [e] at this; simp at this

/-- The value of `match_number` for a requirement `[op] n [scale]` and a
resource `v [scale]` whose products fit in a `long`. -/
theorem match_number_str_eval (vars : List attr_var) (node : node_id) (optext s1 s2 : Str)
    (op : op_t) (n v : Int) (f1 f2 : Nat)
    (hop : parse_op (optext ++ (show_int n ++ s1)) = (op, show_int n ++ s1))
    (hpc : no_percent (optext ++ (show_int n ++ s1)) = true)
    (he1 : num_end s1 = true) (he2 : num_end s2 = true)
    (hf1 : (parse_scale (misc_skip_space s1)).1 = f1)
    (hf2 : (parse_scale (misc_skip_space s2)).1 = f2)
    (hn : LONG_MIN ≤ n * f1 ∧ n * f1 ≤ LONG_MAX) (hv : LONG_MIN ≤ v * f2 ∧ v * f2 ≤ LONG_MAX)
    (hn0 : LONG_MIN ≤ n ∧ n ≤ LONG_MAX) (hv0 : LONG_MIN ≤ v ∧ v ≤ LONG_MAX) :
    match_number_str vars node (optext ++ (show_int n ++ s1)) (show_int v ++ s2)
      = (cmp_number (v * f2) (n * f1) op, vars) := by
  have hl1 : ((s1.length == (show_int n ++ s1).length) = false) := by
    rw [beq_eq_false_iff_ne]
    have := List.length_pos.mpr (show_int_ne_nil n)
    simp only [List.length_append]; omega
  have hl2 : ((s2.length == (show_int v ++ s2).length) = false) := by
    rw [beq_eq_false_iff_ne]
    have := List.length_pos.mpr (show_int_ne_nil v)
    simp only [List.length_append]; omega
  simp only [match_number_str, assign_attr_var_none vars _ _ node hpc, Bool.false_eq_true,
    if_false, resolve_attr_var_id vars _ hpc, hop, strtol_show_int n hn0 s1 he1,
    strtol_show_int v hv0 s2 he2, hl1, hl2, hf1, hf2, wrap_long_id _ hn, wrap_long_id _ hv]

theorem res_eval_number (req res : Str) (hp1 : plain_text req = true)
    (hp2 : plain_text res = true) :
    res_eval "number".toList req res = some (match_number_str [] [0] req res).1 := by
  have h1 : yaml_parse_string (dquote :: req ++ [dquote]) = [.scalar req] := parse_quoted req hp1
  have h2 : yaml_parse_string (dquote :: res ++ [dquote]) = [.scalar res] := parse_quoted res hp2
  have h : id_to_type_idx "number".toList = some .number := by decide
  unfold res_eval
  rw [h1, h2, h]
  rfl

theorem res_eval_version (req res : Str) (hp1 : plain_text req = true)
    (hp2 : plain_text res = true) :
    res_eval "version".toList req res = some (match_version_str [] [0] req res).1 := by
  have h1 : yaml_parse_string (dquote :: req ++ [dquote]) = [.scalar req] := parse_quoted req hp1
  have h2 : yaml_parse_string (dquote :: res ++ [dquote]) = [.scalar res] := parse_quoted res hp2
  have h : id_to_type_idx "version".toList = some .version := by decide
  unfold res_eval
  rw [h1, h2, h]
  rfl

theorem show_int_chars (n : Int) : ∀ c ∈ show_int n, c ∈ num_chars := by
  intro c hc
  have hd : ∀ c ∈ show_nat n.natAbs, c ∈ num_chars := by
    intro c hc
    obtain ⟨d, hd, rfl⟩ := show_nat_digits _ c hc
    interval_cases d <;> decide
  unfold show_int at hc
  split at hc
  · rcases List.mem_cons.mp hc with e | e
    · subst e; decide
    · exact hd c e
  · exact hd c hc

theorem all_of_num_chars (p : Char → Bool) (hp : num_chars.all p = true) (n : Int) :
    (show_int n).all p = true := by
  rw [List.all_eq_true] at hp ⊢
  intro c hc
  exact hp c (show_int_chars n c hc)

theorem plain_text_show_int (n : Int) : plain_text (show_int n) = true :=
  all_of_num_chars _ (by decide) n

theorem no_percent_show_int (n : Int) : no_percent (show_int n) = true :=
  all_of_num_chars _ (by decide) n

theorem show_int_cons (n : Int) : ∃ c r, show_int n = c :: r ∧ c ∈ num_chars := by
  cases h : show_int n with
  | nil => exact absurd h (show_int_ne_nil n)
  | cons c r => exact ⟨c, r, rfl, show_int_chars n c (by rw [h]; simp)⟩

theorem parse_op_num (n : Int) (rest : Str) :
    parse_op (show_int n ++ rest) = (op_none, show_int n ++ rest)
    ∧ parse_op ('<' :: (show_int n ++ rest)) = (op_lt, show_int n ++ rest)
    ∧ parse_op ('>' :: (show_int n ++ rest)) = (op_gt, show_int n ++ rest) := by
  obtain ⟨c, r, h, hc⟩ := show_int_cons n
  rw [h]
  simp only [num_chars, List.mem_cons, List.mem_singleton, List.not_mem_nil, or_false] at hc
  rcases hc with e | e | e | e | e | e | e | e | e | e | e <;> subst e <;> exact ⟨rfl, rfl, rfl⟩

theorem scale_table_facts : ∀ p ∈ scale_table,
    num_end p.1 = true ∧ (parse_scale (misc_skip_space p.1)).1 = p.2 ∧
    plain_text p.1 = true ∧ no_percent p.1 = true := by
  decide

theorem plain_text_append (a b : Str) (ha : plain_text a = true) (hb : plain_text b = true) :
    plain_text (a ++ b) = true := by
  simp only [plain_text, List.all_append, Bool.and_eq_true] at *
  exact ⟨ha, hb⟩

theorem no_percent_append (a b : Str) (ha : no_percent a = true) (hb : no_percent b = true) :
    no_percent (a ++ b) = true := by
  simp only [no_percent, List.all_append, Bool.and_eq_true] at *
  exact ⟨ha, hb⟩

/-- The value of `res_eval` for the type `number`, a requirement
`[op] n [scale]` and a resource `v [scale]`. -/
theorem res_eval_number_eval (optext s1 s2 : Str) (op : op_t) (n v : Int) (f1 f2 : Nat)
    (hop : parse_op (optext ++ (show_int n ++ s1)) = (op, show_int n ++ s1))
    (hpo : plain_text optext = true) (hno : no_percent optext = true)
    (h1 : (s1, f1) ∈ scale_table) (h2 : (s2, f2) ∈ scale_table)
    (hn : LONG_MIN ≤ n * f1 ∧ n * f1 ≤ LONG_MAX) (hv : LONG_MIN ≤ v * f2 ∧ v * f2 ≤ LONG_MAX)
    (hn0 : LONG_MIN ≤ n ∧ n ≤ LONG_MAX) (hv0 : LONG_MIN ≤ v ∧ v ≤ LONG_MAX) :
    res_eval "number".toList (optext ++ (show_int n ++ s1)) (show_int v ++ s2)
      = some (cmp_number (v * f2) (n * f1) op) := by
  obtain ⟨e1, g1, p1, q1⟩ := scale_table_facts _ h1
  obtain ⟨e2, g2, p2, q2⟩ := scale_table_facts _ h2
  rw [res_eval_number _ _
    (plain_text_append _ _ hpo (plain_text_append _ _ (plain_text_show_int n) p1))
    (plain_text_append _ _ (plain_text_show_int v) p2)]
  rw [match_number_str_eval [] [0] optext s1 s2 op n v f1 f2 hop
    (no_percent_append _ _ hno (no_percent_append _ _ (no_percent_show_int n) q1))
    e1 e2 g1 g2 hn hv hn0 hv0]

theorem scale_fits (n : Int) (f : Nat) (s : Str) (h : (s, f) ∈ scale_table)
    (hn : LONG_MIN ≤ n * f ∧ n * f ≤ LONG_MAX) : LONG_MIN ≤ n ∧ n ≤ LONG_MAX := by
  have hf : 1 ≤ (f : Int) := by
    have : ∀ p ∈ scale_table, 1 ≤ p.2 := by decide
    exact_mod_cast this _ h
  unfold LONG_MIN LONG_MAX at *
  constructor
  · by_contra hc
    push_neg at hc
    nlinarith
  · by_contra hc
    push_neg at hc
    nlinarith

/-- C5: for the type `number` a scale suffix on the requirement or on the
resource value multiplies that value before the comparison, by the decimal
power for k, m, g, t and by the binary power for ki, mi, gi, ti, in either
letter case: whenever the scaled values fit in a signed 64-bit integer, the
requirement `>=` n s1 matches the resource v s2 exactly when
v * factor(s2) >= n * factor(s1).  So `>=1gi` matches 1073741824 and `>=1g`
does not match 999999999. -/
theorem C5_number_scale :
    (∀ (n v : Int) (s1 s2 : Str) (f1 f2 : Nat),
      (s1, f1) ∈ scale_table → (s2, f2) ∈ scale_table →
      LONG_MIN ≤ n * f1 ∧ n * f1 ≤ LONG_MAX → LONG_MIN ≤ v * f2 ∧ v * f2 ≤ LONG_MAX →
      res_eval "number".toList (">=".toList ++ (show_int n ++ s1)) (show_int v ++ s2)
        = some (decide (v * f2 ≥ n * f1)))
    ∧ res_eval "number".toList ">=1gi".toList "1073741824".toList = some true
    ∧ res_eval "number".toList ">=1g".toList "999999999".toList = some false := by
  refine ⟨?_, by decide, by decide⟩
  intro n v s1 s2 f1 f2 h1 h2 hn hv
  exact res_eval_number_eval ">=".toList s1 s2 op_ge n v f1 f2 rfl (by decide) (by decide) h1 h2
    hn hv (scale_fits n f1 s1 h1 hn) (scale_fits v f2 s2 h2 hv)

/-- Witness of C5: the requirement `>=3Ki` and the resource `4k`. -/
theorem C5_number_scale_witness :
    res_eval "number".toList (">=".toList ++ (show_int 3 ++ "Ki".toList))
      (show_int 4 ++ "k".toList) = some (decide ((4 : Int) * (1000 : Nat) ≥ 3 * (1024 : Nat))) :=
  C5_number_scale.1 3 4 "Ki".toList "k".toList 1024 1000 (by decide) (by decide)
    (by decide) (by decide)

/-- Counterexample to C6 as stated: the operator written `=` is not accepted,
the requirement `=5` does not match the resource value 5. -/
theorem C6_counterexample :
    res_eval "number".toList "=5".toList "5".toList = some false ∧ (5 : Int) = 5 := by
  decide

theorem strtol_eq_sign (rest : Str) : strtol ('=' :: rest) 0 = (0, '=' :: rest) := by
  have hs : isspace '=' = false := rfl
  have e : misc_skip_space ('=' :: rest) = '=' :: rest := misc_skip_space_cons _ _ hs
  have hb : strtol_body 0 false ('=' :: rest) = none := by
    have hh : strtol_hex 0 ('=' :: rest) = none := by
      rcases rest with _ | ⟨x, _ | ⟨y, t⟩⟩ <;> simp [strtol_hex]
    have hd : digit_val '=' = none := rfl
    simp [strtol_body, hh, misc_starts_with, strtol_digits, hd]
  unfold strtol
  rw [e]
  have h1 : ((('=' :: rest).head? == some '-') = false) := rfl
  have h2 : ((('=' :: rest).head? == some '+') = false) := rfl
  simp only [h1, h2, Bool.or_self, Bool.false_eq_true, if_false, hb]

/-- C6, amended: a number requirement has the form [OP] value with OP one of
`!=`, `<`, `<=`, `>`, `>=`; for all integers n and m that fit in a signed
64-bit integer `res_eval("number", OP n, m)` reports a match exactly when
m OP n holds (resource value on the left), a requirement without operator
tests m = n, and a requirement written with `=` matches nothing. -/
theorem C6_number_operators (n m : Int) (hn : LONG_MIN ≤ n ∧ n ≤ LONG_MAX)
    (hm : LONG_MIN ≤ m ∧ m ≤ LONG_MAX) :
    res_eval "number".toList (show_int n) (show_int m) = some (decide (m = n))
    ∧ res_eval "number".toList ("!=".toList ++ show_int n) (show_int m) = some (decide (m ≠ n))
    ∧ res_eval "number".toList ("<".toList ++ show_int n) (show_int m) = some (decide (m < n))
    ∧ res_eval "number".toList ("<=".toList ++ show_int n) (show_int m) = some (decide (m ≤ n))
    ∧ res_eval "number".toList (">".toList ++ show_int n) (show_int m) = some (decide (m > n))
    ∧ res_eval "number".toList (">=".toList ++ show_int n) (show_int m) = some (decide (m ≥ n))
    ∧ res_eval "number".toList ("=".toList ++ show_int n) (show_int m) = some false := by
  have key : ∀ (optext : Str) (op : op_t),
      parse_op (optext ++ (show_int n ++ [])) = (op, show_int n ++ []) →
      plain_text optext = true → no_percent optext = true →
      res_eval "number".toList (optext ++ show_int n) (show_int m) = some (cmp_number m n op) := by
    intro optext op hop hp hq
    have := res_eval_number_eval optext [] [] op n m 1 1 hop hp hq (by decide) (by decide)
      (by simpa using hn) (by simpa using hm) hn hm
    simpa using this
  obtain ⟨p0, p1, p2⟩ := parse_op_num n []
  refine ⟨?_, ?_, ?_, ?_, ?_, ?_, ?_⟩
  · have := key [] op_none p0 rfl rfl
    simpa [cmp_number] using this
  · have := key "!=".toList op_ne rfl (by decide) (by decide)
    simpa [cmp_number] using this
  · have := key "<".toList op_lt p1 (by decide) (by decide)
    simpa [cmp_number] using this
  · have := key "<=".toList op_le rfl (by decide) (by decide)
    simpa [cmp_number] using this
  · have := key ">".toList op_gt p2 (by decide) (by decide)
    simpa [cmp_number] using this
  · have := key ">=".toList op_ge rfl (by decide) (by decide)
    simpa [cmp_number] using this
  · rw [res_eval_number _ _
      (plain_text_append _ _ (by decide) (plain_text_show_int n)) (plain_text_show_int m)]
    have hq : no_percent ("=".toList ++ show_int n) = true :=
      no_percent_append _ _ (by decide) (no_percent_show_int n)
    have hop : parse_op ("=".toList ++ show_int n) = (op_none, "=".toList ++ show_int n) := rfl
    have hst := strtol_eq_sign (show_int n)
    simp only [match_number_str, assign_attr_var_none [] _ _ [0] hq, Bool.false_eq_true,
      if_false, resolve_attr_var_id [] _ hq, hop]
    have e : "=".toList ++ show_int n = '=' :: show_int n := rfl
    rw [e, hst]
    simp

/-- Witness of C6: n = -7 and m = 12. -/
theorem C6_number_operators_witness :
    res_eval "number".toList ("<".toList ++ show_int (-7)) (show_int 12)
      = some (decide ((12 : Int) < -7)) :=
  (C6_number_operators (-7) 12 (by decide) (by decide)).2.2.1

/-! ## Versions -/

theorem isdigit_facts (c : Char) (h : isdigit c = true) :
    isspace c = false ∧ (c == '-') = false ∧ (c == '+') = false ∧
    VERSION_DELIM.contains c = false ∧ (∃ d, d < 10 ∧ digit_val c = some d) ∧
    c ≠ dquote ∧ c ≠ bslash ∧ c ≠ '\n' ∧ c ≠ '%' := by
  have hd : 48 ≤ c.toNat ∧ c.toNat ≤ 57 := by
    simpa [isdigit] using h
  have hne : ∀ x : Char, ¬ (48 ≤ x.toNat ∧ x.toNat ≤ 57) → c ≠ x := by
    intro x hx e; subst e; exact hx hd
  refine ⟨?_, ?_, ?_, ?_, ?_, ?_, ?_, ?_, ?_⟩
  · simp only [isspace, Bool.or_eq_false_iff, beq_eq_false_iff_ne, Bool.and_eq_false_imp,
      decide_eq_true_eq, decide_eq_false_iff_not]
    omega
  · rw [beq_eq_false_iff_ne]; exact hne _ (by decide)
  · rw [beq_eq_false_iff_ne]; exact hne _ (by decide)
  · have h1 := hne '.' (by decide)
    have h2 := hne '-' (by decide)
    have h3 := hne '_' (by decide)
    simp [VERSION_DELIM, h1, h2, h3]
  · refine ⟨c.toNat - 48, by omega, ?_⟩
    simp [digit_val, h]
  · exact hne _ (by decide)
  · exact hne _ (by decide)
  · exact hne _ (by decide)
  · exact hne _ (by decide)

theorem strtol_digits_all (s : Str) (h : s.all isdigit = true) : ∀ acc k,
    ∃ v, strtol_digits 10 s acc k = (v, k + s.length, []) := by
  induction s with
  | nil => intro acc k; exact ⟨acc, rfl⟩
  | cons c r ih =>
    intro acc k
    simp only [List.all_cons, Bool.and_eq_true] at h
    obtain ⟨d, hd, hv⟩ := (isdigit_facts c h.1).2.2.2.2.1
    obtain ⟨v, hv2⟩ := ih h.2 (acc * 10 + d) (k + 1)
    refine ⟨v, ?_⟩
    rw [strtol_digits]
    simp only [hv, hd, if_true, hv2, List.length_cons]
    congr 2
    omega

theorem strtol_is_digits (s : Str) (h : is_digits s = true) :
    ∃ v : Nat, strtol s 10 = (strtol_clamp false v, []) := by
  simp only [is_digits, Bool.and_eq_true, Bool.not_eq_true', List.isEmpty_eq_false] at h
  obtain ⟨hne, hall⟩ := h
  cases s with
  | nil => simp at hne
  | cons c r =>
    have hc : isdigit c = true := by
      simp only [List.all_cons, Bool.and_eq_true] at hall; exact hall.1
    obtain ⟨hs, hm, hp, _, _⟩ := isdigit_facts c hc
    obtain ⟨v, hv⟩ := strtol_digits_all (c :: r) hall 0 0
    refine ⟨v, ?_⟩
    apply strtol_plain _ _ _ _ _ hs hm hp
    have hh : strtol_hex 10 (c :: r) = none := by
      rcases r with _ | ⟨x, _ | ⟨y, t⟩⟩ <;> simp [strtol_hex]
    simp [strtol_body, hh, hv]

theorem subver_value_digits (s : Str) (h : is_digits s = true) :
    ∃ v : Nat, subver_value (some s) = (strtol_clamp false v, false, s) := by
  obtain ⟨v, hv⟩ := strtol_is_digits s h
  refine ⟨v, ?_⟩
  cases s with
  | nil => simp [is_digits] at h
  | cons c r => simp [subver_value, hv]

theorem cmp_subver_same (s : Str) (h : is_digits s = true) :
    cmp_subver (some s) (some s) op_none = true := by
  obtain ⟨v, hv⟩ := subver_value_digits s h
  simp [cmp_subver, hv, cmp_number]

theorem strsep_digits (c : Str) (h : c.all isdigit = true) :
    strsep VERSION_DELIM c = (c, none)
    ∧ ∀ (d : Char) (rest : Str), VERSION_DELIM.contains d = true →
        strsep VERSION_DELIM (c ++ d :: rest) = (c, some rest) := by
  induction c with
  | nil =>
    refine ⟨rfl, ?_⟩
    intro d rest hd
    have hd2 : d ∈ VERSION_DELIM := by simpa using hd
    simp [strsep, hd2]
  | cons x r ih =>
    simp only [List.all_cons, Bool.and_eq_true] at h
    have hx : x ∉ VERSION_DELIM := by simpa using (isdigit_facts x h.1).2.2.2.1
    obtain ⟨i1, i2⟩ := ih h.2
    refine ⟨?_, ?_⟩
    · simp [strsep, hx, i1]
    · intro d rest hd
      simp [strsep, hx, i2 d rest hd]

theorem skip_space_digits (c : Str) (rest : Str) (h : is_digits c = true) :
    misc_skip_space (c ++ rest) = c ++ rest := by
  simp only [is_digits, Bool.and_eq_true, Bool.not_eq_true', List.isEmpty_eq_false] at h
  cases c with
  | nil => simp at h
  | cons x r =>
    have hx : isdigit x = true := by
      have := h.2; simp only [List.all_cons, Bool.and_eq_true] at this; exact this.1
    exact misc_skip_space_cons _ _ (isdigit_facts x hx).1

theorem version_text_cons (c0 : Str) (d : Char) (c1 : Str) (rest : List (Char × Str)) :
    version_text c0 ((d, c1) :: rest) = c0 ++ d :: version_text c1 rest := by
  simp [version_text]

theorem match_version_loop_none (op : op_t) (fuel : Nat) (res : Option Str) :
    match_version_loop op (fuel + 1) none res = cmp_subver res none op := by
  cases res <;> rfl

theorem match_version_loop_numeric (op : op_t) (extra : Option Str) :
    ∀ (rest : List (Char × Str)) (c0 : Str) (fuel : Nat), is_digits c0 = true →
      rest.all (fun p => VERSION_DELIM.contains p.1 && is_digits p.2) = true →
      rest.length + 2 ≤ fuel →
      match_version_loop op fuel (some (version_text c0 rest))
        (some (version_text c0 rest ++ extra_text extra)) = cmp_subver extra none op := by
  intro rest
  induction rest with
  | nil =>
    intro c0 fuel hc _ hf
    obtain ⟨f, rfl⟩ : ∃ f, fuel = f + 1 + 1 := ⟨fuel - 2, by simp at hf; omega⟩
    have hall : c0.all isdigit = true := by
      simp only [is_digits, Bool.and_eq_true] at hc; exact hc.2
    have e0 : version_text c0 [] = c0 := by simp [version_text]
    have hsk1 := skip_space_digits c0 [] hc
    have hsk2 := skip_space_digits c0 (extra_text extra) hc
    simp only [List.append_nil] at hsk1
    obtain ⟨s1, s2⟩ := strsep_digits c0 hall
    rw [e0, match_version_loop]
    cases extra with
    | none =>
      simp only [extra_text, List.append_nil, hsk1, s1, cmp_subver_same c0 hc, Bool.not_true,
        Bool.false_eq_true, if_false]
      exact match_version_loop_none op f none
    | some e =>
      simp only [extra_text] at hsk2 ⊢
      simp only [hsk1, hsk2, s1, s2 '.' e (by decide), cmp_subver_same c0 hc, Bool.not_true,
        Bool.false_eq_true, if_false]
      exact match_version_loop_none op f (some e)
  | cons p rest ih =>
    intro c0 fuel hc hr hf
    obtain ⟨d, c1⟩ := p
    obtain ⟨f, rfl⟩ : ∃ f, fuel = f + 1 := ⟨fuel - 1, by simp at hf; omega⟩
    simp only [List.all_cons, Bool.and_eq_true] at hr
    obtain ⟨⟨hd, hc1⟩, hr'⟩ := hr
    have hall : c0.all isdigit = true := by
      simp only [is_digits, Bool.and_eq_true] at hc; exact hc.2
    obtain ⟨_, s2⟩ := strsep_digits c0 hall
    have hsk1 := skip_space_digits c0 (d :: version_text c1 rest) hc
    have hsk2 := skip_space_digits c0 (d :: (version_text c1 rest ++ extra_text extra)) hc
    rw [version_text_cons, match_version_loop]
    have ea : c0 ++ d :: version_text c1 rest ++ extra_text extra
        = c0 ++ d :: (version_text c1 rest ++ extra_text extra) := by simp
    rw [ea]
    simp only [hsk1, hsk2, s2 d _ hd, cmp_subver_same c0 hc, Bool.not_true, Bool.false_eq_true,
      if_false]
    exact ih c1 f hc1 hr' (by simp at hf; omega)

theorem version_text_length (c0 : Str) (rest : List (Char × Str)) :
    rest.length ≤ (version_text c0 rest).length := by
  induction rest generalizing c0 with
  | nil => simp
  | cons p rest ih =>
    obtain ⟨d, c1⟩ := p
    rw [version_text_cons]
    have := ih c1
    simp only [List.length_append, List.length_cons]
    omega

theorem all_digits_plain (s : Str) (h : s.all isdigit = true) :
    plain_text s = true ∧ no_percent s = true := by
  simp only [plain_text, no_percent, List.all_eq_true] at h ⊢
  constructor
  · intro c hc
    obtain ⟨_, _, _, _, _, h1, h2, h3, _⟩ := isdigit_facts c (h c hc)
    simp [h1, h2, h3]
  · intro c hc
    obtain ⟨_, _, _, _, _, _, _, _, h4⟩ := isdigit_facts c (h c hc)
    simp [h4]

theorem version_text_plain (c0 : Str) (rest : List (Char × Str))
    (h : numeric_version c0 rest = true) :
    plain_text (version_text c0 rest) = true ∧ no_percent (version_text c0 rest) = true := by
  simp only [numeric_version, Bool.and_eq_true] at h
  obtain ⟨hc, hr⟩ := h
  induction rest generalizing c0 with
  | nil =>
    simp only [is_digits, Bool.and_eq_true] at hc
    simpa [version_text] using all_digits_plain c0 hc.2
  | cons p rest ih =>
    obtain ⟨d, c1⟩ := p
    simp only [List.all_cons, Bool.and_eq_true] at hr
    obtain ⟨⟨hd, hc1⟩, hr'⟩ := hr
    obtain ⟨i1, i2⟩ := ih c1 hc1 hr'
    simp only [is_digits, Bool.and_eq_true] at hc
    obtain ⟨a1, a2⟩ := all_digits_plain c0 hc.2
    have hd1 : plain_text [d] = true ∧ no_percent [d] = true := by
      have : d ∈ VERSION_DELIM := by simpa using hd
      simp only [VERSION_DELIM, List.mem_cons, List.mem_singleton, List.not_mem_nil,
        or_false] at this
      rcases this with e | e | e <;> subst e <;> decide
    rw [version_text_cons]
    exact ⟨plain_text_append _ _ a1 (plain_text_append [d] _ hd1.1 i1),
      no_percent_append _ _ a2 (no_percent_append [d] _ hd1.2 i2)⟩

theorem strtol_show_nat_10 (n : Nat) : strtol (show_nat n) 10 = (strtol_clamp false n, []) := by
  obtain ⟨d, r, hd, hr⟩ := show_nat_cons n
  have hsp : isspace (digit_char d) = false := isspace_digit_char d hd
  have hm : (digit_char d == '-') = false := by interval_cases d <;> rfl
  have hp : (digit_char d == '+') = false := by interval_cases d <;> rfl
  have hdig := strtol_digits_show_nat n [] 0 0
  simp only [List.append_nil, strtol_digits, Nat.zero_mul, Nat.zero_add] at hdig
  have hlen := show_nat_length_pos n
  rw [hr] at hdig hlen ⊢
  apply strtol_plain _ _ _ _ _ hsp hm hp
  have hh : strtol_hex 10 (digit_char d :: r) = none := by
    rcases r with _ | ⟨x, _ | ⟨y, t⟩⟩ <;> simp [strtol_hex]
  simp [strtol_body, hh, hdig]

theorem cmp_subver_extra (n : Nat) (hn : 0 < n) :
    cmp_subver (some (show_nat n)) none op_le = false := by
  obtain ⟨d, r, hd, hr⟩ := show_nat_cons n
  have hs := strtol_show_nat_10 n
  rw [hr] at hs
  have hv : (0 : Int) < strtol_clamp false n := by
    unfold strtol_clamp LONG_MAX
    simp only [Bool.false_eq_true, if_false]
    split <;> omega
  rw [hr]
  simp only [cmp_subver, subver_value, hs, List.isEmpty_nil, if_true, Bool.or_self,
    Bool.false_eq_true, if_false, cmp_number]
  simpa using hv

/-- C7: for the type `version`, versions are split at `.`, `-` and `_` and
compared component by component from the left, numerically where both
components are numbers: for every version V made of numeric components the
requirement `<=V` matches the resource version V and does not match the
resource version V.n for any number n > 0.  So `<=2.3` matches 2.3 and does
not match 2.3.1 (and `<=2.10` matches 2.9). -/
theorem C7_version_le (c0 : Str) (rest : List (Char × Str)) (n : Nat)
    (hV : numeric_version c0 rest = true) (hn : 0 < n) :
    res_eval "version".toList ("<=".toList ++ version_text c0 rest) (version_text c0 rest)
      = some true
    ∧ res_eval "version".toList ("<=".toList ++ version_text c0 rest)
        (version_text c0 rest ++ '.' :: show_nat n) = some false
    ∧ res_eval "version".toList "<=2.3".toList "2.3".toList = some true
    ∧ res_eval "version".toList "<=2.3".toList "2.3.1".toList = some false
    ∧ res_eval "version".toList "<=2.10".toList "2.9".toList = some true := by
  refine ⟨?_, ?_, by decide, by decide, by decide⟩
  all_goals
    obtain ⟨hp, hq⟩ := version_text_plain c0 rest hV
    have hV2 := hV
    simp only [numeric_version, Bool.and_eq_true] at hV2
    obtain ⟨hc, hr⟩ := hV2
    have hreq : plain_text ("<=".toList ++ version_text c0 rest) = true :=
      plain_text_append _ _ (by decide) hp
    have hreq2 : no_percent ("<=".toList ++ version_text c0 rest) = true :=
      no_percent_append _ _ (by decide) hq
    have hop : parse_op ("<=".toList ++ version_text c0 rest) = (op_le, version_text c0 rest) :=
      rfl
    have hlen := version_text_length c0 rest
  · rw [res_eval_version _ _ hreq hp]
    simp only [match_version_str, assign_attr_var_none [] _ _ [0] hreq2, Bool.false_eq_true,
      if_false, resolve_attr_var_id [] _ hreq2, hop]
    have := match_version_loop_numeric op_le none rest c0 ((version_text c0 rest).length + 2)
      hc hr (by omega)
    simp only [extra_text, List.append_nil] at this
    rw [this]
    rfl
  · have hn1 : plain_text (show_nat n) = true ∧ no_percent (show_nat n) = true := by
      have h1 := plain_text_show_int (n : Int)
      have h2 := no_percent_show_int (n : Int)
      simp only [show_int, Int.natAbs_ofNat] at h1 h2
      have : ¬ ((n : Int) < 0) := by omega
      simp only [this, if_false] at h1 h2
      exact ⟨h1, h2⟩
    have hres : plain_text (version_text c0 rest ++ '.' :: show_nat n) = true :=
      plain_text_append _ _ hp (plain_text_append ['.'] _ (by decide) hn1.1)
    rw [res_eval_version _ _ hreq hres]
    simp only [match_version_str, assign_attr_var_none [] _ _ [0] hreq2, Bool.false_eq_true,
      if_false, resolve_attr_var_id [] _ hreq2, hop]
    have := match_version_loop_numeric op_le (some (show_nat n)) rest c0
      ((version_text c0 rest ++ '.' :: show_nat n).length + 2) hc hr
      (by simp only [List.length_append]; omega)
    simp only [extra_text] at this
    rw [this, cmp_subver_extra n hn]

/-- Witness of C7: the version 10-04_7 and n = 3. -/
theorem C7_version_le_witness :
    res_eval "version".toList
        ("<=".toList ++ version_text "10".toList [('-', "04".toList), ('_', "7".toList)])
        (version_text "10".toList [('-', "04".toList), ('_', "7".toList)]) = some true
    ∧ res_eval "version".toList
        ("<=".toList ++ version_text "10".toList [('-', "04".toList), ('_', "7".toList)])
        (version_text "10".toList [('-', "04".toList), ('_', "7".toList)] ++ '.' :: show_nat 3)
        = some false :=
  ⟨(C7_version_le "10".toList [('-', "04".toList), ('_', "7".toList)] 3 (by decide)
      (by decide)).1,
   (C7_version_le "10".toList [('-', "04".toList), ('_', "7".toList)] 3 (by decide)
      (by decide)).2.1⟩

/-! ## Components that are no numbers -/

theorem isalpha_digit_val (c : Char) (h : isalpha c = true) :
    isspace c = false ∧ ∃ d, 10 ≤ d ∧ digit_val c = some d := by
  simp only [isalpha, isupper, islower, Bool.or_eq_true, Bool.and_eq_true,
    decide_eq_true_eq] at h
  constructor
  · simp only [isspace, Bool.or_eq_false_iff, beq_eq_false_iff_ne, Bool.and_eq_false_imp,
      decide_eq_true_eq, decide_eq_false_iff_not]
    omega
  · rcases h with h | h
    · refine ⟨c.toNat - 65 + 10, by omega, ?_⟩
      have h1 : isdigit c = false := by
        simp only [isdigit, Bool.and_eq_false_imp, decide_eq_true_eq, decide_eq_false_iff_not]
        omega
      have h2 : islower c = false := by
        simp only [islower, Bool.and_eq_false_imp, decide_eq_true_eq, decide_eq_false_iff_not]
        omega
      have h3 : isupper c = true := by
        simp only [isupper, Bool.and_eq_true, decide_eq_true_eq]; omega
      simp [digit_val, h1, h2, h3]
    · refine ⟨c.toNat - 97 + 10, by omega, ?_⟩
      have h1 : isdigit c = false := by
        simp only [isdigit, Bool.and_eq_false_imp, decide_eq_true_eq, decide_eq_false_iff_not]
        omega
      have h2 : islower c = true := by
        simp only [islower, Bool.and_eq_true, decide_eq_true_eq]; omega
      simp [digit_val, h1, h2]

theorem strtol_digits_alpha (u : Str) (h : u.any isalpha = true) : ∀ acc k,
    (strtol_digits 10 u acc k).2.2 ≠ [] := by
  induction u with
  | nil => simp at h
  | cons c r ih =>
    intro acc k
    rw [strtol_digits]
    cases hd : digit_val c with
    | none => simp
    | some d =>
      by_cases hlt : d < 10
      · simp only [hlt, if_true]
        have hca : isalpha c = false := by
          by_contra hc
          obtain ⟨_, d', hd1, hd2⟩ := isalpha_digit_val c (by simpa using hc)
          rw [hd] at hd2
          injection hd2 with e
          omega
        have : r.any isalpha = true := by
          simpa [List.any_cons, hca] using h
        exact ih this _ _
      · simp [hlt]

theorem skip_space_alpha (s : Str) (h : s.any isalpha = true) :
    (misc_skip_space s).any isalpha = true := by
  induction s with
  | nil => simp at h
  | cons c r ih =>
    rw [misc_skip_space]
    by_cases hs : isspace c = true
    · simp only [hs, if_true]
      have hca : isalpha c = false := by
        by_contra hc
        have := (isalpha_digit_val c (by simpa using hc)).1
        rw [hs] at this; exact absurd this (by decide)
      exact ih (by simpa [List.any_cons, hca] using h)
    · simp only [hs, if_false]
      exact h

theorem strtol_alpha (s : Str) (h : s.any isalpha = true) : (strtol s 10).2 ≠ [] := by
  have hne : s ≠ [] := by intro e; rw [e] at h; simp at h
  have ht := skip_space_alpha s h
  simp only [strtol]
  generalize misc_skip_space s = t at ht
  have hu : (if (t.head? == some '-' || t.head? == some '+') = true then t.tail else t).any
      isalpha = true := by
    split
    · rename_i hsg
      cases t with
      | nil => simp at ht
      | cons c r =>
        have hc : c = '-' ∨ c = '+' := by simpa using hsg
        have hca : isalpha c = false := by rcases hc with e | e <;> subst e <;> rfl
        simpa [List.any_cons, hca] using ht
    · exact ht
  generalize (if (t.head? == some '-' || t.head? == some '+') = true then t.tail else t) = u
    at hu
  have hh : strtol_hex 10 u = none := by
    rcases u with _ | ⟨x, _ | ⟨y, _ | ⟨z, r⟩⟩⟩ <;> rfl
  have hd := strtol_digits_alpha u hu 0 0
  simp only [strtol_body, hh]
  rw [show (if (10 : Nat) == 0 then (if misc_starts_with u ['0'] = true then 8 else 10)
    else 10) = 10 from rfl]
  rcases hsd : strtol_digits 10 u 0 0 with ⟨v, k, rest⟩
  rw [hsd] at hd
  simp only []
  split
  · rename_i v' r' heq
    split at heq
    · exact absurd heq (by simp)
    · injection heq with e
      injection e with e1 e2
      rw [← e2]; exact hd
  · exact hne

theorem subver_value_alpha (a : Str) (h : a.any isalpha = true) :
    subver_value (some a) = (0, true, a) := by
  have := strtol_alpha a h
  cases a with
  | nil => simp at h
  | cons c r =>
    simp only [subver_value]
    rcases hs : strtol (c :: r) 10 with ⟨v, e⟩
    rw [hs] at this
    have he : e.isEmpty = false := by
      cases e with
      | nil => exact absurd rfl this
      | cons _ _ => rfl
    simp [he]

theorem subver_value_third (a : Str) : (subver_value (some a)).2.2 = a := by
  cases a with
  | nil => rfl
  | cons c r =>
    simp only [subver_value]
    split <;> rfl

/-- Counterexample to C8 as stated: the requirement `<2.3.a` does not match
the resource version `2.3.b`. -/
theorem C8_counterexample :
    res_eval "version".toList "<2.3.a".toList "2.3.b".toList = some false := by
  decide

/-- C8, amended: when a version component contains a letter, so that it is
not a number, the two components are compared as strings (in the order of
`strcmp`, the component of the resource on the left); the requirement
`<2.3.a` evaluated for the resource version `2.3.b` reports no match, because
`b` is not less than `a`, while `<2.3.b` matches the resource version `2.3.a`
and `>2.3.a` matches `2.3.b`. -/
theorem C8_version_string (a b : Str) (op : op_t)
    (h : a.any isalpha = true ∨ b.any isalpha = true) :
    cmp_subver (some a) (some b) op = cmp_string a b op
    ∧ res_eval "version".toList "<2.3.a".toList "2.3.b".toList = some false
    ∧ res_eval "version".toList "<2.3.b".toList "2.3.a".toList = some true
    ∧ res_eval "version".toList ">2.3.a".toList "2.3.b".toList = some true := by
  refine ⟨?_, by decide, by decide, by decide⟩
  have ha := subver_value_third a
  have hb := subver_value_third b
  unfold cmp_subver
  rcases hsa : subver_value (some a) with ⟨av, astr, a1⟩
  rcases hsb : subver_value (some b) with ⟨bv, bstr, b1⟩
  rw [hsa] at ha
  rw [hsb] at hb
  simp only [] at ha hb
  subst ha hb
  have hor : (astr || bstr) = true := by
    rcases h with h | h
    · have := subver_value_alpha _ h
      rw [hsa] at this
      injection this with _ e
      injection e with e _
      simp [e]
    · have := subver_value_alpha _ h
      rw [hsb] at this
      injection this with _ e
      injection e with e _
      simp [e]
  simp [hor]

/-- Witness of C8: the components `rc1` and `12` under `<=`. -/
theorem C8_version_string_witness :
    cmp_subver (some "rc1".toList) (some "12".toList) op_le
      = cmp_string "rc1".toList "12".toList op_le :=
  (C8_version_string "rc1".toList "12".toList op_le (Or.inl (by decide))).1

/-! ## Attribute variables -/

theorem strcmp_eq_zero (a b : Str) : strcmp a b = 0 ↔ a = b := by
  induction a generalizing b with
  | nil => cases b <;> simp [strcmp]
  | cons x r ih =>
    cases b with
    | nil => simp [strcmp]
    | cons y t =>
      rw [strcmp]
      by_cases h1 : x.toNat < y.toNat
      · simp only [h1, if_true]
        constructor
        · intro h; exact absurd h (by decide)
        · intro h; injection h with e _; subst e; omega
      · by_cases h2 : y.toNat < x.toNat
        · simp only [h1, h2, if_true, if_false]
          constructor
          · intro h; exact absurd h (by decide)
          · intro h; injection h with e _; subst e; omega
        · simp only [h1, h2, if_false]
          have hxy : x = y := by
            have : x.toNat = y.toNat := by omega
            rw [← Char.ofNat_toNat x, ← Char.ofNat_toNat y, this]
          subst hxy
          rw [ih]
          simp

theorem strchr_found (c : Char) (l r : Str) (h : c ∉ l) :
    strchr c (l ++ c :: r) = some (l, c :: r) := by
  induction l with
  | nil => simp [strchr]
  | cons d t ih =>
    have hd : (d == c) = false := by
      rw [beq_eq_false_iff_ne]; intro e; exact h (by simp [e])
    have ht : c ∉ t := fun e => h (by simp [e])
    simp [strchr, hd, ih ht]

theorem scan_attr_var_ref (name : Str) (h : '\x7d' ∉ name) :
    scan_attr_var (var_ref name) = some ([], some (name, [])) := by
  have h1 : strstr ['%', '\x7b'] (var_ref name) = some ([], var_ref name) := by
    simp [var_ref, strstr, misc_starts_with]
  have h2 : strchr '\x7d' (var_ref name) = some ('%' :: '\x7b' :: name, ['\x7d']) := by
    have : '\x7d' ∉ ('%' :: '\x7b' :: name) := by
      intro hm
      simp only [List.mem_cons] at hm
      rcases hm with e | e | e
      · exact absurd e (by decide)
      · exact absurd e (by decide)
      · exact h e
    exact strchr_found '\x7d' ('%' :: '\x7b' :: name) [] this
  simp [scan_attr_var, h1, h2]

theorem get_attr_var_value_add (vars : List attr_var) (name value : Str) (node : node_id) :
    get_attr_var_value (add_attr_var vars name value node) name = some value := by
  simp [add_attr_var, get_attr_var_value]

/-- Counterexample to C9 as stated: after `%{v}` was bound to the resource
scalar `!=a`, a second plain `%{v}` matches the resource scalar `b`, which is
not the bound value. -/
theorem C9_counterexample :
    (match_scalar_attr [] [0] (some (.scalar (var_ref ['v']))) (some (.scalar "!=a".toList))).1
      = true
    ∧ (match_scalar_attr
        (match_scalar_attr [] [0] (some (.scalar (var_ref ['v'])))
          (some (.scalar "!=a".toList))).2
        [1] (some (.scalar (var_ref ['v']))) (some (.scalar "b".toList))).1 = true
    ∧ "b".toList ≠ "!=a".toList := by
  decide

/-- C9, amended: with the variable unbound, matching the requirement scalar
`%{v}` against any resource scalar s succeeds and binds v to s; a later
requirement scalar `%{v}` has the reference replaced by s and is then compared
like a requirement written as s, so that it matches the resource scalar t
exactly when t = s for every s that does not begin with an operator (`!=`,
`<`, `>`) or with white space. -/
theorem C9_attr_var (vars : List attr_var) (name s t : Str) (n1 n2 : node_id)
    (hname : '\x7d' ∉ name) (hunbound : get_attr_var_value vars name = none)
    (hop : parse_op s = (op_none, s)) (hsp : misc_skip_space s = s) :
    match_scalar_attr vars n1 (some (.scalar (var_ref name))) (some (.scalar s))
      = (true, add_attr_var vars name s n1)
    ∧ resolve_attr_var (add_attr_var vars name s n1) (var_ref name) = some s
    ∧ match_scalar_attr (add_attr_var vars name s n1) n2 (some (.scalar (var_ref name)))
        (some (.scalar t)) = (decide (t = s), add_attr_var vars name s n1) := by
  have hscan := scan_attr_var_ref name hname
  have hpo : parse_op (var_ref name) = (op_none, var_ref name) := rfl
  have hget := get_attr_var_value_add vars name s n1
  have hres : resolve_attr_var (add_attr_var vars name s n1) (var_ref name) = some s := by
    have hlen : (var_ref name).length + 1 = (name.length + 2) + 1 + 1 := by
      simp [var_ref]
    have hnil : scan_attr_var [] = none := rfl
    simp only [resolve_attr_var, hlen, resolve_attr_var_loop, hscan, hget, List.nil_append,
      hnil, List.append_nil]
  refine ⟨?_, hres, ?_⟩
  · simp [match_scalar_attr, get_scalar, match_scalar_attr_str, assign_attr_var, hpo, hscan,
      hunbound]
  · have hasg : assign_attr_var (add_attr_var vars name s n1) (var_ref name) t n2
        = (false, add_attr_var vars name s n1) := by
      simp [assign_attr_var, hpo, hscan, hget]
    simp only [match_scalar_attr, get_scalar, match_scalar_attr_str, hasg, Bool.false_eq_true,
      if_false, hres, hop, hsp]
    congr 1
    by_cases hts : t = s
    · subst hts
      simp [(strcmp_eq_zero t t).mpr rfl]
    · have : strcmp s t ≠ 0 := fun e => hts ((strcmp_eq_zero s t).mp e).symm
      simp [this, hts]

/-- Witness of C9: the variable `dev`, bound to `eth0` and compared with
`eth1`. -/
theorem C9_attr_var_witness :
    match_scalar_attr [] [0, 0] (some (.scalar (var_ref "dev".toList)))
        (some (.scalar "eth0".toList))
      = (true, add_attr_var [] "dev".toList "eth0".toList [0, 0])
    ∧ match_scalar_attr (add_attr_var [] "dev".toList "eth0".toList [0, 0]) [0, 1]
        (some (.scalar (var_ref "dev".toList))) (some (.scalar "eth1".toList))
      = (decide ("eth1".toList = "eth0".toList), add_attr_var [] "dev".toList "eth0".toList [0, 0]) :=
  ⟨(C9_attr_var [] "dev".toList "eth0".toList "eth1".toList [0, 0] [0, 1] (by decide) rfl rfl
      rfl).1,
   (C9_attr_var [] "dev".toList "eth0".toList "eth1".toList [0, 0] [0, 1] (by decide) rfl rfl
      rfl).2.2⟩

/-! ## Environment names -/

/-- Counterexample to C2 as stated: the requirement `size: "1G"` is an
equality that the resource size `2G` does not fulfil, whether the size is
typed as a number or not typed at all, so resolving fails and yields no
environment. -/
theorem C2_counterexample :
    res_resolve 20 disk_types (yaml_parse_string env_req_text) (yaml_parse_string env_res_text)
      = some none
    ∧ res_resolve 20 object_types (yaml_parse_string env_req_text)
        (yaml_parse_string env_res_text) = some none
    ∧ res_resolve 20 [] (yaml_parse_string env_req_text) (yaml_parse_string env_res_text)
      = some none := by
  decide!

/-- C2, amended: resolving the requirements `{system: {disk my_d: {size:
">=1G"}}}` against the resources `{system localhost: {disk 0.0.100: {size:
"2G"}}}`, with systems and disks typed as objects and the size as a number,
succeeds and the environment consists of exactly `TELA_SYSTEM=localhost`,
`TELA_SYSTEM_DISK_my_d=0.0.100` and `TELA_SYSTEM_DISK_my_d_SIZE=2G`: only the
type word of a key is converted to upper case. -/
theorem C2_env_naming :
    res_resolve 20 disk_types (yaml_parse_string env_req_ge_text)
        (yaml_parse_string env_res_text) = some (some env_produced)
    ∧ env_produced ≠ env_claimed := by
  decide!

/-! ## The loop of match_objects as a search -/

/-! ## The bookkeeping of one call of `match_objects` -/

theorem unassign_req_eq (st : match_state) (req : node_id) (n : yaml_node) :
    unassign_req st req n = unassign_chain (unassign_one st req) (id_child req) (get_child n) := by
  cases n <;> simp [unassign_req, unassign_one, get_child, unassign_chain]

theorem yaml_chain_drop (doc : List yaml_node) (i : Nat) (p : node_id) :
    yaml_chain doc (i :: p) = (yaml_chain doc (0 :: p)).drop i := by
  cases p with
  | nil => simp [yaml_chain]
  | cons j p =>
    simp only [yaml_chain]
    cases yaml_chain doc (j :: p) <;> simp

theorem yaml_chain_succ (doc : List yaml_node) (i : Nat) (p : node_id) (n : yaml_node)
    (rest : List yaml_node) (h : yaml_chain doc (i :: p) = n :: rest) :
    yaml_chain doc ((i + 1) :: p) = rest := by
  rw [yaml_chain_drop] at h ⊢
  rw [← List.drop_drop, h]; rfl

theorem loop_mono (one : match_fn_t) (cfg : match_cfg) (ql sl : node_id) :
    ∀ (f : Nat) (req : node_id) (res : List node_id) (st : match_state) (r : Bool × match_state),
    match_objects_loop one cfg ql sl f req res st = some r →
    match_objects_loop one cfg ql sl (f + 1) req res st = some r := by
  intro f
  induction f with
  | zero => intro req res st r h; simp [match_objects_loop] at h
  | succ f ih =>
    intro req res st r h
    rw [match_objects_loop] at h ⊢
    cases hd : yaml_deref cfg.req req with
    | none => simpa [hd] using h
    | some rn =>
      simp only [hd] at h ⊢
      split
      · rename_i hw
        simp only [hw, if_true] at h
        exact ih _ _ _ _ h
      · rename_i hw
        simp only [hw] at h
        cases hf : find_free one req res st with
        | none => simp [hf] at h
        | some x =>
          obtain ⟨l, st1⟩ := x
          cases l with
          | nil =>
            simp only [hf] at h ⊢
            generalize prev_assigned st1 req.tail (ql.headD 0) (req.headD 0) = pa at h ⊢
            cases pa with
            | none => exact h
            | some req1 =>
              simp only at h ⊢
              cases hr : st1.res req1 with
              | nil => simp [hr] at h
              | cons r0 t =>
                cases hd1 : yaml_deref cfg.req req1 with
                | none => simp [hr, hd1] at h
                | some n1 =>
                  simp only [hr, hd1] at h ⊢
                  exact ih _ _ _ _ h
          | cons r l =>
            simp only [hf] at h ⊢
            exact ih _ _ _ _ h

theorem loop_mono_add (one : match_fn_t) (cfg : match_cfg) (ql sl : node_id)
    (f c : Nat) (req : node_id) (res : List node_id) (st : match_state) (r : Bool × match_state)
    (h : match_objects_loop one cfg ql sl f req res st = some r) :
    match_objects_loop one cfg ql sl (f + c) req res st = some r := by
  induction c with
  | zero => exact h
  | succ c ih => exact loop_mono one cfg ql sl _ _ _ _ _ ih

/-- The state after a requirement of the list got a resource of the list. -/
theorem assign_top (rp sp : node_id) (st : match_state) (k j : Nat)
    (hyg : hygienic rp sp st) :
    hygienic rp sp (inc_matched (assign_req st (k :: rp) (j :: sp)) (k :: rp))
    ∧ (∀ i, (inc_matched (assign_req st (k :: rp) (j :: sp)) (k :: rp)).res (i :: rp)
        = if i = k then st.res (k :: rp) ++ [j :: sp] else st.res (i :: rp))
    ∧ (∀ i, (inc_matched (assign_req st (k :: rp) (j :: sp)) (k :: rp)).assigned (i :: sp)
        = if i = j then true else st.assigned (i :: sp)) := by
  refine ⟨?_, ?_, ?_⟩
  · intro p hp q hq i
    have hne : p ≠ k :: rp := by
      intro e; rw [e] at hp; simp at hp
    simp only [inc_matched, assign_req, hne, if_false] at hq
    exact hyg p hp q hq i
  · intro i
    by_cases h : i = k <;> simp [inc_matched, assign_req, h]
  · intro i
    by_cases h : i = j <;> simp [inc_matched, assign_req, h]

theorem compat_chain_ge (sp : node_id) : ∀ (nodes : List yaml_node) (cur : yaml_node) (j : Nat),
    ∀ q ∈ compat_chain cur (j :: sp) nodes, ∃ i, j ≤ i ∧ q = i :: sp := by
  intro nodes
  induction nodes with
  | nil => intro cur j q hq; simp [compat_chain] at hq
  | cons n rest ih =>
    intro cur j q hq
    rw [compat_chain] at hq
    split at hq
    · rcases List.mem_cons.1 hq with h | h
      · exact ⟨j, le_refl j, h⟩
      · obtain ⟨i, hi, e⟩ := ih n (j + 1) q h
        exact ⟨i, by omega, e⟩
    · obtain ⟨i, hi, e⟩ := ih cur (j + 1) q hq
      exact ⟨i, by omega, e⟩

theorem compat_chain_nodup (sp : node_id) : ∀ (nodes : List yaml_node) (cur : yaml_node) (j : Nat),
    (compat_chain cur (j :: sp) nodes).Nodup := by
  intro nodes
  induction nodes with
  | nil => intro cur j; simp [compat_chain]
  | cons n rest ih =>
    intro cur j
    rw [compat_chain]
    split
    · refine List.nodup_cons.2 ⟨fun h => ?_, ih n (j + 1)⟩
      obtain ⟨i, hi, e⟩ := compat_chain_ge sp rest n (j + 1) _ h
      simp only [List.cons.injEq, and_true] at e
      omega
    · exact ih cur (j + 1)

theorem compat_chain_ok (cfg : match_cfg) (sp : node_id) :
    ∀ (nodes : List yaml_node) (cur : yaml_node) (j : Nat),
    yaml_chain cfg.res (j :: sp) = nodes →
    chain_ok cfg (compat_chain cur (j :: sp) nodes) := by
  intro nodes
  induction nodes with
  | nil => intro cur j _; simp [compat_chain, chain_ok]
  | cons n rest ih =>
    intro cur j h
    have h1 := yaml_chain_succ _ _ _ _ _ h
    rw [compat_chain]
    split
    · exact ⟨by simp [next_res, h, id_next], ih n (j + 1) h1⟩
    · exact ih cur (j + 1) h1

theorem first_res_scan_facts (cfg : match_cfg) (sp : node_id) (req : Option yaml_node) :
    ∀ (nodes : List yaml_node) (j : Nat), yaml_chain cfg.res (j :: sp) = nodes →
    chain_ok cfg (first_res_scan req (j :: sp) nodes)
    ∧ (first_res_scan req (j :: sp) nodes).Nodup
    ∧ ∀ q ∈ first_res_scan req (j :: sp) nodes, ∃ i, j ≤ i ∧ q = i :: sp := by
  intro nodes
  induction nodes with
  | nil => intro j _; simp [first_res_scan, chain_ok]
  | cons n rest ih =>
    intro j h
    have h1 := yaml_chain_succ _ _ _ _ _ h
    rw [first_res_scan]
    split
    · refine ⟨⟨by simp [next_res, h, id_next], compat_chain_ok cfg sp rest n (j + 1) h1⟩,
        List.nodup_cons.2 ⟨fun hm => ?_, compat_chain_nodup sp rest n (j + 1)⟩, ?_⟩
      · obtain ⟨i, hi, e⟩ := compat_chain_ge sp rest n (j + 1) _ hm
        simp only [List.cons.injEq, and_true] at e
        omega
      · intro q hq
        rcases List.mem_cons.1 hq with e | hm
        · exact ⟨j, le_refl j, e⟩
        · obtain ⟨i, hi, e⟩ := compat_chain_ge sp rest n (j + 1) _ hm
          exact ⟨i, by omega, e⟩
    · obtain ⟨a, b, c⟩ := ih (j + 1) h1
      refine ⟨a, b, fun q hq => ?_⟩
      obtain ⟨i, hi, e⟩ := c q hq
      exact ⟨i, by omega, e⟩

/-- The resources that `assign_wildcard` gives to a wildcard requirement. -/
theorem assign_wildcard_bound (one : match_fn_t) (rp sp : node_id)
    (verdict : Nat → node_id → Bool) (hv : fixed_verdict rp sp one verdict) (k : Nat) :
    ∀ (cands : List node_id), (∀ q ∈ cands, is_top sp q) → cands.Nodup →
    ∀ st : match_state, hygienic rp sp st →
    ∃ st1, assign_wildcard one (k :: rp) cands st = some st1 ∧ hygienic rp sp st1
      ∧ st1.res (k :: rp)
          = st.res (k :: rp) ++ cands.filter (fun q => !st.assigned q && verdict k q)
      ∧ (∀ i, i ≠ k → st1.res (i :: rp) = st.res (i :: rp))
      ∧ (∀ j, st1.assigned (j :: sp) = (st.assigned (j :: sp)
          || (cands.filter (fun q => !st.assigned q && verdict k q)).contains (j :: sp))) := by
  intro cands
  induction cands with
  | nil =>
    intro _ _ st hyg
    exact ⟨st, rfl, hyg, by simp, fun _ _ => rfl, fun _ => by simp⟩
  | cons q rest ih =>
    intro htop hnd st hyg
    obtain ⟨j0, rfl⟩ := htop _ (List.mem_cons_self _ _)
    have htop1 : ∀ q ∈ rest, is_top sp q := fun q hq => htop q (List.mem_cons_of_mem _ hq)
    obtain ⟨hnq, hnd1⟩ := List.nodup_cons.1 hnd
    cases ha : st.assigned (j0 :: sp) with
    | true =>
      obtain ⟨st1, h1, h2, h3, h4, h5⟩ := ih htop1 hnd1 st hyg
      refine ⟨st1, by simp [assign_wildcard, ha, h1], h2, ?_, h4, ?_⟩
      · rw [h3]; simp [List.filter_cons, ha]
      · intro j; rw [h5 j]; simp [List.filter_cons, ha]
    | false =>
      obtain ⟨st1, ho, hst, hyg1⟩ := hv st k (j0 :: sp) hyg
      cases hm : verdict k (j0 :: sp) with
      | false =>
        rw [hm] at ho
        obtain ⟨st2, h1, h2, h3, h4, h5⟩ := ih htop1 hnd1 st1 hyg1
        have hf : rest.filter (fun q => !st1.assigned q && verdict k q)
            = rest.filter (fun q => !st.assigned q && verdict k q) := by
          apply List.filter_congr
          intro x hx
          obtain ⟨j, rfl⟩ := htop1 x hx
          rw [hst.2 j]
        rw [hf] at h3 h5
        refine ⟨st2, by simp [assign_wildcard, ha, ho, h1], h2, ?_, ?_, ?_⟩
        · rw [h3, hst.1 k]; simp [List.filter_cons, ha, hm]
        · intro i hi; rw [h4 i hi, hst.1 i]
        · intro j; rw [h5 j, hst.2 j]; simp [List.filter_cons, ha, hm]
      | true =>
        rw [hm] at ho
        obtain ⟨hyg2, hres2, hasg2⟩ := assign_top rp sp st1 k j0 hyg1
        obtain ⟨st2, h1, h2, h3, h4, h5⟩ := ih htop1 hnd1 _ hyg2
        have hf : rest.filter
            (fun q => !(inc_matched (assign_req st1 (k :: rp) (j0 :: sp)) (k :: rp)).assigned q
              && verdict k q)
            = rest.filter (fun q => !st.assigned q && verdict k q) := by
          apply List.filter_congr
          intro x hx
          obtain ⟨j, rfl⟩ := htop1 x hx
          have hne : j ≠ j0 := fun e => hnq (by rw [← e]; exact hx)
          rw [hasg2 j, if_neg hne, hst.2 j]
        rw [hf] at h3 h5
        refine ⟨st2, by simp [assign_wildcard, ha, ho, h1], h2, ?_, ?_, ?_⟩
        · rw [h3, hres2 k, if_pos rfl, hst.1 k]; simp [List.filter_cons, ha, hm]
        · intro i hi; rw [h4 i hi, hres2 i, if_neg hi, hst.1 i]
        · intro j
          rw [h5 j, hasg2 j]
          by_cases e : j = j0
          · subst e; simp [List.filter_cons, ha, hm]
          · rw [if_neg e, hst.2 j]; simp [List.filter_cons, ha, hm, e]

theorem isspace_blank : isspace ' ' = true := by decide

theorem yaml_deref_get (doc : List yaml_node) (i : Nat) (p : node_id) :
    yaml_deref doc (i :: p) = (yaml_chain doc (0 :: p))[i]? := by
  rw [yaml_deref, yaml_chain_drop]
  simp [List.head?_drop]

/-- C13, the input on which the code fails: the callback replaces the mapping
`x` by the chain `r1`, `r2` and deletes its successor `y`.  The chain
afterwards is `r1`, `z`: `iter.prev` is the head `r1` of the replacement, so
the deletion of `y` unlinks `r2`.  With the mapping `w` between `x` and `y`
nothing is lost. -/
theorem C13_replace_then_delete :
    yaml_traverse splice_cb 5 (yaml_parse_string "x:\ny:\nz:\n".toList)
      = some (true, [.map "r1".toList [], .map "z".toList []])
    ∧ yaml_traverse splice_cb 5 (yaml_parse_string "x:\nw:\ny:\nz:\n".toList)
      = some (true, [.map "r1".toList [], .map "r2".toList [], .map "w".toList [],
          .map "z".toList []]) := by
  constructor <;> rfl

/-- C16, the input on which the code fails: three scalar lines give the
scalar `a b`, and so do four and five; the third line is lost.  After the
second line was appended `prev` is `NULL`, so the node of the third line is
linked to nothing.  Two lines are folded as claimed. -/
theorem C16_fold_three_lines :
    yaml_parse_string "a\nb\n".toList = [.scalar "a b".toList]
    ∧ yaml_parse_string "a\nb\nc\n".toList = [.scalar "a b".toList]
    ∧ yaml_parse_string "a\nb\nc\nd\n".toList = [.scalar "a b".toList]
    ∧ yaml_parse_string "k:\n  a\n  b\n  c\n".toList = [.map "k".toList [.scalar "a b".toList]] := by
  refine ⟨?_, ?_, ?_, ?_⟩ <;> rfl

/-- C17, the input on which the code fails: in the line `a:b "c: d"` the
first colon outside quotes is followed by `b`, and `find_map` goes on with
`strchr`, which finds the colon inside the quotes; the line becomes a mapping
with the key `a:b "c`. -/
theorem C17_colon_in_quotes :
    find_map "a:b \"c: d\"".toList = some ("a:b \"c".toList, ": d\"".toList)
    ∧ strchr_unquoted ": d\"".toList ':' = some ([], ": d\"".toList)
    ∧ strchr_unquoted "\"c: d\"".toList ':' = none
    ∧ yaml_parse_string "a:b \"c: d\"\n".toList
      = [.map "a:b \"c".toList [.scalar "d\"".toList]] := by
  refine ⟨?_, ?_, ?_, ?_⟩ <;> rfl

/-- C18, the input on which the code fails: a mapping after two scalar lines
is no error, the parser returns the scalar `a b`; after one scalar line it is
an error, and so is a sequence element after a mapping. -/
theorem C18_variant_change :
    yaml_parse_string "a\nb\nk: v\n".toList = [.scalar "a b".toList]
    ∧ yaml_parse_string "a\nb\n- v\n".toList = [.scalar "a b".toList]
    ∧ yaml_parse_string "a\nk: v\n".toList = []
    ∧ yaml_parse_string "k: v\n- w\n".toList = [] := by
  refine ⟨?_, ?_, ?_, ?_⟩ <;> rfl

/-- C19, the input on which the code fails: a scalar that opens with a quote
and has no closing quote is returned without its first character, as a
document of its own, as the value of a mapping and as a sequence element;
`unquote_string` prints a message and leaves `pos->error` as it is. -/
theorem C19_missing_quote :
    yaml_parse_string "\"abc\n".toList = [.scalar "abc".toList]
    ∧ yaml_parse_string "k: 'abc\nl: m\n".toList
      = [.map "k".toList [.scalar "abc".toList], .map "l".toList [.scalar "m".toList]]
    ∧ yaml_parse_string "- \"abc\n".toList = [.seq [.scalar "abc".toList]]
    ∧ misc_unquote "\"abc".toList = ("abc".toList, false) := by
  refine ⟨?_, ?_, ?_, ?_⟩ <;> rfl

/-- C20: the parser on inputs with a line that is indented with a tab and
continues no multi-line scalar.  Behind a mapping or a sequence element the
line is an error and there is no document, as the comment in `_parse` says
(tab indentation outside of a multi-line scalar).  As the first line of the
document or of a block the line is accepted and the tab becomes part of the
key or of the scalar: the test for the tab is skipped while there is no
previous node. -/
theorem C20_tab_indent :
    yaml_parse_string "\tk: v\n".toList = [.map "\tk".toList [.scalar "v".toList]]
    ∧ yaml_parse_string "k:\n \tv\n".toList = [.map "k".toList [.scalar "\tv".toList]]
    ∧ yaml_parse_string "k:\n \tl: w\n".toList
      = [.map "k".toList [.map "\tl".toList [.scalar "w".toList]]]
    ∧ yaml_parse_string "k: v\n\tl: w\n".toList = []
    ∧ yaml_parse_string "- a\n\t- b\n".toList = []
    ∧ yaml_parse_string "k:\n  l: v\n  \tm: w\n".toList = [] := by
  refine ⟨?_, ?_, ?_, ?_, ?_, ?_⟩ <;> rfl

theorem no_marker_of_tab (line : Str) (s1 : Str)
    (h : line.drop (count_indent line) = '\t' :: s1) :
    misc_starts_with line ['-', '-', '-'] = false
    ∧ misc_starts_with line ['.', '.', '.'] = false := by
  cases line with
  | nil => simp at h
  | cons c r =>
    by_cases hc : c = ' '
    · subst hc; constructor <;> simp [misc_starts_with]
    · have h0 : count_indent (c :: r) = 0 := by
        unfold count_indent
        split
        · rename_i heq; simp only [List.cons.injEq] at heq; exact absurd heq.1 hc
        · rfl
      rw [h0] at h
      simp only [List.drop_zero, List.cons.injEq] at h
      rw [h.1]
      constructor <;> simp [misc_starts_with]

/-- One round of the loop of `_parse` for a line that is indented with a tab
behind at least `indent` blanks: it gives an error when the previous node of
the block is a sequence element or a mapping, and `_parse` then returns with
`pos->error` set; when there is no previous node, as for the first line of the
document or of a block, the line is no error. -/
theorem tab_indent_round (line0 : Str) (indent : Nat) (prev : prev_t) (s1 : Str)
    (htab : (clean_line line0).drop (count_indent (clean_line line0)) = '\t' :: s1)
    (hind : indent ≤ count_indent (clean_line line0)) :
    (prev_differs prev .yaml_scalar = true → line_action_of line0 indent prev = .error
      ∧ ∀ (fuel : Nat) (pos pos0 : filepos) (root : List yaml_node),
          pos_getline pos = some (line0, pos0) →
          (_parse (fuel + 1) pos indent root prev).2.error = true)
    ∧ (prev = none → line_action_of line0 indent prev ≠ .error) := by
  obtain ⟨hm1, hm2⟩ := no_marker_of_tab _ _ htab
  have hlt : ¬ count_indent (clean_line line0) < indent := by omega
  constructor
  · intro hp
    have ha : line_action_of line0 indent prev = .error := by
      simp only [line_action_of, hm1, hm2, htab, hlt, hp]
      simp
    refine ⟨ha, fun fuel pos pos0 root hg => ?_⟩
    rw [_parse]
    simp only [hg, ha]
  · intro hp
    subst hp
    simp only [line_action_of, hm1, hm2, htab, hlt, prev_differs]
    simp only [Bool.false_eq_true, if_false, Bool.and_false]
    have hd : ('\t' == '-') = false := by decide
    simp only [hd, Bool.false_and, Bool.false_eq_true, if_false]
    split <;> simp

/-! ## Deleting nodes in a traversal -/

theorem node_path_named (n : yaml_node) (pp : Str) (h : named_node n = true) :
    Yaml.node_path n pp = some (path_text n pp) := by
  cases n with
  | scalar c => rfl
  | map k v => rfl
  | seq c =>
    rw [named_node, Bool.and_eq_true] at h
    cases hn : node_name (.seq c) with
    | none => rw [hn] at h; simp at h
    | some s => simp [path_text, Yaml.node_path, hn]

theorem named_child (n : yaml_node) (h : named_node n = true) :
    named_chain (get_child n) = true := by
  cases n with
  | scalar c => simp [get_child, named_chain]
  | seq c =>
    rw [named_node, Bool.and_eq_true] at h
    exact h.2
  | map k v =>
    rw [named_node] at h
    exact h

theorem named_mem : ∀ (nodes : List yaml_node), named_chain nodes = true →
    ∀ t ∈ nodes, named_node t = true := by
  intro nodes
  induction nodes with
  | nil => intro _ t ht; simp at ht
  | cons a r ih =>
    intro h t ht
    rw [named_chain, Bool.and_eq_true] at h
    rcases List.mem_cons.1 ht with e | e
    · rw [e]; exact h.1
    · exact ih h.2 t e

theorem find_same_path_named (pp path : Str) : ∀ (nodes : List yaml_node),
    named_chain nodes = true →
    find_same_path pp path nodes = some (counterpart pp path nodes) := by
  intro nodes
  induction nodes with
  | nil => intro _; rfl
  | cons n rest ih =>
    intro h
    rw [named_chain, Bool.and_eq_true] at h
    rw [find_same_path, counterpart, node_path_named n pp h.1]
    simp only
    split
    · rfl
    · exact ih h.2

/-- A traversal stops without a result at a sequence element that has no
scalar as its content. -/
theorem traverse_unnamed (cb : yaml_cb_t) (fuel : Nat) (pp : Str) (c rest : List yaml_node)
    (h : node_name (.seq c) = none) : _traverse cb fuel pp (.seq c :: rest) = none := by
  cases fuel with
  | zero => rfl
  | succ f => simp [_traverse, traverse_loop, Yaml.node_path, h]

theorem traverse_loop_del (P : Str → Bool) (rec : Str → yaml_node → Option (Bool × yaml_node))
    (pp : Str) : ∀ (next done : List yaml_node) (prev : Option yaml_node),
    (∀ t ∈ next, named_node t = true) →
    (∀ t ∈ next, rec (path_text t pp) t = some (true, prune_node P pp t)) →
    traverse_loop rec (del_cb P) pp done prev [] next
      = some (true, done ++ prev.toList ++ prune P pp next) := by
  intro next
  induction next with
  | nil => intro done prev _ _; simp [traverse_loop, prune]
  | cons t next ih =>
    intro done prev hnm h
    have ht := h t (List.mem_cons_self _ _)
    have hn : ∀ t ∈ next, rec (path_text t pp) t = some (true, prune_node P pp t) :=
      fun x hx => h x (List.mem_cons_of_mem _ hx)
    have hnm2 : ∀ t ∈ next, named_node t = true := fun x hx => hnm x (List.mem_cons_of_mem _ hx)
    rw [traverse_loop, node_path_named t pp (hnm t (List.mem_cons_self _ _))]
    cases hp : P (path_text t pp) with
    | true =>
      simp only [del_cb, hp, if_true]
      rw [ih done prev hnm2 hn, prune, hp]; rfl
    | false =>
      simp only [del_cb, hp, Bool.false_eq_true, if_false, ht]
      rw [ih _ _ hnm2 hn, prune, hp]
      simp

theorem yaml_size_child (n : yaml_node) : yaml_size_chain (get_child n) < yaml_size n := by
  cases n <;> simp [get_child, yaml_size, yaml_size_chain]

theorem prune_node_eq (P : Str → Bool) (pp : Str) (n : yaml_node) :
    prune_node P pp n = set_child n (prune P (path_text n pp) (get_child n)) := by
  cases n <;> simp [prune_node, set_child, get_child]

/-- The traversal with the deleting callback gives the pruned chain. -/
theorem traverse_del (P : Str → Bool) : ∀ (fuel : Nat) (pp : Str) (nodes : List yaml_node),
    named_chain nodes = true → yaml_size_chain nodes < fuel →
    _traverse (del_cb P) fuel pp nodes = some (true, prune P pp nodes) := by
  intro fuel
  induction fuel with
  | zero => intro pp nodes _ h; omega
  | succ fuel ih =>
    intro pp nodes hnm h
    rw [_traverse, traverse_loop_del P _ pp nodes [] none (named_mem nodes hnm)]
    · simp
    · intro t ht
      have h1 : yaml_size t ≤ yaml_size_chain nodes := by
        clear h ih
        induction nodes with
        | nil => simp at ht
        | cons a r ihr =>
          rw [yaml_size_chain]
          rcases List.mem_cons.1 ht with e | e
          · subst e; omega
          · have := ihr (by
              rw [named_chain, Bool.and_eq_true] at hnm
              exact hnm.2) e
            omega
      have h2 := yaml_size_child t
      rw [ih _ _ (named_child t (named_mem nodes hnm t ht)) (by omega), prune_node_eq]

mutual
theorem visit_node_dead (P : Str → Bool) (pp : Str) : ∀ (n : yaml_node),
    ∀ x ∈ visit_node P true pp n, x.2.2 = true
  | .scalar c => by simp [visit_node]
  | .seq c => by
    intro x hx
    simp only [visit_node, Bool.true_or, List.mem_cons] at hx
    rcases hx with e | e
    · rw [e]
    · exact visit_dead P _ c x e
  | .map k v => by
    intro x hx
    simp only [visit_node, Bool.true_or, List.mem_cons] at hx
    rcases hx with e | e
    · rw [e]
    · exact visit_dead P _ v x e
theorem visit_dead (P : Str → Bool) (pp : Str) : ∀ (nodes : List yaml_node),
    ∀ x ∈ visit P true pp nodes, x.2.2 = true
  | [] => by simp [visit]
  | n :: rest => by
    intro x hx
    simp only [visit, List.mem_append] at hx
    rcases hx with e | e
    · exact visit_node_dead P pp n x e
    · exact visit_dead P pp rest x e
end

theorem filter_dead (l : List (Str × yaml_node × Bool)) (h : ∀ x ∈ l, x.2.2 = true) :
    l.filter (fun x => !x.2.2) = [] := by
  rw [List.filter_eq_nil_iff]
  intro x hx
  simp [h x hx]

mutual
theorem labels_prune_node (P : Str → Bool) (pp : Str) : ∀ (n : yaml_node),
    P (path_text n pp) = false →
    node_labels (prune_node P pp n)
      = ((visit_node P false pp n).filter (fun x => !x.2.2)).map (fun x => x.2.1)
  | .scalar c => by
    intro h
    simp [prune_node, node_labels, visit_node, h]
  | .seq c => by
    intro h
    simp only [prune_node, node_labels, visit_node, h, Bool.or_false, List.filter_cons,
      Bool.not_false, if_true, List.map_cons]
    rw [labels_prune P _ c]
  | .map k v => by
    intro h
    simp only [prune_node, node_labels, visit_node, h, Bool.or_false, List.filter_cons,
      Bool.not_false, if_true, List.map_cons]
    rw [labels_prune P _ v]
theorem labels_prune (P : Str → Bool) (pp : Str) : ∀ (nodes : List yaml_node),
    labels (prune P pp nodes)
      = ((visit P false pp nodes).filter (fun x => !x.2.2)).map (fun x => x.2.1)
  | [] => by simp [prune, labels, visit]
  | n :: rest => by
    rw [prune, visit, List.filter_append, List.map_append]
    cases hp : P (path_text n pp) with
    | true =>
      have hd : (visit_node P false pp n).filter (fun x => !x.2.2) = [] := by
        apply filter_dead
        cases n with
        | scalar c => simp [visit_node, hp]
        | seq c =>
          intro x hx
          simp only [visit_node, hp, Bool.or_true, List.mem_cons] at hx
          rcases hx with e | e
          · rw [e]
          · exact visit_dead P _ c x e
        | map k v =>
          intro x hx
          simp only [visit_node, hp, Bool.or_true, List.mem_cons] at hx
          rcases hx with e | e
          · rw [e]
          · exact visit_dead P _ v x e
      simp only [if_true, hd, List.map_nil, List.nil_append]
      exact labels_prune P pp rest
    | false =>
      simp only [Bool.false_eq_true, if_false, labels]
      rw [labels_prune_node P pp n hp, labels_prune P pp rest]
end

mutual
theorem visit_node_alive (P : Str → Bool) (pp : Str) : ∀ (n : yaml_node) (dead : Bool),
    ∀ x ∈ visit_node P dead pp n, x.2.2 = false → P x.1 = false
  | .scalar c, dead => by
    intro x hx h
    simp only [visit_node, List.mem_singleton] at hx
    rw [hx] at h ⊢
    simp only [Bool.or_eq_false_iff] at h
    exact h.2
  | .seq c, dead => by
    intro x hx h
    simp only [visit_node, List.mem_cons] at hx
    rcases hx with e | e
    · rw [e] at h ⊢
      simp only [Bool.or_eq_false_iff] at h
      exact h.2
    · exact visit_alive P _ c _ x e h
  | .map k v, dead => by
    intro x hx h
    simp only [visit_node, List.mem_cons] at hx
    rcases hx with e | e
    · rw [e] at h ⊢
      simp only [Bool.or_eq_false_iff] at h
      exact h.2
    · exact visit_alive P _ v _ x e h
theorem visit_alive (P : Str → Bool) (pp : Str) : ∀ (nodes : List yaml_node) (dead : Bool),
    ∀ x ∈ visit P dead pp nodes, x.2.2 = false → P x.1 = false
  | [], dead => by simp [visit]
  | n :: rest, dead => by
    intro x hx h
    simp only [visit, List.mem_append] at hx
    rcases hx with e | e
    · exact visit_node_alive P pp n dead x e h
    · exact visit_alive P pp rest dead x e h
end

mutual
theorem visit_node_labels (P : Str → Bool) : ∀ (n : yaml_node) (dead : Bool) (pp : Str),
    (visit_node P dead pp n).map (fun x => x.2.1) = node_labels n
  | .scalar c, dead, pp => by simp [visit_node, node_labels]
  | .seq c, dead, pp => by
    simp only [visit_node, node_labels, List.map_cons]
    rw [visit_labels P c]
  | .map k v, dead, pp => by
    simp only [visit_node, node_labels, List.map_cons]
    rw [visit_labels P v]
theorem visit_labels (P : Str → Bool) : ∀ (nodes : List yaml_node) (dead : Bool) (pp : Str),
    (visit P dead pp nodes).map (fun x => x.2.1) = labels nodes
  | [], dead, pp => by simp [visit, labels]
  | n :: rest, dead, pp => by
    rw [visit, labels, List.map_append, visit_node_labels P n, visit_labels P rest]
end

/-- C12: for a document in which every sequence element has a scalar as its
content, the traversal with a callback that deletes each node it is called for
whose path satisfies `P` returns `true`, with fuel for the nesting; the
document afterwards, which is what the root pointer designates, is the pruned
document; its nodes in pre-order are exactly the nodes of the document before
that do not lie in a deleted subtree, in their order; and none of them has a
path that satisfies `P`.  For the document of the line `- `, a sequence
element without content, `node_path` dereferences a `NULL` pointer: the
traversal has no result, whatever the callback and the fuel. -/
theorem C12_traverse_delete (P : Str → Bool) (doc : List yaml_node) (fuel : Nat)
    (hnamed : named_chain doc = true) (hfuel : yaml_size_chain doc < fuel) :
    (yaml_traverse (del_cb P) fuel doc = some (true, prune P [] doc)
    ∧ labels (prune P [] doc)
        = ((visit P false [] doc).filter (fun x => !x.2.2)).map (fun x => x.2.1)
    ∧ (∀ x ∈ visit P false [] doc, x.2.2 = false → P x.1 = false)
    ∧ (visit P false [] doc).map (fun x => x.2.1) = labels doc)
    ∧ yaml_parse_string "- \n".toList = [.seq []]
    ∧ ∀ (cb : yaml_cb_t) (f : Nat), yaml_traverse cb f (yaml_parse_string "- \n".toList) = none :=
  ⟨⟨traverse_del P fuel [] doc hnamed hfuel, labels_prune P [] doc, visit_alive P [] doc false,
    visit_labels P doc false []⟩, by rfl, fun cb f => by
      have e : yaml_parse_string "- \n".toList = [.seq []] := by rfl
      rw [e]
      exact traverse_unnamed cb f [] [] [] rfl⟩

theorem del_doc_parsed : yaml_parse_string del_doc_text =
    [.map "c".toList [], .map "a".toList [.map "b".toList [.map "d".toList [.scalar "1".toList]],
      .map "e".toList [.scalar "2".toList]], .map "f".toList [.scalar "3".toList]] := by rfl

/-- C12 for the document `{c, a: {b: {d: 1}, e: 2}, f: 3}` and the paths `a/b`
and `c`: what remains is `{a: {e: 2}, f: 3}`. -/
theorem C12_traverse_delete_witness :
    (named_chain (yaml_parse_string del_doc_text) = true
      ∧ yaml_size_chain (yaml_parse_string del_doc_text) < 10)
    ∧ ((yaml_traverse (del_cb ab_or_c) 10 (yaml_parse_string del_doc_text)
        = some (true, prune ab_or_c [] (yaml_parse_string del_doc_text))
      ∧ labels (prune ab_or_c [] (yaml_parse_string del_doc_text))
          = ((visit ab_or_c false [] (yaml_parse_string del_doc_text)).filter
              (fun x => !x.2.2)).map (fun x => x.2.1)
      ∧ (∀ x ∈ visit ab_or_c false [] (yaml_parse_string del_doc_text),
          x.2.2 = false → ab_or_c x.1 = false)
      ∧ (visit ab_or_c false [] (yaml_parse_string del_doc_text)).map (fun x => x.2.1)
          = labels (yaml_parse_string del_doc_text))
      ∧ yaml_parse_string "- \n".toList = [.seq []]
      ∧ ∀ (cb : yaml_cb_t) (f : Nat),
          yaml_traverse cb f (yaml_parse_string "- \n".toList) = none)
    ∧ prune ab_or_c [] (yaml_parse_string del_doc_text)
      = [.map "a".toList [.map "e".toList [.scalar "2".toList]],
          .map "f".toList [.scalar "3".toList]] :=
  have hn : named_chain (yaml_parse_string del_doc_text) = true := by
    rw [del_doc_parsed]; simp [named_chain, named_node]
  have hs : yaml_size_chain (yaml_parse_string del_doc_text) < 10 := by
    rw [del_doc_parsed]; simp [yaml_size_chain, yaml_size]
  ⟨⟨hn, hs⟩, C12_traverse_delete ab_or_c (yaml_parse_string del_doc_text) 10 hn hs, by
    rw [del_doc_parsed]
    simp [prune, prune_node, path_text, Yaml.node_path, node_name, replace_char, ab_or_c]⟩

/-! ## Looking up a node by its path -/

theorem join_path_snoc : ∀ (cs : List Str) (c : Str), cs ≠ [] →
    join_path (cs ++ [c]) = join_path cs ++ '/' :: c
  | [], c, h => absurd rfl h
  | [a], c, _ => by simp [join_path]
  | a :: b :: r, c, _ => by
    have ih := join_path_snoc (b :: r) c (by simp)
    simp only [List.cons_append] at ih ⊢
    rw [join_path, ih, join_path]
    simp

theorem strsep_no_slash : ∀ (c : Str), '/' ∉ c → strsep ['/'] c = (c, none)
  | [], _ => rfl
  | x :: r, h => by
    have hx : x ≠ '/' := fun e => h (by rw [e]; exact List.mem_cons_self _ _)
    have hr : '/' ∉ r := fun e => h (List.mem_cons_of_mem _ e)
    simp [strsep, hx, strsep_no_slash r hr]

theorem strsep_slash : ∀ (c rest : Str), '/' ∉ c →
    strsep ['/'] (c ++ '/' :: rest) = (c, some rest)
  | [], rest, _ => by simp [strsep]
  | x :: r, rest, h => by
    have hx : x ≠ '/' := fun e => h (by rw [e]; exact List.mem_cons_self _ _)
    have hr : '/' ∉ r := fun e => h (List.mem_cons_of_mem _ e)
    simp [strsep, hx, strsep_slash r rest hr]

theorem strsep_tokens_join : ∀ (cs : List Str), cs ≠ [] → (∀ c ∈ cs, '/' ∉ c) →
    ∀ fuel, (join_path cs).length < fuel → strsep_tokens fuel (some (join_path cs)) = cs
  | [], h, _, _, _ => absurd rfl h
  | [a], _, hs, fuel, hf => by
    cases fuel with
    | zero => omega
    | succ f =>
      rw [strsep_tokens, join_path, strsep_no_slash a (hs a (List.mem_cons_self _ _))]
      cases f <;> simp [strsep_tokens]
  | a :: b :: r, _, hs, fuel, hf => by
    cases fuel with
    | zero => omega
    | succ f =>
      rw [strsep_tokens, join_path, strsep_slash a _ (hs a (List.mem_cons_self _ _))]
      simp only
      rw [strsep_tokens_join (b :: r) (by simp) (fun c hc => hs c (List.mem_cons_of_mem _ hc)) f
        (by simp [join_path] at hf; omega)]

theorem path_name_no_slash (key : Str) : '/' ∉ path_name key := by
  intro h
  simp only [path_name, replace_char, List.mem_map] at h
  obtain ⟨c, _, hc⟩ := h
  split at hc
  · exact absurd hc (by decide)
  · rename_i hne
    rw [hc] at hne
    simp at hne

theorem decode_path_name (key : Str) (h : YAML_PATH_SLASH ∉ key) :
    yaml_decode_path (path_name key) = key := by
  induction key with
  | nil => rfl
  | cons c r ih =>
    have hc : c ≠ YAML_PATH_SLASH := fun e => h (by rw [e]; exact List.mem_cons_self _ _)
    have hr : YAML_PATH_SLASH ∉ r := fun e => h (List.mem_cons_of_mem _ e)
    have ih := ih hr
    simp only [yaml_decode_path, path_name, replace_char, List.map_cons, List.map_map] at ih ⊢
    rw [ih]
    congr 1
    by_cases e : c = '/'
    · subst e; decide
    · simp [e, hc]

theorem path_name_ne_nil (key : Str) (h : key ≠ []) : path_name key ≠ [] := by
  cases key with
  | nil => exact absurd rfl h
  | cons c r => simp [path_name, replace_char]

theorem join_path_ne_nil : ∀ (cs : List Str), cs ≠ [] → (∀ c ∈ cs, c ≠ []) → join_path cs ≠ []
  | [], h, _ => absurd rfl h
  | [a], _, hs => by simpa [join_path] using hs a (List.mem_cons_self _ _)
  | a :: b :: r, _, hs => by
    have := hs a (List.mem_cons_self _ _)
    cases a with
    | nil => exact absurd rfl this
    | cons x t => simp [join_path]

theorem iter_path_join (doc : List yaml_node) : ∀ (p : node_id), key_path_ok doc p →
    iter_path doc p = some (join_path (path_comps doc p))
    ∧ (p ≠ [] → path_comps doc p ≠ [])
    ∧ ∀ c ∈ path_comps doc p, '/' ∉ c ∧ c ≠ []
  | [], _ => by simp [iter_path, path_comps, join_path]
  | i :: q, h => by
    obtain ⟨hq, key, v, hd, hne, _, _⟩ := h
    obtain ⟨ih1, ih2, ih3⟩ := iter_path_join doc q hq
    have hc : path_comps doc (i :: q) = path_comps doc q ++ [path_name key] := by
      simp [path_comps, hd, node_name]
    have hi : iter_path doc (i :: q)
        = some (if (join_path (path_comps doc q)).isEmpty then path_name key
          else join_path (path_comps doc q) ++ '/' :: path_name key) := by
      simp [iter_path, hd, ih1, Yaml.node_path, node_name, path_name]
    refine ⟨?_, fun _ => by rw [hc]; simp, ?_⟩
    · rw [hi, hc]
      cases q with
      | nil => simp [path_comps, join_path]
      | cons j r =>
        have hne2 := ih2 (by simp)
        have hnn := join_path_ne_nil _ hne2 (fun c hc => (ih3 c hc).2)
        rw [join_path_snoc _ _ hne2]
        cases hj : join_path (path_comps doc (j :: r)) with
        | nil => exact absurd hj hnn
        | cons x t => simp
    · intro c hc2
      rw [hc] at hc2
      rcases List.mem_append.1 hc2 with e | e
      · exact ih3 c e
      · simp only [List.mem_singleton] at e
        rw [e]
        exact ⟨path_name_no_slash key, path_name_ne_nil key hne⟩

theorem get_node_find_first (q : node_id) (key : Str) (v : List yaml_node) :
    ∀ (chain : List yaml_node) (j0 i : Nat), chain[i]? = some (.map key v) →
    (∀ j, j < i → ∀ k2 v2, chain[j]? = some (.map k2 v2) → k2 ≠ key) →
    get_node_find key (j0 :: q) chain = some ((j0 + i) :: q, .map key v) := by
  intro chain
  induction chain with
  | nil => intro j0 i h; simp at h
  | cons n rest ih =>
    intro j0 i h hfirst
    cases i with
    | zero =>
      simp only [List.getElem?_cons_zero, Option.some.injEq] at h
      subst h
      have : strcmp key key = 0 := (strcmp_eq_zero key key).2 rfl
      simp [get_node_find, this]
    | succ i =>
      simp only [List.getElem?_cons_succ] at h
      have ih2 := ih (j0 + 1) i h (fun j hj k2 v2 hk => hfirst (j + 1) (by omega) k2 v2 (by simpa using hk))
      have e : j0 + 1 + i = j0 + (i + 1) := by omega
      rw [e] at ih2
      cases n with
      | scalar c => simpa [get_node_find, id_next] using ih2
      | seq c => simpa [get_node_find, id_next] using ih2
      | map k2 v2 =>
        have hk : k2 ≠ key := hfirst 0 (by omega) k2 v2 (by simp)
        have : ¬ strcmp k2 key = 0 := fun e => hk ((strcmp_eq_zero k2 key).1 e)
        simpa [get_node_find, id_next, this] using ih2

theorem yaml_chain_child (doc : List yaml_node) (p : node_id) (key : Str) (v : List yaml_node)
    (hp : p ≠ []) (h : yaml_deref doc p = some (.map key v)) : yaml_chain doc (0 :: p) = v := by
  cases p with
  | nil => exact absurd rfl hp
  | cons i q =>
    simp only [yaml_deref] at h
    cases hc : yaml_chain doc (i :: q) with
    | nil => rw [hc] at h; simp at h
    | cons n rest =>
      rw [hc] at h
      simp only [List.head?_cons, Option.some.injEq] at h
      subst h
      simp [yaml_chain, hc, get_child]

/-- One round of the loop of `yaml_get_node` for the key of the node `i :: q`. -/
theorem get_node_walk_step (doc : List yaml_node) (i : Nat) (q : node_id)
    (h : key_path_ok doc (i :: q)) (key : Str) (v : List yaml_node)
    (hd : yaml_deref doc (i :: q) = some (.map key v)) (more : List Str) :
    get_node_walk (path_name key :: more) (0 :: q) (yaml_chain doc (0 :: q))
      = if more = [] then some (i :: q)
        else get_node_walk more (0 :: i :: q) (yaml_chain doc (0 :: i :: q)) := by
  obtain ⟨_, key1, v1, hd1, hne, hslash, hfirst⟩ := h
  rw [hd] at hd1
  simp only [Option.some.injEq, yaml_node.map.injEq] at hd1
  obtain ⟨rfl, rfl⟩ := hd1
  have hfind := get_node_find_first q key v (yaml_chain doc (0 :: q)) 0 i
    (by rw [← yaml_deref_get]; exact hd)
    (fun j hj k2 v2 hk => hfirst j hj k2 v2 (by rw [yaml_deref_get]; exact hk))
  rw [get_node_walk]
  simp only [decode_path_name key hslash]
  have he : key.isEmpty = false := by cases key <;> simp at hne ⊢
  simp only [he, Bool.false_eq_true, if_false, hfind, Nat.zero_add, id_child]
  rw [yaml_chain_child doc (i :: q) key v (by simp) hd]
  cases more <;> simp

theorem get_node_walk_prefix (doc : List yaml_node) : ∀ (p : node_id), key_path_ok doc p →
    ∀ more, more ≠ [] →
    get_node_walk (path_comps doc p ++ more) [0] (yaml_chain doc [0])
      = get_node_walk more (0 :: p) (yaml_chain doc (0 :: p))
  | [], _, more, _ => by simp [path_comps]
  | i :: q, h, more, hm => by
    obtain ⟨key, v, hd, _⟩ := h.2
    have hc : path_comps doc (i :: q) = path_comps doc q ++ [path_name key] := by
      simp [path_comps, hd, node_name]
    rw [hc, List.append_assoc, get_node_walk_prefix doc q h.1 _ (by simp)]
    simp only [List.singleton_append]
    rw [get_node_walk_step doc i q h key v hd more, if_neg hm]

/-- Counterexample to C11 as stated: the sequence element `x` of the document
`{a: [x, y]}` is reported under the path `a/x`, for which `yaml_get_node`
returns `NULL`, as it looks at mappings only; and of two mappings with the key
`a` the second is reported under the path `a`, for which `yaml_get_node`
returns the first. -/
theorem C11_counterexample :
    yaml_deref (yaml_parse_string seq_doc_text) [0, 0] = some (.seq [.scalar "x".toList])
    ∧ iter_path (yaml_parse_string seq_doc_text) [0, 0] = some "a/x".toList
    ∧ yaml_get_node (yaml_parse_string seq_doc_text) "a/x".toList = none
    ∧ yaml_deref (yaml_parse_string twice_doc_text) [1]
        = some (.map "a".toList [.scalar "2".toList])
    ∧ iter_path (yaml_parse_string twice_doc_text) [1] = some "a".toList
    ∧ yaml_get_node (yaml_parse_string twice_doc_text) "a".toList = some [0] := by
  refine ⟨?_, ?_, ?_, ?_, ?_, ?_⟩ <;> rfl

theorem yaml_chain_root (doc : List yaml_node) : yaml_chain doc [0] = doc := by
  simp [yaml_chain]

/-- C11, amended: for every document and every node that is a mapping, as
are all nodes above it, each with a key that is not empty, has no
`YAML_PATH_SLASH` in it and is the key of no mapping in front of it in its
chain, `yaml_get_node` with the path under which a traversal reports the node
returns this node; and where the value of the node is a scalar,
`yaml_get_node` with the path of the scalar returns the scalar. -/
theorem C11_get_node (doc : List yaml_node) (i : Nat) (q : node_id)
    (h : key_path_ok doc (i :: q)) :
    (∃ path, iter_path doc (i :: q) = some path ∧ yaml_get_node doc path = some (i :: q))
    ∧ ∀ c, yaml_deref doc (0 :: i :: q) = some (.scalar c) →
        ∃ path, iter_path doc (0 :: i :: q) = some path
          ∧ yaml_get_node doc path = some (0 :: i :: q) := by
  obtain ⟨hj, hne, hs⟩ := iter_path_join doc (i :: q) h
  obtain ⟨key, v, hd, _⟩ := h.2
  have hc : path_comps doc (i :: q) = path_comps doc q ++ [path_name key] := by
    simp [path_comps, hd, node_name]
  constructor
  · refine ⟨_, hj, ?_⟩
    rw [yaml_get_node, strsep_tokens_join _ (hne (by simp)) (fun c hc => (hs c hc).1) _
      (Nat.lt_succ_self _)]
    have := get_node_walk_prefix doc q h.1 [path_name key] (by simp)
    rw [yaml_chain_root] at this
    rw [hc, this, get_node_walk_step doc i q h key v hd []]
    simp
  · intro c hsc
    have hp : iter_path doc (0 :: i :: q)
        = some (join_path (path_comps doc (i :: q) ++ [[]])) := by
      rw [join_path_snoc _ _ (hne (by simp)), iter_path, hsc, hj]
      rfl
    have hch : yaml_chain doc (0 :: i :: q) ≠ [] := by
      intro e
      simp [yaml_deref, e] at hsc
    refine ⟨_, hp, ?_⟩
    rw [yaml_get_node, strsep_tokens_join _ (by simp) (fun c hc => by
        rcases List.mem_append.1 hc with e | e
        · exact (hs c e).1
        · simp only [List.mem_singleton] at e; rw [e]; simp) _ (Nat.lt_succ_self _)]
    have := get_node_walk_prefix doc (i :: q) h [[]] (by simp)
    rw [yaml_chain_root] at this
    rw [this]
    cases hv : yaml_chain doc (0 :: i :: q) with
    | nil => exact absurd hv hch
    | cons n rest => simp [get_node_walk, yaml_decode_path, replace_char]

/-- C11 for the mapping `b` of the document `{a: {b: c}}` and its scalar. -/
theorem C11_get_node_witness :
    (∃ path, iter_path (yaml_parse_string nested_doc_text) [0, 0] = some path
      ∧ yaml_get_node (yaml_parse_string nested_doc_text) path = some [0, 0])
    ∧ ∀ c, yaml_deref (yaml_parse_string nested_doc_text) [0, 0, 0] = some (.scalar c) →
        ∃ path, iter_path (yaml_parse_string nested_doc_text) [0, 0, 0] = some path
          ∧ yaml_get_node (yaml_parse_string nested_doc_text) path = some [0, 0, 0] :=
  C11_get_node (yaml_parse_string nested_doc_text) 0 [0]
    ⟨⟨trivial, "a".toList, [.map "b".toList [.scalar "c".toList]], rfl, by decide, by decide,
        fun j hj => absurd hj (Nat.not_lt_zero j)⟩,
      "b".toList, [.scalar "c".toList], rfl, by decide, by decide,
        fun j hj => absurd hj (Nat.not_lt_zero j)⟩

/-! ## Comparing two documents -/

theorem covers_node_eq (pp : Str) (a : yaml_node) (b : List yaml_node) :
    covers_node pp a b =
      match counterpart pp (path_text a pp) b with
      | none => false
      | some n => covers (path_text a pp) (get_child a) (get_child n) := by
  cases a with
  | scalar c =>
    rw [covers_node]
    cases counterpart pp (path_text (.scalar c) pp) b <;> simp [get_child, covers]
  | seq c => rw [covers_node]; rfl
  | map k v => rw [covers_node]; rfl

theorem all_found_nil (pp : Str) (a : List yaml_node) : all_found pp a [] = true := rfl

theorem agrees_node_eq (pp : Str) (a : yaml_node) (b : List yaml_node) :
    agrees_node pp a b =
      match counterpart pp (path_text a pp) b with
      | none => false
      | some n => same_kind a n && agrees (path_text a pp) (get_child a) (get_child n) := by
  cases a with
  | scalar c =>
    rw [agrees_node]
    cases h : counterpart pp (path_text (.scalar c) pp) b with
    | none => rfl
    | some n =>
      cases n with
      | scalar d => simp [get_child, agrees, agrees_chain, all_found]
      | seq d => simp [same_kind]
      | map k v => simp [same_kind]
  | seq c =>
    rw [agrees_node]
    cases counterpart pp (path_text (.seq c) pp) b <;> simp [agrees, get_child, Bool.and_assoc]
  | map k v =>
    rw [agrees_node]
    cases counterpart pp (path_text (.map k v) pp) b <;> simp [agrees, get_child, Bool.and_assoc]

theorem counterpart_mem (pp path : Str) : ∀ (nodes : List yaml_node) (n : yaml_node),
    counterpart pp path nodes = some n → n ∈ nodes ∧ path_text n pp = path := by
  intro nodes
  induction nodes with
  | nil => intro n h; simp [counterpart] at h
  | cons x rest ih =>
    intro n h
    rw [counterpart] at h
    split at h
    · rename_i hx
      simp only [Option.some.injEq] at h
      subst h
      simp only [beq_iff_eq] at hx
      exact ⟨List.mem_cons_self _ _, ((strcmp_eq_zero _ _).1 hx).symm⟩
    · obtain ⟨a, b⟩ := ih n h
      exact ⟨List.mem_cons_of_mem _ a, b⟩

theorem yaml_size_mem (nodes : List yaml_node) (t : yaml_node) (ht : t ∈ nodes) :
    yaml_size t ≤ yaml_size_chain nodes := by
  induction nodes with
  | nil => simp at ht
  | cons a r ihr =>
    rw [yaml_size_chain]
    rcases List.mem_cons.1 ht with e | e
    · subst e; omega
    · have := ihr e; omega

theorem named_chain_mem (nodes : List yaml_node) (h : ∀ t ∈ nodes, named_node t = true) :
    named_chain nodes = true := by
  induction nodes with
  | nil => rfl
  | cons a r ih =>
    rw [named_chain, Bool.and_eq_true]
    exact ⟨h a (List.mem_cons_self _ _), ih (fun t ht => h t (List.mem_cons_of_mem _ ht))⟩

theorem traverse2_first_subset (rec : Str → List yaml_node → List yaml_node → Option Bool)
    (pp : Str) (b : List yaml_node) (hb : named_chain b = true) : ∀ (a : List yaml_node),
    named_chain a = true →
    (∀ x ∈ a, ∀ n, counterpart pp (path_text x pp) b = some n →
      rec (path_text x pp) (get_child x) (get_child n)
        = some (covers (path_text x pp) (get_child x) (get_child n))) →
    traverse2_first rec is_subset_cb pp b a = some (covers pp a b) := by
  intro a
  induction a with
  | nil => intro _ _; rfl
  | cons x rest ih =>
    intro ha h
    rw [named_chain, Bool.and_eq_true] at ha
    have hx := h x (List.mem_cons_self _ _)
    have ih := ih ha.2 (fun y hy => h y (List.mem_cons_of_mem _ hy))
    rw [traverse2_first, covers, covers_node_eq, node_path_named x pp ha.1]
    simp only [find_same_path_named pp _ b hb]
    cases hf : counterpart pp (path_text x pp) b with
    | none => simp [is_subset_cb]
    | some n =>
      simp only [is_subset_cb, Option.map_some', Option.isSome_some, Bool.not_true,
        Bool.false_eq_true, if_false, hx n hf]
      cases covers (path_text x pp) (get_child x) (get_child n) with
      | false => simp
      | true => simpa using ih

theorem traverse2_second_subset (rec : Str → List yaml_node → List yaml_node → Option Bool)
    (pp : Str) (a : List yaml_node) (ha : named_chain a = true) : ∀ (b : List yaml_node),
    named_chain b = true →
    (∀ x ∈ b, rec (path_text x pp) [] (get_child x) = some true) →
    traverse2_second rec is_subset_cb pp a b = some true := by
  intro b
  induction b with
  | nil => intro _ _; rfl
  | cons x rest ih =>
    intro hb h
    rw [named_chain, Bool.and_eq_true] at hb
    have hx := h x (List.mem_cons_self _ _)
    have ih := ih hb.2 (fun y hy => h y (List.mem_cons_of_mem _ hy))
    rw [traverse2_second, node_path_named x pp hb.1]
    simp only [find_same_path_named pp _ a ha]
    cases counterpart pp (path_text x pp) a with
    | some n => simpa using ih
    | none => simp [is_subset_cb, hx, ih]

theorem traverse2_only_b : ∀ (fuel : Nat) (pp : Str) (b : List yaml_node),
    named_chain b = true →
    yaml_size_chain b < fuel → _traverse2 is_subset_cb fuel pp [] b = some true := by
  intro fuel
  induction fuel with
  | zero => intro pp b _ h; omega
  | succ fuel ih =>
    intro pp b hb h
    rw [_traverse2]
    simp only [traverse2_first]
    apply traverse2_second_subset _ _ [] (by rfl) _ hb
    intro x hx
    have h1 := yaml_size_mem b x hx
    have h2 := yaml_size_child x
    exact ih _ _ (named_child x (named_mem b hb x hx)) (by omega)

/-- The traversal of two documents with `is_subset_cb`. -/
theorem traverse2_subset : ∀ (fuel : Nat) (pp : Str) (a b : List yaml_node),
    named_chain a = true → named_chain b = true →
    yaml_size_chain a + yaml_size_chain b < fuel →
    _traverse2 is_subset_cb fuel pp a b = some (covers pp a b) := by
  intro fuel
  induction fuel with
  | zero => intro pp a b _ _ h; omega
  | succ fuel ih =>
    intro pp a b ha hb h
    rw [_traverse2, traverse2_first_subset _ pp b hb a ha]
    · cases covers pp a b with
      | false => rfl
      | true =>
        simp only
        apply traverse2_second_subset _ _ _ ha _ hb
        intro x hx
        have h1 := yaml_size_mem b x hx
        have h2 := yaml_size_child x
        exact traverse2_only_b fuel _ _ (named_child x (named_mem b hb x hx)) (by omega)
    · intro x hx n hn
      have h1 := yaml_size_mem a x hx
      have h2 := yaml_size_child x
      have h3 := yaml_size_mem b n (counterpart_mem pp _ b n hn).1
      have h4 := yaml_size_child n
      exact ih _ _ _ (named_child x (named_mem a ha x hx))
        (named_child n (named_mem b hb n (counterpart_mem pp _ b n hn).1)) (by omega)

theorem cmp_cb_same_kind (p q : Str) (a n : yaml_node) :
    cmp_cb (some (p, a)) (some (q, n)) = same_kind a n := by
  cases a <;> cases n <;> simp [cmp_cb, same_kind, yaml_node.type]
  rename_i x y
  exact strcmp_eq_zero x y

theorem traverse2_first_cmp (rec : Str → List yaml_node → List yaml_node → Option Bool)
    (pp : Str) (b : List yaml_node) (hb : named_chain b = true) : ∀ (a : List yaml_node),
    named_chain a = true →
    (∀ x ∈ a, ∀ n, counterpart pp (path_text x pp) b = some n →
      rec (path_text x pp) (get_child x) (get_child n)
        = some (agrees (path_text x pp) (get_child x) (get_child n))) →
    traverse2_first rec cmp_cb pp b a = some (agrees_chain pp a b) := by
  intro a
  induction a with
  | nil => intro _ _; rfl
  | cons x rest ih =>
    intro ha h
    rw [named_chain, Bool.and_eq_true] at ha
    have hx := h x (List.mem_cons_self _ _)
    have ih := ih ha.2 (fun y hy => h y (List.mem_cons_of_mem _ hy))
    rw [traverse2_first, agrees_chain, agrees_node_eq, node_path_named x pp ha.1]
    simp only [find_same_path_named pp _ b hb]
    cases hf : counterpart pp (path_text x pp) b with
    | none => simp [cmp_cb]
    | some n =>
      simp only [Option.map_some', cmp_cb_same_kind, hx n hf]
      cases same_kind x n with
      | false => simp
      | true =>
        cases agrees (path_text x pp) (get_child x) (get_child n) with
        | false => simp
        | true => simpa using ih

theorem traverse2_second_cmp (rec : Str → List yaml_node → List yaml_node → Option Bool)
    (pp : Str) (a : List yaml_node) (ha : named_chain a = true) : ∀ (b : List yaml_node),
    named_chain b = true →
    traverse2_second rec cmp_cb pp a b = some (all_found pp a b) := by
  intro b
  induction b with
  | nil => intro _; rfl
  | cons x rest ih =>
    intro hb
    rw [named_chain, Bool.and_eq_true] at hb
    rw [traverse2_second, node_path_named x pp hb.1]
    simp only [find_same_path_named pp _ a ha]
    cases hf : counterpart pp (path_text x pp) a with
    | some n => simp only [ih hb.2]; simp [all_found, hf]
    | none => simp [cmp_cb, all_found, hf]

/-- The traversal of two documents with `cmp_cb`. -/
theorem traverse2_cmp : ∀ (fuel : Nat) (pp : Str) (a b : List yaml_node),
    named_chain a = true → named_chain b = true →
    yaml_size_chain a + yaml_size_chain b < fuel →
    _traverse2 cmp_cb fuel pp a b = some (agrees pp a b) := by
  intro fuel
  induction fuel with
  | zero => intro pp a b _ _ h; omega
  | succ fuel ih =>
    intro pp a b ha hb h
    rw [_traverse2, traverse2_first_cmp _ pp b hb a ha, agrees]
    · cases agrees_chain pp a b with
      | false => rfl
      | true => simp only [traverse2_second_cmp _ pp a ha b hb]; simp
    · intro x hx n hn
      have h1 := yaml_size_mem a x hx
      have h2 := yaml_size_child x
      have h3 := yaml_size_mem b n (counterpart_mem pp _ b n hn).1
      have h4 := yaml_size_child n
      exact ih _ _ _ (named_child x (named_mem a ha x hx))
        (named_child n (named_mem b hb n (counterpart_mem pp _ b n hn).1)) (by omega)

theorem node_paths_eq (pp : Str) (n : yaml_node) :
    node_paths pp n = path_text n pp :: paths (path_text n pp) (get_child n) := by
  cases n <;> simp [node_paths, get_child, paths]

theorem node_paths_subset (pp : Str) (nodes : List yaml_node) (n : yaml_node) (h : n ∈ nodes) :
    ∀ x ∈ node_paths pp n, x ∈ paths pp nodes := by
  induction nodes with
  | nil => simp at h
  | cons a r ih =>
    intro x hx
    rw [paths]
    rcases List.mem_cons.1 h with e | e
    · subst e; exact List.mem_append_left _ hx
    · exact List.mem_append_right _ (ih e x hx)

theorem covers_paths_step (pp : Str) (a : yaml_node) (b : List yaml_node)
    (ih : ∀ c, covers (path_text a pp) (get_child a) c = true →
      ∀ x ∈ paths (path_text a pp) (get_child a), x ∈ paths (path_text a pp) c)
    (h : covers_node pp a b = true) : ∀ x ∈ node_paths pp a, x ∈ paths pp b := by
  rw [covers_node_eq] at h
  cases hf : counterpart pp (path_text a pp) b with
  | none => simp [hf] at h
  | some n =>
    simp only [hf] at h
    obtain ⟨hm, hp⟩ := counterpart_mem pp _ b n hf
    intro x hx
    apply node_paths_subset pp b n hm
    rw [node_paths_eq, hp]
    rw [node_paths_eq] at hx
    rcases List.mem_cons.1 hx with e | e
    · rw [e]; exact List.mem_cons_self _ _
    · exact List.mem_cons_of_mem _ (ih _ h x e)

mutual
theorem covers_node_paths : ∀ (a : yaml_node) (pp : Str) (b : List yaml_node),
    covers_node pp a b = true → ∀ x ∈ node_paths pp a, x ∈ paths pp b
  | .scalar c, pp, b => covers_paths_step pp (.scalar c) b (fun _ _ x hx => by
      simp [get_child, paths] at hx)
  | .seq c, pp, b => covers_paths_step pp (.seq c) b (fun d hd x hx =>
      covers_paths c _ d hd x hx)
  | .map k v, pp, b => covers_paths_step pp (.map k v) b (fun d hd x hx =>
      covers_paths v _ d hd x hx)
theorem covers_paths : ∀ (a : List yaml_node) (pp : Str) (b : List yaml_node),
    covers pp a b = true → ∀ x ∈ paths pp a, x ∈ paths pp b
  | [], _, _ => by simp [paths]
  | n :: rest, pp, b => by
    intro h x hx
    rw [covers] at h
    simp only [Bool.and_eq_true] at h
    rw [paths] at hx
    rcases List.mem_append.1 hx with e | e
    · exact covers_node_paths n pp b h.1 x e
    · exact covers_paths rest pp b h.2 x e
end

mutual
theorem agrees_node_covers : ∀ (a : yaml_node) (pp : Str) (b : List yaml_node),
    agrees_node pp a b = true → covers_node pp a b = true
  | .scalar c, pp, b => by
    intro h
    rw [agrees_node] at h
    rw [covers_node]
    cases hf : counterpart pp (path_text (.scalar c) pp) b with
    | none => simp [hf] at h
    | some n => rfl
  | .seq c, pp, b => by
    intro h
    rw [agrees_node] at h
    rw [covers_node]
    cases hf : counterpart pp (path_text (.seq c) pp) b with
    | none => simp [hf] at h
    | some n =>
      simp only [hf, Bool.and_eq_true] at h
      exact agrees_chain_covers c _ _ h.1.2
  | .map k v, pp, b => by
    intro h
    rw [agrees_node] at h
    rw [covers_node]
    cases hf : counterpart pp (path_text (.map k v) pp) b with
    | none => simp [hf] at h
    | some n =>
      simp only [hf, Bool.and_eq_true] at h
      exact agrees_chain_covers v _ _ h.1.2
theorem agrees_chain_covers : ∀ (a : List yaml_node) (pp : Str) (b : List yaml_node),
    agrees_chain pp a b = true → covers pp a b = true
  | [], _, _ => by simp [covers]
  | n :: rest, pp, b => by
    intro h
    rw [agrees_chain] at h
    simp only [Bool.and_eq_true] at h
    rw [covers]
    simp only [Bool.and_eq_true]
    exact ⟨agrees_node_covers n pp b h.1, agrees_chain_covers rest pp b h.2⟩
end

theorem example_docs_parsed :
    yaml_parse_string "k:\n  x: 1\n".toList = kx_doc
    ∧ yaml_parse_string "k:\n  y: 1\nk:\n  x: 1\n".toList = kk_doc
    ∧ yaml_parse_string "a: 1\n".toList = a_doc
    ∧ yaml_parse_string "a: 1\nb: 2\n".toList = ab_doc := by
  refine ⟨?_, ?_, ?_, ?_⟩ <;> rfl

/-- With fuel for the nesting and documents in which every sequence element
has a scalar as its content, `yaml_cmp` returns `true` if and only if the
documents agree chain by chain: every node of the first has a counterpart of
the same variant, with the same content where it is a scalar, in the second,
and every node of the second has the path of a node of the first. -/
theorem yaml_cmp_agrees (a b : List yaml_node) (fuel : Nat)
    (ha : named_chain a = true) (hb : named_chain b = true)
    (hfuel : yaml_size_chain a + yaml_size_chain b < fuel) :
    yaml_cmp fuel a b = some (agrees [] a b)
    ∧ (agrees [] a b = true →
        (∀ x ∈ paths [] a, x ∈ paths [] b) ∧ all_found [] a b = true) := by
  refine ⟨traverse2_cmp fuel [] a b ha hb hfuel, fun h => ?_⟩
  rw [agrees] at h
  simp only [Bool.and_eq_true] at h
  exact ⟨covers_paths a [] b (agrees_chain_covers a [] b h.1), h.2⟩

/-- C14: the documents `{a: 1}` and `{a: 1, b: 2}`, as the parser gives them.
Every node of the first has a node with the same path in the second, of the
same variant and with the same content, and every path of the first is a path
of the second, which is the condition of the claim and of the comment of
`yaml_cmp`; but `yaml_cmp` returns `false`, with any fuel that suffices for a
result: its second pass calls `cmp_cb` without a node of the first document
for `b`.  For `{a: 1, b: 2}` and `{b: 2, a: 1}` it returns `true`. -/
theorem C14_yaml_cmp :
    yaml_parse_string "a: 1\n".toList = a_doc
    ∧ yaml_parse_string "a: 1\nb: 2\n".toList = ab_doc
    ∧ agrees_chain [] a_doc ab_doc = true
    ∧ (∀ x ∈ paths [] a_doc, x ∈ paths [] ab_doc)
    ∧ (∀ fuel, 3 ≤ fuel → yaml_cmp fuel a_doc ab_doc = some false)
    ∧ yaml_cmp 10 ab_doc ba_doc = some true := by
  refine ⟨by rfl, by rfl, ?_, ?_, ?_, by rfl⟩
  · simp [a_doc, ab_doc, agrees_chain, agrees_node, counterpart, path_text, Yaml.node_path,
      node_name, replace_char, strcmp, same_kind, all_found, get_child]
  · simp [a_doc, ab_doc, paths, node_paths, path_text, Yaml.node_path, node_name, replace_char]
  · intro fuel h
    obtain ⟨f, rfl⟩ : ∃ f, fuel = f + 3 := ⟨fuel - 3, by omega⟩
    rfl

/-- With fuel for the nesting and documents in which every sequence element
has a scalar as its content, `yaml_is_subset` returns `true` if and only if
every node of the first document has a counterpart in the second, whatever the
variants and the contents of the scalars: the counterpart of a node is the
first node with its path in the chain of the second document that belongs to
its chain. -/
theorem yaml_is_subset_covers (a b : List yaml_node) (fuel : Nat)
    (ha : named_chain a = true) (hb : named_chain b = true)
    (hfuel : yaml_size_chain a + yaml_size_chain b < fuel) :
    yaml_is_subset fuel a b = some (covers [] a b)
    ∧ (covers [] a b = true → ∀ x ∈ paths [] a, x ∈ paths [] b) :=
  ⟨traverse2_subset fuel [] a b ha hb hfuel, covers_paths a [] b⟩

/-- C15: the document `{k: {x: 1}}` and the document with the two mappings
`k: {y: 1}` and `k: {x: 1}`, as the parser gives them.  Every node of the
first has a node with the same path in the second, which is the condition of
the claim and of the comment of `yaml_is_subset`; but `yaml_is_subset` returns
`false`, with any fuel that suffices for a result: it looks for `x` below the
first `k` only. -/
theorem C15_is_subset :
    yaml_parse_string "k:\n  x: 1\n".toList = kx_doc
    ∧ yaml_parse_string "k:\n  y: 1\nk:\n  x: 1\n".toList = kk_doc
    ∧ (∀ x ∈ paths [] kx_doc, x ∈ paths [] kk_doc)
    ∧ (∀ fuel, 2 ≤ fuel → yaml_is_subset fuel kx_doc kk_doc = some false) := by
  refine ⟨by rfl, by rfl, ?_, ?_⟩
  · simp [kx_doc, kk_doc, paths, node_paths, path_text, Yaml.node_path, node_name, replace_char]
  · intro fuel h
    obtain ⟨f, rfl⟩ : ∃ f, fuel = f + 2 := ⟨fuel - 2, by omega⟩
    rfl

/-! ## Wildcard requirements -/

/-- C3, the input on which the code fails: the requirement `disk *` asks for
a partition of at least size 1 and another of at least size 2.  The disk `b`
alone is bound to it, so its children match; with the disk `a` in front of it,
whose children match as well, only `a` is bound, and the binding of `p1` inside
`a` is lost: for `b` the loop of `match_objects` goes back to `p1`, takes
`res[0]` of `p1`, which is a partition of `a`, and unassigns `p1`.  Without
children the requirement `disk *` is bound to the disks `a` and `b` with the
suffixes `_0` and `_1`. -/
theorem C3_wildcard_children :
    res_resolve 40 wild_types (yaml_parse_string wild_req_text)
        (yaml_parse_string wild_res_b_text) = some (some wild_env_b)
    ∧ res_resolve 40 wild_types (yaml_parse_string wild_req_text)
        (yaml_parse_string wild_res_ab_text) = some (some wild_env_ab)
    ∧ res_resolve 20 disk_types (yaml_parse_string "system:\n  disk *:\n".toList)
        (yaml_parse_string "system localhost:\n  disk a:\n  disk b:\n".toList)
      = some (some ["TELA_SYSTEM=localhost".toList, "TELA_SYSTEM_DISK_0=a".toList,
          "TELA_SYSTEM_DISK_1=b".toList]) := by
  refine ⟨?_, ?_, ?_⟩ <;> decide!

/-! ## Emitting and parsing again -/

theorem name_char_facts (c : Char) (h : name_char c = true) :
    isspace c = false ∧ c ≠ '\n' ∧ c ≠ ':' ∧ c ≠ '#' ∧ c ≠ dquote ∧ c ≠ squote ∧ c ≠ '-'
      ∧ c ≠ '.' ∧ c ≠ ' ' ∧ c ≠ '\t' := by
  have hn : (48 ≤ c.toNat ∧ c.toNat ≤ 57) ∨ (65 ≤ c.toNat ∧ c.toNat ≤ 90)
      ∨ (97 ≤ c.toNat ∧ c.toNat ≤ 122) ∨ c.toNat = 95 := by
    simp only [name_char, isalnum, isdigit, isupper, islower, Bool.or_eq_true, Bool.and_eq_true,
      decide_eq_true_eq, beq_iff_eq] at h
    rcases h with ((h | h) | h) | h
    · exact Or.inl h
    · exact Or.inr (Or.inl h)
    · exact Or.inr (Or.inr (Or.inl h))
    · exact Or.inr (Or.inr (Or.inr (by rw [h]; rfl)))
  have hne : ∀ d : Char, (d.toNat < 48 ∨ d.toNat = 58) → c ≠ d := by
    intro d hd e
    rw [e] at hn
    omega
  refine ⟨?_, hne _ (Or.inl (by decide)), hne _ (Or.inr (by decide)), hne _ (Or.inl (by decide)),
    hne _ (Or.inl (by decide)), hne _ (Or.inl (by decide)), hne _ (Or.inl (by decide)),
    hne _ (Or.inl (by decide)), hne _ (Or.inl (by decide)), hne _ (Or.inl (by decide))⟩
  simp only [isspace, Bool.or_eq_false_iff, Bool.and_eq_false_iff, beq_eq_false_iff_ne,
    decide_eq_false_iff_not]
  omega

theorem word_ok_facts (s : Str) (h : word_ok s = true) :
    s ≠ [] ∧ ∀ c ∈ s, name_char c = true := by
  simp only [word_ok, Bool.and_eq_true, Bool.not_eq_true', List.all_eq_true] at h
  refine ⟨fun e => ?_, h.2⟩
  rw [e] at h; simp at h

theorem scan_no_quote (c : Char) : ∀ (s : Str), (∀ d ∈ s, d ≠ dquote ∧ d ≠ squote) →
    strchr_unquoted_scan c s none false = strchr c s := by
  intro s
  induction s with
  | nil => intro _; rfl
  | cons d r ih =>
    intro h
    have hd := h d (List.mem_cons_self _ _)
    have h1 : (d == dquote) = false := by rw [beq_eq_false_iff_ne]; exact hd.1
    have h2 : (d == squote) = false := by rw [beq_eq_false_iff_ne]; exact hd.2
    rw [strchr_unquoted_scan, strchr]
    simp only [h1, h2, Bool.or_self, Bool.false_eq_true, if_false]
    rw [ih (fun x hx => h x (List.mem_cons_of_mem _ hx))]

/-- What one round of the loop of `_parse` decides for the line of a mapping
with a scalar value. -/
theorem line_action_entry (key content : Str) (hk : word_ok key = true)
    (hv : word_ok content = true) (prev : prev_t) (hp : prev_differs prev .yaml_map = false) :
    line_action_of (entry_line key content) 0 prev = .map 0 key (' ' :: content) := by
  obtain ⟨hkn, hkc⟩ := word_ok_facts key hk
  obtain ⟨hvn, hvc⟩ := word_ok_facts content hv
  obtain ⟨k0, kr, rfl⟩ : ∃ k0 kr, key = k0 :: kr := by
    cases key with
    | nil => exact absurd rfl hkn
    | cons a b => exact ⟨a, b, rfl⟩
  have hk0 := name_char_facts k0 (hkc k0 (List.mem_cons_self _ _))
  have hline : ∀ d ∈ (k0 :: kr) ++ ':' :: ' ' :: content, d ≠ '\n' ∧ d ≠ '#' ∧ d ≠ dquote
      ∧ d ≠ squote := by
    intro d hd
    simp only [List.mem_append, List.mem_cons] at hd
    rcases hd with (e | e) | e | e | e
    · have := name_char_facts d (hkc d (by rw [e]; exact List.mem_cons_self _ _))
      exact ⟨this.2.1, this.2.2.2.1, this.2.2.2.2.1, this.2.2.2.2.2.1⟩
    · have := name_char_facts d (hkc d (List.mem_cons_of_mem _ e))
      exact ⟨this.2.1, this.2.2.2.1, this.2.2.2.2.1, this.2.2.2.2.2.1⟩
    · rw [e]; decide
    · rw [e]; decide
    · have := name_char_facts d (hvc d e)
      exact ⟨this.2.1, this.2.2.2.1, this.2.2.2.2.1, this.2.2.2.2.2.1⟩
  have htw : (entry_line (k0 :: kr) content).takeWhile (fun c => c != '\n')
      = (k0 :: kr) ++ ':' :: ' ' :: content := by
    have e : entry_line (k0 :: kr) content = ((k0 :: kr) ++ ':' :: ' ' :: content) ++ ['\n'] := by
      simp [entry_line]
    rw [e, List.takeWhile_append_of_pos]
    · simp
    · intro d hd
      simpa using (hline d hd).1
  have hcm : strchr_unquoted ((k0 :: kr) ++ ':' :: ' ' :: content) '#' = none := by
    rw [strchr_unquoted, scan_no_quote _ _ (fun d hd => ⟨(hline d hd).2.2.1, (hline d hd).2.2.2⟩)]
    exact strchr_none _ _ (fun hm => (hline _ hm).2.1 rfl)
  have hcl : clean_line (entry_line (k0 :: kr) content) = k0 :: (kr ++ ':' :: ' ' :: content) := by
    simp only [clean_line, htw, hcm]; rfl
  have hcolon : ':' ∉ (k0 :: kr) := fun hm => (name_char_facts _ (hkc _ hm)).2.2.1 rfl
  have hfm : find_map (k0 :: (kr ++ ':' :: ' ' :: content))
      = some (k0 :: kr, ':' :: ' ' :: content) := by
    have hs : strchr_unquoted (k0 :: (kr ++ ':' :: ' ' :: content)) ':'
        = some (k0 :: kr, ':' :: ' ' :: content) := by
      rw [strchr_unquoted, scan_no_quote _ _ (fun d hd =>
        ⟨(hline d (by simpa using hd)).2.2.1, (hline d (by simpa using hd)).2.2.2⟩)]
      exact strchr_found ':' (k0 :: kr) (' ' :: content) hcolon
    rw [find_map, hs]
    simp [find_map_next, isspace]
  have hst : misc_strip_space (k0 :: kr) = k0 :: kr := by
    rcases List.eq_nil_or_concat (k0 :: kr) with e | ⟨l, c, e⟩
    · simp at e
    · rw [e]
      have hc : name_char c = true := hkc c (by rw [e]; simp)
      have := misc_strip_space_snoc l c (name_char_facts c hc).1
      simpa using this
  have hci : count_indent (k0 :: (kr ++ ':' :: ' ' :: content)) = 0 := by
    unfold count_indent
    split
    · rename_i heq
      simp only [List.cons.injEq] at heq
      exact absurd heq.1 hk0.2.2.2.2.2.2.2.2.1
    · rfl
  have hd1 : (k0 == '-') = false := by rw [beq_eq_false_iff_ne]; exact hk0.2.2.2.2.2.2.1
  have hd2 : (k0 == '.') = false := by rw [beq_eq_false_iff_ne]; exact hk0.2.2.2.2.2.2.2.1
  have hd3 : (k0 == '\t') = false := by rw [beq_eq_false_iff_ne]; exact hk0.2.2.2.2.2.2.2.2.2
  simp only [line_action_of, hcl, hci, List.drop_zero, misc_starts_with, hd1, hd2, hd3,
    Bool.false_and, Bool.false_eq_true, if_false, hfm, hp, hst, Nat.lt_irrefl]
  simp

theorem unquote_word (s : Str) (h : word_ok s = true) : unquote_string s = s := by
  obtain ⟨hn, hc⟩ := word_ok_facts s h
  cases s with
  | nil => exact absurd rfl hn
  | cons c r =>
    have hf := name_char_facts c (hc c (List.mem_cons_self _ _))
    have h1 : (c != squote && c != dquote) = true := by
      simp [bne_iff_ne, hf.2.2.2.2.1, hf.2.2.2.2.2.1]
    simp [unquote_string, misc_unquote, h1]

theorem parse_implicit_word (rec : filepos → Nat → List yaml_node × filepos) (pos : filepos)
    (indent : Nat) (s : Str) (h : word_ok s = true) (he : pos.error = false) :
    _parse_implicit rec pos indent (' ' :: s) = ([.scalar s], pos) := by
  obtain ⟨hn, hc⟩ := word_ok_facts s h
  have hsk : misc_skip_space (' ' :: s) = s := by
    cases s with
    | nil => exact absurd rfl hn
    | cons c r =>
      have hf := name_char_facts c (hc c (List.mem_cons_self _ _))
      have hb : isspace ' ' = true := by decide
      rw [misc_skip_space, if_pos hb, misc_skip_space_cons c r hf.1]
  have hst : misc_strip_space s = s := by
    rcases List.eq_nil_or_concat s with e | ⟨l, c, e⟩
    · exact absurd e hn
    · rw [e]
      have hc2 : name_char c = true := hc c (by rw [e]; simp)
      have := misc_strip_space_snoc l c (name_char_facts c hc2).1
      simpa using this
  have hem : s.isEmpty = false := by cases s <;> simp at hn ⊢
  simp only [_parse_implicit, hsk, hst, hem, Bool.false_eq_true, if_false, he, unquote_word s h]

theorem write_flat_entry (key content : Str) (rest : List yaml_node) :
    write_chain (.map key [.scalar content] :: rest) 0 false
      = entry_line key content ++ write_chain rest 0 false := by
  rw [write_chain, write_node]
  simp [indent_str, entry_line]

theorem getline_entry (key content rest : Str) (hk : word_ok key = true)
    (hv : word_ok content = true) :
    getline (entry_line key content ++ rest) = some (entry_line key content, rest) := by
  obtain ⟨hkn, hkc⟩ := word_ok_facts key hk
  obtain ⟨_, hvc⟩ := word_ok_facts content hv
  have hnl : '\n' ∉ key ++ ':' :: ' ' :: content := by
    intro hm
    simp only [List.mem_append, List.mem_cons] at hm
    rcases hm with e | e | e | e
    · exact (name_char_facts _ (hkc _ e)).2.1 rfl
    · exact absurd e (by decide)
    · exact absurd e (by decide)
    · exact (name_char_facts _ (hvc _ e)).2.1 rfl
  have e1 : entry_line key content ++ rest = (key ++ ':' :: ' ' :: content) ++ '\n' :: rest := by
    simp [entry_line]
  have hs := strchr_found '\n' (key ++ ':' :: ' ' :: content) rest hnl
  rw [e1]
  cases hl : (key ++ ':' :: ' ' :: content) ++ '\n' :: rest with
  | nil => simp at hl
  | cons c r =>
    rw [getline, ← hl, hs]
    simp [entry_line]

/-- The loop of `_parse` on the text that the emitter writes for a chain of
mappings with scalar values. -/
theorem parse_flat : ∀ (doc : List yaml_node), doc.all flat_entry = true →
    ∀ (fuel : Nat), doc.length < fuel → ∀ (root : List yaml_node) (prev : prev_t) (lineno : Nat),
    ((root = [] ∧ prev = none) ∨ (root ≠ [] ∧ prev = some (.yaml_map, true))) →
    _parse fuel
        { fd := write_chain doc 0 false, lineno := lineno, error := false, eof := false, line := none }
        0 root prev
      = (root ++ doc,
        { fd := [], lineno := lineno + doc.length, error := false, eof := false, line := none }) := by
  intro doc
  induction doc with
  | nil =>
    intro _ fuel hf root prev lineno _
    obtain ⟨f, rfl⟩ : ∃ f, fuel = f + 1 := ⟨fuel - 1, by omega⟩
    rw [_parse]
    simp [pos_getline, write_chain, getline]
  | cons n rest ih =>
    intro h fuel hf root prev lineno hrp
    obtain ⟨f, rfl⟩ : ∃ f, fuel = f + 1 := ⟨fuel - 1, by omega⟩
    simp only [List.all_cons, Bool.and_eq_true] at h
    obtain ⟨hn, hrest⟩ := h
    obtain ⟨key, content, rfl, hk, hv⟩ : ∃ key content, n = .map key [.scalar content]
        ∧ word_ok key = true ∧ word_ok content = true := by
      cases n with
      | scalar c => simp [flat_entry] at hn
      | seq c => simp [flat_entry] at hn
      | map key value =>
        cases value with
        | nil => simp [flat_entry] at hn
        | cons v vs =>
          cases v with
          | scalar c =>
            cases vs with
            | nil =>
              simp only [flat_entry, Bool.and_eq_true] at hn
              exact ⟨key, c, rfl, hn.1, hn.2⟩
            | cons w ws => simp [flat_entry] at hn
          | seq c => simp [flat_entry] at hn
          | map k2 v2 => simp [flat_entry] at hn
    have hp : prev_differs prev .yaml_map = false := by
      rcases hrp with ⟨_, e⟩ | ⟨_, e⟩ <;> rw [e] <;> rfl
    have hlink : parse_link root prev (.map key [.scalar content])
        = (root ++ [.map key [.scalar content]], some (.yaml_map, true)) := by
      rcases hrp with ⟨e1, e2⟩ | ⟨e1, e2⟩
      · rw [e1, e2]; rfl
      · rw [e2]
        cases root with
        | nil => exact absurd rfl e1
        | cons a b => rfl
    rw [_parse, write_flat_entry]
    simp only [pos_getline, Bool.or_self, Bool.false_eq_true, if_false,
      getline_entry key content _ hk hv, line_action_entry key content hk hv prev hp]
    rw [parse_implicit_word _ _ 0 content hv rfl]
    simp only [Bool.false_eq_true, if_false, hlink]
    rw [ih hrest f (by simp at hf; omega) _ _ _ (Or.inr ⟨by simp, rfl⟩)]
    simp only [List.append_assoc, List.singleton_append, List.length_cons, Prod.mk.injEq,
      true_and]
    congr 1
    omega

theorem write_chain_length : ∀ (doc : List yaml_node), doc.all flat_entry = true →
    doc.length ≤ (write_chain doc 0 false).length := by
  intro doc
  induction doc with
  | nil => intro _; simp
  | cons n rest ih =>
    intro h
    simp only [List.all_cons, Bool.and_eq_true] at h
    cases n with
    | scalar c => simp [flat_entry] at h
    | seq c => simp [flat_entry] at h
    | map key value =>
      cases value with
      | nil => simp [flat_entry] at h
      | cons v vs =>
        cases v with
        | scalar c =>
          cases vs with
          | nil =>
            rw [write_flat_entry]
            have := ih h.2
            simp [entry_line]
            omega
          | cons w ws => simp [flat_entry] at h
        | seq c => simp [flat_entry] at h
        | map k2 v2 => simp [flat_entry] at h

/-- Parsing what the emitter writes for a chain of mappings with scalar
values gives the chain back. -/
theorem parse_write_flat (doc : List yaml_node) (h : doc.all flat_entry = true) :
    yaml_parse_string (yaml_write_stream doc 0 false) = doc := by
  have hw : yaml_write_stream doc 0 false = write_chain doc 0 false := by
    cases doc with
    | nil => simp [yaml_write_stream, _yaml_write_stream, write_chain]
    | cons n rest => simp [yaml_write_stream, _yaml_write_stream]
  have hl := write_chain_length doc h
  rw [hw]
  unfold yaml_parse_string yaml_parse_stream
  rw [parse_flat doc h _ (by omega) [] none 0 (Or.inl ⟨rfl, rfl⟩)]
  simp

theorem fix_loop_valid (u : Str) (hu : u.all valid_testname_char = true) (out : Str) :
    misc_fix_testname_loop u out false = (out ++ u, false) := by
  induction u generalizing out with
  | nil => simp [misc_fix_testname_loop]
  | cons c r ih =>
    simp only [List.all_cons, Bool.and_eq_true] at hu
    simp [misc_fix_testname_loop, hu.1, ih hu.2]

theorem fix_loop_invalid (v : Str) (hv : v.all (fun c => !valid_testname_char c) = true)
    (hv0 : v ≠ []) (out : Str) (ins : Bool) :
    misc_fix_testname_loop v out ins = (out, true) := by
  induction v generalizing ins with
  | nil => exact absurd rfl hv0
  | cons c r ih =>
    simp only [List.all_cons, Bool.and_eq_true, Bool.not_eq_true'] at hv
    cases r with
    | nil => simp [misc_fix_testname_loop, hv.1]
    | cons d r2 =>
      have h2 := ih (by simpa using hv.2) (by simp) true
      rw [misc_fix_testname_loop]
      simp only [hv.1, Bool.false_eq_true, if_false]
      exact h2

theorem fix_loop_append (a b out : Str) (ins : Bool) :
    misc_fix_testname_loop (a ++ b) out ins =
      misc_fix_testname_loop b (misc_fix_testname_loop a out ins).1
        (misc_fix_testname_loop a out ins).2 := by
  induction a generalizing out ins with
  | nil => simp [misc_fix_testname_loop]
  | cons c r ih =>
    simp only [List.cons_append, misc_fix_testname_loop]
    split
    · split <;> exact ih _ _
    · exact ih _ _

/-- What was written before does not matter beyond its last character. -/
theorem fix_loop_context (s p out : Str) (ins : Bool) (hout : out ≠ []) :
    misc_fix_testname_loop s (p ++ out) ins =
      (p ++ (misc_fix_testname_loop s out ins).1, (misc_fix_testname_loop s out ins).2) := by
  induction s generalizing out ins with
  | nil => simp [misc_fix_testname_loop]
  | cons c r ih =>
    have hl : (p ++ out).getLast? = out.getLast? := by
      rw [List.getLast?_append]
      cases h : out.getLast? with
      | none => simp [List.getLast?_eq_none_iff] at h; exact absurd h hout
      | some x => simp
    have he : (p ++ out).isEmpty = false := by
      cases out with
      | nil => exact absurd rfl hout
      | cons x xs => cases p <;> simp
    have he2 : out.isEmpty = false := by
      cases out with
      | nil => exact absurd rfl hout
      | cons x xs => simp
    simp only [misc_fix_testname_loop, hl, he, he2]
    split
    · split
      · have := ih (out ++ ['_'] ++ [c]) false (by simp)
        simpa [List.append_assoc] using this
      · have := ih (out ++ [c]) false (by simp)
        simpa [List.append_assoc] using this
    · exact ih out true hout

theorem fix_loop_nonempty (s out : Str) (ins : Bool) (hout : out ≠ []) :
    (misc_fix_testname_loop s out ins).1 ≠ [] := by
  induction s generalizing out ins with
  | nil => simpa [misc_fix_testname_loop] using hout
  | cons c r ih =>
    simp only [misc_fix_testname_loop]
    split
    · split <;> exact ih _ _ (by simp)
    · exact ih _ _ hout

theorem fix_cons_valid (c : Char) (w : Str) (hc : valid_testname_char c = true) :
    misc_fix_testname (c :: w) = (misc_fix_testname_loop w [c] false).1 := by
  have h : (misc_fix_testname_loop w [c] false).1 ≠ [] := fix_loop_nonempty w [c] false (by simp)
  simp only [misc_fix_testname, misc_fix_testname_loop, hc]
  simp
  intro _ h2
  exact absurd h2 h

/-- The invariant of the loop: only valid characters are written, and never
more than were read. -/
theorem fix_loop_inv (s out : Str) (ins : Bool) (n : Nat)
    (hv : out.all valid_testname_char = true)
    (hl : out.length + (if ins then 1 else 0) ≤ n) :
    (misc_fix_testname_loop s out ins).1.all valid_testname_char = true ∧
      (misc_fix_testname_loop s out ins).1.length +
        (if (misc_fix_testname_loop s out ins).2 then 1 else 0) ≤ n + s.length := by
  induction s generalizing out ins n with
  | nil => simp only [misc_fix_testname_loop, List.length_nil, Nat.add_zero]; exact ⟨hv, hl⟩
  | cons c r ih =>
    simp only [misc_fix_testname_loop]
    split
    · rename_i hc
      split
      · rename_i hi
        have hi1 : ins = true := by
          cases ins
          · simp at hi
          · rfl
        subst hi1
        have hu : valid_testname_char '_' = true := by decide
        have := ih (out ++ ['_'] ++ [c]) false (n + 1) (by simp [hv, hc, hu])
          (by simp at hl ⊢; omega)
        simp only [List.length_cons] at this ⊢
        constructor
        · exact this.1
        · omega
      · have := ih (out ++ [c]) false (n + 1) (by simp [hv, hc])
          (by
            have : out.length ≤ n := by
              cases ins <;> simp at hl <;> omega
            simp; omega)
        simp only [List.length_cons]
        constructor
        · exact this.1
        · omega
    · have := ih out true (n + 1) hv (by
        have : out.length ≤ n := by
          cases ins <;> simp at hl <;> omega
        simp; omega)
      simp only [List.length_cons]
      constructor
      · exact this.1
      · omega

/-- A name with a character gives a loop result with a character or a pending
insertion. -/
theorem fix_loop_progress (s out : Str) (ins : Bool) (hs : s ≠ []) :
    (misc_fix_testname_loop s out ins).1 ≠ [] ∨ (misc_fix_testname_loop s out ins).2 = true := by
  induction s generalizing out ins with
  | nil => exact absurd rfl hs
  | cons c r ih =>
    simp only [misc_fix_testname_loop]
    split
    · left
      split <;> exact fix_loop_nonempty _ _ _ (by simp)
    · cases r with
      | nil => right; simp [misc_fix_testname_loop]
      | cons d r2 => exact ih _ _ (by simp)

theorem fix_eq (name : Str) :
    misc_fix_testname name =
      if (misc_fix_testname_loop name [] false).2 && (misc_fix_testname_loop name [] false).1.isEmpty
      then ['_'] else (misc_fix_testname_loop name [] false).1 := by
  simp only [misc_fix_testname]

/-- C26, counterexample: a run of invalid characters at the start or at the
end of a name, or after an underscore, is dropped and not replaced by `_`. -/
theorem C26_counterexample :
    misc_fix_testname " a".toList = "a".toList ∧
      misc_fix_testname "a ".toList = "a".toList ∧
      misc_fix_testname "a_ b".toList = "a_b".toList ∧
      misc_fix_testname "a  b".toList = "a_b".toList := by
  decide

/-- C26, amended: `misc_fix_testname` keeps the valid characters in their
order.  A name of valid characters is not changed and a non-empty name without
a valid character becomes `_`.  A maximal run `v` of other characters is
dropped at the start and at the end of the name; between two valid characters
it is replaced by one `_` unless the character before the run is `_`, in which
case it is dropped as well. -/
theorem C26_fix_testname (u v w : Str) (c d : Char)
    (hu : u.all valid_testname_char = true)
    (hv : v.all (fun x => !valid_testname_char x) = true) (hv0 : v ≠ [])
    (hc : valid_testname_char c = true) (hd : valid_testname_char d = true) :
    misc_fix_testname u = u ∧
      misc_fix_testname v = ['_'] ∧
      misc_fix_testname (v ++ d :: w) = misc_fix_testname (d :: w) ∧
      misc_fix_testname (u ++ [c] ++ v) = u ++ [c] ∧
      misc_fix_testname (u ++ [c] ++ v ++ d :: w) =
        u ++ [c] ++ (if c = '_' then [] else ['_']) ++ misc_fix_testname (d :: w) := by
  have huc : (u ++ [c]).all valid_testname_char = true := by
    simp only [List.all_append, List.all_cons, List.all_nil, hu, hc, Bool.and_self]
  have h4 : misc_fix_testname_loop (u ++ [c] ++ v) [] false = (u ++ [c], true) := by
    rw [fix_loop_append, fix_loop_valid (u ++ [c]) huc]
    simpa using fix_loop_invalid v hv hv0 (u ++ [c]) false
  have hne : (misc_fix_testname_loop w [d] false).1 ≠ [] := fix_loop_nonempty w [d] false (by simp)
  refine ⟨?_, ?_, ?_, ?_, ?_⟩
  · simp [fix_eq, fix_loop_valid u hu]
  · simp [fix_eq, fix_loop_invalid v hv hv0]
  · rw [fix_cons_valid d w hd, fix_eq, fix_loop_append, fix_loop_invalid v hv hv0]
    simp only [misc_fix_testname_loop, hd, if_true]
    simp [hne]
  · rw [fix_eq, h4]
    simp
  · rw [fix_cons_valid d w hd, fix_eq, fix_loop_append, h4]
    have hctx := fix_loop_context w (u ++ [c] ++ (if c = '_' then [] else ['_'])) [d] false
      (by simp)
    simp only [misc_fix_testname_loop, hd, if_true]
    by_cases hcu : c = '_'
    · subst hcu
      simp only [if_true, List.append_nil] at hctx
      have h1 : ((true && (!(u ++ ['_']).isEmpty && (u ++ ['_']).getLast? != some '_')) = true)
          = False := by
        simp
      simp only [h1, if_false]
      rw [hctx]
      simp [hne]
    · simp only [hcu, if_false] at hctx ⊢
      have h1 : ((true && (!(u ++ [c]).isEmpty && (u ++ [c]).getLast? != some '_')) = true)
          = True := by
        simp [hcu]
      simp only [h1, if_true]
      rw [hctx]
      simp [hne]

/-- Witness of C26: the name `a-1 %_ x.y`. -/
theorem C26_fix_testname_witness :
    misc_fix_testname "a-".toList = "a-".toList ∧
      misc_fix_testname " %".toList = ['_'] ∧
      misc_fix_testname (" %".toList ++ 'x' :: ".y".toList) = misc_fix_testname ('x' :: ".y".toList) ∧
      misc_fix_testname ("a-".toList ++ ['1'] ++ " %".toList) = "a-".toList ++ ['1'] ∧
      misc_fix_testname ("a-".toList ++ ['1'] ++ " %".toList ++ 'x' :: ".y".toList) =
        "a-".toList ++ ['1'] ++ (if '1' = '_' then [] else ['_']) ++
          misc_fix_testname ('x' :: ".y".toList) :=
  C26_fix_testname "a-".toList " %".toList ".y".toList '1' 'x' (by decide) (by decide)
    (by decide) (by decide) (by decide)

/-- C27: for every non-empty name the result of `misc_fix_testname` (the name
that `cmd_fixname` prints after it) is not empty, not longer than the name and consists
of characters from `A-Z`, `a-z`, `0-9`, `.`, `_` and `-` only. -/
theorem C27_fix_testname_bounds (name : Str) (h : name ≠ []) :
    misc_fix_testname name ≠ [] ∧
      (misc_fix_testname name).length ≤ name.length ∧
      (∀ c ∈ misc_fix_testname name,
        ('A' ≤ c ∧ c ≤ 'Z') ∨ ('a' ≤ c ∧ c ≤ 'z') ∨ ('0' ≤ c ∧ c ≤ '9') ∨
          c = '.' ∨ c = '_' ∨ c = '-') := by
  have hinv := fix_loop_inv name [] false 0 (by simp) (by simp)
  have hpr := fix_loop_progress name [] false h
  have hchar : ∀ c : Char, valid_testname_char c = true →
      ('A' ≤ c ∧ c ≤ 'Z') ∨ ('a' ≤ c ∧ c ≤ 'z') ∨ ('0' ≤ c ∧ c ≤ '9') ∨
        c = '.' ∨ c = '_' ∨ c = '-' := by
    intro c hc
    simp only [valid_testname_char, islower, isupper, isdigit, Bool.or_eq_true,
      Bool.and_eq_true, decide_eq_true_eq, beq_iff_eq] at hc
    have e1 : ('A' : Char).toNat = 65 := by decide
    have e2 : ('Z' : Char).toNat = 90 := by decide
    have e3 : ('a' : Char).toNat = 97 := by decide
    have e4 : ('z' : Char).toNat = 122 := by decide
    have e5 : ('0' : Char).toNat = 48 := by decide
    have e6 : ('9' : Char).toNat = 57 := by decide
    have hle : ∀ a b : Char, a ≤ b ↔ a.toNat ≤ b.toNat := fun a b => Iff.rfl
    simp only [hle, e1, e2, e3, e4, e5, e6]
    tauto
  have hname : 0 < name.length := List.length_pos.mpr h
  simp only [fix_eq]
  generalize misc_fix_testname_loop name [] false = r at hinv hpr
  obtain ⟨out, ins⟩ := r
  simp only at hinv hpr ⊢
  refine ⟨?_, ?_, ?_⟩
  · split
    · simp
    · rename_i hn
      cases hpr with
      | inl h1 => exact h1
      | inr h1 =>
        subst h1
        intro h0
        subst h0
        simp at hn
  · split
    · simpa using hname
    · have := hinv.2
      split at this <;> omega
  · intro c hc
    split at hc
    · simp at hc
      exact Or.inr (Or.inr (Or.inr (Or.inr (Or.inl hc))))
    · exact hchar c (List.all_eq_true.mp hinv.1 c hc)

/-- Witness of C27: the name `a b`. -/
theorem C27_fix_testname_bounds_witness :
    misc_fix_testname "a b".toList ≠ [] ∧
      (misc_fix_testname "a b".toList).length ≤ "a b".toList.length ∧
      (∀ c ∈ misc_fix_testname "a b".toList,
        ('A' ≤ c ∧ c ≤ 'Z') ∨ ('a' ≤ c ∧ c ≤ 'z') ∨ ('0' ≤ c ∧ c ≤ '9') ∨
          c = '.' ∨ c = '_' ∨ c = '-') :=
  C27_fix_testname_bounds "a b".toList (by decide)





/-! ## Running a test -/

theorem log_line_result (num : Int) (name : Option Str) (result : tela_result_t)
    (reason : Option Str) : tap_result_line (log_line num name result reason) = true := by
  cases result <;> rfl

theorem blank_no_result (l : Str) : tap_result_line (' ' :: l) = false := rfl

theorem twarn_no_result (tb f : Option Str) (n : Int) (s : Str) :
    tap_result_line (twarn tb f n s) = false := rfl

theorem rec_print_no_result (r : rec_result) (n : Nat) :
    (rec_print r (n + 1)).filter tap_result_line = [] := by
  simp only [rec_print, List.filter_eq_nil_iff, List.mem_map]
  rintro l ⟨x, _, rfl⟩
  simp [indent_str, List.replicate_succ, blank_no_result]

theorem log_result_results (tb : Option Str) (name testexec : Str) (num : Int)
    (result : tela_result_t) (reason : Option Str) (res : Option rec_result)
    (desc : List yaml_node) (rexec : Option Str) :
    (log_result tb name testexec num result reason res desc rexec).filter tap_result_line =
      [log_line num (some (match rexec with | some r => r ++ ':' :: name | none => name))
        result reason] := by
  have e3 : ∀ r : rec_result, (rec_print r 2).filter tap_result_line = [] :=
    fun r => rec_print_no_result r 1
  rcases hs : yaml_get_scalar desc name with ⟨_ | v, _ | t⟩ <;> cases reason <;> cases res <;>
    simp [log_result, hs, List.filter_cons, log_line_result, blank_no_result, twarn_no_result,
      e3]

theorem handle_tap_flags (d : run_data) (line stream : Str) :
    (handle_tap_line d line stream).1.is_tap13 = d.is_tap13 ∧
      (handle_tap_line d line stream).1.check_done = d.check_done := by
  unfold handle_tap_line
  split
  · exact ⟨rfl, rfl⟩
  split
  · exact ⟨rfl, rfl⟩
  split
  · split
    · split <;> exact ⟨rfl, rfl⟩
    · exact ⟨rfl, rfl⟩
  split
  · split <;> exact ⟨rfl, rfl⟩
  split
  · exact ⟨rfl, rfl⟩
  split <;> exact ⟨rfl, rfl⟩

theorem run_handler_checked (d : run_data) (h : d.check_done = true) (line stream : Str) :
    (run_handler d line stream).1.is_tap13 = d.is_tap13 ∧
      (run_handler d line stream).1.check_done = true := by
  simp only [run_handler, h, Bool.not_true, Bool.false_eq_true, if_false]
  split
  · rw [(handle_tap_flags d line stream).1, (handle_tap_flags d line stream).2]
    exact ⟨rfl, h⟩
  · simp only [handle_nontap_line]
    split <;> exact ⟨rfl, h⟩

theorem run_lines_checked (lines : List (Str × Str)) : ∀ (d : run_data), d.check_done = true →
    (run_lines d lines).1.is_tap13 = d.is_tap13 := by
  induction lines with
  | nil => intro d _; rfl
  | cons p rest ih =>
    intro d h
    obtain ⟨stream, line⟩ := p
    have h1 := run_handler_checked d h line stream
    simp only [run_lines]
    split
    · exact h1.1
    · rw [ih _ h1.2, h1.1]

theorem run_handler_first (d : run_data) (h : d.check_done = false) (h2 : d.is_tap13 = false)
    (line stream : Str) :
    (run_handler d line stream).1.is_tap13 =
        (decide (stream = "stdout".toList) && misc_starts_with line "TAP ".toList) ∧
      (run_handler d line stream).1.check_done = true := by
  have hs : (strcmp stream "stdout".toList == 0) = decide (stream = "stdout".toList) := by
    rw [Bool.eq_iff_iff]
    simp [strcmp_eq_zero]
  simp only [run_handler, h, h2, Bool.not_false, if_true, Bool.false_or, hs]
  split
  · rename_i ht
    rw [(handle_tap_flags _ line stream).1, (handle_tap_flags _ line stream).2]
    exact ⟨rfl, rfl⟩
  · simp only [handle_nontap_line]
    split <;> exact ⟨rfl, rfl⟩

/-- C21, counterexample: a test that writes a line to stderr before the TAP
header on stdout is treated as non-TAP, and a first line of stdout that only
starts with `TAP ` makes the test TAP-native. -/
theorem C21_counterexample :
    (run_lines (prepare_data none "t".toList (-1) [])
        [("stderr".toList, "warn\n".toList), ("stdout".toList, "TAP version 13\n".toList),
          ("stdout".toList, "ok 1 - a\n".toList)]).1.is_tap13 = false ∧
      (run_lines (prepare_data none "t".toList (-1) [])
        [("stdout".toList, "TAP dance\n".toList)]).1.is_tap13 = true := by
  constructor <;> rfl

/-- C21, amended: a test is treated as TAP-native if and only if the first
line that the recorder delivers to `run_handler`, on whichever stream, is a
line of stdout that starts with `TAP `; later lines do not change that. -/
theorem C21_first_line (testbase : Option Str) (exec : Str) (plan : Int)
    (desc : List yaml_node) (lines : List (Str × Str)) :
    (run_lines (prepare_data testbase exec plan desc) lines).1.is_tap13 =
      match lines with
      | [] => false
      | (stream, line) :: _ =>
        decide (stream = "stdout".toList) && misc_starts_with line "TAP ".toList := by
  cases lines with
  | nil => rfl
  | cons p rest =>
    obtain ⟨stream, line⟩ := p
    have h1 := run_handler_first (prepare_data testbase exec plan desc) rfl rfl line stream
    simp only [run_lines]
    split
    · exact h1.1
    · rw [run_lines_checked rest _ h1.2, h1.1]

/-- The lines of a test that is not TAP-native only set `last_stderr`. -/
theorem run_lines_nontap (lines : List (Str × Str)) : ∀ (d : run_data), d.check_done = true →
    d.is_tap13 = false → d.bailed = false →
    run_lines d lines =
      ({ d with last_stderr := match last_stderr_line lines with
                                | some l => some l
                                | none => d.last_stderr }, []) := by
  induction lines with
  | nil => intro d _ _ _; rfl
  | cons p rest ih =>
    intro d h h2 h3
    obtain ⟨stream, line⟩ := p
    cases d
    simp only at h h2 h3
    subst h h2 h3
    have hs : (strcmp stream "stderr".toList == 0) = (stream == "stderr".toList) := by
      rw [Bool.eq_iff_iff]
      simp [strcmp_eq_zero]
    simp only [run_lines, run_handler, Bool.not_true, Bool.false_eq_true, if_false,
      handle_nontap_line, hs]
    by_cases hst : (stream == "stderr".toList) = true
    · simp only [hst, if_true, Bool.false_eq_true, if_false]
      rw [ih _ rfl rfl rfl]
      simp only [last_stderr_line, List.filter_cons, hst, if_true, List.nil_append]
      cases hf : List.filter (fun p => p.1 == "stderr".toList) rest with
      | nil => simp
      | cons q qs =>
        obtain ⟨x, hx⟩ : ∃ x, (q :: qs).getLast? = some x :=
          ⟨_, List.getLast?_eq_getLast _ (List.cons_ne_nil _ _)⟩
        simp only [List.getLast?_cons_cons, hx, Option.map_some']
    · simp only [hst, if_false, Bool.false_eq_true]
      rw [ih _ rfl rfl rfl]
      simp only [last_stderr_line, List.filter_cons, hst, if_false, List.nil_append,
        Bool.false_eq_true]

theorem run_lines_prepare (testbase : Option Str) (exec : Str) (plan : Int)
    (desc : List yaml_node) (lines : List (Str × Str))
    (h : ∀ stream line rest, lines = (stream, line) :: rest →
      (decide (stream = "stdout".toList) && misc_starts_with line "TAP ".toList) = false) :
    run_lines (prepare_data testbase exec plan desc) lines =
      ({ prepare_data testbase exec plan desc with
          check_done := !lines.isEmpty, last_stderr := last_stderr_line lines }, []) := by
  cases lines with
  | nil => rfl
  | cons p rest =>
    obtain ⟨stream, line⟩ := p
    have h0 := h stream line rest rfl
    have hs : (strcmp stream "stdout".toList == 0) = decide (stream = "stdout".toList) := by
      rw [Bool.eq_iff_iff]
      simp [strcmp_eq_zero]
    have hs2 : (strcmp stream "stderr".toList == 0) = (stream == "stderr".toList) := by
      rw [Bool.eq_iff_iff]
      simp [strcmp_eq_zero]
    simp only [run_lines, run_handler, prepare_data, Bool.not_false, if_true, Bool.false_or, hs,
      h0, Bool.false_eq_true, if_false, handle_nontap_line, hs2]
    by_cases hst : (stream == "stderr".toList) = true
    · simp only [hst, if_true, Bool.false_eq_true, if_false]
      rw [run_lines_nontap rest _ rfl rfl rfl]
      simp only [last_stderr_line, List.filter_cons, hst, if_true, List.nil_append,
        List.isEmpty_cons, Bool.not_false]
      cases hf : List.filter (fun p => p.1 == "stderr".toList) rest with
      | nil => simp
      | cons q qs =>
        obtain ⟨x, hx⟩ : ∃ x, (q :: qs).getLast? = some x :=
          ⟨_, List.getLast?_eq_getLast _ (List.cons_ne_nil _ _)⟩
        simp only [List.getLast?_cons_cons, hx, Option.map_some']
    · simp only [hst, if_false, Bool.false_eq_true]
      rw [run_lines_nontap rest _ rfl rfl rfl]
      simp only [last_stderr_line, List.filter_cons, hst, if_false, List.nil_append,
        Bool.false_eq_true, List.isEmpty_cons, Bool.not_false]
      cases hf : List.filter (fun p => p.1 == "stderr".toList) rest with
      | nil => simp
      | cons q qs =>
        obtain ⟨x, hx⟩ : ∃ x, (q :: qs).getLast? = some x :=
          ⟨_, List.getLast?_eq_getLast _ (List.cons_ne_nil _ _)⟩
        simp only [hx, Option.map_some']

/-- What `finish_nontap` writes for a test that is not TAP-native. -/
theorem nontap_result_line (testbase : Option Str) (exec : Str) (plan : Int)
    (desc : List yaml_node) (lines : List (Str × Str)) (res : rec_result)
    (h : ∀ stream line rest, lines = (stream, line) :: rest →
      (decide (stream = "stdout".toList) && misc_starts_with line "TAP ".toList) = false) :
    (run_lines (prepare_data testbase exec plan desc) lines).2 = [] ∧
      (finish_nontap (run_lines (prepare_data testbase exec plan desc) lines).1 res).1.num = 1 ∧
      (finish_nontap (run_lines (prepare_data testbase exec plan desc) lines).1 res).2.filter
          tap_result_line =
        [log_line 1 (some (misc_relpath exec testbase)) (nontap_result res.status)
          (if nontap_result res.status = .TELA_SKIP ∨ nontap_result res.status = .TELA_TODO
            then (last_stderr_line lines).map misc_strip_space else none)] ∧
      nontap_result (.exited 0) = .TELA_PASS ∧ nontap_result (.exited 2) = .TELA_SKIP ∧
      nontap_result (.exited 3) = .TELA_TODO ∧
      (∀ code, code ≠ 0 → code ≠ 2 → code ≠ 3 → nontap_result (.exited code) = .TELA_FAIL) ∧
      (∀ sig, nontap_result (.signaled sig) = .TELA_FAIL) ∧
      nontap_result .other = .TELA_FAIL := by
  rw [run_lines_prepare testbase exec plan desc lines h]
  refine ⟨rfl, rfl, ?_, rfl, rfl, rfl, ?_, fun _ => rfl, rfl⟩
  · simp only [finish_nontap, List.filter_append, log_result_results, prepare_data]
    have hp : (log_plan plan).filter tap_result_line = [] := by
      simp only [log_plan]
      split
      · rfl
      · rfl
    rw [hp]
    cases hr : nontap_result res.status <;> simp
  · intro code h0 h2 h3
    match code, h0, h2, h3 with
    | 0, h0, _, _ => exact absurd rfl h0
    | 1, _, _, _ => rfl
    | 2, _, h2, _ => exact absurd rfl h2
    | 3, _, _, h3 => exact absurd rfl h3
    | _ + 4, _, _, _ => rfl

theorem cmd_run_nontap (testbase : Option Str) (exec : Str) (lines : List (Str × Str))
    (res : rec_result)
    (h : ∀ stream line rest, lines = (stream, line) :: rest →
      (decide (stream = "stdout".toList) && misc_starts_with line "TAP ".toList) = false) :
    (cmd_run testbase exec (-1) [] none lines res).filter tap_result_line =
      [log_line 1 (some (misc_relpath exec testbase)) (nontap_result res.status)
        (if nontap_result res.status = .TELA_SKIP ∨ nontap_result res.status = .TELA_TODO
          then (last_stderr_line lines).map misc_strip_space else none)] := by
  have h3 := (nontap_result_line testbase exec (-1) [] lines res h).2.2.1
  simp only [cmd_run]
  rw [run_lines_prepare testbase exec (-1) [] lines h] at h3 ⊢
  simp only [prepare_data, Bool.false_eq_true, if_false] at h3 ⊢
  have hc : ∀ d : run_data, d.desc = [] → d.plan = -1 → check_plan d = [] := by
    intro d h1 h2
    simp [check_plan, h1, h2]
  rw [hc _ rfl rfl]
  simp only [List.append_nil, List.nil_append, List.filter_cons]
  rw [h3]
  rfl

/-- C23: for a test that is not TAP-native nothing is written while it runs,
and `finish_nontap` emits exactly one result line, with the number 1 and the
name of the test: pass for exit status 0, skip for 2, todo for 3 and fail for
every other exit status and for a signal.  For skip and todo the reason is the
last line of stderr without its trailing white space, for pass and fail there
is no reason.  Without a plan in the configuration this is the only result
line that `cmd_run` writes. -/
theorem C23_nontap_result (testbase : Option Str) (exec : Str) (plan : Int)
    (desc : List yaml_node) (lines : List (Str × Str)) (res : rec_result)
    (h : ∀ stream line rest, lines = (stream, line) :: rest →
      (decide (stream = "stdout".toList) && misc_starts_with line "TAP ".toList) = false) :
    (run_lines (prepare_data testbase exec plan desc) lines).2 = [] ∧
      (finish_nontap (run_lines (prepare_data testbase exec plan desc) lines).1 res).1.num = 1 ∧
      (finish_nontap (run_lines (prepare_data testbase exec plan desc) lines).1 res).2.filter
          tap_result_line =
        [log_line 1 (some (misc_relpath exec testbase)) (nontap_result res.status)
          (if nontap_result res.status = .TELA_SKIP ∨ nontap_result res.status = .TELA_TODO
            then (last_stderr_line lines).map misc_strip_space else none)] ∧
      nontap_result (.exited 0) = .TELA_PASS ∧ nontap_result (.exited 2) = .TELA_SKIP ∧
      nontap_result (.exited 3) = .TELA_TODO ∧
      (∀ code, code ≠ 0 → code ≠ 2 → code ≠ 3 → nontap_result (.exited code) = .TELA_FAIL) ∧
      (∀ sig, nontap_result (.signaled sig) = .TELA_FAIL) ∧
      nontap_result .other = .TELA_FAIL ∧
      (cmd_run testbase exec (-1) [] none lines res).filter tap_result_line =
        [log_line 1 (some (misc_relpath exec testbase)) (nontap_result res.status)
          (if nontap_result res.status = .TELA_SKIP ∨ nontap_result res.status = .TELA_TODO
            then (last_stderr_line lines).map misc_strip_space else none)] := by
  have h1 := nontap_result_line testbase exec plan desc lines res h
  exact ⟨h1.1, h1.2.1, h1.2.2.1, h1.2.2.2.1, h1.2.2.2.2.1, h1.2.2.2.2.2.1, h1.2.2.2.2.2.2.1,
    h1.2.2.2.2.2.2.2.1, h1.2.2.2.2.2.2.2.2, cmd_run_nontap testbase exec lines res h⟩

/-- Witness of C23: a test that writes two lines to stderr and exits with 2. -/
theorem C23_nontap_result_witness :
    (run_lines (prepare_data none "t".toList (-1) [])
        [("stderr".toList, "first\n".toList), ("stdout".toList, "text\n".toList),
          ("stderr".toList, "device missing\n".toList)]).2 = [] ∧
      (finish_nontap (run_lines (prepare_data none "t".toList (-1) [])
        [("stderr".toList, "first\n".toList), ("stdout".toList, "text\n".toList),
          ("stderr".toList, "device missing\n".toList)]).1
        { status_valid := true, status := .exited 2, rest := [] }).2.filter tap_result_line =
        ["ok     1 - t # SKIP device missing\n".toList] := by
  have h := C23_nontap_result none "t".toList (-1) []
    [("stderr".toList, "first\n".toList), ("stdout".toList, "text\n".toList),
      ("stderr".toList, "device missing\n".toList)]
    { status_valid := true, status := .exited 2, rest := [] }
    (by
      intro stream line rest hl
      simp only [List.cons.injEq, Prod.mk.injEq] at hl
      rw [← hl.1.1]
      rfl)
  exact ⟨h.1, h.2.2.1.trans (by decide)⟩

theorem log_all_missing_results (tb : Option Str) (exec : Str) (result : tela_result_t)
    (reason : Option Str) (res : Option rec_result) (rexec : Str) (desc : List yaml_node)
    (count : Nat) : ∀ i : Int,
    (log_all_missing tb exec result reason res rexec desc count i).filter tap_result_line =
      (List.range count).map (fun (j : Nat) =>
        log_line (i + (j : Int) + 1) (some (missing_name rexec (i + (j : Int) + 1))) result
          reason) := by
  induction count with
  | zero => intro i; rfl
  | succ n ih =>
    intro i
    simp only [log_all_missing, List.filter_append, log_result_results, ih,
      List.range_succ_eq_map, List.map_cons, List.map_map]
    simp only [List.singleton_append, Nat.cast_zero, add_zero, missing_name, List.cons.injEq,
      true_and]
    apply List.map_congr_left
    intro j _
    simp only [Function.comp, Nat.cast_succ]
    rw [show i + 1 + (j : Int) + 1 = i + ((j : Int) + 1) + 1 by ring]

theorem log_all_result_plain (tb : Option Str) (exec : Str) (result : tela_result_t)
    (reason : Option Str) (res : Option rec_result) (rexec : Str) (handled : List node_id)
    (num plan : Int) (hp : plan ≠ -1) :
    log_all_result tb exec result reason res rexec [] handled num plan =
      log_all_missing tb exec result reason res rexec [] (plan - num).toNat num := by
  have h : (plan == -1) = false := by simpa using hp
  simp [log_all_result, h, log_all_names]

/-- C24: when the requirements of a test cannot be met and no plan is
configured, `skip_test` writes the plan `1..1` and one SKIP result with the
number 0; for the plan 0 it writes nothing; for a number `P + 1` as plan it
writes the plan line and `P + 1` SKIP results with the numbers 1 to `P + 1`
for the names `missing_name_<i>`. -/
theorem C24_skip_test (testbase : Option Str) (exec reason : Str) (desc : List yaml_node)
    (P : Nat) :
    skip_test (prepare_data testbase exec (-1) desc) reason =
        "1..1\n".toList ::
          log_result testbase (misc_relpath exec testbase) exec 0 .TELA_SKIP (some reason) none
            desc none ∧
      (skip_test (prepare_data testbase exec (-1) desc) reason).filter tap_result_line =
        [log_line 0 (some (misc_relpath exec testbase)) .TELA_SKIP (some reason)] ∧
      cmd_run none "t".toList (-1) [] (some "no disk".toList) []
          { status_valid := false, status := .other, rest := [] } =
        ["TAP version 13\n".toList, "1..1\n".toList, "ok     0 - t # SKIP no disk\n".toList,
          "  ---\n".toList, "  testresult: \"skip\"\n".toList, "  reason: \"no disk\"\n".toList,
          "  testexec: \"t\"\n".toList, "  ...\n".toList] ∧
      skip_test (prepare_data testbase exec 0 []) reason = [] ∧
      (skip_test (prepare_data testbase exec (P + 1 : Nat) []) reason).head? =
        some ("1..".toList ++ show_int (P + 1 : Nat) ++ ['\n']) ∧
      (skip_test (prepare_data testbase exec (P + 1 : Nat) []) reason).filter tap_result_line =
        (List.range (P + 1)).map (fun (j : Nat) =>
          log_line ((j : Int) + 1) (some (missing_name (misc_relpath exec testbase) ((j : Int) + 1)))
            .TELA_SKIP (some reason)) := by
  have hpos : ((P + 1 : Nat) : Int) > 0 := by positivity
  have hne : ((P + 1 : Nat) : Int) ≠ -1 := by omega
  have hne2 : (((P + 1 : Nat) : Int) == -1) = false := by simpa using hne
  refine ⟨rfl, ?_, by decide, rfl, ?_, ?_⟩
  · have : skip_test (prepare_data testbase exec (-1) desc) reason =
        "1..1\n".toList ::
          log_result testbase (misc_relpath exec testbase) exec 0 .TELA_SKIP (some reason) none
            desc none := rfl
    rw [this, List.filter_cons, log_result_results]
    rfl
  · simp only [skip_test, prepare_data, hne2, Bool.false_eq_true, if_false, log_plan, hpos,
      if_true]
    rfl
  · simp only [skip_test, prepare_data, hne2, Bool.false_eq_true, if_false, log_plan, hpos,
      if_true, List.filter_append, log_all_result_plain _ _ _ _ _ _ _ _ _ hne,
      log_all_missing_results]
    have h1 : List.filter tap_result_line ["1..".toList ++ show_int ((P + 1 : Nat) : Int) ++ ['\n']]
        = [] := rfl
    rw [h1]
    simp

/-- C25, counterexample: with the plan 3 and the results `ok 1 - a` and
`ok 2 - b` of the test `t` the third result line is
`not ok 3 - t:missing_name_3`, with the name of the test in front. -/
theorem C25_counterexample :
    cmd_run none "t".toList 3 [] none
        [("stdout".toList, "TAP version 13\n".toList), ("stdout".toList, "ok 1 - a\n".toList),
          ("stdout".toList, "ok 2 - b\n".toList)]
        { status_valid := false, status := .exited 0, rest := [] } =
      ["TAP version 13\n".toList, "ok     1 - t:a\n".toList, "ok     2 - t:b\n".toList,
        "not ok 3 - t:missing_name_3\n".toList, "  ---\n".toList,
        "  testresult: \"fail\"\n".toList, "  testexec: \"t\"\n".toList, "  ...\n".toList,
        "# WARNING: t: Plan mismatch (plan=3, actual=2)\n".toList] := by
  decide

/-- C25, amended: for a numeric plan `P` and a test that reported `k < P`
results, the check of the plan writes, for each `i` from `k + 1` to `P`, one
failing result line with the number `i` and the name
`<rexec>:missing_name_<i>`, so that the number of result lines equals the
plan, and after them the warning of the plan mismatch. -/
theorem C25_plan_mismatch (d : run_data) (hdesc : d.desc = []) (h0 : 0 ≤ d.num)
    (hk : d.num < d.plan) :
    (check_plan d).filter tap_result_line =
        (List.range (d.plan - d.num).toNat).map (fun (j : Nat) =>
          log_line (d.num + (j : Int) + 1) (some (missing_name d.rexec (d.num + (j : Int) + 1)))
            .TELA_FAIL none) ∧
      (d.num + ((check_plan d).filter tap_result_line).length = d.plan) ∧
      (check_plan d).getLast? =
        some (twarn d.testbase (some d.exec) 0
          ("Plan mismatch (plan=".toList ++ show_int d.plan ++ ", actual=".toList ++
            show_int d.num ++ ")\n".toList)) := by
  have hne : d.plan ≠ -1 := by omega
  have hne2 : (d.plan != -1) = true := by simpa using hne
  have hne3 : (d.num != d.plan) = true := by
    simp only [bne_iff_ne, ne_eq]
    omega
  have hcp : check_plan d = plan_mismatch d none := by
    simp [check_plan, hdesc, hne2, hne3]
  have hf : (check_plan d).filter tap_result_line =
      (List.range (d.plan - d.num).toNat).map (fun (j : Nat) =>
        log_line (d.num + (j : Int) + 1) (some (missing_name d.rexec (d.num + (j : Int) + 1)))
          .TELA_FAIL none) := by
    rw [hcp]
    simp only [plan_mismatch, List.filter_append, hdesc,
      log_all_result_plain _ _ _ _ _ _ _ _ _ hne, log_all_missing_results]
    simp [List.filter_cons, twarn_no_result]
  refine ⟨hf, ?_, ?_⟩
  · rw [hf, List.length_map, List.length_range]
    omega
  · rw [hcp]
    simp [plan_mismatch]

/-- Witness of C25: the plan 3 and a test that reports two results. -/
theorem C25_plan_mismatch_witness :
    (check_plan (run_lines (prepare_data none "t".toList 3 [])
        [("stdout".toList, "TAP version 13\n".toList), ("stdout".toList, "ok 1 - a\n".toList),
          ("stdout".toList, "ok 2 - b\n".toList)]).1).filter tap_result_line =
      ["not ok 3 - t:missing_name_3\n".toList] :=
  (C25_plan_mismatch (run_lines (prepare_data none "t".toList 3 [])
        [("stdout".toList, "TAP version 13\n".toList), ("stdout".toList, "ok 1 - a\n".toList),
          ("stdout".toList, "ok 2 - b\n".toList)]).1 (by rfl) (by decide) (by decide)).1.trans
    (by decide)

theorem skip_space_blank (s : Str) : misc_skip_space (' ' :: s) = misc_skip_space s := by
  rw [misc_skip_space]
  simp [isspace_blank]

theorem skip_digit_digits (n rest : Str) (hn : n.all isdigit = true)
    (hr : ∀ c r, rest = c :: r → isdigit c = false) : misc_skip_digit (n ++ rest) = rest := by
  induction n with
  | nil =>
    cases rest with
    | nil => rfl
    | cons c r => simp [misc_skip_digit, hr c r rfl]
  | cons d t ih =>
    simp only [List.all_cons, Bool.and_eq_true] at hn
    simp [misc_skip_digit, hn.1, ih hn.2]

theorem strip_space_ws (l : Str) (c : Char) (h : isspace c = true) :
    misc_strip_space (l ++ [c]) = misc_strip_space l := by
  simp [misc_strip_space, misc_skip_space, h]

theorem strip_trimmed (l : Str) (h : trimmed l = true) : misc_strip_space l = l := by
  induction l using List.reverseRecOn with
  | nil => rfl
  | append_singleton t c _ =>
    have hl : (t ++ [c]).getLast? = some c := by simp
    simp only [trimmed, hl, Bool.and_eq_true, Bool.not_eq_true'] at h
    exact misc_strip_space_snoc t c h.2

theorem skip_trimmed (l : Str) (h : trimmed l = true) : misc_skip_space l = l := by
  cases l with
  | nil => rfl
  | cons c r =>
    simp only [trimmed, List.head?_cons, Bool.and_eq_true, Bool.not_eq_true'] at h
    exact misc_skip_space_cons c r h.1

theorem tolower_space (c x : Char) (h : tolower c = x) (hx : isspace x = false) :
    isspace c = false := by
  by_contra hc
  simp only [Bool.not_eq_false] at hc
  have hu : isupper c = false := by
    simp only [isspace, Bool.or_eq_true, beq_iff_eq, Bool.and_eq_true, decide_eq_true_eq] at hc
    simp only [isupper, Bool.and_eq_false_imp, decide_eq_true_eq, decide_eq_false_iff_not]
    omega
  simp only [tolower, hu, Bool.false_eq_true, if_false] at h
  rw [h, hx] at hc
  exact absurd hc (by simp)

theorem directive_facts (d : Str) (h : directive d = true) :
    ∃ a b c e, d = [a, b, c, e] ∧ isspace a = false ∧ isspace b = false ∧ isspace c = false ∧
      isspace e = false := by
  simp only [directive, strcasecmp_eq, Bool.or_eq_true, beq_iff_eq] at h
  have key : ∀ w x y z : Char, isspace w = false → isspace x = false → isspace y = false →
      isspace z = false → d.map tolower = [w, x, y, z] →
      ∃ a b c e, d = [a, b, c, e] ∧ isspace a = false ∧ isspace b = false ∧
        isspace c = false ∧ isspace e = false := by
    intro w x y z hw hx hy hz hd
    match d, hd with
    | [a, b, c, e], hd =>
      simp only [List.map_cons, List.map_nil, List.cons.injEq, and_true] at hd
      exact ⟨a, b, c, e, rfl, tolower_space a w hd.1 hw, tolower_space b x hd.2.1 hx,
        tolower_space c y hd.2.2.1 hy, tolower_space e z hd.2.2.2 hz⟩
  rcases h with h | h
  · exact key 's' 'k' 'i' 'p' (by decide) (by decide) (by decide) (by decide) h
  · exact key 't' 'o' 'd' 'o' (by decide) (by decide) (by decide) (by decide) h

theorem log_parse_desc_text (ok : Bool) (num : Int) (name : Str) (dir : Option (Str × Str))
    (hne : name ≠ []) (ht : trimmed name = true) (hh : '#' ∉ name)
    (hd : ∀ d r, dir = some (d, r) → directive d = true ∧ trimmed r = true) :
    log_parse_desc ok num (name ++ tap_tail dir) =
      some { name := some name, num := num, result := tap_result ok dir,
             reason := dir.map (fun p => p.2) } := by
  have hnl : isspace '\n' = true := by decide
  cases dir with
  | none =>
    have h1 : strchr '#' (name ++ ['\n']) = none := by
      apply strchr_none
      simp only [List.mem_append, List.mem_singleton, not_or]
      exact ⟨hh, by decide⟩
    have h2 : (name ++ ['\n']).isEmpty = false := by
      cases name <;> simp
    simp only [log_parse_desc, tap_tail, h1, h2, Bool.false_eq_true, if_false,
      strip_space_ws name '\n' hnl, strip_trimmed name ht, log_parse_out, tap_result,
      Option.map_none']
  | some p =>
    obtain ⟨d, r⟩ := p
    obtain ⟨hdir, hr⟩ := hd d r rfl
    obtain ⟨a, b, c, e, rfl, ha, hb, hc, he⟩ := directive_facts d hdir
    have h1 : strchr '#' (name ++ tap_tail (some ([a, b, c, e], r))) =
        some (name ++ [' '], '#' :: ' ' :: a :: b :: c :: e :: ' ' :: (r ++ ['\n'])) := by
      have := strchr_found '#' (name ++ [' ']) (' ' :: a :: b :: c :: e :: ' ' :: (r ++ ['\n']))
        (by
          simp only [List.mem_append, List.mem_singleton, not_or]
          exact ⟨hh, by decide⟩)
      simpa [tap_tail, List.append_assoc] using this
    have h2 : (name ++ [' ']).isEmpty = false := by
      cases name <;> simp
    have h3 : misc_skip_space (' ' :: a :: b :: c :: e :: ' ' :: (r ++ ['\n'])) =
        a :: b :: c :: e :: ' ' :: (r ++ ['\n']) := by
      rw [skip_space_blank, misc_skip_space_cons a _ ha]
    have h4 : (!strncasecmp_eq (a :: b :: c :: e :: ' ' :: (r ++ ['\n'])) "skip".toList &&
        !strncasecmp_eq (a :: b :: c :: e :: ' ' :: (r ++ ['\n'])) "todo".toList) = false := by
      have e1 : strncasecmp_eq (a :: b :: c :: e :: ' ' :: (r ++ ['\n'])) "skip".toList =
          strcasecmp_eq [a, b, c, e] "skip".toList := rfl
      have e2 : strncasecmp_eq (a :: b :: c :: e :: ' ' :: (r ++ ['\n'])) "todo".toList =
          strcasecmp_eq [a, b, c, e] "todo".toList := rfl
      rw [e1, e2]
      simp only [directive, Bool.or_eq_true] at hdir
      rcases hdir with h | h <;> rw [h] <;> simp
    have h5 : List.takeWhile (fun c => !isspace c) (a :: b :: c :: e :: ' ' :: (r ++ ['\n'])) =
        [a, b, c, e] := by
      simp [List.takeWhile, ha, hb, hc, he, isspace_blank]
    have h6 : List.dropWhile (fun c => !isspace c) (a :: b :: c :: e :: ' ' :: (r ++ ['\n'])) =
        ' ' :: (r ++ ['\n']) := by
      simp [List.dropWhile, ha, hb, hc, he, isspace_blank]
    have h7 : misc_strip_space (misc_skip_space (r ++ ['\n'])) = r := by
      cases r with
      | nil => rfl
      | cons x xs =>
        have hx : isspace x = false := by
          simp only [trimmed, List.head?_cons, Bool.and_eq_true, Bool.not_eq_true'] at hr
          exact hr.1
        rw [List.cons_append, misc_skip_space_cons x _ hx, ← List.cons_append,
          strip_space_ws _ '\n' hnl, strip_trimmed _ hr]
    have hsp : isspace ' ' = true := isspace_blank
    simp only [log_parse_desc, h1, h2, Bool.false_eq_true, if_false, List.tail_cons, h3, h4,
      h5, h6, h7, strip_space_ws name ' ' hsp, strip_trimmed name ht, Option.map_some']
    simp only [directive, Bool.or_eq_true] at hdir
    simp only [log_parse_out, tap_result]
    by_cases hs : strcasecmp_eq [a, b, c, e] "skip".toList = true
    · simp only [hs, if_true]
    · have ht2 : strcasecmp_eq [a, b, c, e] "todo".toList = true := by
        rcases hdir with h | h
        · exact absurd h hs
        · exact h
      simp only [Bool.not_eq_true] at hs
      simp only [hs, ht2, if_true, if_false, Bool.false_eq_true]

theorem log_parse_rest_text (ok : Bool) (n : Str) (dash : Bool) (name : Str)
    (dir : Option (Str × Str)) (hn : n.all isdigit = true)
    (hname : tap_name_ok n dash name = true) (hdir : tap_dir_ok dir = true) :
    ∃ num, log_parse_rest ok ((if n.isEmpty then [] else ' ' :: n) ++
        ((if dash then " -".toList else []) ++ ' ' :: (name ++ tap_tail dir))) =
      some { name := some name, num := num, result := tap_result ok dir,
             reason := dir.map (fun p => p.2) } := by
  simp only [tap_name_ok, Bool.and_eq_true, Bool.not_eq_true', Bool.or_eq_true, bne_iff_ne,
    ne_eq] at hname
  obtain ⟨⟨⟨⟨hne, ht⟩, hh⟩, hdig⟩, hdash⟩ := hname
  have hne1 : name ≠ [] := by
    intro h
    rw [h] at hne
    simp at hne
  have hh1 : '#' ∉ name := by
    intro h
    have : name.contains '#' = true := by simpa using h
    rw [this] at hh
    exact absurd hh (by simp)
  have hd : ∀ d r, dir = some (d, r) → directive d = true ∧ trimmed r = true := by
    intro d r h
    subst h
    simpa [tap_dir_ok] using hdir
  have key : ∀ num, log_parse_desc ok num (name ++ tap_tail dir) =
      some { name := some name, num := num, result := tap_result ok dir,
             reason := dir.map (fun p => p.2) } :=
    fun num => log_parse_desc_text ok num name dir hne1 ht hh1 hd
  obtain ⟨c0, nr, rfl⟩ := List.exists_cons_of_ne_nil hne1
  have hc0 : isspace c0 = false := by
    simp only [trimmed, List.head?_cons, Bool.and_eq_true, Bool.not_eq_true'] at ht
    exact ht.1
  have hminus : isdigit '-' = false := by decide
  have hmsp : isspace '-' = false := by decide
  have hbd : isdigit ' ' = false := by decide
  cases hn0 : n.isEmpty
  · -- a number
    obtain ⟨d0, dr, rfl⟩ : ∃ d0 dr, n = d0 :: dr := by
      cases n with
      | nil => simp at hn0
      | cons a b => exact ⟨a, b, rfl⟩
    have hd0 : isdigit d0 = true := by
      simp only [List.all_cons, Bool.and_eq_true] at hn
      exact hn.1
    have hd0s : isspace d0 = false := by
      simp only [isdigit, Bool.and_eq_true, decide_eq_true_eq] at hd0
      simp only [isspace, Bool.or_eq_false_iff, beq_eq_false_iff_ne, ne_eq,
        Bool.and_eq_false_imp, decide_eq_true_eq, decide_eq_false_iff_not]
      omega
    cases dash
    · have hs1 : misc_skip_space ((' ' :: d0 :: dr) ++ ([] ++ ' ' :: (c0 :: nr ++ tap_tail dir))) =
          (d0 :: dr) ++ ' ' :: (c0 :: nr ++ tap_tail dir) := by
        rw [List.nil_append, List.cons_append, skip_space_blank, List.cons_append,
          misc_skip_space_cons d0 _ hd0s]
      have hs2 : misc_skip_digit ((d0 :: dr) ++ ' ' :: (c0 :: nr ++ tap_tail dir)) =
          ' ' :: (c0 :: nr ++ tap_tail dir) :=
        skip_digit_digits _ _ hn (by
          intro c r h
          simp only [List.cons.injEq] at h
          rw [← h.1]
          exact hbd)
      have hs3 : misc_skip_space (' ' :: (c0 :: nr ++ tap_tail dir)) = c0 :: nr ++ tap_tail dir := by
        rw [skip_space_blank, List.cons_append, misc_skip_space_cons c0 _ hc0]
      have hc0m : c0 ≠ '-' := by
        rcases hdash with h | h
        · exact absurd h (by simp)
        · simpa using h
      refine ⟨atoi ((d0 :: dr) ++ ' ' :: (c0 :: nr ++ tap_tail dir)), ?_⟩
      rw [← key]
      simp only [log_parse_rest, Bool.false_eq_true, if_false, hs1]
      simp only [List.cons_append, List.head?_cons, Option.map_some', Option.getD_some, hd0,
        if_true]
      simp only [List.cons_append] at hs2 hs3
      rw [hs2, hs3]
      simp [hc0m]
    · have hs1 : misc_skip_space ((' ' :: d0 :: dr) ++
            (" -".toList ++ ' ' :: (c0 :: nr ++ tap_tail dir))) =
          (d0 :: dr) ++ ' ' :: '-' :: ' ' :: (c0 :: nr ++ tap_tail dir) := by
        rw [List.cons_append, skip_space_blank, List.cons_append, misc_skip_space_cons d0 _ hd0s]
        rfl
      have hs2 : misc_skip_digit ((d0 :: dr) ++ ' ' :: '-' :: ' ' :: (c0 :: nr ++ tap_tail dir)) =
          ' ' :: '-' :: ' ' :: (c0 :: nr ++ tap_tail dir) :=
        skip_digit_digits _ _ hn (by
          intro c r h
          simp only [List.cons.injEq] at h
          rw [← h.1]
          exact hbd)
      have hs3 : misc_skip_space (' ' :: '-' :: ' ' :: (c0 :: nr ++ tap_tail dir)) =
          '-' :: ' ' :: (c0 :: nr ++ tap_tail dir) := by
        rw [skip_space_blank, misc_skip_space_cons '-' _ hmsp]
      have hs4 : misc_skip_space (' ' :: (c0 :: nr ++ tap_tail dir)) = c0 :: nr ++ tap_tail dir := by
        rw [skip_space_blank, List.cons_append, misc_skip_space_cons c0 _ hc0]
      refine ⟨atoi ((d0 :: dr) ++ ' ' :: '-' :: ' ' :: (c0 :: nr ++ tap_tail dir)), ?_⟩
      rw [← key]
      simp only [log_parse_rest, Bool.false_eq_true, if_false, if_true, hs1]
      simp only [List.cons_append, List.head?_cons, Option.map_some', Option.getD_some, hd0,
        if_true]
      simp only [List.cons_append] at hs2 hs3 hs4
      rw [hs2, hs3]
      simp only [List.head?_cons, beq_self_eq_true, if_true, List.tail_cons, hs4]
  · -- no number
    have hn1 : n = [] := by simpa using hn0
    subst hn1
    have hc0d : isdigit c0 = false := by
      rcases hdig with h | h
      · exact absurd h (by simp)
      · simpa using h
    have hs4 : misc_skip_space (' ' :: (c0 :: nr ++ tap_tail dir)) = c0 :: nr ++ tap_tail dir := by
      rw [skip_space_blank, List.cons_append, misc_skip_space_cons c0 _ hc0]
    cases dash
    · have hc0m : c0 ≠ '-' := by
        rcases hdash with h | h
        · exact absurd h (by simp)
        · simpa using h
      refine ⟨-1, ?_⟩
      rw [← key]
      simp only [log_parse_rest, if_true, Bool.false_eq_true, if_false, List.nil_append, hs4]
      simp [hc0d, hc0m]
    · have hs3 : misc_skip_space (" -".toList ++ ' ' :: (c0 :: nr ++ tap_tail dir)) =
          '-' :: ' ' :: (c0 :: nr ++ tap_tail dir) := by
        have : " -".toList ++ ' ' :: (c0 :: nr ++ tap_tail dir) =
            ' ' :: '-' :: ' ' :: (c0 :: nr ++ tap_tail dir) := rfl
        rw [this, skip_space_blank, misc_skip_space_cons '-' _ hmsp]
      refine ⟨-1, ?_⟩
      rw [← key]
      simp only [List.cons_append] at hs4
      simp only [log_parse_rest, if_true, List.nil_append, hs3]
      simp only [List.head?_cons, Option.map_some', Option.getD_some, hminus,
        Bool.false_eq_true, if_false, beq_self_eq_true, if_true, List.tail_cons, hs4,
        List.cons_append]

theorem log_parse_line_text (ok : Bool) (n : Str) (dash : Bool) (name : Str)
    (dir : Option (Str × Str)) (hn : n.all isdigit = true)
    (hname : tap_name_ok n dash name = true) (hdir : tap_dir_ok dir = true) :
    ∃ num, log_parse_line (tap_text ok n dash name dir) =
      some { name := some name, num := num, result := tap_result ok dir,
             reason := dir.map (fun p => p.2) } := by
  obtain ⟨num, h⟩ := log_parse_rest_text ok n dash name dir hn hname hdir
  refine ⟨num, ?_⟩
  rw [← h]
  cases ok
  · have h1 : ∀ x, misc_starts_with ("not ok".toList ++ x) "ok".toList = false := fun _ => rfl
    have h2 : ∀ x, misc_starts_with ("not ok".toList ++ x) "not ok".toList = true := by
      intro x
      cases x <;> simp [misc_starts_with]
    have h3 : ∀ x : Str, ("not ok".toList ++ x).drop 6 = x := fun _ => rfl
    simp only [log_parse_line, tap_text, Bool.false_eq_true, if_false, h1, h2, h3, if_true]
  · have h1 : ∀ x, misc_starts_with ("ok".toList ++ x) "ok".toList = true := by
      intro x
      cases x <;> simp [misc_starts_with]
    have h3 : ∀ x : Str, ("ok".toList ++ x).drop 2 = x := fun _ => rfl
    simp only [log_parse_line, tap_text, if_true, h1, h3]

theorem tap_text_not_plan (ok : Bool) (n : Str) (dash : Bool) (name : Str)
    (dir : Option (Str × Str)) :
    misc_starts_with (tap_text ok n dash name dir) "TAP ".toList = false ∧
      log_parse_plan (tap_text ok n dash name dir) = none := by
  cases ok <;> exact ⟨rfl, rfl⟩

theorem handle_tap_num (d : run_data) (line stream : Str) :
    (handle_tap_line d line stream).1.num =
        d.num + (if counts_as_result (stream, line) then 1 else 0) ∧
      (handle_tap_line d line stream).1.rexec = d.rexec ∧
      (handle_tap_line d line stream).1.testbase = d.testbase ∧
      ((handle_tap_line d line stream).1.bailed = false → d.bailed = false) := by
  have hs : (strcmp stream "stdout".toList != 0) = !(stream == "stdout".toList) := by
    rw [Bool.eq_iff_iff]
    simp [strcmp_eq_zero]
  unfold handle_tap_line
  rw [hs]
  by_cases h1 : (stream == "stdout".toList) = true
  · rw [h1]
    simp only [Bool.not_true, Bool.false_eq_true, if_false, counts_as_result, h1, Bool.true_and]
    by_cases h2 : misc_starts_with line "TAP ".toList = true
    · rw [if_pos h2, h2]
      simp only [Bool.not_true, Bool.false_and, Bool.false_eq_true, if_false, add_zero,
        imp_self, and_self]
    · rw [if_neg h2]
      simp only [Bool.not_eq_true] at h2
      rw [h2]
      simp only [Bool.not_false, Bool.true_and]
      cases h3 : log_parse_plan line with
      | some num =>
        simp only [Option.isNone_some, Bool.false_and, Bool.false_eq_true, if_false, add_zero]
        split
        · split <;> simp only [imp_self, and_self]
        · simp only [imp_self, and_self]
      | none =>
        simp only [Option.isNone_none, Bool.true_and]
        cases h4 : log_parse_line line with
        | some r =>
          simp only [Option.isSome_some, if_true]
          cases r.name <;> simp only [imp_self, and_self]
        | none =>
          simp only [Option.isSome_none, Bool.false_eq_true, if_false, add_zero]
          split
          · simp only [and_self, true_and]
            intro h
            exact absurd h (by simp)
          · split <;> simp only [imp_self, and_self]
  · simp only [Bool.not_eq_true] at h1
    rw [h1]
    simp only [counts_as_result, h1, Bool.not_false, if_true, Bool.false_and,
      Bool.false_eq_true, if_false, add_zero, imp_self, and_self]

theorem run_lines_tap (lines : List (Str × Str)) : ∀ (d : run_data), d.check_done = true →
    d.is_tap13 = true → (run_lines d lines).1.bailed = false →
    (run_lines d lines).1.num = d.num + lines.countP counts_as_result ∧
      (run_lines d lines).1.rexec = d.rexec ∧ (run_lines d lines).1.testbase = d.testbase ∧
      (run_lines d lines).1.check_done = true ∧ (run_lines d lines).1.is_tap13 = true := by
  induction lines with
  | nil => intro d h1 h2 _; simp [run_lines, h1, h2]
  | cons p rest ih =>
    intro d h1 h2 hb
    obtain ⟨stream, line⟩ := p
    have hr : run_handler d line stream = handle_tap_line d line stream := by
      simp [run_handler, h1, h2]
    have hf := handle_tap_flags d line stream
    have hn := handle_tap_num d line stream
    simp only [run_lines, hr] at hb ⊢
    by_cases hbail : (handle_tap_line d line stream).1.bailed = true
    · simp only [hbail, if_true] at hb
      exact absurd hb (by simp)
    · simp only [hbail, Bool.false_eq_true, if_false] at hb ⊢
      have := ih (handle_tap_line d line stream).1 (hf.2.trans h1) (hf.1.trans h2) hb
      rw [this.1, this.2.1, this.2.2.1, hn.1, hn.2.1, hn.2.2.1, List.countP_cons]
      refine ⟨?_, rfl, rfl, this.2.2.2.1, this.2.2.2.2⟩
      split
      · simp only [Nat.cast_add, Nat.cast_one]
        ring
      · simp

/-- C22: in a TAP-native test, whose first line is the header, a result line
`ok|not ok [N] [-] name [# directive reason]` of stdout that follows the lines
`pre` is written as the canonical result line with the number of result lines
seen so far (whatever `N` is), the name `<rexec>:<fixed name>`, the result
(pass or fail from `ok` or `not ok`, skip or todo from the directive) and the
reason; a warning precedes it where the name had to be fixed. -/
theorem C22_tap_result (testbase : Option Str) (exec : Str) (plan : Int)
    (desc : List yaml_node) (header : Str) (pre : List (Str × Str)) (ok : Bool) (n : Str)
    (dash : Bool) (name : Str) (dir : Option (Str × Str))
    (hhead : misc_starts_with header "TAP ".toList = true)
    (hb : (run_lines (prepare_data testbase exec plan desc)
      (("stdout".toList, header) :: pre)).1.bailed = false)
    (hn : n.all isdigit = true) (hname : tap_name_ok n dash name = true)
    (hdir : tap_dir_ok dir = true) :
    (run_handler (run_lines (prepare_data testbase exec plan desc)
          (("stdout".toList, header) :: pre)).1 (tap_text ok n dash name dir) "stdout".toList).2 =
        (if misc_fix_testname name = name then []
          else [twarn testbase (some (misc_relpath exec testbase)) 0
            ("Invalid characters in test name '".toList ++ name ++
              "': only use 0-9a-zA-Z._-".toList)]) ++
          [log_line ((pre.countP counts_as_result : Nat) + 1)
            (some (misc_relpath exec testbase ++ ':' :: misc_fix_testname name))
            (tap_result ok dir) (dir.map (fun p => p.2))] ∧
      (run_handler (run_lines (prepare_data testbase exec plan desc)
          (("stdout".toList, header) :: pre)).1 (tap_text ok n dash name dir)
          "stdout".toList).1.num = (pre.countP counts_as_result : Nat) + 1 := by
  have h0 := run_handler_first (prepare_data testbase exec plan desc) rfl rfl header
    "stdout".toList
  have hdec : decide ("stdout".toList = "stdout".toList) = true := by simp
  rw [hdec, hhead] at h0
  have hfirst : run_handler (prepare_data testbase exec plan desc) header "stdout".toList =
      (handle_tap_line { prepare_data testbase exec plan desc with
        is_tap13 := true, check_done := true } header "stdout".toList) := by
    have hs : (strcmp "stdout".toList "stdout".toList == 0) = true := by decide
    simp only [run_handler, prepare_data, Bool.not_false, if_true, Bool.false_or, hs, hhead,
      Bool.and_self]
  have hstep : handle_tap_line { prepare_data testbase exec plan desc with
        is_tap13 := true, check_done := true } header "stdout".toList =
      ({ prepare_data testbase exec plan desc with is_tap13 := true, check_done := true },
        []) := by
    have hs : (strcmp "stdout".toList "stdout".toList != 0) = false := by decide
    simp only [handle_tap_line, hs, Bool.false_eq_true, if_false, hhead, if_true]
  have hrun : run_lines (prepare_data testbase exec plan desc)
      (("stdout".toList, header) :: pre) =
      ((run_lines { prepare_data testbase exec plan desc with
          is_tap13 := true, check_done := true } pre).1,
        [] ++ (run_lines { prepare_data testbase exec plan desc with
          is_tap13 := true, check_done := true } pre).2) := by
    simp only [run_lines, hfirst, hstep]
    rfl
  rw [hrun] at hb ⊢
  simp only at hb ⊢
  have ht := run_lines_tap pre _ rfl rfl hb
  generalize (run_lines { prepare_data testbase exec plan desc with
    is_tap13 := true, check_done := true } pre).1 = d at ht hb ⊢
  obtain ⟨hnum, hrexec, htb, hcd, htap⟩ := ht
  obtain ⟨num, hparse⟩ := log_parse_line_text ok n dash name dir hn hname hdir
  have hnp := tap_text_not_plan ok n dash name dir
  have hs : (strcmp "stdout".toList "stdout".toList != 0) = false := by decide
  have hcmp : (strcmp name (misc_fix_testname name) != 0) =
      !decide (misc_fix_testname name = name) := by
    rw [Bool.eq_iff_iff]
    simp only [bne_iff_ne, ne_eq, strcmp_eq_zero, Bool.not_eq_true', decide_eq_false_iff_not]
    exact ⟨fun h e => h e.symm, fun h e => h e.symm⟩
  have hrh : run_handler d (tap_text ok n dash name dir) "stdout".toList =
      handle_tap_line d (tap_text ok n dash name dir) "stdout".toList := by
    simp only [run_handler, hcd, htap, Bool.not_true, Bool.false_eq_true, if_false, if_true]
  rw [hrh]
  unfold handle_tap_line
  rw [hs, hnp.1, hnp.2, hparse]
  simp only [Bool.false_eq_true, if_false, hcmp, hnum, hrexec, htb]
  simp only [prepare_data, zero_add]
  constructor
  · by_cases hfix : misc_fix_testname name = name
    · simp only [hfix, decide_True, Bool.not_true, Bool.false_eq_true, if_false, if_true]
    · simp only [hfix, decide_False, Bool.not_false, if_true, if_false]
  · trivial

/-- Witness of C22: the line `not ok 7 - a b # TODO later` after the header
and one result. -/
theorem C22_tap_result_witness :
    (run_handler (run_lines (prepare_data none "t".toList (-1) [])
          (("stdout".toList, "TAP version 13\n".toList) ::
            [("stdout".toList, "ok 1 - x\n".toList)])).1
          (tap_text false "7".toList true "a b".toList (some ("TODO".toList, "later".toList)))
          "stdout".toList).2 =
        ["# WARNING: t: Invalid characters in test name 'a b': only use 0-9a-zA-Z._-\n".toList,
          "not ok 2 - t:a_b # TODO later\n".toList] ∧
      tap_text false "7".toList true "a b".toList (some ("TODO".toList, "later".toList)) =
        "not ok 7 - a b # TODO later\n".toList :=
  ⟨(C22_tap_result none "t".toList (-1) [] "TAP version 13\n".toList
      [("stdout".toList, "ok 1 - x\n".toList)] false "7".toList true "a b".toList
      (some ("TODO".toList, "later".toList)) (by decide) (by decide) (by decide) (by decide)
      (by decide)).1.trans (by decide), by decide⟩

/-! ## The recorder -/

theorem frame_split (buf : Str) : ∀ acc, frame_lines buf acc =
    (split_lines buf acc).1 ++
      (if (split_lines buf acc).2.isEmpty then [] else [(split_lines buf acc).2]) := by
  induction buf with
  | nil => intro acc; simp [frame_lines, split_lines]
  | cons c r ih =>
    intro acc
    simp only [frame_lines, split_lines]
    split
    · simp [ih []]
    · exact ih _

theorem split_append (a b : Str) : ∀ acc, split_lines (a ++ b) acc =
    ((split_lines a acc).1 ++ (split_lines b (split_lines a acc).2).1,
      (split_lines b (split_lines a acc).2).2) := by
  induction a with
  | nil => intro acc; simp [split_lines]
  | cons c r ih =>
    intro acc
    simp only [List.cons_append, split_lines]
    split
    · simp [ih []]
    · exact ih _

theorem split_plain (a : Str) (h : '\n' ∉ a) : ∀ acc, split_lines a acc = ([], acc ++ a) := by
  induction a with
  | nil => intro acc; simp [split_lines]
  | cons c r ih =>
    intro acc
    have hc : (c == '\n') = false := by
      rw [beq_eq_false_iff_ne]
      intro e
      exact h (by simp [e])
    have hr : '\n' ∉ r := fun e => h (by simp [e])
    simp [split_lines, hc, ih hr]

theorem split_rest_plain (buf : Str) : ∀ acc, '\n' ∉ acc → '\n' ∉ (split_lines buf acc).2 := by
  induction buf with
  | nil => intro acc h; simpa [split_lines] using h
  | cons c r ih =>
    intro acc h
    simp only [split_lines]
    split
    · exact ih [] (by simp)
    · rename_i hc
      apply ih
      simp only [List.mem_append, List.mem_singleton, not_or]
      refine ⟨h, ?_⟩
      intro e
      exact hc (by simp [← e])

theorem rec_split_eq (stream : rec_stream) (tv : timeval) (cont : Bool) (buf : Str) :
    ∀ acc, rec_split stream tv cont true buf acc =
      ((split_lines buf acc).1.map (handle_line stream tv),
        if (split_lines buf acc).2.isEmpty then .done
        else if cont then .more (split_lines buf acc).2 else .saved (split_lines buf acc).2) := by
  induction buf with
  | nil =>
    intro acc
    cases acc with
    | nil => simp [rec_split, split_lines]
    | cons c t => cases cont <;> simp [rec_split, split_lines]
  | cons c r ih =>
    intro acc
    simp only [rec_split, split_lines]
    split
    · simp [ih []]
    · exact ih _

theorem handled_map (stream : rec_stream) (clock : Nat → timeval) (k : Nat) (ls : List Str) :
    List.Forall₂ (handled_as stream clock) (ls.map (handle_line stream (clock k))) ls := by
  induction ls with
  | nil => exact List.Forall₂.nil
  | cons l t ih => exact List.Forall₂.cons ⟨k, rfl⟩ ih

/-- One call of `rec_log_line`: it handles the first lines of the bytes that
are read, leaves the rest to later calls and returns 0 only without data. -/
theorem rec_log_loop_spec (stream : rec_stream) (clock : Nat → timeval) (k : Nat)
    (reads : List (Str × Bool)) : ∀ (pend : Str) (total : Nat),
    (∀ p ∈ reads, p.1 ≠ []) → '\n' ∉ pend →
    ∃ ls : List Str,
      (rec_log_loop stream (clock k) true reads pend total).items =
          ls.map (handle_line stream (clock k)) ∧
        frame_lines (reads.map Prod.fst).flatten pend =
          ls ++ frame_lines
            ((rec_log_loop stream (clock k) true reads pend total).reads.map Prod.fst).flatten
            ((rec_log_loop stream (clock k) true reads pend total).ss.buffer.getD []) ∧
        '\n' ∉ (rec_log_loop stream (clock k) true reads pend total).ss.buffer.getD [] ∧
        (∀ p ∈ (rec_log_loop stream (clock k) true reads pend total).reads, p.1 ≠ []) ∧
        (reads ≠ [] →
          (rec_log_loop stream (clock k) true reads pend total).reads.length < reads.length ∧
          0 < (rec_log_loop stream (clock k) true reads pend total).total) ∧
        (reads = [] →
          (rec_log_loop stream (clock k) true reads pend total).total = total ∧
          (rec_log_loop stream (clock k) true reads pend total).ss.buffer = none) := by
  induction reads with
  | nil =>
    intro pend total _ hp
    refine ⟨if pend.isEmpty then [] else [pend], ?_, ?_, ?_, ?_, ?_, ?_⟩
    · simp only [rec_log_loop]
      split <;> rfl
    · simp [rec_log_loop, frame_lines]
    · simp [rec_log_loop]
    · simp [rec_log_loop]
    · intro h; exact absurd rfl h
    · intro _; exact ⟨rfl, rfl⟩
  | cons p rest ih =>
    intro pend total hne hp
    obtain ⟨chunk, cont⟩ := p
    have hc : chunk ≠ [] := hne (chunk, cont) (by simp)
    have hc0 : chunk.isEmpty = false := by
      cases chunk with
      | nil => exact absurd rfl hc
      | cons a b => rfl
    have hclen : 0 < chunk.length := List.length_pos.mpr hc
    have hrest : ∀ p ∈ rest, p.1 ≠ [] := fun p hp => hne p (by simp [hp])
    have hsp : split_lines (pend ++ chunk) [] = split_lines chunk pend := by
      rw [split_append, split_plain pend hp]
      simp
    have hleft : '\n' ∉ (split_lines chunk pend).2 := split_rest_plain chunk pend hp
    have hfl : frame_lines (List.map Prod.fst ((chunk, cont) :: rest)).flatten pend =
        (split_lines chunk pend).1 ++
          frame_lines (rest.map Prod.fst).flatten (split_lines chunk pend).2 := by
      simp only [List.map_cons, List.flatten_cons]
      rw [frame_split, split_append, frame_split (rest.map Prod.fst).flatten]
      simp [List.append_assoc]
    simp only [rec_log_loop, hc0, Bool.false_eq_true, if_false, rec_split_eq, hsp]
    by_cases hl : (split_lines chunk pend).2.isEmpty = true
    · have hl2 : (split_lines chunk pend).2 = [] := by simpa using hl
      simp only [hl, if_true]
      cases cont
      · simp only [Bool.false_eq_true, if_false]
        refine ⟨(split_lines chunk pend).1, rfl, ?_, by simp, hrest, ?_, ?_⟩
        · rw [hfl, hl2]
          rfl
        · intro _
          simp only [List.length_cons]
          omega
        · intro h
          exact absurd h (by simp)
      · simp only [if_true]
        obtain ⟨ls, h1, h2, h3, h4, h5, h6⟩ := ih [] (total + chunk.length) hrest (by simp)
        refine ⟨(split_lines chunk pend).1 ++ ls, ?_, ?_, h3, h4, ?_, ?_⟩
        · simp only [h1, List.map_append]
        · rw [hfl, hl2, h2, List.append_assoc]
        · intro _
          simp only [List.length_cons]
          by_cases hr : rest = []
          · subst hr
            have := h6 rfl
            constructor
            · simp [rec_log_loop]
            · rw [this.1]
              omega
          · have := h5 hr
            exact ⟨by omega, this.2⟩
        · intro h
          exact absurd h (by simp)
    · simp only [hl, Bool.false_eq_true, if_false]
      cases cont
      · simp only [Bool.false_eq_true, if_false]
        refine ⟨(split_lines chunk pend).1, rfl, ?_, ?_, hrest, ?_, ?_⟩
        · rw [hfl]
          rfl
        · simpa using hleft
        · intro _
          simp only [List.length_cons]
          omega
        · intro h
          exact absurd h (by simp)
      · simp only [if_true]
        obtain ⟨ls, h1, h2, h3, h4, h5, h6⟩ :=
          ih (split_lines chunk pend).2 (total + chunk.length) hrest hleft
        refine ⟨(split_lines chunk pend).1 ++ ls, ?_, ?_, h3, h4, ?_, ?_⟩
        · simp only [h1, List.map_append]
        · rw [hfl, h2, List.append_assoc]
        · intro _
          simp only [List.length_cons]
          by_cases hr : rest = []
          · subst hr
            have := h6 rfl
            constructor
            · simp [rec_log_loop]
            · rw [this.1]
              omega
          · have := h5 hr
            exact ⟨by omega, this.2⟩
        · intro h
          exact absurd h (by simp)

theorem rec_log_loop_ss (stream : rec_stream) (tv : timeval) (reads : List (Str × Bool)) :
    ∀ (pend : Str) (total : Nat),
      (rec_log_loop stream tv true reads pend total).ss.buffer ≠ some [] := by
  induction reads with
  | nil => intro pend total; simp [rec_log_loop]
  | cons p rest ih =>
    intro pend total
    obtain ⟨chunk, cont⟩ := p
    simp only [rec_log_loop, rec_split_eq]
    split
    · simp
    · by_cases hl : (split_lines (pend ++ chunk) []).2.isEmpty = true
      · simp only [hl, if_true]
        cases cont
        · simp
        · simp only [if_true]
          exact ih _ _
      · simp only [hl, Bool.false_eq_true, if_false]
        cases cont
        · simp only [Bool.false_eq_true, if_false, ne_eq, Option.some.injEq]
          intro h
          rw [h] at hl
          exact hl rfl
        · simp only [if_true]
          exact ih _ _

theorem rec_log_rounds_spec (stream : rec_stream) (clock : Nat → timeval) (hup : Bool)
    (hclose : stream.onclose = false) (fuel : Nat) :
    ∀ (round : Nat) (reads : List (Str × Bool)) (ss : stream_state),
      reads.length < fuel → (∀ p ∈ reads, p.1 ≠ []) → '\n' ∉ ss.buffer.getD [] →
      ss.buffer ≠ some [] →
      List.Forall₂ (handled_as stream clock)
        (rec_log_rounds stream clock hup fuel round reads ss)
        (frame_lines (reads.map Prod.fst).flatten (ss.buffer.getD [])) := by
  induction fuel with
  | zero => intro _ reads _ h; exact absurd h (by omega)
  | succ fuel ih =>
    intro round reads ss hlen hne hnl hss
    have hcl : ∀ s : stream_state, s.buffer ≠ some [] →
        List.Forall₂ (handled_as stream clock) (rec_close stream (clock round) s)
          (frame_lines [] (s.buffer.getD [])) := by
      intro s hs
      obtain ⟨b⟩ := s
      cases b with
      | none => simp [rec_close, hclose, frame_lines]
      | some b =>
        have hb : b ≠ [] := fun e => hs (by simp [e])
        have hb2 : b.isEmpty = false := by
          cases b with
          | nil => exact absurd rfl hb
          | cons x y => rfl
        simp only [rec_close, hclose, Bool.false_eq_true, if_false, List.append_nil,
          frame_lines, Option.getD_some, hb2]
        exact List.Forall₂.cons ⟨round, rfl⟩ List.Forall₂.nil
    simp only [rec_log_rounds]
    by_cases h0 : (reads.isEmpty && hup) = true
    · simp only [h0, if_true]
      have hr : reads = [] := by
        simp only [Bool.and_eq_true, List.isEmpty_iff] at h0
        exact h0.1
      subst hr
      exact hcl ss hss
    · simp only [h0, Bool.false_eq_true, if_false, rec_log_line]
      obtain ⟨ls, h1, h2, h3, h4, h5, h6⟩ :=
        rec_log_loop_spec stream clock round reads (ss.buffer.getD []) 0 hne hnl
      have h7 := rec_log_loop_ss stream (clock round) reads (ss.buffer.getD []) 0
      rw [h1, h2]
      by_cases ht : ((rec_log_loop stream (clock round) true reads (ss.buffer.getD []) 0).total
          == 0) = true
      · simp only [ht, if_true]
        have hr : reads = [] := by
          by_contra hr
          have := (h5 hr).2
          simp only [beq_iff_eq] at ht
          omega
        subst hr
        apply List.rel_append (handled_map stream clock round ls)
        have hrd : (rec_log_loop stream (clock round) true [] (ss.buffer.getD []) 0).reads = [] :=
          rfl
        rw [hrd]
        exact hcl _ h7
      · simp only [ht, Bool.false_eq_true, if_false]
        have hr : reads ≠ [] := by
          intro hr
          have := (h6 hr).1
          simp only [beq_iff_eq] at ht
          exact ht this
        apply List.rel_append (handled_map stream clock round ls)
        exact ih (round + 1) _ _ (by have := (h5 hr).1; omega) h4 h3 h7

theorem frame_flatten (buf : Str) : ∀ acc, (frame_lines buf acc).flatten = acc ++ buf := by
  induction buf with
  | nil =>
    intro acc
    cases acc <;> simp [frame_lines]
  | cons c r ih =>
    intro acc
    simp only [frame_lines]
    split
    · simp [ih []]
    · simp [ih (acc ++ [c])]

theorem split_lines_shape (buf : Str) : ∀ acc, '\n' ∉ acc →
    ∀ l ∈ (split_lines buf acc).1, l.getLast? = some '\n' ∧ '\n' ∉ l.dropLast := by
  induction buf with
  | nil => intro acc _ l hl; simp [split_lines] at hl
  | cons c r ih =>
    intro acc hacc l hl
    simp only [split_lines] at hl
    split at hl
    · rename_i hc
      simp only [List.mem_cons] at hl
      rcases hl with rfl | hl
      · have : c = '\n' := by simpa using hc
        subst this
        simp [hacc]
      · exact ih [] (by simp) l hl
    · rename_i hc
      apply ih (acc ++ [c]) _ l hl
      simp only [List.mem_append, List.mem_singleton, not_or]
      refine ⟨hacc, ?_⟩
      intro e
      exact hc (by simp [← e])

theorem frame_shape (buf : Str) :
    (∀ l ∈ frame_lines buf [], l ≠ [] ∧ '\n' ∉ l.dropLast) ∧
      (∀ l ∈ (frame_lines buf []).dropLast, l.getLast? = some '\n') := by
  have hs := split_lines_shape buf [] (by simp)
  have hr := split_rest_plain buf [] (by simp)
  rw [frame_split]
  by_cases he : (split_lines buf []).2.isEmpty = true
  · simp only [he, if_true, List.append_nil]
    constructor
    · intro l hl
      have := hs l hl
      refine ⟨?_, this.2⟩
      intro e
      rw [e] at this
      simp at this
    · intro l hl
      exact (hs l (List.dropLast_subset _ hl)).1
  · simp only [he, Bool.false_eq_true, if_false]
    constructor
    · intro l hl
      simp only [List.mem_append, List.mem_singleton] at hl
      rcases hl with hl | rfl
      · have := hs l hl
        refine ⟨?_, this.2⟩
        intro e
        rw [e] at this
        simp at this
      · refine ⟨?_, ?_⟩
        · intro e
          rw [e] at he
          exact he rfl
        · intro hm
          exact hr (List.dropLast_subset _ hm)
    · intro l hl
      rw [List.dropLast_concat] at hl
      exact (hs l hl).1

theorem strndup_plain (l : Str) (h : NUL ∉ l) : strndup l = l := by
  simp only [strndup, List.takeWhile_eq_self_iff]
  intro c hc
  simp only [bne_iff_ne, ne_eq]
  intro e
  exact h (e ▸ hc)

/-- C28, counterexample: of a line with a NUL byte the handler gets only the
bytes before it, while the log has all of them. -/
theorem C28_counterexample :
    rec_log_streams { name := "stdout".toList, onclose := false }
        (fun _ => { tv_sec := 0, tv_usec := 0 }) true [(['a', NUL, 'b', '\n'], false)] =
      [.line ['a'] ("[   0.000000] stdout: a".toList ++ [NUL, 'b', '\n'])] := by
  decide

/-- C28, amended: for every byte string without a NUL byte that is written to
one recorded stream which is then closed, and however the reads split it, the
handler is called once for each line that ends with a newline, with the
newline, in order, and once more for bytes that are left without a newline;
the lines delivered give the byte string when they are put together.  The
entry of the log for a line with a newline has no mark, the entry for the
rest without a newline has the mark `(nonl)` after the name of the stream. -/
theorem C28_recorder_framing (stream : rec_stream) (clock : Nat → timeval) (hup : Bool)
    (reads : List (Str × Bool)) (hne : ∀ p ∈ reads, p.1 ≠ [])
    (hnul : ∀ p ∈ reads, NUL ∉ p.1) (hclose : stream.onclose = false) :
    List.Forall₂ (fun item l => ∃ k, item = rec_item.line l (do_log_buf (clock k) stream.name l))
        (rec_log_streams stream clock hup reads)
        (frame_lines (reads.map Prod.fst).flatten []) ∧
      (frame_lines (reads.map Prod.fst).flatten []).flatten = (reads.map Prod.fst).flatten ∧
      (∀ l ∈ frame_lines (reads.map Prod.fst).flatten [], l ≠ [] ∧ '\n' ∉ l.dropLast) ∧
      (∀ l ∈ (frame_lines (reads.map Prod.fst).flatten []).dropLast, l.getLast? = some '\n') ∧
      (∀ tv l, do_log_buf tv stream.name l =
        log_stamp tv ++ stream.name ++
          (if l.getLast? = some '\n' then ": ".toList ++ l
           else "(nonl): ".toList ++ l ++ ['\n'])) := by
  have hfl := frame_flatten (reads.map Prod.fst).flatten []
  simp only [List.nil_append] at hfl
  refine ⟨?_, hfl, (frame_shape _).1, (frame_shape _).2, ?_⟩
  · have h := rec_log_rounds_spec stream clock hup hclose (reads.length + 1) 0 reads
      { buffer := none } (by omega) hne (by simp) (by simp)
    simp only [Option.getD_none] at h
    have hmem : ∀ l ∈ frame_lines (reads.map Prod.fst).flatten [], NUL ∉ l := by
      intro l hl hn
      have h1 : NUL ∈ (frame_lines (reads.map Prod.fst).flatten []).flatten :=
        List.mem_flatten.mpr ⟨l, hl, hn⟩
      rw [hfl] at h1
      obtain ⟨c, hc, hcn⟩ := List.mem_flatten.mp h1
      obtain ⟨p, hp, rfl⟩ := List.mem_map.mp hc
      exact hnul p hp hcn
    unfold rec_log_streams
    generalize rec_log_rounds stream clock hup (reads.length + 1) 0 reads { buffer := none } =
      out at h
    generalize frame_lines (reads.map Prod.fst).flatten [] = lines at h hmem
    induction h with
    | nil => exact List.Forall₂.nil
    | @cons item l items ls hx _ ih =>
      obtain ⟨k, rfl⟩ := hx
      refine List.Forall₂.cons ⟨k, ?_⟩ (ih (fun l hl => hmem l (by simp [hl])))
      simp only [handle_line, strndup_plain l (hmem l (by simp))]
  · intro tv l
    simp only [do_log_buf, log_stamp]
    by_cases h : l.getLast? = some '\n'
    · simp [h]
    · have : (l.getLast? == some '\n') = false := by simpa using h
      simp [h, this]

/-- Witness of C28: the bytes `abc\nde`, read in three parts. -/
theorem C28_recorder_framing_witness :
    List.Forall₂ (fun item l => ∃ k, item =
          rec_item.line l (do_log_buf ((fun k => { tv_sec := k, tv_usec := 0 } : Nat → timeval) k)
            "stdout".toList l))
        (rec_log_streams { name := "stdout".toList, onclose := false }
          (fun k => { tv_sec := k, tv_usec := 0 }) true
          [("ab".toList, true), ("c\nd".toList, false), ("e".toList, false)])
        (frame_lines "abc\nde".toList []) ∧
      frame_lines "abc\nde".toList [] = ["abc\n".toList, "de".toList] ∧
      rec_log_streams { name := "stdout".toList, onclose := false }
          (fun k => { tv_sec := k, tv_usec := 0 }) true
          [("ab".toList, true), ("c\nd".toList, false), ("e".toList, false)] =
        [.line "abc\n".toList "[   0.000000] stdout: abc\n".toList,
          .line "de".toList "[   2.000000] stdout(nonl): de\n".toList] :=
  ⟨(C28_recorder_framing { name := "stdout".toList, onclose := false }
      (fun k => { tv_sec := k, tv_usec := 0 }) true
      [("ab".toList, true), ("c\nd".toList, false), ("e".toList, false)] (by decide) (by decide)
      rfl).1, by decide, by decide⟩

/-! ## Sanitising documents -/

theorem skip_space_suffix (x : Str) :
    ∃ p, x = p ++ misc_skip_space x ∧ p.all isspace = true := by
  induction x with
  | nil => exact ⟨[], rfl, rfl⟩
  | cons c r ih =>
    by_cases hc : isspace c = true
    · obtain ⟨p, h1, h2⟩ := ih
      refine ⟨c :: p, ?_, ?_⟩
      · simp only [misc_skip_space, hc, if_true, List.cons_append]
        rw [← h1]
      · simp [hc, h2]
    · simp only [Bool.not_eq_true] at hc
      exact ⟨[], by simp [misc_skip_space, hc], rfl⟩

theorem skip_space_head (x : Str) : ∀ c r, misc_skip_space x = c :: r → isspace c = false := by
  induction x with
  | nil => intro c r h; simp [misc_skip_space] at h
  | cons d t ih =>
    intro c r h
    by_cases hd : isspace d = true
    · simp only [misc_skip_space, hd, if_true] at h
      exact ih c r h
    · simp only [Bool.not_eq_true] at hd
      simp only [misc_skip_space, hd, Bool.false_eq_true, if_false, List.cons.injEq] at h
      rw [← h.1]
      exact hd

theorem strip_space_prefix (x : Str) :
    ∃ p, x = misc_strip_space x ++ p ∧ p.all isspace = true := by
  obtain ⟨p, h1, h2⟩ := skip_space_suffix x.reverse
  refine ⟨p.reverse, ?_, by simpa using h2⟩
  have := congrArg List.reverse h1
  simpa [misc_strip_space] using this

theorem strip_space_last (x : Str) : ∀ c, (misc_strip_space x).getLast? = some c →
    isspace c = false := by
  intro c h
  simp only [misc_strip_space, List.getLast?_reverse] at h
  cases hs : misc_skip_space x.reverse with
  | nil => rw [hs] at h; simp at h
  | cons d r =>
    rw [hs] at h
    simp only [List.head?_cons, Option.some.injEq] at h
    rw [← h]
    exact skip_space_head _ d r hs

theorem no_double_prefix (a : Str) : ∀ b, no_double (a ++ b) = true → no_double a = true := by
  induction a with
  | nil => intro _ _; rfl
  | cons c r ih =>
    intro b h
    cases r with
    | nil => rfl
    | cons d t =>
      simp only [List.cons_append, no_double, Bool.and_eq_true] at h ⊢
      exact ⟨h.1, ih b h.2⟩

/-- The loop of `sanitize_spacing` writes blanks for white space, never two of
them in a row and none at the start, and keeps the other characters. -/
theorem sanitize_loop_inv (s : Str) : ∀ started last_space,
    blank_ok (sanitize_spacing_loop s started last_space) = true ∧
      no_double (sanitize_spacing_loop s started last_space) = true ∧
      ((last_space || !started) = true →
        ∀ c r, sanitize_spacing_loop s started last_space = c :: r → isspace c = false) ∧
      (sanitize_spacing_loop s started last_space).filter (fun c => !isspace c) =
        s.filter (fun c => !isspace c) := by
  induction s with
  | nil => intro _ _; simp [sanitize_spacing_loop, blank_ok, no_double]
  | cons c t ih =>
    intro started last_space
    simp only [sanitize_spacing_loop]
    by_cases hc : isspace c = true
    · simp only [hc, if_true]
      by_cases hl : (last_space || !started) = true
      · simp only [hl, if_true]
        obtain ⟨h1, h2, h3, h4⟩ := ih started last_space
        refine ⟨h1, h2, fun _ => h3 hl, ?_⟩
        simp [List.filter_cons, hc, h4]
      · simp only [hl, Bool.false_eq_true, if_false]
        obtain ⟨h1, h2, h3, h4⟩ := ih true true
        refine ⟨?_, ?_, ?_, ?_⟩
        · simp only [blank_ok, List.all_cons, Bool.and_eq_true] at h1 ⊢
          exact ⟨by decide, h1⟩
        · cases hr : sanitize_spacing_loop t true true with
          | nil => rfl
          | cons d r =>
            have hd := h3 rfl d r hr
            rw [hr] at h2
            simp only [no_double, hd, Bool.and_false, Bool.not_false, Bool.true_and]
            exact h2
        · intro h
          exact h.elim
        · simp [List.filter_cons, hc, h4, isspace_blank]
    · simp only [Bool.not_eq_true] at hc
      simp only [hc, Bool.false_eq_true, if_false]
      obtain ⟨h1, h2, h3, h4⟩ := ih true false
      refine ⟨?_, ?_, ?_, ?_⟩
      · simp only [blank_ok, List.all_cons, Bool.and_eq_true] at h1 ⊢
        exact ⟨by simp [hc], h1⟩
      · cases hr : sanitize_spacing_loop t true false with
        | nil => rfl
        | cons d r =>
          rw [hr] at h2
          simp only [no_double, hc, Bool.false_and, Bool.not_false, Bool.true_and]
          exact h2
      · intro _ d r h
        simp only [List.cons.injEq] at h
        rw [← h.1]
        exact hc
      · simp [List.filter_cons, hc, h4]

/-- The function `sanitize_spacing` gives words separated by single blanks and
keeps the characters other than white space. -/
theorem sanitize_spacing_words (s : Str) :
    words_ok (sanitize_spacing s) = true ∧
      (sanitize_spacing s).filter (fun c => !isspace c) = s.filter (fun c => !isspace c) := by
  obtain ⟨h1, h2, h3, h4⟩ := sanitize_loop_inv s false false
  obtain ⟨p, hp1, hp2⟩ := strip_space_prefix (sanitize_spacing_loop s false false)
  have hlast := strip_space_last (sanitize_spacing_loop s false false)
  simp only [sanitize_spacing]
  generalize sanitize_spacing_loop s false false = x at h1 h2 h3 h4 hp1 hlast
  generalize misc_strip_space x = y at hp1 hlast
  subst hp1
  refine ⟨?_, ?_⟩
  · simp only [words_ok, Bool.and_eq_true]
    refine ⟨⟨?_, ?_⟩, no_double_prefix y p h2⟩
    · simp only [trimmed, Bool.and_eq_true]
      constructor
      · cases y with
        | nil => rfl
        | cons c r =>
          have := h3 rfl c (r ++ p) rfl
          simp [this]
      · cases hl : y.getLast? with
        | none => rfl
        | some c => simp [hlast c hl]
    · simp only [blank_ok, List.all_append, Bool.and_eq_true] at h1 ⊢
      exact h1.1
  · rw [← h4, List.filter_append]
    have : p.filter (fun c => !isspace c) = [] := by
      rw [List.filter_eq_nil_iff]
      intro c hc
      have := List.all_eq_true.mp hp2 c hc
      simp [this]
    rw [this, List.append_nil]

theorem sanitize_spacing_filled (k : Str) (hne : k ≠ []) (hs : stripped k = true) :
    sanitize_spacing k ≠ [] := by
  have hlast : ∃ c, k.getLast? = some c ∧ isspace c = false := by
    simp only [stripped, beq_iff_eq] at hs
    cases hl : k.getLast? with
    | none =>
      rw [List.getLast?_eq_none_iff] at hl
      exact absurd hl hne
    | some c =>
      refine ⟨c, rfl, ?_⟩
      apply strip_space_last k c
      rw [hs]
      exact hl
  obtain ⟨c, hc1, hc2⟩ := hlast
  have hmem : c ∈ k := List.mem_of_mem_getLast? (by rw [hc1]; exact rfl)
  have hf : c ∈ k.filter (fun c => !isspace c) := by
    simp [List.mem_filter, hmem, hc2]
  rw [← (sanitize_spacing_words k).2] at hf
  intro e
  rw [e] at hf
  simp at hf

mutual
theorem sanitize_node_clean (top : Bool) : ∀ (n m : yaml_node),
    sanitize_node n top = some m → clean_node top m = true
  | .scalar c, m => by
    intro h
    simp only [sanitize_node] at h
    split at h
    · exact absurd h (by simp)
    · rename_i hc
      simp only [Option.some.injEq] at h
      subst h
      simp only [Bool.or_eq_true, not_or, Bool.not_eq_true] at hc
      simp [clean_node, hc.1, hc.2]
  | .seq c, m => by
    intro h
    simp only [sanitize_node] at h
    split at h
    · exact absurd h (by simp)
    · rename_i hc
      simp only [Option.some.injEq] at h
      subst h
      simp only [Bool.or_eq_true, not_or, Bool.not_eq_true, Bool.not_eq_true',
        Bool.not_eq_false] at hc
      simp [clean_node, hc.1, hc.2]
  | .map k v, m => by
    intro h
    simp only [sanitize_node] at h
    split at h
    · exact absurd h (by simp)
    · simp only [Option.some.injEq] at h
      subst h
      simp only [clean_node, Bool.and_eq_true]
      exact ⟨(sanitize_spacing_words k).1, sanitize_yaml_clean false v⟩
theorem sanitize_yaml_clean (top : Bool) : ∀ (nodes : List yaml_node),
    clean_chain top (_sanitize_yaml nodes top) = true
  | [] => by simp [_sanitize_yaml, clean_chain]
  | n :: rest => by
    simp only [_sanitize_yaml]
    cases h : sanitize_node n top with
    | none => exact sanitize_yaml_clean top rest
    | some m =>
      simp only [clean_chain, Bool.and_eq_true]
      exact ⟨sanitize_node_clean top n m h, sanitize_yaml_clean top rest⟩
end

mutual
theorem sanitize_node_keys (top : Bool) : ∀ (n m : yaml_node),
    keys_node stripped n = true → sanitize_node n top = some m →
    keys_node (fun k => !k.isEmpty) m = true
  | .scalar c, m => by
    intro _ h
    simp only [sanitize_node] at h
    split at h
    · exact absurd h (by simp)
    · simp only [Option.some.injEq] at h
      subst h
      rfl
  | .seq c, m => by
    intro _ h
    simp only [sanitize_node] at h
    split at h
    · exact absurd h (by simp)
    · simp only [Option.some.injEq] at h
      subst h
      rfl
  | .map k v, m => by
    intro hk h
    simp only [sanitize_node] at h
    split at h
    · exact absurd h (by simp)
    · rename_i hne
      simp only [Option.some.injEq] at h
      subst h
      simp only [keys_node, Bool.and_eq_true] at hk ⊢
      refine ⟨?_, sanitize_yaml_keys false v hk.2⟩
      have hne1 : k ≠ [] := by
        intro e
        exact hne (by simp [e])
      have := sanitize_spacing_filled k hne1 hk.1
      cases hs : sanitize_spacing k with
      | nil => exact absurd hs this
      | cons a b => rfl
theorem sanitize_yaml_keys (top : Bool) : ∀ (nodes : List yaml_node),
    keys_chain stripped nodes = true →
    keys_chain (fun k => !k.isEmpty) (_sanitize_yaml nodes top) = true
  | [] => by intro _; simp [_sanitize_yaml, keys_chain]
  | n :: rest => by
    intro hk
    simp only [keys_chain, Bool.and_eq_true] at hk
    simp only [_sanitize_yaml]
    cases h : sanitize_node n top with
    | none => exact sanitize_yaml_keys top rest hk.2
    | some m =>
      simp only [keys_chain, Bool.and_eq_true]
      exact ⟨sanitize_node_keys top n m hk.1 h, sanitize_yaml_keys top rest hk.2⟩
end

theorem clean_top_maps : ∀ (nodes : List yaml_node), clean_chain true nodes = true →
    nodes.all (fun n => n.type == .yaml_map) = true
  | [] => by intro _; rfl
  | n :: rest => by
    intro h
    simp only [clean_chain, Bool.and_eq_true] at h
    simp only [List.all_cons, Bool.and_eq_true]
    refine ⟨?_, clean_top_maps rest h.2⟩
    cases n with
    | scalar c => simp [clean_node] at h
    | seq c => simp [clean_node] at h
    | map k v => rfl

theorem strip_space_idem (x : Str) : misc_strip_space (misc_strip_space x) = misc_strip_space x := by
  have h := strip_space_last x
  generalize misc_strip_space x = y at h
  induction y using List.reverseRecOn with
  | nil => rfl
  | append_singleton t c _ => exact misc_strip_space_snoc t c (h c (by simp))

theorem keys_chain_append (P : Str → Bool) : ∀ (a b : List yaml_node),
    keys_chain P (a ++ b) = (keys_chain P a && keys_chain P b)
  | [], b => by simp [keys_chain]
  | n :: a, b => by
    have ih := keys_chain_append P a b
    rw [List.cons_append, keys_chain, keys_chain, ih, Bool.and_assoc]

theorem keys_chain_drop_last (P : Str → Bool) : ∀ (a : List yaml_node),
    keys_chain P a = true → keys_chain P a.dropLast = true
  | [], _ => by simp [keys_chain]
  | [n], _ => by simp [keys_chain]
  | n :: m :: r, h => by
    rw [keys_chain, Bool.and_eq_true] at h
    rw [List.dropLast_cons₂, keys_chain, Bool.and_eq_true]
    exact ⟨h.1, keys_chain_drop_last P (m :: r) h.2⟩

theorem keys_parse_link (P : Str → Bool) (root : List yaml_node) (prev : prev_t)
    (node : yaml_node) (hr : keys_chain P root = true) (hn : keys_node P node = true) :
    keys_chain P (parse_link root prev node).1 = true := by
  unfold parse_link
  cases root with
  | nil => simp [keys_chain, hn]
  | cons a r =>
    rcases prev with _ | ⟨t, b⟩
    · exact hr
    · cases b
      · exact hr
      · simp only
        rw [keys_chain_append, hr]
        simp [keys_chain, hn]

theorem keys_append_scalar (P : Str → Bool) (root : List yaml_node) (prev : prev_t) (s : Str)
    (hr : keys_chain P root = true) : keys_chain P (append_scalar root prev s) = true := by
  unfold append_scalar
  split
  · rw [keys_chain_append, keys_chain_drop_last P root hr]
    simp [keys_chain, keys_node]
  · exact hr

/-- The keys of the mappings that `_parse` builds have no white space at their
end: they are stored after `misc_strip_space`. -/
theorem keys_parse : ∀ (fuel : Nat) (pos : filepos) (indent : Nat) (root : List yaml_node)
    (prev : prev_t), keys_chain stripped root = true →
    keys_chain stripped (_parse fuel pos indent root prev).1 = true := by
  intro fuel
  induction fuel with
  | zero => intro pos indent root prev h; exact h
  | succ f ih =>
    intro pos indent root prev h
    have himp : ∀ (p : filepos) (i : Nat) (s : Str),
        keys_chain stripped
          (_parse_implicit (fun p k => _parse f p k [] none) p i s).1 = true := by
      intro p i s
      unfold _parse_implicit
      simp only
      split
      · exact ih _ _ [] none rfl
      · split <;> simp [keys_chain, keys_node]
    rw [_parse]
    split
    · exact h
    · rename_i line0 pos0 _
      simp only
      split
      · exact ih _ _ _ _ h
      · exact h
      · exact h
      · exact h
      · rename_i i s _
        split
        · exact h
        · exact ih _ _ _ _ (keys_parse_link _ _ _ _ h (by simp [keys_node]))
      · rename_i i key s hact
        split
        · exact h
        · refine ih _ _ _ _ (keys_parse_link _ _ _ _ h ?_)
          simp only [keys_node, Bool.and_eq_true]
          refine ⟨?_, himp _ _ _⟩
          have hk : ∃ k, key = misc_strip_space k := by
            unfold line_action_of at hact
            simp only at hact
            split at hact
            · cases hact
            · split at hact
              · cases hact
              · split at hact
                · cases hact
                · split at hact
                  · cases hact
                  · split at hact
                    · cases hact
                    · split at hact
                      · split at hact <;> cases hact
                      · split at hact
                        · split at hact
                          · cases hact
                          · simp only [line_action.map.injEq] at hact
                            exact ⟨_, hact.2.1.symm⟩
                        · split at hact <;> cases hact
          obtain ⟨k, rfl⟩ := hk
          simp [stripped, strip_space_idem]
      · split
        · exact h
        · split
          · exact ih _ _ _ _ (keys_append_scalar _ _ _ _ h)
          · exact ih _ _ _ _ (keys_parse_link _ _ _ _ h (by simp [keys_node]))

/-- The documents of the parser have keys without white space at their end,
also behind the mapping of the local system that `get_requirements` and
`get_resources` put in front. -/
theorem parse_keys_stripped (text : Str) :
    keys_chain stripped (yaml_parse_string text) = true
    ∧ keys_chain stripped (syslocal_doc ++ yaml_parse_string text) = true := by
  have h : keys_chain stripped (yaml_parse_string text) = true := by
    unfold yaml_parse_string yaml_parse_stream
    simp only
    split
    · rfl
    · exact keys_parse _ _ _ _ _ rfl
  refine ⟨h, ?_⟩
  rw [keys_chain_append, h]
  decide

/-- A mapping whose key is one blank passes the test for an empty key and
then has its key emptied by `sanitize_spacing`; the parser gives no such key,
it strips the keys. -/
theorem sanitize_blank_key :
    sanitize_yaml [.map [' '] [.scalar ['v']]] = [.map [] [.scalar ['v']]] := by
  simp [sanitize_yaml, _sanitize_yaml, sanitize_node, sanitize_spacing, sanitize_spacing_loop,
    misc_strip_space, misc_skip_space, isspace_blank]

/-- C29: for every document whose keys have no white space at their end,
after sanitisation every top-level node is a mapping, every scalar of a chain
has content, the content of every sequence is a scalar with content, every key
is not empty, and the words of every key are separated by exactly one blank,
without white space at the start and at the end; and every document that
`get_requirements` and `get_resources` sanitise, the parsed text of a file
behind the mapping of the local system, is such a document and so has these
properties after sanitisation. -/
theorem C29_sanitize :
    (∀ doc : List yaml_node, keys_chain stripped doc = true →
      (sanitize_yaml doc).all (fun n => n.type == .yaml_map) = true ∧
      clean_chain true (sanitize_yaml doc) = true ∧
      keys_chain (fun k => !k.isEmpty) (sanitize_yaml doc) = true) ∧
    (∀ text : Str,
      keys_chain stripped (syslocal_doc ++ yaml_parse_string text) = true ∧
      (sanitize_yaml (syslocal_doc ++ yaml_parse_string text)).all
        (fun n => n.type == .yaml_map) = true ∧
      clean_chain true (sanitize_yaml (syslocal_doc ++ yaml_parse_string text)) = true ∧
      keys_chain (fun k => !k.isEmpty)
        (sanitize_yaml (syslocal_doc ++ yaml_parse_string text)) = true) :=
  ⟨fun doc hk => ⟨clean_top_maps _ (sanitize_yaml_clean true doc), sanitize_yaml_clean true doc,
      sanitize_yaml_keys true doc hk⟩,
    fun text => ⟨(parse_keys_stripped text).2,
      clean_top_maps _ (sanitize_yaml_clean true _), sanitize_yaml_clean true _,
      sanitize_yaml_keys true _ (parse_keys_stripped text).2⟩⟩

/-- Witness of C29: a document with a scalar at the top level and with a
mapping that has an empty scalar, an empty sequence and a key with a tab. -/
theorem C29_sanitize_witness :
    sanitize_yaml [.map "disk \t a".toList [.scalar [], .seq [], .map "\tk".toList [.scalar ['v']]],
        .scalar ['x']] =
      [.map "disk a".toList [.map ['k'] [.scalar ['v']]]] ∧
    keys_chain stripped
      [.map "disk \t a".toList [.scalar [], .seq [], .map "\tk".toList [.scalar ['v']]],
        .scalar ['x']] = true ∧
    ((sanitize_yaml
      [.map "disk \t a".toList [.scalar [], .seq [], .map "\tk".toList [.scalar ['v']]],
        .scalar ['x']]).all (fun n => n.type == .yaml_map) = true ∧
    clean_chain true (sanitize_yaml
      [.map "disk \t a".toList [.scalar [], .seq [], .map "\tk".toList [.scalar ['v']]],
        .scalar ['x']]) = true ∧
    keys_chain (fun k => !k.isEmpty) (sanitize_yaml
      [.map "disk \t a".toList [.scalar [], .seq [], .map "\tk".toList [.scalar ['v']]],
        .scalar ['x']]) = true) := by
  have ht : isspace '\t' = true := by decide
  have hd : isspace 'd' = false := by decide
  have hi : isspace 'i' = false := by decide
  have hs : isspace 's' = false := by decide
  have hk : isspace 'k' = false := by decide
  have ha : isspace 'a' = false := by decide
  have hkeys : keys_chain stripped
      [.map "disk \t a".toList [.scalar [], .seq [], .map "\tk".toList [.scalar ['v']]],
        .scalar ['x']] = true := by
    simp [keys_chain, keys_node, stripped, misc_strip_space, misc_skip_space, hk, ha]
  refine ⟨?_, hkeys, C29_sanitize.1 _ hkeys⟩
  simp [sanitize_yaml, _sanitize_yaml, sanitize_node, sanitize_spacing, sanitize_spacing_loop,
    misc_strip_space, misc_skip_space, isspace_blank, is_nonempty_scalar, ht, hd, hi, hs, hk,
    ha]

/-! ## Merging documents -/

theorem yaml_size_chain_append (a b : List yaml_node) :
    yaml_size_chain (a ++ b) = yaml_size_chain a + yaml_size_chain b := by
  induction a with
  | nil => simp [yaml_size_chain]
  | cons n r ih =>
    rw [List.cons_append, yaml_size_chain, yaml_size_chain, ih]
    omega

theorem handle_duplicates_size (a b : List yaml_node) :
    yaml_size_chain (handle_duplicates a b) ≤ yaml_size_chain a + yaml_size_chain b := by
  unfold handle_duplicates
  split
  · simp only [yaml_size_chain, yaml_size]
    omega
  · rw [yaml_size_chain_append]

theorem combine_size (a b : List yaml_node) :
    yaml_size_chain (combine a b) ≤ yaml_size_chain a + yaml_size_chain b := by
  unfold combine
  split
  · exact handle_duplicates_size a b
  · split <;> omega

theorem map_keys_append (a b : List yaml_node) : map_keys (a ++ b) = map_keys a ++ map_keys b := by
  simp [map_keys, List.filterMap_append]

theorem values_of_append (k : Str) (a b : List yaml_node) :
    values_of k (a ++ b) = values_of k a ++ values_of k b := by
  simp [values_of, List.filterMap_append]

theorem map_keys_cons (n : yaml_node) (r : List yaml_node) :
    map_keys (n :: r) = map_keys [n] ++ map_keys r := by
  rw [← map_keys_append]
  rfl

theorem values_of_cons (k : Str) (n : yaml_node) (r : List yaml_node) :
    values_of k (n :: r) = values_of k [n] ++ values_of k r := by
  rw [← values_of_append]
  rfl

theorem map_keys_one (n : yaml_node) :
    map_keys [n] = match n with | .map k _ => [k] | _ => [] := by
  cases n <;> rfl

theorem values_of_one (k : Str) (n : yaml_node) :
    values_of k [n] = match n with | .map kb v => if kb = k then [v] else [] | _ => [] := by
  cases n with
  | map kb v =>
    simp only [values_of, List.filterMap_cons, List.filterMap_nil]
    split <;> rename_i h <;> split at h <;> simp_all
  | scalar c => rfl
  | seq c => rfl

theorem no_keys_of_skipped (skipped : List yaml_node)
    (h : ∀ n ∈ skipped, get_key (some n) = none) (k : Str) :
    map_keys skipped = [] ∧ values_of k skipped = [] := by
  induction skipped with
  | nil => exact ⟨rfl, rfl⟩
  | cons n r ih =>
    have hn := h n (by simp)
    have hr := ih (fun m hm => h m (by simp [hm]))
    rw [map_keys_cons, values_of_cons, hr.1, hr.2, map_keys_one, values_of_one]
    cases n with
    | map key v => simp [get_key] at hn
    | scalar c => exact ⟨rfl, rfl⟩
    | seq c => exact ⟨rfl, rfl⟩

/-- The inner loop of `merge_yaml`: the values of the mappings with the key
are combined in their order and these mappings are removed, the other
mappings are kept. -/
theorem merge_into_spec (key : Str) (rest : List yaml_node) :
    ∀ (aval done skipped : List yaml_node), (∀ n ∈ skipped, get_key (some n) = none) →
      (merge_into key rest aval done skipped).1 = (values_of key rest).foldl combine aval ∧
      map_keys (merge_into key rest aval done skipped).2 =
        map_keys done ++ (map_keys rest).filter (fun k => k != key) ∧
      (∀ k, k ≠ key → values_of k (merge_into key rest aval done skipped).2 =
        values_of k done ++ values_of k rest) ∧
      yaml_size_chain (merge_into key rest aval done skipped).1 +
          yaml_size_chain (merge_into key rest aval done skipped).2 ≤
        yaml_size_chain aval + yaml_size_chain done + yaml_size_chain skipped +
          yaml_size_chain rest := by
  induction rest with
  | nil =>
    intro aval done skipped hsk
    have h0 := no_keys_of_skipped skipped hsk
    simp only [merge_into]
    refine ⟨rfl, ?_, ?_, ?_⟩
    · rw [map_keys_append, (h0 key).1]
      rfl
    · intro k _
      rw [values_of_append, (h0 k).2]
      rfl
    · rw [yaml_size_chain_append]
      simp only [yaml_size_chain]
      omega
  | cons b rest ih =>
    intro aval done skipped hsk
    have h0 := no_keys_of_skipped skipped hsk
    cases b with
    | scalar c =>
      have := ih aval done (skipped ++ [.scalar c]) (by
        intro n hn
        simp only [List.mem_append, List.mem_singleton] at hn
        rcases hn with hn | rfl
        · exact hsk n hn
        · rfl)
      simp only [merge_into]
      obtain ⟨h1, h2, h3, h4⟩ := this
      refine ⟨?_, ?_, ?_, ?_⟩
      · rw [h1, values_of_cons key _ rest, values_of_one]
        rfl
      · rw [h2, map_keys_cons (.scalar c) rest, map_keys_one]
        rfl
      · intro k hk
        rw [h3 k hk, values_of_cons k (.scalar c) rest, values_of_one]
        rfl
      · rw [yaml_size_chain_append] at h4
        simp only [yaml_size_chain, yaml_size] at h4 ⊢
        omega
    | seq c =>
      have := ih aval done (skipped ++ [.seq c]) (by
        intro n hn
        simp only [List.mem_append, List.mem_singleton] at hn
        rcases hn with hn | rfl
        · exact hsk n hn
        · rfl)
      simp only [merge_into]
      obtain ⟨h1, h2, h3, h4⟩ := this
      refine ⟨?_, ?_, ?_, ?_⟩
      · rw [h1, values_of_cons key _ rest, values_of_one]
        rfl
      · rw [h2, map_keys_cons (.seq c) rest, map_keys_one]
        rfl
      · intro k hk
        rw [h3 k hk, values_of_cons k (.seq c) rest, values_of_one]
        rfl
      · rw [yaml_size_chain_append] at h4
        simp only [yaml_size_chain, yaml_size] at h4 ⊢
        omega
    | map kb bval =>
      simp only [merge_into]
      by_cases hk : key = kb
      · subst hk
        have hs : (strcmp key key != 0) = false := by
          simp [strcmp_eq_zero]
        simp only [hs, Bool.false_eq_true, if_false]
        obtain ⟨h1, h2, h3, h4⟩ := ih
          (if (!aval.isEmpty && !bval.isEmpty) = true then handle_duplicates aval bval
            else if aval.isEmpty = true then bval else aval) done [] (by simp)
        have hc := combine_size aval bval
        simp only [combine] at hc
        refine ⟨?_, ?_, ?_, ?_⟩
        · rw [h1, values_of_cons key _ rest, values_of_one]
          simp only [if_true, List.singleton_append, List.foldl_cons, combine]
        · rw [h2, map_keys_cons (.map key bval) rest, map_keys_one]
          simp
        · intro k hk
          have : ¬ key = k := fun e => hk e.symm
          rw [h3 k hk, values_of_cons k (.map key bval) rest, values_of_one]
          simp only [this, if_false, List.nil_append]
        · simp only [yaml_size_chain, yaml_size] at h4 ⊢
          omega
      · have hs : (strcmp key kb != 0) = true := by
          simp [strcmp_eq_zero, hk]
        simp only [hs, if_true]
        obtain ⟨h1, h2, h3, h4⟩ := ih aval (done ++ skipped ++ [.map kb bval]) [] (by simp)
        have hk2 : ¬ kb = key := fun e => hk e.symm
        refine ⟨?_, ?_, ?_, ?_⟩
        · rw [h1, values_of_cons key (.map kb bval) rest, values_of_one]
          simp only [hk2, if_false, List.nil_append]
        · rw [h2, map_keys_append, map_keys_append, (h0 key).1,
            map_keys_cons (.map kb bval) rest, map_keys_one]
          simp [hk2]
        · intro k hkk
          rw [h3 k hkk, values_of_append, values_of_append, (h0 k).2,
            values_of_cons k (.map kb bval) rest]
          simp
        · rw [yaml_size_chain_append, yaml_size_chain_append] at h4
          simp only [yaml_size_chain, yaml_size] at h4 ⊢
          omega

theorem yaml_size_pos (n : yaml_node) : 0 < yaml_size n := by
  cases n <;> simp [yaml_size]

theorem merge_yaml_map_step (fuel : Nat) (key : Str) (value rest : List yaml_node) :
    merge_yaml (fuel + 1) (.map key value :: rest) =
      .map key (if map_first (merge_into key rest value [] []).1
          then merge_yaml fuel (merge_into key rest value [] []).1
          else (merge_into key rest value [] []).1) ::
        merge_yaml fuel (merge_into key rest value [] []).2 := by
  simp only [merge_yaml]
  rcases h : (merge_into key rest value [] []).1 with _ | ⟨n, r⟩
  · rfl
  · cases n <;> rfl

theorem merge_into_sizes (key : Str) (value rest : List yaml_node) :
    yaml_size_chain (merge_into key rest value [] []).1 +
        yaml_size_chain (merge_into key rest value [] []).2 <
      yaml_size_chain (.map key value :: rest) := by
  have h := (merge_into_spec key rest value [] [] (by simp)).2.2.2
  simp only [yaml_size_chain, yaml_size] at h ⊢
  omega

/-- The result of `merge_yaml` does not depend on the fuel, once the fuel
exceeds the number of nodes. -/
theorem merge_yaml_fuel (fuel : Nat) : ∀ (doc : List yaml_node) (fuel2 : Nat),
    yaml_size_chain doc < fuel → yaml_size_chain doc < fuel2 →
    merge_yaml fuel doc = merge_yaml fuel2 doc := by
  induction fuel with
  | zero => intro _ _ h; exact absurd h (by omega)
  | succ f ih =>
    intro doc fuel2 h1 h2
    cases fuel2 with
    | zero => exact absurd h2 (by omega)
    | succ f2 =>
      cases doc with
      | nil => rfl
      | cons a rest =>
        cases a with
        | scalar c =>
          simp only [yaml_size_chain, yaml_size] at h1 h2
          simp only [merge_yaml]
          rw [ih rest f2 (by omega) (by omega)]
        | seq c =>
          simp only [yaml_size_chain, yaml_size] at h1 h2
          simp only [merge_yaml]
          rw [ih rest f2 (by omega) (by omega)]
        | map key value =>
          have hs := merge_into_sizes key value rest
          rw [merge_yaml_map_step, merge_yaml_map_step,
            ih (merge_into key rest value [] []).1 f2 (by omega) (by omega),
            ih (merge_into key rest value [] []).2 f2 (by omega) (by omega)]

theorem merge_yaml_doc (fuel : Nat) (doc : List yaml_node) (h : yaml_size_chain doc < fuel) :
    merge_yaml fuel doc = merge_doc doc :=
  merge_yaml_fuel fuel doc _ h (by omega)

theorem map_first_keys (v : List yaml_node) : map_first v = true → map_keys v ≠ [] := by
  intro h
  cases v with
  | nil => simp [map_first] at h
  | cons n r =>
    cases n with
    | map k w => simp [map_keys, get_key]
    | scalar c => simp [map_first] at h
    | seq c => simp [map_first] at h

/-- What `merge_yaml` does to a document, for every fuel that exceeds the
number of nodes. -/
theorem merge_yaml_props (fuel : Nat) : ∀ (doc : List yaml_node),
    yaml_size_chain doc < fuel →
    (map_keys (merge_yaml fuel doc)).Nodup ∧
      (map_keys (merge_yaml fuel doc)).Sublist (map_keys doc) ∧
      (∀ k, k ∈ map_keys doc → k ∈ map_keys (merge_yaml fuel doc)) ∧
      merged_chain (merge_yaml fuel doc) = true ∧
      (∀ k, k ∈ map_keys doc →
        value_of k (merge_yaml fuel doc) = some (merge_value (combine_all (values_of k doc)))) := by
  induction fuel with
  | zero => intro _ h; exact absurd h (by omega)
  | succ f ih =>
    intro doc hsize
    cases doc with
    | nil =>
      refine ⟨?_, ?_, ?_, ?_, ?_⟩
      · simp [merge_yaml, map_keys]
      · simp [merge_yaml]
      · intro k hk; simp [map_keys] at hk
      · simp [merge_yaml, merged_chain]
      · intro k hk; simp [map_keys] at hk
    | cons a rest =>
      have hnon : ∀ n : yaml_node, get_key (some n) = none → yaml_size_chain (n :: rest) < f + 1 →
          merge_yaml (f + 1) (n :: rest) = n :: merge_yaml f rest →
          (map_keys (merge_yaml (f + 1) (n :: rest))).Nodup ∧
            (map_keys (merge_yaml (f + 1) (n :: rest))).Sublist (map_keys (n :: rest)) ∧
            (∀ k, k ∈ map_keys (n :: rest) → k ∈ map_keys (merge_yaml (f + 1) (n :: rest))) ∧
            merged_chain (merge_yaml (f + 1) (n :: rest)) = true ∧
            (∀ k, k ∈ map_keys (n :: rest) →
              value_of k (merge_yaml (f + 1) (n :: rest)) =
                some (merge_value (combine_all (values_of k (n :: rest))))) := by
        intro n hn hs he
        have hpos := yaml_size_pos n
        rw [yaml_size_chain] at hs
        obtain ⟨h1, h2, h3, h4, h5⟩ := ih rest (by omega)
        have hk1 : map_keys [n] = [] := by
          rw [map_keys_one]
          cases n with
          | map k v => simp [get_key] at hn
          | scalar c => rfl
          | seq c => rfl
        have hv1 : ∀ k, values_of k [n] = [] := by
          intro k
          rw [values_of_one]
          cases n with
          | map k v => simp [get_key] at hn
          | scalar c => rfl
          | seq c => rfl
        have hm : merged_node n = true := by
          cases n with
          | map k v => simp [get_key] at hn
          | scalar c => simp [merged_node]
          | seq c => simp [merged_node]
        rw [he]
        have e1 : map_keys (n :: merge_yaml f rest) = map_keys (merge_yaml f rest) := by
          rw [map_keys_cons, hk1]; rfl
        have e2 : map_keys (n :: rest) = map_keys rest := by
          rw [map_keys_cons, hk1]; rfl
        have e3 : ∀ k, values_of k (n :: rest) = values_of k rest := by
          intro k
          rw [values_of_cons, hv1]; rfl
        have e4 : ∀ k, value_of k (n :: merge_yaml f rest) = value_of k (merge_yaml f rest) := by
          intro k
          simp only [value_of]
          rw [values_of_cons, hv1]; rfl
        rw [e1, e2]
        refine ⟨h1, h2, h3, ?_, ?_⟩
        · simp only [merged_chain, hm, h4, Bool.and_self]
        · intro k hk
          rw [e4, e3, h5 k hk]
      cases a with
      | scalar c => exact hnon (.scalar c) rfl hsize (by simp only [merge_yaml])
      | seq c => exact hnon (.seq c) rfl hsize (by simp only [merge_yaml])
      | map key value =>
        have hs := merge_into_sizes key value rest
        obtain ⟨m1, m2, m3, _⟩ := merge_into_spec key rest value [] [] (by simp)
        rw [merge_yaml_map_step]
        generalize hav : (merge_into key rest value [] []).1 = aval at hs m1 ⊢
        generalize hr1 : (merge_into key rest value [] []).2 = rest1 at hs m2 m3 ⊢
        obtain ⟨a1, a2, a3, a4, a5⟩ := ih aval (by omega)
        obtain ⟨r1, r2, r3, r4, r5⟩ := ih rest1 (by omega)
        simp only [map_keys, List.filterMap_nil, List.nil_append] at m2
        have hk0 : map_keys (.map key value :: rest) = key :: map_keys rest := by
          rw [map_keys_cons, map_keys_one]; rfl
        have hkres : ∀ v, map_keys (.map key v :: merge_yaml f rest1) =
            key :: map_keys (merge_yaml f rest1) := by
          intro v
          rw [map_keys_cons, map_keys_one]; rfl
        have hsub : (map_keys (merge_yaml f rest1)).Sublist
            ((map_keys rest).filter (fun k => k != key)) := by
          have := r2
          simp only [map_keys] at this ⊢
          rw [m2] at this
          exact this
        have hnotin : key ∉ map_keys (merge_yaml f rest1) := by
          intro h
          have := hsub.subset h
          simp at this
        rw [hkres, hk0]
        refine ⟨?_, ?_, ?_, ?_, ?_⟩
        · exact List.nodup_cons.mpr ⟨hnotin, r1⟩
        · exact (hsub.trans (List.filter_sublist _)).cons₂ key
        · intro k hk
          simp only [List.mem_cons] at hk ⊢
          rcases hk with rfl | hk
          · exact Or.inl rfl
          · by_cases e : k = key
            · exact Or.inl e
            · right
              apply r3
              simp only [map_keys]
              rw [m2]
              simp [List.mem_filter, e]
              simpa [map_keys] using hk
        · simp only [merged_chain, merged_node, r4, Bool.and_true]
          by_cases hmf : map_first aval = true
          · simp only [hmf, if_true]
            simp only [Bool.or_eq_true, Bool.not_eq_true', Bool.and_eq_true, decide_eq_true_eq]
            right
            exact ⟨a1, a4⟩
          · simp only [hmf, Bool.false_eq_true, if_false]
            simp only [Bool.not_eq_true] at hmf
            simp [hmf]
        · intro k hk
          by_cases e : k = key
          · subst e
            have hv : values_of k (.map k value :: rest) = value :: values_of k rest := by
              rw [values_of_cons, values_of_one]
              simp
            rw [hv]
            simp only [value_of, combine_all]
            rw [values_of_cons, values_of_one]
            simp only [if_true, List.singleton_append, List.head?_cons, Option.some.injEq,
              merge_value, ← m1]
            by_cases hmf : map_first aval = true
            · simp only [hmf, if_true]
              exact merge_yaml_doc f aval (by omega)
            · simp only [hmf, Bool.false_eq_true, if_false]
          · have e2 : ¬ key = k := fun h => e h.symm
            have hv : values_of k (.map key value :: rest) = values_of k rest := by
              rw [values_of_cons, values_of_one]
              simp [e2]
            have hv1 : values_of k rest1 = values_of k rest := by
              rw [m3 k e]
              rfl
            have hk1 : k ∈ map_keys rest1 := by
              simp only [map_keys]
              rw [m2]
              simp only [List.mem_cons] at hk
              rcases hk with hk | hk
              · exact absurd hk e
              · simp [List.mem_filter, e]
                simpa [map_keys] using hk
            rw [hv, ← hv1, ← r5 k hk1]
            simp only [value_of]
            rw [values_of_cons, values_of_one]
            simp [e2]

theorem combine_all_scalars (cs : List Str) : ∀ c : Str,
    combine_all ((c :: cs).map (fun x => [yaml_node.scalar x])) =
      [.scalar (cs.getLast?.getD c)] := by
  induction cs with
  | nil => intro c; rfl
  | cons d t ih =>
    intro c
    have := ih d
    simp only [combine_all, List.map_cons, List.foldl_cons] at this ⊢
    have hc : combine [yaml_node.scalar c] [yaml_node.scalar d] = [yaml_node.scalar d] := rfl
    rw [hc, this]
    cases t with
    | nil => rfl
    | cons e u =>
      obtain ⟨x, hx⟩ : ∃ x, (e :: u).getLast? = some x :=
        ⟨_, List.getLast?_eq_getLast _ (List.cons_ne_nil _ _)⟩
      simp [List.getLast?_cons_cons, hx]

theorem combine_maps (a b : List yaml_node) (ha : map_first a = true) (hb : map_first b = true) :
    combine a b = a ++ b ∧ map_first (a ++ b) = true := by
  cases a with
  | nil => simp [map_first] at ha
  | cons n r =>
    cases n with
    | scalar c => simp [map_first] at ha
    | seq c => simp [map_first] at ha
    | map k v =>
      cases b with
      | nil => simp [map_first] at hb
      | cons m s =>
        refine ⟨?_, rfl⟩
        simp [combine, handle_duplicates]

theorem combine_all_maps (vs : List (List yaml_node)) (h : ∀ v ∈ vs, map_first v = true) :
    combine_all vs = vs.flatten := by
  cases vs with
  | nil => rfl
  | cons v r =>
    simp only [combine_all, List.flatten_cons]
    have hv := h v (by simp)
    have hr : ∀ w ∈ r, map_first w = true := fun w hw => h w (by simp [hw])
    clear h
    induction r generalizing v with
    | nil => simp
    | cons w t ih =>
      have hw := hr w (by simp)
      have hc := combine_maps v w hv hw
      simp only [List.foldl_cons, List.flatten_cons, hc.1]
      rw [ih (v ++ w) hc.2 (fun x hx => hr x (by simp [hx])), List.append_assoc]

theorem mixed_doc_parsed :
    yaml_parse_string "a: x\na:\n  k: 1\na:\n  k: 2\n".toList = mixed_doc := by
  rfl

/-- C30, counterexample: where the first value of a key is a scalar and later
values are mappings, the values are put in one chain that is not merged, so
two mappings with the key `k` stay next to each other below `a`. -/
theorem C30_counterexample :
    yaml_parse_string "a: x\na:\n  k: 1\na:\n  k: 2\n".toList = mixed_doc ∧
      sanitize_yaml mixed_doc = mixed_doc ∧
      merge_doc mixed_doc =
        [.map ['a'] [.scalar ['x'], .map ['k'] [.scalar ['1']], .map ['k'] [.scalar ['2']]]] := by
  refine ⟨mixed_doc_parsed, ?_, ?_⟩
  · have ha : isspace 'a' = false := by decide
    have hk : isspace 'k' = false := by decide
    simp [mixed_doc, sanitize_yaml, _sanitize_yaml, sanitize_node, sanitize_spacing,
      sanitize_spacing_loop, misc_strip_space, misc_skip_space, ha, hk]
  · rw [← merge_yaml_doc 10 mixed_doc (by simp [mixed_doc, yaml_size_chain, yaml_size])]
    rfl

/-- C30, amended: for every document and every fuel above the number of its
nodes, `merge_yaml` gives a document in which no two mappings of the top level
have equal keys, and neither have two mappings of a value that starts with a
mapping, at every level that is reached through such values.  The keys are
those of the document, each once, in the order of their first occurrence.  The
value of a key is made of the values of all its occurrences in their order: of
scalars the last is kept, chains that start with a mapping are put together
and merged in the same way. -/
theorem C30_merge_yaml (doc : List yaml_node) (fuel : Nat) (h : yaml_size_chain doc < fuel) :
    merge_yaml fuel doc = merge_doc doc ∧
      (map_keys (merge_doc doc)).Nodup ∧
      (map_keys (merge_doc doc)).Sublist (map_keys doc) ∧
      (∀ k, k ∈ map_keys doc → k ∈ map_keys (merge_doc doc)) ∧
      merged_chain (merge_doc doc) = true ∧
      (∀ k, k ∈ map_keys doc →
        value_of k (merge_doc doc) = some (merge_value (combine_all (values_of k doc)))) ∧
      (∀ (c : Str) (cs : List Str),
        combine_all ((c :: cs).map (fun x => [yaml_node.scalar x])) =
          [.scalar (cs.getLast?.getD c)]) ∧
      (∀ vs : List (List yaml_node), (∀ v ∈ vs, map_first v = true) →
        combine_all vs = vs.flatten) := by
  have hp := merge_yaml_props (yaml_size_chain doc + 1) doc (by omega)
  refine ⟨merge_yaml_doc fuel doc h, hp.1, hp.2.1, hp.2.2.1, hp.2.2.2.1, hp.2.2.2.2,
    fun c cs => combine_all_scalars cs c, combine_all_maps⟩

/-- Witness of C30: the keys `a` and `b` twice each. -/
theorem C30_merge_yaml_witness :
    merge_yaml 20 twice_doc = merge_doc twice_doc ∧
      merge_yaml 20 twice_doc =
        [.map ['a'] [.map ['k'] [.scalar ['4']], .map ['m'] [.scalar ['2']],
            .map ['n'] [.scalar ['5']]],
          .map ['b'] [.scalar ['6']]] :=
  ⟨(C30_merge_yaml twice_doc 20 (by simp [twice_doc, yaml_size_chain, yaml_size])).1, by rfl⟩

/-! ## Reading back the lines of `log_line` -/

theorem strtol_show_nat_rest (n : Nat) (rest : Str) (h : num_end rest = true) :
    strtol (show_nat n ++ rest) 10 = (strtol_clamp false n, rest) := by
  obtain ⟨d, r, hd, hr⟩ := show_nat_cons n
  have hsp : isspace (digit_char d) = false := isspace_digit_char d hd
  have hm : (digit_char d == '-') = false := by interval_cases d <;> rfl
  have hp : (digit_char d == '+') = false := by interval_cases d <;> rfl
  have hdig := strtol_digits_show_nat n rest 0 0
  rw [strtol_digits_stop 10 (by omega) rest h] at hdig
  simp only [Nat.zero_mul, Nat.zero_add] at hdig
  have hlen := show_nat_length_pos n
  rw [hr] at hdig hlen ⊢
  rw [List.cons_append] at hdig ⊢
  apply strtol_plain _ _ _ _ _ hsp hm hp
  have hh : strtol_hex 10 (digit_char d :: (r ++ rest)) = none := by
    rcases r ++ rest with _ | ⟨x, _ | ⟨y, t⟩⟩ <;> simp [strtol_hex]
  simp [strtol_body, hh, hdig]

theorem atoi_show_nat (n : Nat) (hn : n < 2 ^ 31) (rest : Str) (h : num_end rest = true) :
    atoi (show_nat n ++ rest) = n := by
  have h1 : strtol_clamp false n = n := by
    unfold strtol_clamp LONG_MAX
    simp only [Bool.false_eq_true, if_false]
    rw [if_pos (by omega)]
  simp only [atoi, strtol_show_nat_rest n rest h, h1]
  have h2 : (n : Int) % 2 ^ 32 = n := Int.emod_eq_of_lt (by omega) (by omega)
  rw [h2, if_pos (by omega)]

theorem skip_space_blanks (k : Nat) (y : Str) :
    misc_skip_space (List.replicate k ' ' ++ y) = misc_skip_space y := by
  induction k with
  | zero => rfl
  | succ k ih => rw [List.replicate_succ, List.cons_append, skip_space_blank, ih]

theorem show_nat_all_digit (n : Nat) : (show_nat n).all isdigit = true := by
  rw [List.all_eq_true]
  intro c hc
  obtain ⟨d, hd, rfl⟩ := show_nat_digits n c hc
  interval_cases d <;> rfl

/-- The number and the dash of a line of `log_line` are read back. -/
theorem log_parse_rest_num (ok : Bool) (k n : Nat) (hn : n < 2 ^ 31) (c0 : Char) (r : Str)
    (hc0 : isspace c0 = false) :
    log_parse_rest ok (List.replicate k ' ' ++ (show_nat n ++ (" - ".toList ++ c0 :: r))) =
      log_parse_desc ok n (c0 :: r) := by
  obtain ⟨d, t, hd, ht⟩ := show_nat_cons n
  have hdd : isdigit (digit_char d) = true := by interval_cases d <;> rfl
  have hsp : isspace (digit_char d) = false := isspace_digit_char d hd
  have hend : num_end (" - ".toList ++ c0 :: r) = true := rfl
  have hs1 : misc_skip_space (List.replicate k ' ' ++ (show_nat n ++ (" - ".toList ++ c0 :: r))) =
      show_nat n ++ (" - ".toList ++ c0 :: r) := by
    rw [skip_space_blanks, ht, List.cons_append, misc_skip_space_cons _ _ hsp]
  have hs2 : misc_skip_digit (show_nat n ++ (" - ".toList ++ c0 :: r)) =
      " - ".toList ++ c0 :: r :=
    skip_digit_digits _ _ (show_nat_all_digit n) (by
      intro c r2 h
      have : c = ' ' := by
        have h3 : (" - ".toList ++ c0 :: r).head? = (c :: r2).head? := by rw [h]
        simpa using h3.symm
      rw [this]
      rfl)
  have hs3 : misc_skip_space (" - ".toList ++ c0 :: r) = '-' :: ' ' :: c0 :: r := by
    have e : " - ".toList ++ c0 :: r = ' ' :: '-' :: ' ' :: c0 :: r := rfl
    rw [e, skip_space_blank, misc_skip_space_cons '-' _ (by decide)]
  have hs4 : misc_skip_space (' ' :: c0 :: r) = c0 :: r := by
    rw [skip_space_blank, misc_skip_space_cons c0 _ hc0]
  have hat := atoi_show_nat n hn _ hend
  have hhead : ((show_nat n ++ (" - ".toList ++ c0 :: r)).head?.map isdigit).getD false = true := by
    rw [ht]
    simp [hdd]
  simp only [log_parse_rest, hs1, hhead, if_true, hat, hs2, hs3, List.head?_cons,
    beq_self_eq_true, List.tail_cons, hs4]

/-- A plain reason after the name is read back. -/
theorem log_parse_desc_reason (ok : Bool) (num : Int) (name reason : Str)
    (hne : name ≠ []) (ht : trimmed name = true) (hh : '#' ∉ name)
    (hr0 : reason ≠ []) (hr : trimmed reason = true)
    (hs : strncasecmp_eq reason "skip".toList = false)
    (hd : strncasecmp_eq reason "todo".toList = false) :
    log_parse_desc ok num (name ++ (" # ".toList ++ reason) ++ ['\n']) =
      some { name := some name, num := num,
             result := if ok then .TELA_PASS else .TELA_FAIL, reason := some reason } := by
  have hnl : isspace '\n' = true := by decide
  have hsp : isspace ' ' = true := isspace_blank
  obtain ⟨x, xs, rfl⟩ := List.exists_cons_of_ne_nil hr0
  have hx : isspace x = false := by
    simp only [trimmed, List.head?_cons, Bool.and_eq_true, Bool.not_eq_true'] at hr
    exact hr.1
  have h1 : strchr '#' (name ++ (" # ".toList ++ x :: xs) ++ ['\n']) =
      some (name ++ [' '], '#' :: ' ' :: (x :: xs ++ ['\n'])) := by
    have := strchr_found '#' (name ++ [' ']) (' ' :: (x :: xs ++ ['\n']))
      (by
        simp only [List.mem_append, List.mem_singleton, not_or]
        exact ⟨hh, by decide⟩)
    simpa [List.append_assoc] using this
  have h2 : (name ++ [' ']).isEmpty = false := by
    cases name <;> simp
  have h3 : misc_skip_space (' ' :: (x :: xs ++ ['\n'])) = x :: xs ++ ['\n'] := by
    rw [skip_space_blank, List.cons_append, misc_skip_space_cons x _ hx]
  have key : ∀ w : Str, w.length = 4 → '\n' ∉ w.map tolower →
      strncasecmp_eq (x :: xs) w = false → strncasecmp_eq (x :: xs ++ ['\n']) w = false := by
    intro w hw hnw h
    have hl : tolower '\n' = '\n' := by decide
    simp only [strncasecmp_eq, hw, beq_eq_false_iff_ne, ne_eq] at h ⊢
    intro h5
    apply h
    rcases xs with _ | ⟨b, _ | ⟨c, _ | ⟨d, t⟩⟩⟩
    · exfalso
      apply hnw
      rw [← h5]
      simp [hl]
    · exfalso
      apply hnw
      rw [← h5]
      simp [hl]
    · exfalso
      apply hnw
      rw [← h5]
      simp [hl]
    · simpa using h5
  have h4 : (!strncasecmp_eq (x :: xs ++ ['\n']) "skip".toList &&
      !strncasecmp_eq (x :: xs ++ ['\n']) "todo".toList) = true := by
    rw [key "skip".toList rfl (by decide) hs, key "todo".toList rfl (by decide) hd]
    rfl
  have h7 : misc_strip_space (x :: xs ++ ['\n']) = x :: xs := by
    rw [strip_space_ws _ '\n' hnl, strip_trimmed _ hr]
  simp only [log_parse_desc, h1, h2, Bool.false_eq_true, if_false, List.tail_cons, h3, h4,
    if_true, h7, strip_space_ws name ' ' hsp, strip_trimmed name ht, log_parse_out]

theorem log_parse_line_ok (x : Str) :
    log_parse_line ("ok".toList ++ x) = log_parse_rest true x := by
  have h1 : misc_starts_with ("ok".toList ++ x) "ok".toList = true := by
    cases x <;> simp [misc_starts_with]
  have h3 : ("ok".toList ++ x).drop 2 = x := rfl
  simp only [log_parse_line, h1, h3, if_true]

theorem log_parse_line_not_ok (x : Str) :
    log_parse_line ("not ok".toList ++ x) = log_parse_rest false x := by
  have h1 : misc_starts_with ("not ok".toList ++ x) "ok".toList = false := rfl
  have h2 : misc_starts_with ("not ok".toList ++ x) "not ok".toList = true := by
    cases x <;> simp [misc_starts_with]
  have h3 : ("not ok".toList ++ x).drop 6 = x := rfl
  simp only [log_parse_line, h1, h2, h3, if_true, Bool.false_eq_true, if_false]

/-- The line of `log_line` for a number and a name, with the text `tail` after
the name, is parsed like `tail` after the name. -/
theorem log_parse_line_head (ok : Bool) (n : Nat) (hn : n < 2 ^ 31) (name tail : Str)
    (hne : name ≠ []) (ht : trimmed name = true) :
    log_parse_line ((if ok then "ok     ".toList else "not ok ".toList) ++ show_int n ++
        " - ".toList ++ name ++ tail) = log_parse_desc ok n (name ++ tail) := by
  obtain ⟨c0, nr, rfl⟩ := List.exists_cons_of_ne_nil hne
  have hc0 : isspace c0 = false := by
    simp only [trimmed, List.head?_cons, Bool.and_eq_true, Bool.not_eq_true'] at ht
    exact ht.1
  have hshow : show_int (n : Int) = show_nat n := by
    simp [show_int]
  rw [hshow]
  cases ok
  · have e : (if false = true then "ok     ".toList else "not ok ".toList) ++ show_nat n ++
        " - ".toList ++ c0 :: nr ++ tail =
        "not ok".toList ++ (List.replicate 1 ' ' ++ (show_nat n ++ (" - ".toList ++
          c0 :: (nr ++ tail)))) := by
      simp only [Bool.false_eq_true, if_false, List.append_assoc, List.cons_append]
      rfl
    rw [e, log_parse_line_not_ok, log_parse_rest_num false 1 n hn c0 (nr ++ tail) hc0]
    rfl
  · have e : (if true = true then "ok     ".toList else "not ok ".toList) ++ show_nat n ++
        " - ".toList ++ c0 :: nr ++ tail =
        "ok".toList ++ (List.replicate 5 ' ' ++ (show_nat n ++ (" - ".toList ++
          c0 :: (nr ++ tail)))) := by
      simp only [if_true, List.append_assoc, List.cons_append]
      rfl
    rw [e, log_parse_line_ok, log_parse_rest_num true 5 n hn c0 (nr ++ tail) hc0]
    rfl

/-- C40: `log_parse_line` undoes `log_line`.  For every test number `n` of the
type `int` with `n >= 0`, every non-empty name without `#` and without white
space at its ends, every result and every reason without white space at its
ends (for pass and fail: a reason that does not start with `skip` or `todo` in
any letter case), parsing the line written by `log_line` succeeds and returns
the same number, name and result, and the same reason, an absent reason being
the same as an empty one. -/
theorem C40_log_line_parse (n : Nat) (hn : n < 2 ^ 31) (name : Str) (result : tela_result_t)
    (reason : Option Str) (hne : name ≠ []) (ht : trimmed name = true) (hh : '#' ∉ name)
    (hr : trimmed (reason.getD []) = true)
    (hd : result = .TELA_PASS ∨ result = .TELA_FAIL →
      strncasecmp_eq (reason.getD []) "skip".toList = false ∧
        strncasecmp_eq (reason.getD []) "todo".toList = false) :
    ∃ r, log_parse_line (log_line n (some name) result reason) =
        some { name := some name, num := n, result := result, reason := r } ∧
      r.getD [] = reason.getD [] := by
  generalize hrs : reason.getD [] = rs at hr hd
  have hdir : ∀ (ok : Bool) (d : Str), directive d = true →
      log_parse_desc ok n (name ++ (" # ".toList ++ d ++ [' '] ++ rs ++ ['\n'])) =
        some { name := some name, num := n, result := tap_result ok (some (d, rs)),
               reason := some rs } := by
    intro ok d hdd
    have := log_parse_desc_text ok n name (some (d, rs)) hne ht hh (by
      intro d2 r2 h
      simp only [Option.some.injEq, Prod.mk.injEq] at h
      rw [← h.1, ← h.2]
      exact ⟨hdd, hr⟩)
    simpa [tap_tail, List.append_assoc] using this
  have hplain : ∀ ok : Bool, rs = [] →
      log_parse_desc ok n (name ++ ['\n']) =
        some { name := some name, num := n,
               result := if ok then .TELA_PASS else .TELA_FAIL, reason := none } := by
    intro ok _
    have := log_parse_desc_text ok n name none hne ht hh (by
      intro d2 r2 h
      exact absurd h (by simp))
    simpa [tap_tail, tap_result] using this
  cases result with
  | TELA_PASS =>
    obtain ⟨h1, h2⟩ := hd (Or.inl rfl)
    by_cases h0 : rs = []
    · refine ⟨none, ?_, by rw [h0]; rfl⟩
      have e : log_line n (some name) .TELA_PASS reason =
          (if true = true then "ok     ".toList else "not ok ".toList) ++ show_int n ++
            " - ".toList ++ name ++ ['\n'] := by
        simp only [log_line, Option.getD_some, hrs, h0, List.isEmpty_nil, if_true,
          List.append_nil]
      rw [e, log_parse_line_head true n hn name _ hne ht, hplain true h0]
      rfl
    · refine ⟨some rs, ?_, rfl⟩
      have hem : rs.isEmpty = false := by
        cases rs with
        | nil => exact absurd rfl h0
        | cons a b => rfl
      have e : log_line n (some name) .TELA_PASS reason =
          (if true = true then "ok     ".toList else "not ok ".toList) ++ show_int n ++
            " - ".toList ++ name ++ ((" # ".toList ++ rs) ++ ['\n']) := by
        simp only [log_line, Option.getD_some, hrs, hem, if_true, Bool.false_eq_true, if_false,
          List.append_assoc]
      rw [e, log_parse_line_head true n hn name _ hne ht, ← List.append_assoc,
        log_parse_desc_reason true n name rs hne ht hh h0 hr h1 h2]
      rfl
  | TELA_FAIL =>
    obtain ⟨h1, h2⟩ := hd (Or.inr rfl)
    by_cases h0 : rs = []
    · refine ⟨none, ?_, by rw [h0]; rfl⟩
      have e : log_line n (some name) .TELA_FAIL reason =
          (if false = true then "ok     ".toList else "not ok ".toList) ++ show_int n ++
            " - ".toList ++ name ++ ['\n'] := by
        simp only [log_line, Option.getD_some, hrs, h0, List.isEmpty_nil, if_true,
          List.append_nil, Bool.false_eq_true, if_false]
      rw [e, log_parse_line_head false n hn name _ hne ht, hplain false h0]
      rfl
    · refine ⟨some rs, ?_, rfl⟩
      have hem : rs.isEmpty = false := by
        cases rs with
        | nil => exact absurd rfl h0
        | cons a b => rfl
      have e : log_line n (some name) .TELA_FAIL reason =
          (if false = true then "ok     ".toList else "not ok ".toList) ++ show_int n ++
            " - ".toList ++ name ++ ((" # ".toList ++ rs) ++ ['\n']) := by
        simp only [log_line, Option.getD_some, hrs, hem, if_true, Bool.false_eq_true, if_false,
          List.append_assoc]
      rw [e, log_parse_line_head false n hn name _ hne ht, ← List.append_assoc,
        log_parse_desc_reason false n name rs hne ht hh h0 hr h1 h2]
      rfl
  | TELA_SKIP =>
    refine ⟨some rs, ?_, rfl⟩
    have e : log_line n (some name) .TELA_SKIP reason =
        (if true = true then "ok     ".toList else "not ok ".toList) ++ show_int n ++
          " - ".toList ++ name ++ (" # ".toList ++ "SKIP".toList ++ [' '] ++ rs ++ ['\n']) := by
      simp only [log_line, Option.getD_some, hrs, if_true, List.append_assoc]
      rfl
    rw [e, log_parse_line_head true n hn name _ hne ht, hdir true "SKIP".toList (by decide)]
    rfl
  | TELA_TODO =>
    refine ⟨some rs, ?_, rfl⟩
    have e : log_line n (some name) .TELA_TODO reason =
        (if false = true then "ok     ".toList else "not ok ".toList) ++ show_int n ++
          " - ".toList ++ name ++ (" # ".toList ++ "TODO".toList ++ [' '] ++ rs ++ ['\n']) := by
      simp only [log_line, Option.getD_some, hrs, if_true, List.append_assoc,
        Bool.false_eq_true, if_false]
      rfl
    rw [e, log_parse_line_head false n hn name _ hne ht, hdir false "TODO".toList (by decide)]
    rfl

/-- Witness of C40: test 3 with the name `a b` was skipped for the reason `no disk`. -/
theorem C40_log_line_parse_witness :
    ∃ r, log_parse_line (log_line (3 : Nat) (some "a b".toList) .TELA_SKIP
          (some "no disk".toList)) =
        some { name := some "a b".toList, num := (3 : Nat), result := .TELA_SKIP, reason := r } ∧
      r.getD [] = (some "no disk".toList).getD [] :=
  C40_log_line_parse 3 (by decide) "a b".toList .TELA_SKIP (some "no disk".toList) (by decide)
    (by decide) (by decide) (by decide) (by
      intro h
      rcases h with h | h <;> exact absurd h (by decide))

/-! ## Canonical paths -/

theorem starts_with_dd (s : Str) :
    misc_starts_with s "..".toList = true ↔ dotdot_at s 0 := by
  rcases s with _ | ⟨a, _ | ⟨b, t⟩⟩
  · simp [misc_starts_with, dotdot_at]
  · simp [misc_starts_with, dotdot_at]
  · have e : misc_starts_with (a :: b :: t) "..".toList = (a == '.' && (b == '.' && true)) := by
      cases t <;> rfl
    rw [e]
    simp [dotdot_at]

theorem dotdot_at_cons (c : Char) (s : Str) (i : Nat) :
    dotdot_at (c :: s) (i + 1) ↔ dotdot_at s i := by
  simp [dotdot_at]

theorem strstr_dd_none (s : Str) (h : strstr "..".toList s = none) : ∀ j, ¬ dotdot_at s j := by
  induction s with
  | nil => intro j hj; simp [dotdot_at] at hj
  | cons c r ih =>
    rw [strstr] at h
    by_cases h1 : misc_starts_with (c :: r) "..".toList = true
    · rw [if_pos h1] at h
      exact absurd h (by simp)
    · rw [if_neg h1] at h
      cases h2 : strstr "..".toList r with
      | some p => rw [h2] at h; exact absurd h (by simp)
      | none =>
        intro j hj
        cases j with
        | zero => exact h1 ((starts_with_dd _).mpr hj)
        | succ j => exact ih h2 j ((dotdot_at_cons c r j).mp hj)

theorem strstr_dd_some (s mid dd : Str) (h : strstr "..".toList s = some (mid, dd)) :
    ∃ after, dd = '.' :: '.' :: after ∧ s = mid ++ '.' :: '.' :: after ∧
      ∀ j < mid.length, ¬ dotdot_at s j := by
  induction s generalizing mid dd with
  | nil => exact absurd h (by simp [strstr])
  | cons c r ih =>
    rw [strstr] at h
    by_cases h1 : misc_starts_with (c :: r) "..".toList = true
    · rw [if_pos h1] at h
      simp only [Option.some.injEq, Prod.mk.injEq] at h
      obtain ⟨rfl, rfl⟩ := h
      have h2 := (starts_with_dd _).mp h1
      rcases r with _ | ⟨b, t⟩
      · simp [dotdot_at] at h2
      · simp only [dotdot_at, List.getElem?_cons_zero, Option.some.injEq, zero_add,
          List.getElem?_cons_succ] at h2
        obtain ⟨rfl, rfl⟩ := h2
        exact ⟨t, rfl, rfl, by simp⟩
    · rw [if_neg h1] at h
      cases h2 : strstr "..".toList r with
      | none => rw [h2] at h; exact absurd h (by simp)
      | some p =>
        obtain ⟨m2, d2⟩ := p
        rw [h2] at h
        simp only [Option.some.injEq, Prod.mk.injEq] at h
        obtain ⟨rfl, rfl⟩ := h
        obtain ⟨after, e1, e2, e3⟩ := ih m2 d2 h2
        refine ⟨after, e1, by rw [e2]; rfl, ?_⟩
        intro j hj
        cases j with
        | zero => exact fun hj0 => h1 ((starts_with_dd _).mpr hj0)
        | succ j =>
          intro hj2
          exact e3 j (by simpa using hj) ((dotdot_at_cons c r j).mp hj2)

/-- One round of the loop, with the text found by `strstr` spelled out. -/
theorem canon_loop_step (fuel : Nat) (pre mid after : Str)
    (h : strstr "..".toList (mid ++ '.' :: '.' :: after) = some (mid, '.' :: '.' :: after)) :
    canon_loop (fuel + 1) pre (mid ++ '.' :: '.' :: after) =
      if canon_part (pre ++ mid) after then canon_loop fuel (pre ++ mid ++ "..".toList) after
      else canon_loop fuel [] (canon_change (pre ++ mid) after) := by
  rw [canon_loop, h]
  rfl

theorem canon_loop_mono (f : Nat) : ∀ (p s r : Str), canon_loop f p s = some r →
    canon_loop (f + 1) p s = some r := by
  induction f with
  | zero => intro p s r h; exact absurd h (by simp [canon_loop])
  | succ f ih =>
    intro p s r h
    rw [canon_loop] at h ⊢
    cases h1 : strstr "..".toList s with
    | none => rw [h1] at h; exact h
    | some q =>
      obtain ⟨mid, dd⟩ := q
      rw [h1] at h
      simp only at h ⊢
      split at h
      · rename_i hc
        rw [if_pos hc]
        exact ih _ _ _ h
      · rename_i hc
        rw [if_neg hc]
        exact ih _ _ _ h

theorem canon_loop_mono_le (f g : Nat) (hfg : f ≤ g) (p s r : Str)
    (h : canon_loop f p s = some r) : canon_loop g p s = some r := by
  induction hfg with
  | refl => exact h
  | step _ ih => exact canon_loop_mono _ _ _ _ ih

theorem strrchr_length (c : Char) (s pre : Str) (h : strrchr c s = some pre) :
    pre.length < s.length := by
  induction s generalizing pre with
  | nil => exact absurd h (by simp [strrchr])
  | cons d r ih =>
    rw [strrchr] at h
    cases h2 : strrchr c r with
    | some q =>
      rw [h2] at h
      simp only [Option.some.injEq] at h
      rw [← h]
      have := ih q h2
      simp only [List.length_cons]
      omega
    | none =>
      rw [h2] at h
      simp only at h
      split at h
      · simp only [Option.some.injEq] at h
        rw [← h]
        simp
      · exact absurd h (by simp)

theorem strrchr_getD_length (c : Char) (s : Str) : ((strrchr c s).getD []).length ≤ s.length := by
  cases h : strrchr c s with
  | none => simp
  | some pre => exact Nat.le_of_lt (strrchr_length c s pre h)

/-- A change shortens the text by two characters at least. -/
theorem canon_change_length (left after : Str) :
    (canon_change left after).length ≤ (left ++ after).length := by
  unfold canon_change
  split
  · split
    · simp only [List.length_tail, List.length_append]
      omega
    · simp
  · have hl := strrchr_getD_length '/' left.dropLast
    simp only [List.length_dropLast, List.length_append] at hl ⊢
    omega

/-- The loop comes to an end: a round with a change shortens the text, a round
without one shortens the text that is still to be searched. -/
theorem canon_loop_total (f : Nat) : ∀ (p s : Str),
    (p ++ s).length * ((p ++ s).length + 1) + s.length < f → ∃ r, canon_loop f p s = some r := by
  induction f with
  | zero => intro p s h; exact absurd h (by omega)
  | succ f ih =>
    intro p s h
    cases h1 : strstr "..".toList s with
    | none => exact ⟨p ++ s, by rw [canon_loop, h1]⟩
    | some q =>
      obtain ⟨mid, dd⟩ := q
      obtain ⟨after, rfl, rfl, _⟩ := strstr_dd_some s mid _ h1
      rw [canon_loop_step f p mid after h1]
      simp only [List.length_append, List.length_cons] at h
      split
      · apply ih
        simp only [List.length_append, List.length_cons, List.length_nil, String.toList]
        have e2 : p.length + mid.length + (0 + 1 + 1) + after.length =
            p.length + (mid.length + (after.length + 1 + 1)) := by omega
        rw [e2]
        omega
      · apply ih
        have hl := canon_change_length (p ++ mid) after
        simp only [List.nil_append, List.length_append] at hl ⊢
        generalize (canon_change (p ++ mid) after).length = k at hl ⊢
        have ht : k + 2 ≤ p.length + (mid.length + (after.length + 1 + 1)) := by omega
        generalize p.length + (mid.length + (after.length + 1 + 1)) = t at h ht
        have : k * (k + 1) + k < t * (t + 1) := by nlinarith
        omega

/-- The result of the loop does not depend on the number of rounds allowed,
once it suffices. -/
theorem canon_loop_unique (f g : Nat) (p s r r2 : Str) (h1 : canon_loop f p s = some r)
    (h2 : canon_loop g p s = some r2) : r = r2 := by
  have a := canon_loop_mono_le f (max f g) (le_max_left _ _) p s r h1
  have b := canon_loop_mono_le g (max f g) (le_max_right _ _) p s r2 h2
  rw [a] at b
  exact Option.some.inj b

theorem yaml_canon_path_eq (path r : Str) (f : Nat) (h : canon_loop f [] path = some r) :
    yaml_canon_path path = some (strip_slash r) := by
  obtain ⟨r2, h2⟩ := canon_loop_total ((path.length + 1) * (path.length + 1)) [] path (by
    simp only [List.nil_append]
    nlinarith)
  have := canon_loop_unique _ _ _ _ _ _ h h2
  subst this
  simp only [yaml_canon_path, h2, strip_slash]

theorem dotdot_at_append_left (p s : Str) (j : Nat) (h : j + 1 < p.length) :
    dotdot_at (p ++ s) j ↔ dotdot_at p j := by
  simp only [dotdot_at]
  rw [List.getElem?_append_left (by omega), List.getElem?_append_left h]

theorem dotdot_at_append_right (p s : Str) (j : Nat) (h : p.length ≤ j) :
    dotdot_at (p ++ s) j ↔ dotdot_at s (j - p.length) := by
  simp only [dotdot_at]
  rw [List.getElem?_append_right h, List.getElem?_append_right (by omega)]
  have e : j + 1 - p.length = j - p.length + 1 := by omega
  rw [e]

/-- The test of the loop: the two dots found are a component. -/
theorem canon_cond (left after : Str) :
    canon_part left after = true ↔
      ¬ dotdot_comp (left ++ '.' :: '.' :: after) left.length := by
  have h0 : dotdot_at (left ++ '.' :: '.' :: after) left.length := by
    constructor
    · rw [List.getElem?_append_right (le_refl _)]
      simp
    · rw [List.getElem?_append_right (by omega)]
      simp
  have h2 : (left ++ '.' :: '.' :: after)[left.length + 2]? = after.head? := by
    rw [List.getElem?_append_right (by omega)]
    have e : left.length + 2 - left.length = 2 := by omega
    rw [e]
    cases after <;> simp
  simp only [canon_part, dotdot_comp, h0, true_and, h2]
  induction left using List.reverseRecOn with
  | nil =>
    cases after with
    | nil => simp
    | cons a t => simp
  | append_singleton t c _ =>
    have h1 : (t ++ [c] ++ '.' :: '.' :: after)[(t ++ [c]).length - 1]? = some c := by
      rw [List.getElem?_append_left (by simp)]
      simp
    have hl : (t ++ [c]).getLast? = some c := by simp
    have hz : (t ++ [c]).length ≠ 0 := by simp
    rw [h1, hl]
    cases after with
    | nil => simp [hz]
    | cons a r =>
      simp only [List.head?_cons, Bool.or_eq_true, bne_iff_ne, ne_eq, hz, false_or,
        Option.some.injEq, not_and, not_or]
      constructor
      · intro h hc
        rcases h with h | h
        · exact absurd hc h
        · exact ⟨by simp, h⟩
      · intro h
        by_cases hc : c = '/'
        · right
          exact (h hc).2
        · left
          exact hc

theorem append_dd_assoc (p mid after : Str) :
    p ++ mid ++ "..".toList ++ after = p ++ (mid ++ '.' :: '.' :: after) := by
  simp only [List.append_assoc]
  rfl

/-- After a round without a change there are no two dots that are a component
in front of the text that is still to be searched. -/
theorem canon_inv_step (p mid after : Str)
    (hinv : ∀ j < p.length, ¬ dotdot_comp (p ++ (mid ++ '.' :: '.' :: after)) j)
    (hfirst : ∀ j < mid.length, ¬ dotdot_at (mid ++ '.' :: '.' :: after) j)
    (hc : ¬ dotdot_comp (p ++ mid ++ '.' :: '.' :: after) (p ++ mid).length) :
    ∀ j < (p ++ mid ++ "..".toList).length,
      ¬ dotdot_comp (p ++ mid ++ "..".toList ++ after) j := by
  intro j hj
  rw [append_dd_assoc]
  have hlen : (p ++ mid ++ "..".toList).length = p.length + mid.length + 2 := by
    simp only [List.length_append]
    rfl
  rw [hlen] at hj
  by_cases h1 : j < p.length
  · exact hinv j h1
  · by_cases h2 : j < p.length + mid.length
    · intro hcomp
      have := (dotdot_at_append_right p _ j (by omega)).mp hcomp.1
      exact hfirst _ (by omega) this
    · by_cases h3 : j = p.length + mid.length
      · subst h3
        rw [List.append_assoc, List.length_append] at hc
        exact hc
      · have h4 : j = p.length + mid.length + 1 := by omega
        subst h4
        intro hcomp
        have h5 := hcomp.2.1
        simp only [Nat.add_eq_zero, List.length_eq_zero, one_ne_zero, and_false, false_or,
          Nat.add_sub_cancel] at h5
        rw [← List.append_assoc, List.getElem?_append_right (by simp)] at h5
        simp at h5

/-- The result of the loop has no two dots that are a component. -/
theorem canon_loop_clean (f : Nat) : ∀ (p s r : Str),
    (∀ j < p.length, ¬ dotdot_comp (p ++ s) j) → canon_loop f p s = some r →
    ∀ j, ¬ dotdot_comp r j := by
  induction f with
  | zero => intro p s r _ h; exact absurd h (by simp [canon_loop])
  | succ f ih =>
    intro p s r hinv h
    cases h1 : strstr "..".toList s with
    | none =>
      rw [canon_loop, h1] at h
      simp only [Option.some.injEq] at h
      subst h
      intro j hj
      by_cases hjp : j < p.length
      · exact hinv j hjp hj
      · exact strstr_dd_none s h1 _ ((dotdot_at_append_right p s j (by omega)).mp hj.1)
    | some q =>
      obtain ⟨mid, dd⟩ := q
      obtain ⟨after, rfl, rfl, hfirst⟩ := strstr_dd_some s mid _ h1
      rw [canon_loop_step f p mid after h1] at h
      split at h
      · rename_i hc
        have hc2 := (canon_cond (p ++ mid) after).mp hc
        exact ih _ _ r (canon_inv_step p mid after hinv hfirst hc2) h
      · exact ih _ _ r (by intro j hj; simp at hj) h

/-- A text without two dots that are a component is not changed by the loop. -/
theorem canon_loop_keep (n : Nat) : ∀ (p s : Str), s.length ≤ n →
    (∀ j, p.length ≤ j → ¬ dotdot_comp (p ++ s) j) →
    ∃ f, canon_loop f p s = some (p ++ s) := by
  induction n with
  | zero =>
    intro p s hn _
    have : s = [] := List.length_eq_zero.mp (by omega)
    subst this
    exact ⟨1, by rw [canon_loop]; rfl⟩
  | succ n ih =>
    intro p s hn hno
    cases h1 : strstr "..".toList s with
    | none => exact ⟨1, by rw [canon_loop, h1]⟩
    | some q =>
      obtain ⟨mid, dd⟩ := q
      obtain ⟨after, rfl, rfl, hfirst⟩ := strstr_dd_some s mid _ h1
      have hc : ¬ dotdot_comp (p ++ mid ++ '.' :: '.' :: after) (p ++ mid).length := by
        rw [List.append_assoc]
        exact hno _ (by simp)
      have hc1 := (canon_cond (p ++ mid) after).mpr hc
      obtain ⟨f, hf⟩ := ih (p ++ mid ++ "..".toList) after (by
          simp only [List.length_append, List.length_cons] at hn
          omega) (by
          intro j hj
          rw [append_dd_assoc]
          exact hno j (by
            simp only [List.length_append] at hj
            omega))
      refine ⟨f + 1, ?_⟩
      rw [canon_loop_step f p mid after h1, if_pos hc1, hf, append_dd_assoc]

/-- The loop changes the text at the first two dots that are a component, and
starts again. -/
theorem canon_loop_first (n : Nat) : ∀ (p s a b r : Str) (g : Nat), s.length ≤ n →
    p ++ s = a ++ '.' :: '.' :: b → p.length ≤ a.length →
    dotdot_comp (a ++ '.' :: '.' :: b) a.length →
    (∀ j < a.length, p.length ≤ j → ¬ dotdot_comp (a ++ '.' :: '.' :: b) j) →
    canon_loop g [] (canon_change a b) = some r →
    ∃ f, canon_loop f p s = some r := by
  induction n with
  | zero =>
    intro p s a b r g hn he hpa _ _ _
    have : s = [] := List.length_eq_zero.mp (by omega)
    subst this
    have := congrArg List.length he
    simp only [List.append_nil, List.length_append, List.length_cons] at this
    omega
  | succ n ih =>
    intro p s a b r g hn he hpa hcomp hmin hg
    have hat : dotdot_at s (a.length - p.length) := by
      have := hcomp.1
      rw [← he] at this
      exact (dotdot_at_append_right p s _ hpa).mp this
    cases h1 : strstr "..".toList s with
    | none => exact absurd hat (strstr_dd_none s h1 _)
    | some q =>
      obtain ⟨mid, dd⟩ := q
      obtain ⟨after, rfl, rfl, hfirst⟩ := strstr_dd_some s mid _ h1
      have hge : mid.length ≤ a.length - p.length := by
        by_contra hlt
        exact hfirst _ (by omega) hat
      by_cases heq : a.length = (p ++ mid).length
      · -- the two dots found are the first component
        rw [← List.append_assoc] at he
        have hab := List.append_inj he heq.symm
        obtain ⟨ha, hb⟩ := hab
        simp only [List.cons.injEq, true_and] at hb
        subst ha
        subst hb
        have hc1 : ¬ canon_part (p ++ mid) after = true := by
          intro hc
          exact (canon_cond (p ++ mid) after).mp hc hcomp
        exact ⟨g + 1, by rw [canon_loop_step g p mid after h1, if_neg hc1, hg]⟩
      · have hlen : (p ++ mid).length < a.length := by
          simp only [List.length_append] at heq ⊢
          omega
        have hc : ¬ dotdot_comp (p ++ mid ++ '.' :: '.' :: after) (p ++ mid).length := by
          rw [List.append_assoc, he]
          exact hmin _ hlen (by simp)
        have hc1 := (canon_cond (p ++ mid) after).mpr hc
        have hne : a.length ≠ (p ++ mid).length + 1 := by
          intro h9
          have h5 := hcomp.2.1
          rw [← he, h9] at h5
          simp only [Nat.add_eq_zero, List.length_eq_zero, one_ne_zero, and_false, false_or,
            Nat.add_sub_cancel] at h5
          rw [← List.append_assoc, List.getElem?_append_right (by simp)] at h5
          simp at h5
        obtain ⟨f, hf⟩ := ih (p ++ mid ++ "..".toList) after a b r g (by
            simp only [List.length_append, List.length_cons] at hn
            omega) (by rw [append_dd_assoc, he]) (by
            have e : (p ++ mid ++ "..".toList).length = (p ++ mid).length + 2 := by
              rw [List.length_append]
              rfl
            omega) hcomp (by
            intro j hj hpj
            exact hmin j hj (by
              simp only [List.length_append] at hpj
              omega)) hg
        exact ⟨f + 1, by rw [canon_loop_step f p mid after h1, if_pos hc1, hf]⟩

theorem path_components_slash (r : Str) : path_components ('/' :: r) = [] :: path_components r := by
  simp [path_components]

theorem path_components_head (s : Str) :
    ∃ t, path_components s = s.takeWhile (fun c => c != '/') :: t := by
  induction s with
  | nil => exact ⟨[], rfl⟩
  | cons x r ih =>
    by_cases hx : x = '/'
    · subst hx
      exact ⟨path_components r, by simp [path_components]⟩
    · obtain ⟨t, ht⟩ := ih
      refine ⟨t, ?_⟩
      have hx2 : (x != '/') = true := by simpa using hx
      simp [path_components, hx, ht, List.takeWhile_cons, hx2]

theorem path_components_cons (x : Char) (r : Str) (hx : x ≠ '/') :
    ∃ t, path_components r = r.takeWhile (fun c => c != '/') :: t ∧
      path_components (x :: r) = (x :: r.takeWhile (fun c => c != '/')) :: t := by
  obtain ⟨t, ht⟩ := path_components_head r
  exact ⟨t, ht, by simp [path_components, hx, ht]⟩

theorem take_while_dd (s : Str) :
    s.takeWhile (fun c => c != '/') = "..".toList ↔ dotdot_comp s 0 := by
  have e : "..".toList = ['.', '.'] := rfl
  have hd : ('.' != '/') = true := by decide
  have hs : ('/' != '/') = false := by decide
  rw [e]
  constructor
  · intro h
    rcases s with _ | ⟨a, _ | ⟨b, _ | ⟨c, t⟩⟩⟩
    · simp at h
    · rw [List.takeWhile_cons] at h
      split at h <;> simp at h
    · rw [List.takeWhile_cons] at h
      split at h
      · rw [List.takeWhile_cons] at h
        split at h
        · simp only [List.takeWhile_nil, List.cons.injEq, and_true] at h
          rw [h.1, h.2]
          simp [dotdot_comp, dotdot_at]
        · simp at h
      · simp at h
    · rw [List.takeWhile_cons] at h
      split at h
      · rw [List.takeWhile_cons] at h
        split at h
        · rw [List.takeWhile_cons] at h
          split at h
          · simp at h
          · rename_i hc
            simp only [List.cons.injEq, and_true] at h
            have hc2 : c = '/' := by simpa using hc
            rw [h.1, h.2, hc2]
            simp [dotdot_comp, dotdot_at]
        · simp at h
      · simp at h
  · intro h
    obtain ⟨⟨h0, h1⟩, _, h2⟩ := h
    rcases s with _ | ⟨a, _ | ⟨b, _ | ⟨c, t⟩⟩⟩
    · simp at h0
    · simp at h1
    · simp only [List.getElem?_cons_zero, Option.some.injEq, zero_add,
        List.getElem?_cons_succ] at h0 h1
      rw [h0, h1]
      simp [List.takeWhile_cons, hd]
    · simp only [List.getElem?_cons_zero, Option.some.injEq, zero_add,
        List.getElem?_cons_succ] at h0 h1 h2
      have hc : c = '/' := by
        rcases h2 with h2 | h2
        · exact absurd h2 (by simp)
        · exact h2
      rw [h0, h1, hc]
      simp [List.takeWhile_cons, hd, hs]

theorem dotdot_comp_succ (x : Char) (r : Str) (i : Nat) :
    dotdot_comp (x :: r) (i + 1) ↔
      dotdot_at r i ∧ ((i = 0 ∧ x = '/') ∨ (0 < i ∧ r[i - 1]? = some '/')) ∧
        (r[i + 2]? = none ∨ r[i + 2]? = some '/') := by
  simp only [dotdot_comp, dotdot_at_cons, Nat.add_eq_zero, one_ne_zero, and_false, false_or,
    Nat.add_sub_cancel]
  have e : (x :: r)[i + 1 + 2]? = r[i + 2]? := by
    have : i + 1 + 2 = (i + 2) + 1 := by omega
    rw [this, List.getElem?_cons_succ]
  rw [e]
  cases i with
  | zero => simp
  | succ j => simp

/-- Two dots that are a component are among the components. -/
theorem components_of_dotdot (s : Str) : ∀ i, dotdot_comp s i →
    (i = 0 → (path_components s).head? = some "..".toList) ∧
      (0 < i → "..".toList ∈ (path_components s).tail) := by
  induction s with
  | nil =>
    intro i h
    simp [dotdot_comp, dotdot_at] at h
  | cons x r ih =>
    intro i h
    cases i with
    | zero =>
      refine ⟨fun _ => ?_, fun h0 => absurd h0 (by omega)⟩
      obtain ⟨t, ht⟩ := path_components_head (x :: r)
      rw [ht, (take_while_dd _).mpr h]
      rfl
    | succ j =>
      refine ⟨fun h0 => absurd h0 (by omega), fun _ => ?_⟩
      rw [dotdot_comp_succ] at h
      obtain ⟨hat, hbefore, hafter⟩ := h
      rcases hbefore with ⟨hj, hx⟩ | ⟨hj, hb⟩
      · subst hj
        subst hx
        rw [path_components_slash, List.tail_cons]
        have := (ih 0 ⟨hat, Or.inl rfl, hafter⟩).1 rfl
        exact List.mem_of_mem_head? this
      · have hm := (ih j ⟨hat, Or.inr hb, hafter⟩).2 hj
        by_cases hx : x = '/'
        · subst hx
          rw [path_components_slash, List.tail_cons]
          exact List.mem_of_mem_tail hm
        · obtain ⟨t, ht, ht2⟩ := path_components_cons x r hx
          rw [ht2, List.tail_cons]
          rw [ht, List.tail_cons] at hm
          exact hm

/-- A component of two dots stands at some index of the path. -/
theorem dotdot_of_components (s : Str) :
    ((path_components s).head? = some "..".toList → dotdot_comp s 0) ∧
      ("..".toList ∈ (path_components s).tail → ∃ i, 0 < i ∧ dotdot_comp s i) := by
  induction s with
  | nil =>
    constructor
    · intro h
      exact absurd h (by decide)
    · intro h
      simp [path_components] at h
  | cons x r ih =>
    constructor
    · intro h
      obtain ⟨t, ht⟩ := path_components_head (x :: r)
      rw [ht] at h
      simp only [List.head?_cons, Option.some.injEq] at h
      exact (take_while_dd _).mp h
    · intro h
      have key : "..".toList ∈ path_components r ∧ (x = '/' ∨
          "..".toList ∈ (path_components r).tail) → ∃ i, 0 < i ∧ dotdot_comp (x :: r) i := by
        intro ⟨hm, hx⟩
        by_cases ht : "..".toList ∈ (path_components r).tail
        · obtain ⟨i, hi, hc⟩ := ih.2 ht
          refine ⟨i + 1, by omega, ?_⟩
          rw [dotdot_comp_succ]
          refine ⟨hc.1, Or.inr ⟨hi, ?_⟩, hc.2.2⟩
          rcases hc.2.1 with h0 | h0
          · omega
          · exact h0
        · have hx2 : x = '/' := by
            rcases hx with hx | hx
            · exact hx
            · exact absurd hx ht
          have hh : (path_components r).head? = some "..".toList := by
            obtain ⟨t, e⟩ := path_components_head r
            rw [e] at hm ht ⊢
            simp only [List.tail_cons] at ht
            simp only [List.mem_cons] at hm
            rcases hm with hm | hm
            · rw [← hm]
              rfl
            · exact absurd hm ht
          have hc := ih.1 hh
          refine ⟨1, by omega, ?_⟩
          rw [dotdot_comp_succ]
          exact ⟨hc.1, Or.inl ⟨rfl, hx2⟩, hc.2.2⟩
      by_cases hx : x = '/'
      · subst hx
        rw [path_components_slash, List.tail_cons] at h
        exact key ⟨h, Or.inl rfl⟩
      · obtain ⟨t, ht, ht2⟩ := path_components_cons x r hx
        rw [ht2, List.tail_cons] at h
        have hm : "..".toList ∈ (path_components r).tail := by
          rw [ht]
          exact h
        exact key ⟨List.mem_of_mem_tail hm, Or.inr hm⟩

theorem mem_components_iff (s : Str) :
    "..".toList ∈ path_components s ↔ ∃ i, dotdot_comp s i := by
  constructor
  · intro h
    obtain ⟨t, e⟩ := path_components_head s
    have h2 := dotdot_of_components s
    rw [e] at h h2
    simp only [List.mem_cons] at h
    rcases h with h | h
    · exact ⟨0, h2.1 (by rw [← h]; rfl)⟩
    · obtain ⟨i, _, hi⟩ := h2.2 h
      exact ⟨i, hi⟩
  · intro ⟨i, hi⟩
    have := components_of_dotdot s i hi
    rcases Nat.eq_zero_or_pos i with h0 | h0
    · exact List.mem_of_mem_head? (this.1 h0)
    · exact List.mem_of_mem_tail (this.2 h0)

theorem path_components_append (v c : Str) :
    path_components (v ++ '/' :: c) = path_components v ++ path_components c := by
  induction v with
  | nil => simp [path_components]
  | cons x r ih =>
    by_cases hx : x = '/'
    · subst hx
      rw [List.cons_append, path_components_slash, path_components_slash, ih]
      rfl
    · obtain ⟨t, ht, ht2⟩ := path_components_cons x r hx
      obtain ⟨t2, ht3, ht4⟩ := path_components_cons x (r ++ '/' :: c) hx
      rw [List.cons_append, ht4, ht2]
      rw [ih, ht] at ht3
      simp only [List.cons_append, List.cons.injEq] at ht3
      rw [← ht3.1, ← ht3.2]
      rfl

theorem path_components_plain (c : Str) (h : '/' ∉ c) : path_components c = [c] := by
  induction c with
  | nil => rfl
  | cons x r ih =>
    simp only [List.mem_cons, not_or] at h
    have hx : x ≠ '/' := fun e => h.1 e.symm
    simp [path_components, hx, ih h.2]

theorem strrchr_plain (c : Str) (h : '/' ∉ c) : strrchr '/' c = none := by
  induction c with
  | nil => rfl
  | cons x r ih =>
    simp only [List.mem_cons, not_or] at h
    have hx : x ≠ '/' := fun e => h.1 e.symm
    simp [strrchr, ih h.2, hx]

theorem strrchr_last (v c : Str) (h : '/' ∉ c) : strrchr '/' (v ++ '/' :: c) = some v := by
  induction v with
  | nil => simp [strrchr, strrchr_plain c h]
  | cons x r ih => simp [strrchr, ih]

theorem strip_slash_components (r : Str) (h : "..".toList ∉ path_components r) :
    "..".toList ∉ path_components (strip_slash r) := by
  unfold strip_slash
  split
  · rename_i hc
    rcases r with _ | ⟨x, t⟩
    · exact h
    · simp only [List.head?_cons, Bool.and_eq_true, beq_iff_eq, Option.some.injEq] at hc
      rw [hc.1, path_components_slash] at h
      simp only [List.mem_cons, not_or] at h
      exact h.2
  · exact h

theorem canon_loop_result (path : Str) : ∃ r, canon_loop ((path.length + 1) * (path.length + 1))
    [] path = some r :=
  canon_loop_total _ [] path (by
    simp only [List.nil_append]
    nlinarith)

/-- The result for a path is the result for the path after the change at its
first two dots that are a component. -/
theorem canon_first_eq (a b : Str) (hcomp : dotdot_comp (a ++ '.' :: '.' :: b) a.length)
    (hmin : ∀ j < a.length, ¬ dotdot_comp (a ++ '.' :: '.' :: b) j) :
    yaml_canon_path (a ++ '.' :: '.' :: b) = yaml_canon_path (canon_change a b) := by
  obtain ⟨r, hr⟩ := canon_loop_result (canon_change a b)
  obtain ⟨f, hf⟩ := canon_loop_first _ [] (a ++ '.' :: '.' :: b) a b r _ (le_refl _) rfl
    (Nat.zero_le _) hcomp (fun j hj _ => hmin j hj) hr
  rw [yaml_canon_path_eq _ r f hf, yaml_canon_path_eq _ r _ hr]

/-- A path without a component of two dots only loses its leading slash. -/
theorem canon_keep_eq (path : Str) (h : "..".toList ∉ path_components path) :
    yaml_canon_path path = some (strip_slash path) := by
  obtain ⟨f, hf⟩ := canon_loop_keep _ [] path (le_refl _) (by
    intro j _ hj
    exact h ((mem_components_iff path).mpr ⟨j, hj⟩))
  exact yaml_canon_path_eq path path f hf

/-- Two dots behind a text `u` without a component of two dots are the first
component of two dots. -/
theorem dotdot_after (u rest : Str) (hu : "..".toList ∉ path_components u)
    (hrest : rest = [] ∨ rest.head? = some '/') :
    dotdot_comp ((u ++ ['/']) ++ '.' :: '.' :: rest) (u ++ ['/']).length ∧
      ∀ j < (u ++ ['/']).length, ¬ dotdot_comp ((u ++ ['/']) ++ '.' :: '.' :: rest) j := by
  have hlen : (u ++ ['/']).length = u.length + 1 := by simp
  have hX : (u ++ ['/']) ++ '.' :: '.' :: rest = u ++ '/' :: '.' :: '.' :: rest := by simp
  have hs : (u ++ '/' :: '.' :: '.' :: rest)[u.length]? = some '/' := by
    rw [List.getElem?_append_right (le_refl _)]
    simp
  constructor
  · refine ⟨?_, Or.inr ?_, ?_⟩
    · constructor
      · rw [List.getElem?_append_right (le_refl _)]
        simp
      · rw [List.getElem?_append_right (by omega)]
        simp
    · rw [hlen, hX, Nat.add_sub_cancel]
      exact hs
    · rw [List.getElem?_append_right (by omega)]
      have e : (u ++ ['/']).length + 2 - (u ++ ['/']).length = 2 := by omega
      rw [e]
      rcases hrest with h | h
      · left
        rw [h]
        rfl
      · right
        cases rest with
        | nil => simp at h
        | cons x t => simpa using h
  · intro j hj hcomp
    rw [hlen] at hj
    rw [hX] at hcomp
    apply hu
    rw [mem_components_iff]
    refine ⟨j, ?_⟩
    obtain ⟨⟨h0, h1⟩, hb, ha⟩ := hcomp
    have hj0 : j ≠ u.length := by
      intro e
      rw [e, hs] at h0
      exact absurd h0 (by decide)
    have hj1 : j + 1 ≠ u.length := by
      intro e
      rw [e, hs] at h1
      exact absurd h1 (by decide)
    have hj2 : j + 1 < u.length := by omega
    refine ⟨⟨?_, ?_⟩, ?_, ?_⟩
    · rw [← h0, List.getElem?_append_left (by omega)]
    · rw [← h1, List.getElem?_append_left hj2]
    · rcases hb with hb | hb
      · exact Or.inl hb
      · right
        rw [← hb, List.getElem?_append_left (by omega)]
    · by_cases hj3 : j + 2 < u.length
      · rw [List.getElem?_append_left hj3] at ha
        exact ha
      · left
        exact List.getElem?_eq_none (by omega)

theorem canon_parent_eq (u rest : Str) (hu : "..".toList ∉ path_components u)
    (hrest : rest = [] ∨ rest.head? = some '/') :
    yaml_canon_path (u ++ "/..".toList ++ rest) =
      yaml_canon_path ((strrchr '/' u).getD [] ++ rest) := by
  obtain ⟨h1, h2⟩ := dotdot_after u rest hu hrest
  have e : u ++ "/..".toList ++ rest = (u ++ ['/']) ++ '.' :: '.' :: rest := by
    simp only [List.append_assoc]
    rfl
  rw [e, canon_first_eq _ _ h1 h2]
  simp [canon_change]

/-- C32, counterexample: a component `.` is not removed. -/
theorem C32_counterexample :
    yaml_canon_path "a/./b".toList = some "a/./b".toList ∧
      yaml_canon_path "./a".toList = some "./a".toList := by
  decide

/-- C32, amended: `yaml_canon_path` returns for every path the path with its
`..` components removed textually; a component `.` is kept like every other
component.  A path without a component `..` only loses its leading slash (when
something follows it).  The first component `..` is removed together with the
component `c` before it and the slash between them, the result being that of
the path so shortened; at the start of the path it is removed alone, with the
slash behind it when more text follows.  `a/b/../c` gives `a/c` and `../a`
gives `a`. -/
theorem C32_canon_path (path v c rest : Str) (hp : "..".toList ∉ path_components path)
    (hv : "..".toList ∉ path_components v) (hc : '/' ∉ c) (hc2 : c ≠ "..".toList)
    (hrest : rest = [] ∨ rest.head? = some '/') :
    yaml_canon_path path = some (strip_slash path) ∧
      yaml_canon_path (v ++ '/' :: c ++ "/..".toList ++ rest) = yaml_canon_path (v ++ rest) ∧
      yaml_canon_path (c ++ "/..".toList ++ rest) = yaml_canon_path rest ∧
      yaml_canon_path ("..".toList ++ rest) =
        yaml_canon_path (if 2 ≤ rest.length then rest.tail else rest) ∧
      yaml_canon_path "a/b/../c".toList = some "a/c".toList ∧
      yaml_canon_path "../a".toList = some "a".toList := by
  have hcc : "..".toList ∉ path_components c := by
    rw [path_components_plain c hc]
    simpa using fun e => hc2 e.symm
  refine ⟨canon_keep_eq path hp, ?_, ?_, ?_, by decide, by decide⟩
  · have hu : "..".toList ∉ path_components (v ++ '/' :: c) := by
      rw [path_components_append, List.mem_append, not_or]
      exact ⟨hv, hcc⟩
    rw [canon_parent_eq (v ++ '/' :: c) rest hu hrest, strrchr_last v c hc]
    rfl
  · rw [canon_parent_eq c rest hcc hrest, strrchr_plain c hc]
    rfl
  · have hcomp : dotdot_comp ([] ++ '.' :: '.' :: rest) ([] : Str).length := by
      refine ⟨⟨rfl, by simp⟩, Or.inl rfl, ?_⟩
      rcases hrest with h | h
      · left
        rw [h]
        rfl
      · right
        cases rest with
        | nil => simp at h
        | cons x t => simpa using h
    have := canon_first_eq [] rest hcomp (by
      intro j hj
      simp at hj)
    simpa [canon_change] using this

/-- Witness of C32: the paths `x/./y`, `a/b/c/../d`, `c/../d` and `../d`. -/
theorem C32_canon_path_witness :
    yaml_canon_path "x/./y".toList = some (strip_slash "x/./y".toList) ∧
      yaml_canon_path ("a/b".toList ++ '/' :: "c".toList ++ "/..".toList ++ "/d".toList) =
        yaml_canon_path ("a/b".toList ++ "/d".toList) ∧
      yaml_canon_path ("c".toList ++ "/..".toList ++ "/d".toList) =
        yaml_canon_path "/d".toList ∧
      yaml_canon_path ("..".toList ++ "/d".toList) =
        yaml_canon_path (if 2 ≤ "/d".toList.length then "/d".toList.tail else "/d".toList) ∧
      yaml_canon_path "a/b/../c".toList = some "a/c".toList ∧
      yaml_canon_path "../a".toList = some "a".toList :=
  C32_canon_path "x/./y".toList "a/b".toList "c".toList "/d".toList (by decide) (by decide)
    (by decide) (by decide) (by decide)

/-- C36: for every path `yaml_canon_path` comes to an end, and no component of
its result is `..`.  Two dots that are only part of the name of a longer
component are left as they are: a path in which no component is `..` is
returned unchanged, apart from the leading slash that is removed from every
result. -/
theorem C36_canon_path_dotdot (path : Str) :
    ∃ r, yaml_canon_path path = some r ∧ "..".toList ∉ path_components r ∧
      ("..".toList ∉ path_components path → r = strip_slash path) ∧
      yaml_canon_path "a..b/..c/d..".toList = some "a..b/..c/d..".toList := by
  obtain ⟨r, hr⟩ := canon_loop_result path
  have hclean := canon_loop_clean _ [] path r (by intro j hj; simp at hj) hr
  have hno : "..".toList ∉ path_components r := by
    rw [mem_components_iff]
    exact fun ⟨j, hj⟩ => hclean j hj
  refine ⟨strip_slash r, yaml_canon_path_eq path r _ hr, strip_slash_components r hno, ?_,
    by decide⟩
  intro hp
  have := canon_keep_eq path hp
  rw [yaml_canon_path_eq path r _ hr] at this
  exact Option.some.inj this

/-! ## The recorder with several streams -/

/-- C35: when the stream 1 (`stdout`) ends with a hang-up while a partial line
is pending on it, the partial line `xyz` pending on the stream 0 (`stderr`) is
lost: the handler gets the line `w` for `stderr` where the bytes that arrived
on it are framed as the line `xyzw`.  When the end of `stdout` is reported as
readable the line `xyzw` is delivered. -/
theorem C35_hangup_other_stream :
    stream_lines 0 (rec_log_streams_all rec_log_streams_std (fun _ => ⟨0, 0⟩) hangup_rounds) =
        ["w\n".toList] ∧
      stream_lines 1 (rec_log_streams_all rec_log_streams_std (fun _ => ⟨0, 0⟩) hangup_rounds) =
        ["abc".toList] ∧
      frame_lines ("xyz".toList ++ "w\n".toList) [] = ["xyzw\n".toList] ∧
      stream_lines 0 (rec_log_streams_all rec_log_streams_std (fun _ => ⟨0, 0⟩) eof_rounds) =
        ["xyzw\n".toList] := by
  decide

/-! ## Documents after normalisation -/

theorem top_kept_cons (n : yaml_node) (r : List yaml_node) :
    top_kept (n :: r) =
      if match_type_name (some n) "system".toList then rename_system n :: top_kept r
      else top_kept r := by
  simp only [top_kept, List.filter_cons]
  split <;> rfl

theorem top_moved_cons (n : yaml_node) (r : List yaml_node) :
    top_moved (n :: r) =
      if (!match_type_name (some n) "system".toList && !match_key (some n) "test".toList) then
        n :: top_moved r
      else top_moved r := by
  simp only [top_moved, List.filter_cons]

theorem cleanup_system_loop_spec (rest : List yaml_node) : ∀ (kept moved : List yaml_node),
    cleanup_system_loop rest kept moved = (kept ++ top_kept rest, moved ++ top_moved rest) := by
  induction rest with
  | nil => intro kept moved; simp [cleanup_system_loop, top_kept, top_moved]
  | cons n r ih =>
    intro kept moved
    rw [top_kept_cons, top_moved_cons]
    cases n with
    | scalar c =>
      have hm : match_type_name (some (.scalar c)) "system".toList = false := rfl
      have hk : match_key (some (.scalar c)) "test".toList = false := rfl
      simp only [cleanup_system_loop, ih, hm, hk, Bool.not_false, Bool.and_self, if_true,
        Bool.false_eq_true, if_false, List.append_assoc, List.singleton_append]
    | seq c =>
      have hm : match_type_name (some (.seq c)) "system".toList = false := rfl
      have hk : match_key (some (.seq c)) "test".toList = false := rfl
      simp only [cleanup_system_loop, ih, hm, hk, Bool.not_false, Bool.and_self, if_true,
        Bool.false_eq_true, if_false, List.append_assoc, List.singleton_append]
    | map key value =>
      simp only [cleanup_system_loop]
      by_cases h1 : key = "system".toList
      · subst h1
        have hm : match_type_name (some (.map "system".toList value)) "system".toList = true := by
          rfl
        simp only [beq_self_eq_true, if_true, ih, hm, Bool.not_true, Bool.false_and,
          Bool.false_eq_true, if_false, rename_system, List.append_assoc, List.singleton_append]
      · have h1b : (key == "system".toList) = false := by
          rw [beq_eq_false_iff_ne]
          exact h1
        simp only [h1b, Bool.false_eq_true, if_false]
        by_cases h2 : key = "test".toList
        · subst h2
          have hm : match_type_name (some (.map "test".toList value)) "system".toList = false := by
            rfl
          have hk : match_key (some (.map "test".toList value)) "test".toList = true := by
            simp only [match_key, get_key, beq_self_eq_true]
          simp only [beq_self_eq_true, if_true, ih, hm, hk, Bool.not_true, Bool.and_false,
            Bool.false_eq_true, if_false]
        · have h2b : (key == "test".toList) = false := by
            rw [beq_eq_false_iff_ne]
            exact h2
          have hk : match_key (some (.map key value)) "test".toList = false := by
            simp only [match_key, get_key, h2b]
          simp only [h2b, Bool.false_eq_true, if_false]
          cases hm : match_type_name (some (.map key value)) "system".toList
          · simp only [Bool.not_false, if_true, ih, hk, Bool.and_self, Bool.false_eq_true,
              if_false, List.append_assoc, List.singleton_append]
          · simp only [Bool.not_true, Bool.false_eq_true, if_false, ih, if_true, rename_system,
              h1b, Bool.false_and, List.append_assoc, List.singleton_append]

theorem cleanup_system_spec (value rest : List yaml_node) :
    cleanup_system (.map SYSLOCAL value :: rest) =
      some (.map SYSLOCAL (value ++ top_moved rest) :: top_kept rest) := by
  have h1 : (SYSLOCAL == "system".toList) = false := by decide
  have h2 : (SYSLOCAL != "system".toList) = true := by decide
  have h3 : (SYSLOCAL == "test".toList) = false := by decide
  have h4 : match_type_name (some (.map SYSLOCAL value)) "system".toList = true := by rfl
  simp only [cleanup_system, h1, h2, h3, h4, cleanup_system_loop_spec]
  simp

theorem sanitize_syslocal (file : List yaml_node) :
    sanitize_yaml (syslocal_doc ++ file) = .map SYSLOCAL [] :: sanitize_yaml file := by
  have h1 : sanitize_spacing SYSLOCAL = SYSLOCAL := by decide
  have h2 : SYSLOCAL.isEmpty = false := by decide
  simp only [sanitize_yaml, syslocal_doc, List.singleton_append, _sanitize_yaml, sanitize_node,
    h1, h2, Bool.false_eq_true, if_false]
  rfl

theorem starts_with_eq (k p : Str) (h : misc_starts_with k p = true) :
    k = p ++ k.drop p.length := by
  induction p generalizing k with
  | nil => simp
  | cons b t ih =>
    cases k with
    | nil => simp [misc_starts_with] at h
    | cons a r =>
      simp only [misc_starts_with, Bool.and_eq_true, beq_iff_eq] at h
      rw [h.1]
      simp only [List.cons_append, List.length_cons, List.drop_succ_cons, List.cons.injEq,
        true_and]
      exact ih r h.2

/-- The nodes that stay at the top level are mappings with a key
`system <name>`. -/
theorem top_kept_system (doc : List yaml_node) (hc : clean_chain true doc = true) :
    ∀ n ∈ top_kept doc, system_node n := by
  induction doc with
  | nil => intro n hn; simp [top_kept] at hn
  | cons a r ih =>
    simp only [clean_chain, Bool.and_eq_true] at hc
    intro n hn
    simp only [top_kept, List.filter_cons] at hn
    split at hn
    · rename_i hm
      simp only [List.map_cons, List.mem_cons] at hn
      rcases hn with hn | hn
      · subst hn
        cases a with
        | scalar c => simp [match_type_name, get_key] at hm
        | seq c => simp [match_type_name, get_key] at hm
        | map key value =>
          simp only [rename_system]
          split
          · exact ⟨"localhost".toList, value, by decide, rfl⟩
          · rename_i hk
            simp only [match_type_name, get_key, Bool.and_eq_true] at hm
            have he := starts_with_eq key _ hm.1
            have hk2 : key ≠ "system".toList := by simpa using hk
            have hw : trimmed key = true := by
              have := hc.1
              simp only [clean_node, words_ok, Bool.and_eq_true] at this
              exact this.1.1.1
            rcases hd : key.drop "system".toList.length with _ | ⟨c, name⟩
            · rw [hd, List.append_nil] at he
              exact absurd he hk2
            · rw [hd] at hm he
              have hcb : c = ' ' := by simpa using hm.2
              subst hcb
              refine ⟨name, value, ?_, ?_⟩
              · intro hn0
                subst hn0
                rw [he] at hw
                exact absurd hw (by decide)
              · rw [he]
                rfl
      · exact ih hc.2 n hn
    · exact ih hc.2 n hn

theorem merge_into_mem (key : Str) (rest : List yaml_node) :
    ∀ (aval done skipped : List yaml_node) (n : yaml_node),
      n ∈ (merge_into key rest aval done skipped).2 → n ∈ done ∨ n ∈ skipped ∨ n ∈ rest := by
  induction rest with
  | nil =>
    intro aval done skipped n hn
    simp only [merge_into, List.mem_append] at hn
    rcases hn with h | h
    · exact Or.inl h
    · exact Or.inr (Or.inl h)
  | cons b r ih =>
    intro aval done skipped n hn
    cases b with
    | scalar c =>
      simp only [merge_into] at hn
      rcases ih _ _ _ n hn with h | h | h
      · exact Or.inl h
      · simp only [List.mem_append, List.mem_singleton] at h
        rcases h with h | h
        · exact Or.inr (Or.inl h)
        · exact Or.inr (Or.inr (by simp [h]))
      · exact Or.inr (Or.inr (by simp [h]))
    | seq c =>
      simp only [merge_into] at hn
      rcases ih _ _ _ n hn with h | h | h
      · exact Or.inl h
      · simp only [List.mem_append, List.mem_singleton] at h
        rcases h with h | h
        · exact Or.inr (Or.inl h)
        · exact Or.inr (Or.inr (by simp [h]))
      · exact Or.inr (Or.inr (by simp [h]))
    | map kb bval =>
      simp only [merge_into] at hn
      split at hn
      · rcases ih _ _ _ n hn with h | h | h
        · simp only [List.mem_append, List.mem_singleton] at h
          rcases h with (h | h) | h
          · exact Or.inl h
          · exact Or.inr (Or.inl h)
          · exact Or.inr (Or.inr (by simp [h]))
        · simp at h
        · exact Or.inr (Or.inr (by simp [h]))
      · rcases ih _ _ _ n hn with h | h | h
        · exact Or.inl h
        · simp at h
        · exact Or.inr (Or.inr (by simp [h]))

/-- A chain of mappings stays a chain of mappings in `merge_yaml`. -/
theorem merge_yaml_maps (fuel : Nat) : ∀ (doc : List yaml_node),
    (∀ n ∈ doc, n.type = .yaml_map) → ∀ n ∈ merge_yaml fuel doc, n.type = .yaml_map := by
  induction fuel with
  | zero => intro doc h n hn; exact h n (by simpa [merge_yaml] using hn)
  | succ f ih =>
    intro doc h n hn
    cases doc with
    | nil => simp [merge_yaml] at hn
    | cons a rest =>
      cases a with
      | scalar c => exact absurd (h (.scalar c) (by simp)) (by simp [yaml_node.type])
      | seq c => exact absurd (h (.seq c) (by simp)) (by simp [yaml_node.type])
      | map key value =>
        rw [merge_yaml_map_step] at hn
        simp only [List.mem_cons] at hn
        rcases hn with hn | hn
        · rw [hn]
          rfl
        · apply ih _ _ n hn
          intro m hm
          rcases merge_into_mem key rest value [] [] m hm with h1 | h1 | h1
          · simp at h1
          · simp at h1
          · exact h m (by simp [h1])

theorem mem_map_keys (nodes : List yaml_node) (k : Str) :
    k ∈ map_keys nodes ↔ ∃ v, yaml_node.map k v ∈ nodes := by
  simp only [map_keys, List.mem_filterMap]
  constructor
  · rintro ⟨n, hn, hk⟩
    cases n with
    | scalar c => simp [get_key] at hk
    | seq c => simp [get_key] at hk
    | map key v =>
      simp only [get_key, Option.some.injEq] at hk
      subst hk
      exact ⟨v, hn⟩
  · rintro ⟨v, hv⟩
    exact ⟨_, hv, rfl⟩

/-- C31: the normalisation of `get_requirements` and `get_resources`
(sanitise, clean up systems, merge duplicates) gives for every file a document
whose first node is the mapping `system localhost`, followed by mappings with
keys `system <name>` other than `system localhost`, no key twice.
`cleanup_system` leaves the system sections at the top level, in their order
and with the key `system` replaced by `system localhost`, removes the sections
`test` and puts all other nodes, in their order, below the first node; the
value of `system localhost` in the result is what `merge_yaml` makes of these
nodes and the values of the later sections `system localhost`.  The sections
`system: {a: 1}`, `test: x`, `disk d:` and `system  x:` give
`system localhost: {disk d:, a: 1}` and `system x:`. -/
theorem C31_normalise (file : List yaml_node) :
    (∃ value rest,
      get_requirements file = some (.map SYSLOCAL value :: rest) ∧
      get_resources file = some (.map SYSLOCAL value :: rest) ∧
      (∀ n ∈ rest, system_node n ∧ get_key (some n) ≠ some SYSLOCAL) ∧
      (map_keys rest).Nodup ∧
      cleanup_system (sanitize_yaml (syslocal_doc ++ file)) =
        some (.map SYSLOCAL (top_moved (sanitize_yaml file)) :: top_kept (sanitize_yaml file)) ∧
      value = merge_value (combine_all
        (top_moved (sanitize_yaml file) :: values_of SYSLOCAL (top_kept (sanitize_yaml file))))) ∧
    get_requirements [.map "system".toList [.map ['a'] [.scalar ['1']]],
        .map "test".toList [.scalar ['x']], .map "disk d".toList [],
        .map "system  x".toList []] =
      some [.map SYSLOCAL [.map "disk d".toList [], .map ['a'] [.scalar ['1']]],
        .map "system x".toList []] := by
  refine ⟨?_, by rfl⟩
  have hclean : clean_chain true (sanitize_yaml file) = true := sanitize_yaml_clean true file
  have hsan := sanitize_syslocal file
  have hreq0 : get_requirements file =
      match cleanup_system (sanitize_yaml (syslocal_doc ++ file)) with
      | none => none
      | some doc => some (merge_yaml (yaml_size_chain doc + 1) doc) := rfl
  have hres0 : get_resources file = get_requirements file := rfl
  rw [hres0, hreq0, hsan]
  generalize sanitize_yaml file = d at hclean
  have hcs : cleanup_system (.map SYSLOCAL [] :: d) =
      some (.map SYSLOCAL (top_moved d) :: top_kept d) := by
    rw [cleanup_system_spec]
    rfl
  have hkept := top_kept_system d hclean
  rw [hcs]
  simp only []
  generalize hsz : yaml_size_chain (.map SYSLOCAL (top_moved d) :: top_kept d) = sz
  have hp := merge_yaml_props (sz + 1) (.map SYSLOCAL (top_moved d) :: top_kept d) (by omega)
  have hstep := merge_yaml_map_step sz SYSLOCAL (top_moved d) (top_kept d)
  generalize hv : (if map_first (merge_into SYSLOCAL (top_kept d) (top_moved d) [] []).1
      then merge_yaml sz (merge_into SYSLOCAL (top_kept d) (top_moved d) [] []).1
      else (merge_into SYSLOCAL (top_kept d) (top_moved d) [] []).1) = value at hstep
  generalize hr : merge_yaml sz (merge_into SYSLOCAL (top_kept d) (top_moved d) [] []).2 = rest
    at hstep
  have hmaps : ∀ n ∈ rest, n.type = .yaml_map := by
    rw [← hr]
    apply merge_yaml_maps
    intro m hm
    rcases merge_into_mem SYSLOCAL (top_kept d) (top_moved d) [] [] m hm with h1 | h1 | h1
    · simp at h1
    · simp at h1
    · obtain ⟨name, v, _, e⟩ := hkept m h1
      rw [e]
      rfl
  rw [hstep] at hp ⊢
  obtain ⟨hnodup, hsub, _, _, hval⟩ := hp
  have hk0 : map_keys (yaml_node.map SYSLOCAL value :: rest) = SYSLOCAL :: map_keys rest := by
    simp [map_keys, get_key]
  have hk1 : map_keys (yaml_node.map SYSLOCAL (top_moved d) :: top_kept d) =
      SYSLOCAL :: map_keys (top_kept d) := by
    simp [map_keys, get_key]
  rw [hk0] at hnodup hsub
  rw [hk1] at hsub
  have hnd := List.nodup_cons.mp hnodup
  refine ⟨value, rest, rfl, rfl, ?_, hnd.2, trivial, ?_⟩
  · intro n hn
    have ht := hmaps n hn
    cases n with
    | scalar c => exact absurd ht (by simp [yaml_node.type])
    | seq c => exact absurd ht (by simp [yaml_node.type])
    | map k v =>
      have hk : k ∈ map_keys rest := (mem_map_keys rest k).mpr ⟨v, hn⟩
      have hne : k ≠ SYSLOCAL := fun e => hnd.1 (e ▸ hk)
      have hk2 : k ∈ SYSLOCAL :: map_keys (top_kept d) :=
        hsub.subset (List.mem_cons_of_mem _ hk)
      simp only [List.mem_cons] at hk2
      rcases hk2 with hk2 | hk2
      · exact absurd hk2 hne
      · obtain ⟨w, hw⟩ := (mem_map_keys _ k).mp hk2
        obtain ⟨name, v2, hname, e⟩ := hkept _ hw
        simp only [yaml_node.map.injEq] at e
        refine ⟨⟨name, v, hname, by rw [e.1]⟩, ?_⟩
        simp only [get_key, ne_eq, Option.some.injEq]
        exact hne
  · have h1 := hval SYSLOCAL (by rw [hk1]; simp)
    have h2 : value_of SYSLOCAL (yaml_node.map SYSLOCAL value :: rest) = some value := by
      simp [value_of, values_of]
    have h3 : values_of SYSLOCAL (yaml_node.map SYSLOCAL (top_moved d) :: top_kept d) =
        top_moved d :: values_of SYSLOCAL (top_kept d) := by
      simp [values_of]
    rw [h2, h3] at h1
    exact Option.some.inj h1

/-! ## Candidates and variables of rejected resources -/

/-- C33: the requirement `system localhost` is bound to the resource
`system a`, which is not the local system: the first candidate is the local
system, whose children do not match, and the pointer `next_compat` leads from
it to the next resource with the type word `system`, for which the
system-local flag is not compared.  The environment names the system `a`;
without the system `a` there is no match. -/
theorem C33_local_bound_to_remote :
    (local_remote_cfg.req.map (fun n => get_key (some n)) = [some SYSLOCAL]) ∧
      (local_remote_cfg.res.map (fun n => get_key (some n)) =
        [some SYSLOCAL, some "system a".toList]) ∧
      (match_objects 20 local_remote_cfg match_state.init [0] [0]).map
        (fun r => (r.1, r.2.res [0])) = some (true, [[1]]) ∧
      is_syslocal (yaml_deref local_remote_cfg.req [0]) = true ∧
      is_syslocal (yaml_deref local_remote_cfg.res [1]) = false ∧
      first_res local_remote_cfg [0] [0] = [[0], [1]] ∧
      res_resolve 20 disk_types (yaml_parse_string local_disk_req_text)
          (yaml_parse_string remote_disk_res_text) =
        some (some ["TELA_SYSTEM=a".toList, "TELA_SYSTEM_DISK_x=d".toList]) ∧
      res_resolve 20 disk_types (yaml_parse_string local_disk_req_text)
          (yaml_parse_string "system localhost:\n".toList) = some none := by
  refine ⟨?_, ?_, ?_, ?_, ?_, ?_, ?_, ?_⟩ <;> decide!

/-- C34: the variable `v` gets the value `a` from the first tag of the disk
`A`; the second tag of the requirement has no counterpart in `A`, so
`match_seq_attr` returns false and `A` is rejected, but `v` keeps its value:
no call of `unassign_req` follows.  The disk `B`, which matches when it is the
only disk, is then compared with `v = a` and rejected as well; in the end
there is no match and the table still holds `v`. -/
theorem C34_sequence_variable :
    (match_objects 30 tags_cfg match_state.init [0] [0]).map
          (fun r => (r.1, r.2.attr_vars.map (fun v => (v.name, v.value)))) =
        some (false, [(['v'], ['a'])]) ∧
      res_resolve 30 disk_types (yaml_parse_string tags_req_text)
          (yaml_parse_string tags_res_text) = some none ∧
      res_resolve 30 disk_types (yaml_parse_string tags_req_text)
          (yaml_parse_string tags_res_b_text) =
        some (some ["TELA_SYSTEM=localhost".toList, "TELA_SYSTEM_DISK_d=B".toList,
          "TELA_SYSTEM_DISK_d_TAGS=b".toList, "TELA_SYSTEM_DISK_d_TAGS=x".toList]) := by
  refine ⟨?_, ?_, ?_⟩ <;> decide!

/-! ## The bookkeeping of bound resources -/

theorem bound_once_init : bound_once match_state.init ∧ level_bound match_state.init := by
  refine ⟨⟨?_, ?_, ?_⟩, ?_⟩
  · intro p; simp [match_state.init]
  · intro p1 p2 q h; simp [match_state.init] at h
  · intro q; simp [match_state.init]
  · intro p q h; simp [match_state.init] at h

theorem frame_refl (d : Nat) (st : match_state) : frame d st st :=
  ⟨fun _ _ => rfl, fun _ _ => rfl⟩

theorem frame_trans {d : Nat} {a b c : match_state} (h1 : frame d a b) (h2 : frame d b c) :
    frame d a c :=
  ⟨fun p hp => (h2.1 p hp).trans (h1.1 p hp), fun q hq => (h2.2 q hq).trans (h1.2 q hq)⟩

theorem frame_mono {d e : Nat} (hde : d ≤ e) {a b : match_state} (h : frame e a b) :
    frame d a b :=
  ⟨fun p hp => h.1 p (by omega), fun q hq => h.2 q (by omega)⟩

/-- A state with the same lists and flags is as consistent. -/
theorem bound_same (st st1 : match_state) (h1 : st1.res = st.res)
    (h2 : st1.assigned = st.assigned) (hb : bound_once st) (hl : level_bound st) (d : Nat) :
    bound_once st1 ∧ level_bound st1 ∧ frame d st st1 := by
  refine ⟨⟨?_, ?_, ?_⟩, ?_, ?_, ?_⟩
  · intro p; rw [h1]; exact hb.1 p
  · intro p1 p2 q; rw [h1]; exact hb.2.1 p1 p2 q
  · intro q; rw [h1, h2]; exact hb.2.2 q
  · intro p q; rw [h1]; exact hl p q
  · intro p _; rw [h1]
  · intro q _; rw [h2]

theorem bound_inc_matched (st : match_state) (req : node_id) (hb : bound_once st)
    (hl : level_bound st) (d : Nat) :
    bound_once (inc_matched st req) ∧ level_bound (inc_matched st req) ∧
      frame d st (inc_matched st req) :=
  bound_same st _ rfl rfl hb hl d

/-- The function `assign_req` for a resource that is not assigned. -/
theorem bound_assign (st : match_state) (req q : node_id) (hb : bound_once st)
    (hl : level_bound st) (ha : st.assigned q = false) (hlen : q.length = req.length) :
    bound_once (assign_req st req q) ∧ level_bound (assign_req st req q) ∧
      frame req.length st (assign_req st req q) := by
  have hfree : ∀ p, q ∉ st.res p := by
    intro p hm
    have := (hb.2.2 q).mpr ⟨p, hm⟩
    rw [ha] at this
    exact absurd this (by simp)
  have hres : ∀ p x, x ∈ (assign_req st req q).res p ↔ x ∈ st.res p ∨ (p = req ∧ x = q) := by
    intro p x
    simp only [assign_req]
    by_cases hp : p = req
    · subst hp
      simp
    · simp [hp]
  refine ⟨⟨?_, ?_, ?_⟩, ?_, ?_, ?_⟩
  · intro p
    simp only [assign_req]
    split
    · rename_i hp
      rw [List.nodup_append]
      refine ⟨hb.1 req, by simp, ?_⟩
      intro a ha1 hb1
      simp only [List.mem_singleton] at hb1
      subst hb1
      exact hfree req ha1
    · exact hb.1 p
  · intro p1 p2 x h1 h2
    rw [hres] at h1 h2
    rcases h1 with h1 | ⟨e1, x1⟩
    · rcases h2 with h2 | ⟨e2, x2⟩
      · exact hb.2.1 p1 p2 x h1 h2
      · subst x2
        exact absurd h1 (hfree p1)
    · rcases h2 with h2 | ⟨e2, x2⟩
      · subst x1
        exact absurd h2 (hfree p2)
      · rw [e1, e2]
  · intro x
    have e : (assign_req st req q).assigned x = if x = q then true else st.assigned x := rfl
    rw [e]
    constructor
    · intro h
      split at h
      · rename_i hx
        exact ⟨req, (hres req x).mpr (Or.inr ⟨rfl, hx⟩)⟩
      · obtain ⟨p, hp⟩ := (hb.2.2 x).mp h
        exact ⟨p, (hres p x).mpr (Or.inl hp)⟩
    · rintro ⟨p, hp⟩
      rcases (hres p x).mp hp with h | ⟨_, h⟩
      · split
        · rfl
        · exact (hb.2.2 x).mpr ⟨p, h⟩
      · simp [h]
  · intro p x hx
    rcases (hres p x).mp hx with h | ⟨e1, e2⟩
    · exact hl p x h
    · rw [e1, e2, hlen]
  · intro p hp
    have : p ≠ req := by
      intro e
      rw [e] at hp
      omega
    simp [assign_req, this]
  · intro x hx
    have : x ≠ q := by
      intro e
      rw [e, hlen] at hx
      omega
    simp [assign_req, this]

/-- The first step of `unassign_req`. -/
theorem bound_unassign_one (st : match_state) (req : node_id) (hb : bound_once st)
    (hl : level_bound st) :
    bound_once (unassign_one st req) ∧ level_bound (unassign_one st req) ∧
      frame req.length st (unassign_one st req) ∧ (unassign_one st req).res req = [] := by
  have hres : ∀ p, (unassign_one st req).res p = if p = req then [] else st.res p := fun _ => rfl
  have hasg : ∀ x, (unassign_one st req).assigned x =
      if x ∈ st.res req then false else st.assigned x := fun _ => rfl
  refine ⟨⟨?_, ?_, ?_⟩, ?_, ⟨?_, ?_⟩, ?_⟩
  · intro p
    rw [hres]
    split
    · simp
    · exact hb.1 p
  · intro p1 p2 x h1 h2
    rw [hres] at h1 h2
    split at h1
    · simp at h1
    · split at h2
      · simp at h2
      · exact hb.2.1 p1 p2 x h1 h2
  · intro x
    rw [hasg]
    constructor
    · intro h
      split at h
      · exact absurd h (by simp)
      · rename_i hx
        obtain ⟨p, hp⟩ := (hb.2.2 x).mp h
        refine ⟨p, ?_⟩
        rw [hres]
        split
        · rename_i e
          subst e
          exact absurd hp hx
        · exact hp
    · rintro ⟨p, hp⟩
      rw [hres] at hp
      split at hp
      · simp at hp
      · rename_i hne
        have hx : x ∉ st.res req := fun h => hne (hb.2.1 p req x hp h)
        rw [if_neg hx]
        exact (hb.2.2 x).mpr ⟨p, hp⟩
  · intro p x hx
    rw [hres] at hx
    split at hx
    · simp at hx
    · exact hl p x hx
  · intro p hp
    have : p ≠ req := by
      intro e
      rw [e] at hp
      omega
    rw [hres, if_neg this]
  · intro x hx
    have : x ∉ st.res req := by
      intro h
      have := hl req x h
      omega
    rw [hasg, if_neg this]
  · rw [hres, if_pos rfl]

theorem id_next_length (p : node_id) : (id_next p).length = p.length := by
  cases p <;> rfl

theorem id_child_length (p : node_id) : (id_child p).length = p.length + 1 := rfl

mutual
/-- The function `unassign_req` keeps the bookkeeping consistent. -/
theorem bound_unassign_req : ∀ (n : yaml_node) (st : match_state) (p : node_id),
    bound_once st → level_bound st →
    bound_once (unassign_req st p n) ∧ level_bound (unassign_req st p n) ∧
      frame p.length st (unassign_req st p n) ∧ (unassign_req st p n).res p = []
  | .scalar c, st, p, hb, hl => by
    rw [unassign_req_eq]
    simpa [get_child, unassign_chain] using bound_unassign_one st p hb hl
  | .seq c, st, p, hb, hl => by
    rw [unassign_req_eq]
    obtain ⟨h1, h2, h3, h4⟩ := bound_unassign_one st p hb hl
    obtain ⟨h5, h6, h7⟩ := bound_unassign_chain c (unassign_one st p) (id_child p) h1 h2
    refine ⟨h5, h6, frame_trans h3 (frame_mono (by simp [id_child]) h7), ?_⟩
    simp only [get_child]
    rw [h7.1 p (by simp [id_child]), h4]
  | .map k v, st, p, hb, hl => by
    rw [unassign_req_eq]
    obtain ⟨h1, h2, h3, h4⟩ := bound_unassign_one st p hb hl
    obtain ⟨h5, h6, h7⟩ := bound_unassign_chain v (unassign_one st p) (id_child p) h1 h2
    refine ⟨h5, h6, frame_trans h3 (frame_mono (by simp [id_child]) h7), ?_⟩
    simp only [get_child]
    rw [h7.1 p (by simp [id_child]), h4]
/-- See `bound_unassign_req`. -/
theorem bound_unassign_chain : ∀ (nodes : List yaml_node) (st : match_state) (p : node_id),
    bound_once st → level_bound st →
    bound_once (unassign_chain st p nodes) ∧ level_bound (unassign_chain st p nodes) ∧
      frame p.length st (unassign_chain st p nodes)
  | [], st, p, hb, hl => by
    simpa [unassign_chain] using ⟨hb, hl, frame_refl _ st⟩
  | n :: rest, st, p, hb, hl => by
    obtain ⟨h1, h2, h3, _⟩ := bound_unassign_req n st p hb hl
    obtain ⟨h5, h6, h7⟩ := bound_unassign_chain rest (unassign_req st p n) (id_next p) h1 h2
    rw [unassign_chain]
    rw [id_next_length] at h7
    exact ⟨h5, h6, frame_trans h3 h7⟩
end

theorem first_res_len (cfg : match_cfg) (sl req : node_id) :
    ∀ q ∈ first_res cfg sl req, q.length = sl.length := by
  intro q hq
  cases sl with
  | nil => simp [first_res, yaml_chain, first_res_scan] at hq
  | cons j sp =>
    obtain ⟨_, _, h⟩ := first_res_scan_facts cfg sp (yaml_deref cfg.req req) _ j rfl
    obtain ⟨i, _, e⟩ := h q hq
    rw [e]
    rfl

theorem next_res_len (cfg : match_cfg) (r0 : node_id) :
    ∀ q ∈ next_res cfg r0, q.length = r0.length := by
  intro q hq
  cases r0 with
  | nil => simp [next_res, yaml_chain] at hq
  | cons j sp =>
    simp only [next_res] at hq
    cases h : yaml_chain cfg.res (j :: sp) with
    | nil => simp [h] at hq
    | cons n rest =>
      rw [h] at hq
      obtain ⟨i, _, e⟩ := compat_chain_ge sp rest n (j + 1) q hq
      rw [e]
      rfl

theorem prev_assigned_some (st : match_state) (parent : node_id) (first : Nat) :
    ∀ (i : Nat) (r : node_id), prev_assigned st parent first i = some r →
      ∃ j, j < i ∧ r = j :: parent ∧ st.res r ≠ [] := by
  intro i
  induction i with
  | zero => intro r h; simp [prev_assigned] at h
  | succ i ih =>
    intro r h
    rw [prev_assigned] at h
    split at h
    · exact absurd h (by simp)
    · split at h
      · rename_i hne
        simp only [Option.some.injEq] at h
        subst h
        refine ⟨i, by omega, rfl, ?_⟩
        intro e
        rw [e] at hne
        simp at hne
      · obtain ⟨j, hj, e1, e2⟩ := ih r h
        exact ⟨j, by omega, e1, e2⟩

/-- The search for a free resource keeps the bookkeeping consistent, and the
resource it stops at is still free. -/
theorem bound_find_free (one : match_fn_t) (hk : keeps_bound one) (req : node_id) :
    ∀ (chain : List node_id) (st : match_state) (l : List node_id) (st1 : match_state),
    (∀ q ∈ chain, q.length = req.length) → bound_once st → level_bound st →
    find_free one req chain st = some (l, st1) →
    bound_once st1 ∧ level_bound st1 ∧ frame (req.length + 1) st st1 ∧
      (∀ q ∈ l, q ∈ chain) ∧ (∀ r rest, l = r :: rest → st1.assigned r = false) := by
  intro chain
  induction chain with
  | nil =>
    intro st l st1 _ hb hl h
    simp only [find_free, Option.some.injEq, Prod.mk.injEq] at h
    obtain ⟨rfl, rfl⟩ := h
    exact ⟨hb, hl, frame_refl _ _, fun q hq => hq, fun r rest e => absurd e (by simp)⟩
  | cons q rest ih =>
    intro st l st1 hlen hb hl h
    have hlen1 : ∀ x ∈ rest, x.length = req.length := fun x hx =>
      hlen x (List.mem_cons_of_mem _ hx)
    rw [find_free] at h
    split at h
    · obtain ⟨a, b, c, d, e⟩ := ih st l st1 hlen1 hb hl h
      exact ⟨a, b, c, fun x hx => List.mem_cons_of_mem _ (d x hx), e⟩
    · rename_i ha
      have ha1 : st.assigned q = false := by simpa using ha
      cases ho : one st (id_child req) (id_child q) with
      | none => rw [ho] at h; exact absurd h (by simp)
      | some r =>
        obtain ⟨b, st2⟩ := r
        rw [ho] at h
        obtain ⟨h1, h2, h3⟩ := hk st (id_child req) (id_child q) b st2
          (by simp [id_child, hlen q (List.mem_cons_self _ _)]) hb hl ho
        rw [id_child_length] at h3
        cases b with
        | true =>
          simp only [Option.some.injEq, Prod.mk.injEq] at h
          obtain ⟨rfl, rfl⟩ := h
          refine ⟨h1, h2, h3, fun x hx => hx, ?_⟩
          intro r rest2 e
          simp only [List.cons.injEq] at e
          rw [← e.1, h3.2 q (by rw [hlen q (List.mem_cons_self _ _)]; omega)]
          exact ha1
        | false =>
          simp only at h
          obtain ⟨a, b, c, d, e⟩ := ih st2 l st1 hlen1 h1 h2 h
          exact ⟨a, b, frame_trans h3 c, fun x hx => List.mem_cons_of_mem _ (d x hx), e⟩

/-- The first loop of `match_objects` keeps the bookkeeping consistent. -/
theorem bound_loop (one : match_fn_t) (hk : keeps_bound one) (cfg : match_cfg)
    (ql sl : node_id) :
    ∀ (fuel : Nat) (req : node_id) (res : List node_id) (st : match_state) (b : Bool)
      (st1 : match_state),
    req.length = sl.length → (∀ q ∈ res, q.length = sl.length) → bound_once st →
    level_bound st → match_objects_loop one cfg ql sl fuel req res st = some (b, st1) →
    bound_once st1 ∧ level_bound st1 ∧ frame sl.length st st1 := by
  intro fuel
  induction fuel with
  | zero => intro req res st b st1 _ _ _ _ h; simp [match_objects_loop] at h
  | succ f ih =>
    intro req res st b st1 hreq hres hb hl h
    rw [match_objects_loop] at h
    cases hd : yaml_deref cfg.req req with
    | none =>
      simp only [hd, Option.some.injEq, Prod.mk.injEq] at h
      obtain ⟨_, rfl⟩ := h
      exact ⟨hb, hl, frame_refl _ _⟩
    | some rn =>
      have hne : req ≠ [] := by
        intro e
        rw [e] at hd
        simp [yaml_deref, yaml_chain] at hd
      have hnext : (id_next req).length = sl.length := by rw [id_next_length, hreq]
      simp only [hd] at h
      split at h
      · exact ih _ _ _ _ _ hnext (first_res_len cfg sl _) hb hl h
      · cases hf : find_free one req res st with
        | none => simp [hf] at h
        | some x =>
          obtain ⟨l, st2⟩ := x
          obtain ⟨h1, h2, h3, h4, h5⟩ := bound_find_free one hk req res st l st2
            (fun q hq => by rw [hres q hq, hreq]) hb hl hf
          have h3a : frame sl.length st st2 := frame_mono (by omega) h3
          cases l with
          | cons r l2 =>
            simp only [hf] at h
            have hr : r.length = req.length := by
              rw [hres r (h4 r (List.mem_cons_self _ _)), hreq]
            obtain ⟨a1, a2, a3⟩ := bound_assign st2 req r h1 h2 (h5 r l2 rfl) hr
            obtain ⟨b1, b2, b3⟩ := bound_inc_matched (assign_req st2 req r) req a1 a2 sl.length
            rw [hreq] at a3
            obtain ⟨c1, c2, c3⟩ := ih _ _ _ _ _ hnext (first_res_len cfg sl _) b1 b2 h
            exact ⟨c1, c2, frame_trans h3a (frame_trans a3 (frame_trans b3 c3))⟩
          | nil =>
            simp only [hf] at h
            cases hp : prev_assigned st2 req.tail (ql.headD 0) (req.headD 0) with
            | none =>
              simp only [hp, Option.some.injEq, Prod.mk.injEq] at h
              obtain ⟨_, rfl⟩ := h
              exact ⟨h1, h2, h3a⟩
            | some req1 =>
              simp only [hp] at h
              obtain ⟨j, _, e1, _⟩ := prev_assigned_some st2 req.tail _ _ req1 hp
              have hreq1 : req1.length = sl.length := by
                rw [e1, ← hreq]
                cases req with
                | nil => exact absurd rfl hne
                | cons a t => rfl
              cases hr : st2.res req1 with
              | nil => simp [hr] at h
              | cons r0 t =>
                cases hd1 : yaml_deref cfg.req req1 with
                | none => simp [hr, hd1] at h
                | some n1 =>
                  simp only [hr, hd1] at h
                  have hr0 : r0.length = req1.length := h2 req1 r0 (by rw [hr]; simp)
                  obtain ⟨a1, a2, a3, _⟩ := bound_unassign_req n1 st2 req1 h1 h2
                  rw [hreq1] at a3
                  obtain ⟨c1, c2, c3⟩ := ih _ _ _ _ _ hreq1
                    (fun q hq => by rw [next_res_len cfg r0 q hq, hr0, hreq1]) a1 a2 h
                  exact ⟨c1, c2, frame_trans h3a (frame_trans a3 c3)⟩

/-- The inner loop of the second loop of `match_objects` keeps the bookkeeping
consistent. -/
theorem bound_assign_wildcard (one : match_fn_t) (hk : keeps_bound one) (req : node_id) :
    ∀ (chain : List node_id) (st st1 : match_state),
    (∀ q ∈ chain, q.length = req.length) → bound_once st → level_bound st →
    assign_wildcard one req chain st = some st1 →
    bound_once st1 ∧ level_bound st1 ∧ frame req.length st st1 := by
  intro chain
  induction chain with
  | nil =>
    intro st st1 _ hb hl h
    simp only [assign_wildcard, Option.some.injEq] at h
    subst h
    exact ⟨hb, hl, frame_refl _ _⟩
  | cons q rest ih =>
    intro st st1 hlen hb hl h
    have hlen1 : ∀ x ∈ rest, x.length = req.length := fun x hx =>
      hlen x (List.mem_cons_of_mem _ hx)
    have hq : q.length = req.length := hlen q (List.mem_cons_self _ _)
    rw [assign_wildcard] at h
    split at h
    · exact ih st st1 hlen1 hb hl h
    · rename_i ha
      have ha1 : st.assigned q = false := by simpa using ha
      cases ho : one st (id_child req) (id_child q) with
      | none => rw [ho] at h; exact absurd h (by simp)
      | some r =>
        obtain ⟨b, st2⟩ := r
        rw [ho] at h
        obtain ⟨h1, h2, h3⟩ := hk st (id_child req) (id_child q) b st2
          (by simp [id_child, hq]) hb hl ho
        rw [id_child_length] at h3
        have h3a : frame req.length st st2 := frame_mono (by omega) h3
        cases b with
        | true =>
          simp only at h
          have ha2 : st2.assigned q = false := by
            rw [h3.2 q (by omega)]
            exact ha1
          obtain ⟨a1, a2, a3⟩ := bound_assign st2 req q h1 h2 ha2 hq
          obtain ⟨b1, b2, b3⟩ := bound_inc_matched (assign_req st2 req q) req a1 a2 req.length
          obtain ⟨c1, c2, c3⟩ := ih _ st1 hlen1 b1 b2 h
          exact ⟨c1, c2, frame_trans h3a (frame_trans a3 (frame_trans b3 c3))⟩
        | false =>
          simp only at h
          obtain ⟨c1, c2, c3⟩ := ih _ st1 hlen1 h1 h2 h
          exact ⟨c1, c2, frame_trans h3a c3⟩

/-- The second loop of `match_objects` keeps the bookkeeping consistent. -/
theorem bound_wildcards (one : match_fn_t) (hk : keeps_bound one) (cfg : match_cfg)
    (sl : node_id) :
    ∀ (nodes : List yaml_node) (req : node_id) (st st1 : match_state),
    req.length = sl.length → bound_once st → level_bound st →
    match_objects_wildcards one cfg sl req nodes st = some st1 →
    bound_once st1 ∧ level_bound st1 ∧ frame sl.length st st1 := by
  intro nodes
  induction nodes with
  | nil =>
    intro req st st1 _ hb hl h
    simp only [match_objects_wildcards, Option.some.injEq] at h
    subst h
    exact ⟨hb, hl, frame_refl _ _⟩
  | cons rn rest ih =>
    intro req st st1 hreq hb hl h
    have hnext : (id_next req).length = sl.length := by rw [id_next_length, hreq]
    rw [match_objects_wildcards] at h
    split at h
    · exact ih _ _ _ hnext hb hl h
    · cases hw : assign_wildcard one req (first_res cfg sl req) st with
      | none => simp [hw] at h
      | some st2 =>
        simp only [hw] at h
        obtain ⟨a1, a2, a3⟩ := bound_assign_wildcard one hk req _ st st2
          (fun q hq => by rw [first_res_len cfg sl req q hq, hreq]) hb hl hw
        rw [hreq] at a3
        obtain ⟨c1, c2, c3⟩ := ih _ _ _ hnext a1 a2 h
        exact ⟨c1, c2, frame_trans a3 c3⟩

/-- The function `match_objects` keeps the bookkeeping consistent when the
function for its nested calls does. -/
theorem bound_match_objects_with (one : match_fn_t) (hk : keeps_bound one) (cfg : match_cfg)
    (fuel : Nat) : keeps_bound (match_objects_with one cfg fuel) := by
  intro st req res b st1 hlen hb hl h
  simp only [match_objects_with] at h
  cases hloop : match_objects_loop one cfg req res fuel req (first_res cfg res req) st with
  | none => simp [hloop] at h
  | some r =>
    obtain ⟨b1, st2⟩ := r
    obtain ⟨a1, a2, a3⟩ := bound_loop one hk cfg req res fuel req _ st b1 st2 hlen
      (first_res_len cfg res req) hb hl hloop
    rw [← hlen] at a3
    cases b1 with
    | false =>
      simp only [hloop, Option.some.injEq, Prod.mk.injEq] at h
      obtain ⟨_, rfl⟩ := h
      exact ⟨a1, a2, a3⟩
    | true =>
      simp only [hloop] at h
      cases hw : match_objects_wildcards one cfg res req (yaml_chain cfg.req req) st2 with
      | none => simp [hw] at h
      | some st3 =>
        simp only [hw, Option.some.injEq, Prod.mk.injEq] at h
        obtain ⟨_, rfl⟩ := h
        obtain ⟨c1, c2, c3⟩ := bound_wildcards one hk cfg res _ req st2 st3 hlen a1 a2 hw
        rw [← hlen] at c3
        exact ⟨c1, c2, frame_trans a3 c3⟩

theorem bound_seq_find (one : match_fn_t) (hk : keeps_bound one) (req_node : node_id) :
    ∀ (nodes : List yaml_node) (res_node : node_id) (st : match_state) (b : Bool)
      (st1 : match_state),
    res_node.length = req_node.length → bound_once st → level_bound st →
    match_seq_find one req_node res_node nodes st = some (b, st1) →
    bound_once st1 ∧ level_bound st1 ∧ frame req_node.length st st1 := by
  intro nodes
  induction nodes with
  | nil =>
    intro res_node st b st1 _ hb hl h
    simp only [match_seq_find, Option.some.injEq, Prod.mk.injEq] at h
    obtain ⟨_, rfl⟩ := h
    exact ⟨hb, hl, frame_refl _ _⟩
  | cons n rest ih =>
    intro res_node st b st1 hlen hb hl h
    cases n with
    | scalar c => simp [match_seq_find] at h
    | map k v => simp [match_seq_find] at h
    | seq c =>
      rw [match_seq_find] at h
      cases ho : one st (id_child req_node) (id_child res_node) with
      | none => rw [ho] at h; exact absurd h (by simp)
      | some r =>
        obtain ⟨b2, st2⟩ := r
        rw [ho] at h
        obtain ⟨h1, h2, h3⟩ := hk st (id_child req_node) (id_child res_node) b2 st2
          (by simp [id_child, hlen]) hb hl ho
        rw [id_child_length] at h3
        have h3a : frame req_node.length st st2 := frame_mono (by omega) h3
        cases b2 with
        | true =>
          simp only [Option.some.injEq, Prod.mk.injEq] at h
          obtain ⟨_, rfl⟩ := h
          exact ⟨h1, h2, h3a⟩
        | false =>
          simp only at h
          obtain ⟨c1, c2, c3⟩ := ih (id_next res_node) st2 b st1
            (by rw [id_next_length, hlen]) h1 h2 h
          exact ⟨c1, c2, frame_trans h3a c3⟩

theorem bound_seq_loop (one : match_fn_t) (hk : keeps_bound one) (cfg : match_cfg)
    (res : node_id) :
    ∀ (nodes : List yaml_node) (req_node : node_id) (st : match_state) (b : Bool)
      (st1 : match_state),
    req_node.length = res.length → bound_once st → level_bound st →
    match_seq_loop one cfg res req_node nodes st = some (b, st1) →
    bound_once st1 ∧ level_bound st1 ∧ frame res.length st st1 := by
  intro nodes
  induction nodes with
  | nil =>
    intro req_node st b st1 _ hb hl h
    simp only [match_seq_loop, Option.some.injEq, Prod.mk.injEq] at h
    obtain ⟨_, rfl⟩ := h
    exact ⟨hb, hl, frame_refl _ _⟩
  | cons n rest ih =>
    intro req_node st b st1 hlen hb hl h
    cases n with
    | scalar c => simp [match_seq_loop] at h
    | map k v => simp [match_seq_loop] at h
    | seq c =>
      rw [match_seq_loop] at h
      cases hf : match_seq_find one req_node res (yaml_chain cfg.res res) st with
      | none => rw [hf] at h; exact absurd h (by simp)
      | some r =>
        obtain ⟨b2, st2⟩ := r
        rw [hf] at h
        obtain ⟨h1, h2, h3⟩ := bound_seq_find one hk req_node _ res st b2 st2 hlen.symm hb hl hf
        rw [hlen] at h3
        cases b2 with
        | false =>
          simp only [Option.some.injEq, Prod.mk.injEq] at h
          obtain ⟨_, rfl⟩ := h
          exact ⟨h1, h2, h3⟩
        | true =>
          simp only at h
          obtain ⟨b1, b2, b3⟩ := bound_inc_matched st2 req_node h1 h2 res.length
          obtain ⟨c1, c2, c3⟩ := ih (id_next req_node) _ b st1
            (by rw [id_next_length, hlen]) b1 b2 h
          exact ⟨c1, c2, frame_trans h3 (frame_trans b3 c3)⟩

theorem bound_seq_attr (one : match_fn_t) (hk : keeps_bound one) (cfg : match_cfg) :
    keeps_bound (match_seq_attr_with one cfg) := by
  intro st req res b st1 hlen hb hl h
  obtain ⟨a, b, c⟩ := bound_seq_loop one hk cfg res _ req st _ st1 hlen hb hl h
  rw [← hlen] at c
  exact ⟨a, b, c⟩

theorem bound_lift_scalar
    (f : List attr_var → node_id → Option yaml_node → Option yaml_node → Bool × List attr_var)
    (cfg : match_cfg) : keeps_bound (lift_scalar_fn f cfg) := by
  intro st req res b st1 _ hb hl h
  simp only [lift_scalar_fn, Option.some.injEq, Prod.mk.injEq] at h
  obtain ⟨_, rfl⟩ := h
  exact bound_same st _ rfl rfl hb hl _

theorem bound_call (one : match_fn_t) (hk : keeps_bound one) (cfg : match_cfg) (fuel : Nat) :
    ∀ fn : match_fn_id, keeps_bound (call_match_fn one cfg fuel fn) := by
  intro fn
  cases fn with
  | match_objects => exact bound_match_objects_with one hk cfg fuel
  | match_number => exact bound_lift_scalar _ cfg
  | match_version => exact bound_lift_scalar _ cfg
  | match_scalar_attr => exact bound_lift_scalar _ cfg
  | match_seq_attr => exact bound_seq_attr one hk cfg
  | no_match =>
    intro st req res b st1 _ hb hl h
    simp only [call_match_fn, Option.some.injEq, Prod.mk.injEq] at h
    obtain ⟨_, rfl⟩ := h
    exact ⟨hb, hl, frame_refl _ _⟩
  | match_by_type =>
    intro st req res b st1 hlen hb hl h
    simp only [call_match_fn] at h
    split at h
    · exact bound_lift_scalar _ cfg st req res b st1 hlen hb hl h
    · exact bound_seq_attr one hk cfg st req res b st1 hlen hb hl h
    · exact bound_match_objects_with one hk cfg fuel st req res b st1 hlen hb hl h
    · simp only [Option.some.injEq, Prod.mk.injEq] at h
      obtain ⟨_, rfl⟩ := h
      exact ⟨hb, hl, frame_refl _ _⟩

/-- The function `match_one` keeps the bookkeeping consistent. -/
theorem bound_match_one (cfg : match_cfg) : ∀ fuel : Nat, keeps_bound (match_one fuel cfg) := by
  intro fuel
  induction fuel with
  | zero => intro st req res b st1 _ _ _ h; simp [match_one] at h
  | succ f ih =>
    intro st req res b st1 hlen hb hl h
    simp only [match_one] at h
    cases hd : yaml_deref cfg.req req with
    | none =>
      simp only [hd, Option.some.injEq, Prod.mk.injEq] at h
      obtain ⟨_, rfl⟩ := h
      exact ⟨hb, hl, frame_refl _ _⟩
    | some rn =>
      simp only [hd] at h
      cases hd2 : yaml_deref cfg.res res with
      | none =>
        simp only [hd2, Option.some.injEq, Prod.mk.injEq] at h
        obtain ⟨_, rfl⟩ := h
        exact ⟨hb, hl, frame_refl _ _⟩
      | some sn =>
        simp only [hd2] at h
        generalize hfn : (get_path_type cfg.path_list (md_path cfg.req req) rn.type).fn = fn at h
        cases hc : call_match_fn (match_one f cfg) cfg f fn st req res with
        | none => simp [hc] at h
        | some r =>
          obtain ⟨b2, st2⟩ := r
          obtain ⟨h1, h2, h3⟩ := bound_call (match_one f cfg) ih cfg f fn st req res b2 st2
            hlen hb hl hc
          cases b2 with
          | true =>
            simp only [hc, Option.some.injEq, Prod.mk.injEq] at h
            obtain ⟨_, rfl⟩ := h
            obtain ⟨b1, b2, b3⟩ := bound_inc_matched st2 req h1 h2 req.length
            exact ⟨b1, b2, frame_trans h3 b3⟩
          | false =>
            simp only [hc, Option.some.injEq, Prod.mk.injEq] at h
            obtain ⟨_, rfl⟩ := h
            exact ⟨h1, h2, h3⟩

theorem bound_match_objects (cfg : match_cfg) (fuel : Nat) :
    keeps_bound (match_objects fuel cfg) :=
  bound_match_objects_with _ (bound_match_one cfg fuel) cfg fuel

/-- C37: in every state that `match_objects` and `match_one` return, and so
at every point of the matching where one of their calls has returned, no
requirement holds a resource twice, no resource is held by two requirements,
and the flag `assigned` of a resource is set exactly when one requirement
holds it.  This holds for the call of `match_req` on the state that `alloc_md`
sets up and for every call on a state with these properties in which bound
resources lie as deep as their requirements; the state is shown with
`none` standing for no result. -/
theorem C37_bound_once (cfg : match_cfg) (fuel : Nat) (st : match_state) (req res : node_id)
    (hlen : req.length = res.length) (hb : bound_once st) (hl : level_bound st) :
    (match match_objects fuel cfg match_state.init [0] [0] with
      | some r => bound_once r.2 ∧ ∀ q, r.2.assigned q = true ↔ ∃! p, q ∈ r.2.res p
      | none => True) ∧
    (match match_objects fuel cfg st req res with
      | some r => bound_once r.2 ∧ level_bound r.2 ∧ frame req.length st r.2
      | none => True) ∧
    (match match_one fuel cfg st req res with
      | some r => bound_once r.2 ∧ level_bound r.2 ∧ frame req.length st r.2
      | none => True) := by
  refine ⟨?_, ?_, ?_⟩
  · cases h : match_objects fuel cfg match_state.init [0] [0] with
    | none => trivial
    | some r =>
      obtain ⟨b, st1⟩ := r
      obtain ⟨h1, _, _⟩ := bound_match_objects cfg fuel match_state.init [0] [0] b st1 rfl
        bound_once_init.1 bound_once_init.2 h
      refine ⟨h1, fun q => ?_⟩
      rw [h1.2.2 q]
      constructor
      · rintro ⟨p, hp⟩
        exact ⟨p, hp, fun p2 hp2 => h1.2.1 p2 p q hp2 hp⟩
      · rintro ⟨p, hp, _⟩
        exact ⟨p, hp⟩
  · cases h : match_objects fuel cfg st req res with
    | none => trivial
    | some r => exact bound_match_objects cfg fuel st req res r.1 r.2 hlen hb hl h
  · cases h : match_one fuel cfg st req res with
    | none => trivial
    | some r => exact bound_match_one cfg fuel st req res r.1 r.2 hlen hb hl h

/-- Witness of C37: the two disks of `bare_cfg`, for which `match_objects`
returns with both requirements bound. -/
theorem C37_bound_once_witness :
    ((match match_objects 5 bare_cfg match_state.init [0] [0] with
      | some r => bound_once r.2 ∧ ∀ q, r.2.assigned q = true ↔ ∃! p, q ∈ r.2.res p
      | none => True) ∧
    (match match_objects 5 bare_cfg match_state.init [0] [0] with
      | some r => bound_once r.2 ∧ level_bound r.2 ∧ frame [0].length match_state.init r.2
      | none => True) ∧
    (match match_one 5 bare_cfg match_state.init [0] [0] with
      | some r => bound_once r.2 ∧ level_bound r.2 ∧ frame [0].length match_state.init r.2
      | none => True)) ∧
    (match_objects 5 bare_cfg match_state.init [0] [0]).map
      (fun r => (r.1, r.2.res [0], r.2.res [1], r.2.assigned [0], r.2.assigned [1])) =
      some (true, [[0]], [[1]], true, true) :=
  ⟨C37_bound_once bare_cfg 5 match_state.init [0] [0] rfl bound_once_init.1 bound_once_init.2,
    by decide!⟩

/-! ## Termination of the matching -/

theorem word_plain (w : Str) (h : word_ok w = true) : plain_body w := by
  intro d hd
  have := name_char_facts d ((word_ok_facts w h).2 d hd)
  exact ⟨this.2.1, this.2.2.2.1, this.2.2.2.2.1, this.2.2.2.2.2.1⟩

theorem plain_append (a b : Str) (ha : plain_body a) (hb : plain_body b) : plain_body (a ++ b) := by
  intro d hd
  rcases List.mem_append.mp hd with h | h
  · exact ha d h
  · exact hb d h

theorem plain_cons (c : Char) (b : Str) (hc : c ≠ '\n' ∧ c ≠ '#' ∧ c ≠ dquote ∧ c ≠ squote)
    (hb : plain_body b) : plain_body (c :: b) := by
  intro d hd
  rcases List.mem_cons.mp hd with h | h
  · rw [h]; exact hc
  · exact hb d h

theorem plain_indent (ind : Nat) : plain_body (indent_str ind) := by
  intro d hd
  have : d = ' ' := List.eq_of_mem_replicate hd
  rw [this]
  decide

theorem plain_suffix (suffix : Str) (h : suffix_ok suffix) : plain_body suffix := by
  rcases h with rfl | ⟨w, hw, rfl⟩
  · intro d hd; simp at hd
  · exact plain_cons _ _ (by decide) (word_plain w hw)

theorem map_line_plain (ind : Nat) (key suffix : Str) (hk : word_ok key = true)
    (hs : suffix_ok suffix) : plain_body (map_line ind key suffix) :=
  plain_append _ _ (plain_indent ind)
    (plain_append _ _ (word_plain key hk) (plain_cons _ _ (by decide) (plain_suffix suffix hs)))

theorem item_line_plain (ind : Nat) (w : Str) (hw : word_ok w = true) :
    plain_body (item_line ind w) :=
  plain_append _ _ (plain_indent ind)
    (plain_cons _ _ (by decide) (plain_cons _ _ (by decide) (word_plain w hw)))

theorem getline_plain (b rest : Str) (h : plain_body b) :
    getline (b ++ '\n' :: rest) = some (b ++ ['\n'], rest) := by
  have hnl : '\n' ∉ b := fun hm => (h _ hm).1 rfl
  have hs := strchr_found '\n' b rest hnl
  cases hl : b ++ '\n' :: rest with
  | nil => simp at hl
  | cons c r =>
    rw [getline, ← hl, hs]
    simp

theorem take_while_plain (b : Str) (h : plain_body b) :
    b.takeWhile (fun c => c != '\n') = b := by
  rw [List.takeWhile_eq_self_iff]
  intro d hd
  simpa using (h d hd).1

theorem clean_body (b : Str) (h : plain_body b) : clean_line b = b := by
  have hcm : strchr_unquoted b '#' = none := by
    rw [strchr_unquoted, scan_no_quote _ _ (fun d hd => ⟨(h d hd).2.2.1, (h d hd).2.2.2⟩)]
    exact strchr_none _ _ (fun hm => (h _ hm).2.1 rfl)
  simp only [clean_line, take_while_plain b h, hcm]

theorem clean_body_nl (b : Str) (h : plain_body b) : clean_line (b ++ ['\n']) = b := by
  have htw : (b ++ ['\n']).takeWhile (fun c => c != '\n') = b := by
    rw [List.takeWhile_append_of_pos]
    · simp
    · intro d hd
      simpa using (h d hd).1
  have hcm : strchr_unquoted b '#' = none := by
    rw [strchr_unquoted, scan_no_quote _ _ (fun d hd => ⟨(h d hd).2.2.1, (h d hd).2.2.2⟩)]
    exact strchr_none _ _ (fun hm => (h _ hm).2.1 rfl)
  simp only [clean_line, htw, hcm]

theorem line_action_clean (l b : Str) (indent : Nat) (prev : prev_t) (hb : plain_body b)
    (h : clean_line l = b) : line_action_of l indent prev = line_action_of b indent prev := by
  unfold line_action_of
  rw [h, clean_body b hb]

theorem split_line (b b1 rest rest1 : Str) (hb : plain_body b) (hb1 : plain_body b1)
    (h : b ++ '\n' :: rest = b1 ++ '\n' :: rest1) : b = b1 ∧ rest = rest1 := by
  have h1 := getline_plain b rest hb
  have h2 := getline_plain b1 rest1 hb1
  rw [h, h2] at h1
  simp only [Option.some.injEq, Prod.mk.injEq] at h1
  exact ⟨(List.append_cancel_right h1.1).symm, h1.2.symm⟩

/-- Reading the next line, from the stream or the line that was put back. -/
theorem read_line (pos : filepos) (b rest : Str) (hb : plain_body b)
    (h : starts pos (b ++ '\n' :: rest)) :
    ∃ l pos0, pos_getline pos = some (l, pos0) ∧ clean_line l = b ∧ fresh pos0 rest := by
  rcases h with ⟨he, hf, hl, hd⟩ | ⟨he, hf, h⟩
  · refine ⟨b ++ ['\n'], { pos with fd := rest }, ?_, clean_body_nl b hb, he, hf, hl, rfl⟩
    simp only [pos_getline, he, hf, hl, hd, getline_plain b rest hb, Bool.or_self,
      Bool.false_eq_true, if_false]
  · rcases h with ⟨e, _, _⟩ | ⟨b1, rest1, hb1, e, hl, hd⟩
    · simp at e
    · obtain ⟨e1, e2⟩ := split_line b b1 rest rest1 hb hb1 e
      subst e1 e2
      refine ⟨b, { pos with line := none }, ?_, clean_body b hb, he, hf, rfl, hd⟩
      simp only [pos_getline, he, hf, hl, Bool.or_self, Bool.false_eq_true, if_false]

theorem count_indent_str (ind : Nat) (c : Char) (r : Str) (hc : c ≠ ' ') :
    count_indent (indent_str ind ++ c :: r) = ind := by
  induction ind with
  | zero =>
    simp only [indent_str, List.replicate_zero, List.nil_append]
    unfold count_indent
    split
    · rename_i heq
      simp only [List.cons.injEq] at heq
      exact absurd heq.1 hc
    · rfl
  | succ n ih =>
    simp only [indent_str, List.replicate_succ, List.cons_append] at ih ⊢
    rw [count_indent, ih]

theorem drop_indent_str (ind : Nat) (x : Str) : (indent_str ind ++ x).drop ind = x := by
  induction ind with
  | zero => rfl
  | succ n ih =>
    simp only [indent_str, List.replicate_succ, List.cons_append, List.drop_succ_cons] at ih ⊢
    exact ih

theorem starts_with_head (line : Str) (c x y z : Char) (h : line.head? = some c) (hc : c ≠ x) :
    misc_starts_with line [x, y, z] = false := by
  cases line with
  | nil => simp at h
  | cons a r =>
    simp only [List.head?_cons, Option.some.injEq] at h
    subst h
    simp [misc_starts_with, hc]

theorem head_indent_str (ind : Nat) (c : Char) (r : Str) :
    (indent_str ind ++ c :: r).head? = some (if ind = 0 then c else ' ') := by
  cases ind with
  | zero => rfl
  | succ n => simp [indent_str, List.replicate_succ]

theorem strip_word (s : Str) (h : word_ok s = true) : misc_strip_space s = s := by
  obtain ⟨hn, hc⟩ := word_ok_facts s h
  rcases List.eq_nil_or_concat s with e | ⟨l, c, e⟩
  · exact absurd e hn
  · rw [e]
    have hc2 : name_char c = true := hc c (by rw [e]; simp)
    have := misc_strip_space_snoc l c (name_char_facts c hc2).1
    simpa using this

theorem find_map_line (key suffix : Str) (hk : word_ok key = true) (hs : suffix_ok suffix) :
    find_map (key ++ ':' :: suffix) = some (key, ':' :: suffix) := by
  have hpl : plain_body (key ++ ':' :: suffix) :=
    plain_append _ _ (word_plain key hk) (plain_cons _ _ (by decide) (plain_suffix suffix hs))
  have hcolon : ':' ∉ key := fun hm =>
    (name_char_facts _ ((word_ok_facts key hk).2 _ hm)).2.2.1 rfl
  have hsc : strchr_unquoted (key ++ ':' :: suffix) ':' = some (key, ':' :: suffix) := by
    rw [strchr_unquoted, scan_no_quote _ _ (fun d hd => ⟨(hpl d hd).2.2.1, (hpl d hd).2.2.2⟩)]
    exact strchr_found ':' key suffix hcolon
  rw [find_map, hsc]
  rcases hs with rfl | ⟨w, _, rfl⟩
  · simp [find_map_next]
  · simp [find_map_next, isspace]

/-- What one round of the loop of `_parse` decides for the line of a
mapping. -/
theorem action_map (l : Str) (ind bi : Nat) (key suffix : Str) (prev : prev_t)
    (hk : word_ok key = true) (hs : suffix_ok suffix)
    (hl : clean_line l = map_line ind key suffix) :
    line_action_of l bi prev =
      if ind < bi then .block_end (map_line ind key suffix)
      else if prev_differs prev .yaml_map then .error
      else .map ind key suffix := by
  rw [line_action_clean l _ bi prev (map_line_plain ind key suffix hk hs) hl]
  obtain ⟨hkn, hkc⟩ := word_ok_facts key hk
  obtain ⟨k0, kr, rfl⟩ : ∃ k0 kr, key = k0 :: kr := by
    cases key with
    | nil => exact absurd rfl hkn
    | cons a b => exact ⟨a, b, rfl⟩
  have hk0 := name_char_facts k0 (hkc k0 (List.mem_cons_self _ _))
  have hcl := clean_body _ (map_line_plain ind (k0 :: kr) suffix hk hs)
  have hline : map_line ind (k0 :: kr) suffix = indent_str ind ++ k0 :: (kr ++ ':' :: suffix) := rfl
  have hhead := head_indent_str ind k0 (kr ++ ':' :: suffix)
  have hne1 : (if ind = 0 then k0 else ' ') ≠ '-' := by
    split
    · exact hk0.2.2.2.2.2.2.1
    · decide
  have hne2 : (if ind = 0 then k0 else ' ') ≠ '.' := by
    split
    · exact hk0.2.2.2.2.2.2.2.1
    · decide
  have hs1 := starts_with_head _ _ '-' '-' '-' hhead hne1
  have hs2 := starts_with_head _ _ '.' '.' '.' hhead hne2
  have hci := count_indent_str ind k0 (kr ++ ':' :: suffix) hk0.2.2.2.2.2.2.2.2.1
  have hdr := drop_indent_str ind (k0 :: (kr ++ ':' :: suffix))
  have hd1 : (k0 == '-') = false := by rw [beq_eq_false_iff_ne]; exact hk0.2.2.2.2.2.2.1
  have hd3 : (k0 == '\t') = false := by rw [beq_eq_false_iff_ne]; exact hk0.2.2.2.2.2.2.2.2.2
  have hfm : find_map (k0 :: (kr ++ ':' :: suffix)) = some (k0 :: kr, ':' :: suffix) :=
    find_map_line (k0 :: kr) suffix hk hs
  have hst := strip_word (k0 :: kr) hk
  unfold line_action_of
  rw [hcl, hline]
  simp only [hs1, hs2, Bool.false_eq_true, if_false, hci, hdr, hd1, hd3, Bool.false_and, hfm, hst,
    List.drop_succ_cons, List.drop_zero]

/-- What one round of the loop of `_parse` decides for the line of a
sequence element. -/
theorem action_item (l : Str) (ind bi : Nat) (w : Str) (prev : prev_t)
    (hw : word_ok w = true) (hi : 0 < ind) (hbi : bi ≤ ind)
    (hp : prev_differs prev .yaml_seq = false)
    (hl : clean_line l = item_line ind w) :
    line_action_of l bi prev = .seq ind w := by
  rw [line_action_clean l _ bi prev (item_line_plain ind w hw) hl]
  have hcl := clean_body _ (item_line_plain ind w hw)
  have hhead := head_indent_str ind '-' (' ' :: w)
  rw [if_neg (by omega)] at hhead
  have hs1 := starts_with_head _ _ '-' '-' '-' hhead (by decide)
  have hs2 := starts_with_head _ _ '.' '.' '.' hhead (by decide)
  have hci := count_indent_str ind '-' (' ' :: w) (by decide)
  have hdr := drop_indent_str ind ('-' :: ' ' :: w)
  have hsp : isspace ' ' = true := by decide
  have hlt : ¬ ind < bi := by omega
  unfold line_action_of
  rw [hcl]
  simp only [item_line, hs1, hs2, Bool.false_eq_true, if_false, hci, hdr, hlt, hp, hsp,
    beq_self_eq_true, Bool.and_true, if_true, List.drop_succ_cons, List.drop_zero]
  simp

theorem parse_implicit_empty (rec : filepos → Nat → List yaml_node × filepos) (pos : filepos)
    (indent : Nat) : _parse_implicit rec pos indent [] = rec pos (indent + 1) := by
  simp [_parse_implicit, misc_skip_space, misc_strip_space]

theorem parse_implicit_item (rec : filepos → Nat → List yaml_node × filepos) (pos : filepos)
    (indent : Nat) (s : Str) (h : word_ok s = true) (he : pos.error = false) :
    _parse_implicit rec pos indent s = ([.scalar s], pos) := by
  obtain ⟨hn, hc⟩ := word_ok_facts s h
  have hsk : misc_skip_space s = s := by
    cases s with
    | nil => exact absurd rfl hn
    | cons c r => exact misc_skip_space_cons c r (name_char_facts c (hc c (List.mem_cons_self _ _))).1
  have hem : s.isEmpty = false := by cases s <;> simp at hn ⊢
  simp only [_parse_implicit, hsk, strip_word s h, hem, Bool.false_eq_true, if_false, he,
    unquote_word s h]

theorem write_item (w : Str) (rest : List yaml_node) (ind : Nat) :
    write_chain (.seq [.scalar w] :: rest) ind false
      = item_line ind w ++ '\n' :: write_chain rest ind false := by
  rw [write_chain, write_node]
  simp [item_line, write_chain]

theorem write_map_absent (key : Str) (rest : List yaml_node) (ind : Nat) :
    write_chain (.map key [] :: rest) ind false
      = map_line ind key [] ++ '\n' :: ([] ++ write_chain rest ind false) := by
  rw [write_chain, write_node]
  simp [map_line]

theorem write_map_scalar (key w : Str) (vs rest : List yaml_node) (ind : Nat) :
    write_chain (.map key (.scalar w :: vs) :: rest) ind false
      = map_line ind key (' ' :: w) ++ '\n' :: ([] ++ write_chain rest ind false) := by
  rw [write_chain, write_node]
  simp [map_line]

theorem write_map_seq (key : Str) (c vs rest : List yaml_node) (ind : Nat) :
    write_chain (.map key (.seq c :: vs) :: rest) ind false
      = map_line ind key [] ++ '\n' ::
        (write_chain (.seq c :: vs) (ind + 2) false ++ write_chain rest ind false) := by
  rw [write_chain, write_node]
  · simp [map_line]
  · intro content h; cases h

theorem write_map_map (key k : Str) (v vs rest : List yaml_node) (ind : Nat) :
    write_chain (.map key (.map k v :: vs) :: rest) ind false
      = map_line ind key [] ++ '\n' ::
        (write_chain (.map k v :: vs) (ind + 2) false ++ write_chain rest ind false) := by
  rw [write_chain, write_node]
  · simp [map_line]
  · intro content h; cases h

/-- The values of a mapping of words. -/
theorem word_value_cases (key : Str) (value : List yaml_node)
    (h : word_node (.map key value) = true) :
    word_ok key = true ∧ (value = [] ∨ (∃ w, value = [.scalar w] ∧ word_ok w = true) ∨
      (∃ c vs, value = .seq c :: vs ∧ word_items value = true) ∨
      (∃ k v vs, value = .map k v :: vs ∧ word_chain value = true)) := by
  rw [word_node, Bool.and_eq_true] at h
  refine ⟨h.1, ?_⟩
  have h2 := h.2
  cases value with
  | nil => exact Or.inl rfl
  | cons v vs =>
    right
    cases v with
    | scalar c =>
      left
      cases vs with
      | nil =>
        simp only [word_scalar, word_items, word_chain, word_node, Bool.false_and, Bool.or_false]
          at h2
        exact ⟨c, rfl, h2⟩
      | cons x xs => simp [word_scalar, word_items, word_chain, word_node] at h2
    | seq c =>
      right; left
      simp only [word_scalar, word_chain, word_node, Bool.false_and, Bool.or_false,
        Bool.false_or] at h2
      exact ⟨c, vs, rfl, h2⟩
    | map k v =>
      right; right
      have e : word_items (.map k v :: vs) = false := rfl
      simp only [word_scalar, e, Bool.false_or] at h2
      exact ⟨k, v, vs, rfl, h2⟩

/-- The text of a mapping of words starts with its line. -/
theorem write_word_node (n : yaml_node) (ind : Nat) (h : word_node n = true) :
    ∃ key suffix V, word_ok key = true ∧ suffix_ok suffix ∧ ∀ rest,
      write_chain (n :: rest) ind false
        = map_line ind key suffix ++ '\n' :: (V ++ write_chain rest ind false) := by
  cases n with
  | scalar c => simp [word_node] at h
  | seq c => simp [word_node] at h
  | map key value =>
    obtain ⟨hk, hv⟩ := word_value_cases key value h
    rcases hv with rfl | ⟨w, rfl, hw⟩ | ⟨c, vs, rfl, _⟩ | ⟨k, v, vs, rfl, _⟩
    · exact ⟨key, [], [], hk, Or.inl rfl, fun rest => write_map_absent key rest ind⟩
    · exact ⟨key, ' ' :: w, [], hk, Or.inr ⟨w, hw, rfl⟩,
        fun rest => write_map_scalar key w [] rest ind⟩
    · exact ⟨key, [], _, hk, Or.inl rfl, fun rest => write_map_seq key c vs rest ind⟩
    · exact ⟨key, [], _, hk, Or.inl rfl, fun rest => write_map_map key k v vs rest ind⟩

theorem block_tail_mono (bi bj : Nat) (tail : Str) (h : bi ≤ bj) (ht : block_tail bi tail) :
    block_tail bj tail := by
  rcases ht with e | ⟨ind, key, suffix, rest, h1, h2, h3, h4⟩
  · exact Or.inl e
  · exact Or.inr ⟨ind, key, suffix, rest, by omega, h2, h3, h4⟩

/-- Behind the value of a mapping the text goes on with a line that is not
indented more than the mapping. -/
theorem tail_after (rest : List yaml_node) (ind bi : Nat) (tail : Str)
    (hw : word_chain rest = true) (hbi : bi ≤ ind) (ht : block_tail bi tail) :
    block_tail (ind + 1) (write_chain rest ind false ++ tail) := by
  cases rest with
  | nil =>
    simp only [write_chain, List.nil_append]
    exact block_tail_mono bi _ tail (by omega) ht
  | cons n r =>
    rw [word_chain, Bool.and_eq_true] at hw
    obtain ⟨key, suffix, V, hk, hs, hwr⟩ := write_word_node n ind hw.1
    refine Or.inr ⟨ind, key, suffix, V ++ write_chain r ind false ++ tail, by omega, hk, hs, ?_⟩
    rw [hwr r]
    simp

theorem link_ok (t : yaml_type) (root : List yaml_node) (prev : prev_t) (node : yaml_node)
    (h : linkable t root prev) (hn : node.type = t) :
    parse_link root prev node = (root ++ [node], some (t, true))
    ∧ prev_differs prev t = false ∧ linkable t (root ++ [node]) (some (t, true)) := by
  refine ⟨?_, ?_, Or.inr ⟨by simp, rfl⟩⟩
  · rcases h with ⟨e1, e2⟩ | ⟨e1, e2⟩
    · rw [e1, e2, ← hn]; rfl
    · rw [e2, ← hn]
      cases root with
      | nil => exact absurd rfl e1
      | cons a b => rfl
  · rcases h with ⟨_, e⟩ | ⟨_, e⟩ <;> rw [e] <;> simp [prev_differs]

theorem fresh_lineno (pos : filepos) (T : Str) (n : Nat) (h : fresh pos T) :
    fresh { pos with lineno := n } T := h

theorem parse_step_seq (f : Nat) (pos pos0 : filepos) (l : Str) (bi : Nat)
    (root : List yaml_node) (prev : prev_t) (i : Nat) (s : Str)
    (h1 : pos_getline pos = some (l, pos0)) (h2 : line_action_of l bi prev = .seq i s) :
    _parse (f + 1) pos bi root prev =
      (match _parse_implicit (fun p k => _parse f p k [] none)
          { pos0 with lineno := pos0.lineno + 1 } i s with
        | (content, pos1) =>
          if pos1.error then (root, pos1)
          else _parse f pos1 bi (parse_link root prev (.seq content)).1
            (parse_link root prev (.seq content)).2) := by
  rw [_parse]
  simp only [h1, h2]

theorem parse_step_map (f : Nat) (pos pos0 : filepos) (l : Str) (bi : Nat)
    (root : List yaml_node) (prev : prev_t) (i : Nat) (key s : Str)
    (h1 : pos_getline pos = some (l, pos0)) (h2 : line_action_of l bi prev = .map i key s) :
    _parse (f + 1) pos bi root prev =
      (match _parse_implicit (fun p k => _parse f p k [] none)
          { pos0 with lineno := pos0.lineno + 1 } i s with
        | (value, pos1) =>
          if pos1.error then (root, pos1)
          else _parse f pos1 bi (parse_link root prev (.map key value)).1
            (parse_link root prev (.map key value)).2) := by
  rw [_parse]
  simp only [h1, h2]

theorem parse_step_end (f : Nat) (pos pos0 : filepos) (l : Str) (bi : Nat)
    (root : List yaml_node) (prev : prev_t) (line : Str)
    (h1 : pos_getline pos = some (l, pos0)) (h2 : line_action_of l bi prev = .block_end line) :
    _parse (f + 1) pos bi root prev =
      (root, { pos0 with lineno := pos0.lineno + 1 - 1, line := some line }) := by
  rw [_parse]
  simp only [h1, h2]

/-- The end of a block: the loop of `_parse` puts the line back and
returns. -/
theorem parse_block_end (fuel : Nat) (hf : 0 < fuel) (pos : filepos) (bi : Nat)
    (root : List yaml_node) (prev : prev_t) (tail : Str) (hs : starts pos tail)
    (ht : block_tail bi tail) :
    ∃ pos1, _parse fuel pos bi root prev = (root, pos1) ∧ pushed pos1 tail := by
  obtain ⟨f, rfl⟩ : ∃ f, fuel = f + 1 := ⟨fuel - 1, by omega⟩
  rcases ht with rfl | ⟨ind, key, suffix, rest, hlt, hk, hsu, rfl⟩
  · have hg : pos_getline pos = none := by
      rcases hs with ⟨he, hf, hl, hd⟩ | ⟨he, hf, h⟩
      · simp [pos_getline, he, hf, hl, hd, getline]
      · rcases h with ⟨_, hl, hd⟩ | ⟨b1, rest1, _, e, _, _⟩
        · simp [pos_getline, he, hf, hl, hd, getline]
        · simp at e
    refine ⟨pos, ?_, ?_⟩
    · rw [_parse]
      simp only [hg]
    · rcases hs with ⟨he, hf, hl, hd⟩ | h
      · exact ⟨he, hf, Or.inl ⟨rfl, hl, hd⟩⟩
      · exact h
  · have hb := map_line_plain ind key suffix hk hsu
    obtain ⟨l, pos0, hg, hc, hfr⟩ := read_line pos _ rest hb hs
    have ha := action_map l ind bi key suffix prev hk hsu hc
    rw [if_pos hlt] at ha
    refine ⟨_, parse_step_end f pos pos0 l bi root prev _ hg ha, ?_⟩
    exact ⟨hfr.1, hfr.2.1, Or.inr ⟨_, rest, hb, rfl, rfl, hfr.2.2.2⟩⟩

/-- The loop of `_parse` on the text of a chain of sequence elements. -/
theorem parse_items : ∀ (items : List yaml_node), word_items items = true →
    ∀ (fuel ind bi : Nat) (root : List yaml_node) (prev : prev_t) (pos : filepos) (tail : Str),
    (write_chain items ind false).length < fuel → 0 < ind → bi ≤ ind →
    linkable .yaml_seq root prev → block_tail bi tail →
    starts pos (write_chain items ind false ++ tail) →
    ∃ pos1, _parse fuel pos bi root prev = (root ++ items, pos1) ∧ pushed pos1 tail := by
  intro items
  induction items with
  | nil =>
    intro _ fuel ind bi root prev pos tail hf _ _ _ ht hs
    simp only [write_chain, List.nil_append] at hs
    simpa using parse_block_end fuel (by omega) pos bi root prev tail hs ht
  | cons n rest ih =>
    intro hw fuel ind bi root prev pos tail hf hi hbi hlk ht hs
    obtain ⟨w, rfl, hww, hwr⟩ : ∃ w, n = .seq [.scalar w] ∧ word_ok w = true
        ∧ word_items rest = true := by
      cases n with
      | scalar c => simp [word_items] at hw
      | map k v => simp [word_items] at hw
      | seq c =>
        cases c with
        | nil => simp [word_items] at hw
        | cons x xs =>
          cases x with
          | seq d => simp [word_items] at hw
          | map k v => simp [word_items] at hw
          | scalar w =>
            cases xs with
            | cons y ys => simp [word_items] at hw
            | nil =>
              simp only [word_items, Bool.and_eq_true] at hw
              exact ⟨w, rfl, hw.1, hw.2⟩
    obtain ⟨f, rfl⟩ : ∃ f, fuel = f + 1 := ⟨fuel - 1, by omega⟩
    rw [write_item] at hs hf
    rw [List.append_assoc, List.cons_append] at hs
    have hb := item_line_plain ind w hww
    obtain ⟨l, pos0, hg, hc, hfr⟩ := read_line pos _ _ hb hs
    obtain ⟨hlink, hpd, hlk1⟩ := link_ok .yaml_seq root prev (.seq [.scalar w]) hlk rfl
    have ha := action_item l ind bi w prev hww hi hbi hpd hc
    have hfr1 := fresh_lineno pos0 _ (pos0.lineno + 1) hfr
    rw [parse_step_seq f pos pos0 l bi root prev ind w hg ha]
    generalize ({ pos0 with lineno := pos0.lineno + 1 } : filepos) = p at hfr1 ⊢
    rw [parse_implicit_item _ p ind w hww hfr1.1]
    simp only [hfr1.1, Bool.false_eq_true, if_false, hlink]
    have hlen : (write_chain rest ind false).length < f := by
      simp only [List.length_append, List.length_cons] at hf
      omega
    obtain ⟨pos1, h1, h2⟩ := ih hwr f ind bi _ _ _ tail hlen hi hbi hlk1 ht (Or.inl hfr1)
    exact ⟨pos1, by rw [h1]; simp, h2⟩

/-- One mapping of a chain: its line, its value and the mappings behind
it. -/
theorem parse_map_step (f ind bi : Nat) (key suffix V : Str) (value rest : List yaml_node)
    (root : List yaml_node) (prev : prev_t) (pos : filepos) (tail : Str)
    (hk : word_ok key = true) (hsu : suffix_ok suffix) (hbi : bi ≤ ind)
    (hlk : linkable .yaml_map root prev)
    (hs : starts pos (map_line ind key suffix ++ '\n' ::
      (V ++ write_chain rest ind false) ++ tail))
    (hval : ∀ pos0, fresh pos0 (V ++ (write_chain rest ind false ++ tail)) →
      ∃ pos1, _parse_implicit (fun p k => _parse f p k [] none) pos0 ind suffix = (value, pos1)
        ∧ starts pos1 (write_chain rest ind false ++ tail))
    (hrest : ∀ root1 prev1 pos1, linkable .yaml_map root1 prev1 →
      starts pos1 (write_chain rest ind false ++ tail) →
      ∃ pos2, _parse f pos1 bi root1 prev1 = (root1 ++ rest, pos2) ∧ pushed pos2 tail) :
    ∃ pos2, _parse (f + 1) pos bi root prev = (root ++ .map key value :: rest, pos2)
      ∧ pushed pos2 tail := by
  rw [List.append_assoc, List.cons_append, List.append_assoc] at hs
  have hb := map_line_plain ind key suffix hk hsu
  obtain ⟨l, pos0, hg, hc, hfr⟩ := read_line pos _ _ hb hs
  obtain ⟨hlink, hpd, hlk1⟩ := link_ok .yaml_map root prev (.map key value) hlk rfl
  have ha := action_map l ind bi key suffix prev hk hsu hc
  rw [if_neg (by omega), hpd] at ha
  simp only [Bool.false_eq_true, if_false] at ha
  have hfr1 := fresh_lineno pos0 _ (pos0.lineno + 1) hfr
  obtain ⟨pos1, hv, hs1⟩ := hval _ hfr1
  have he1 : pos1.error = false := by
    rcases hs1 with h | h
    · exact h.1
    · exact h.1
  rw [parse_step_map f pos pos0 l bi root prev ind key suffix hg ha, hv]
  simp only [he1, Bool.false_eq_true, if_false, hlink]
  obtain ⟨pos2, h1, h2⟩ := hrest _ _ pos1 hlk1 hs1
  exact ⟨pos2, by rw [h1]; simp, h2⟩

/-- The loop of `_parse` on the text that the emitter writes for a chain of
mappings of words at the indentation `ind`, in a block of the indentation
`bi`: the chain is appended to `root`, and the line behind the text is put
back. -/
theorem parse_word_chain : ∀ (fuel : Nat) (c : List yaml_node) (ind bi : Nat)
    (root : List yaml_node) (prev : prev_t) (pos : filepos) (tail : Str),
    word_chain c = true → (write_chain c ind false).length < fuel → bi ≤ ind →
    linkable .yaml_map root prev → block_tail bi tail →
    starts pos (write_chain c ind false ++ tail) →
    ∃ pos1, _parse fuel pos bi root prev = (root ++ c, pos1) ∧ pushed pos1 tail := by
  intro fuel
  induction fuel with
  | zero =>
    intro c ind bi root prev pos tail _ hf
    omega
  | succ f ih =>
    intro c ind bi root prev pos tail hw hf hbi hlk ht hs
    cases c with
    | nil =>
      simp only [write_chain, List.nil_append] at hs
      simpa using parse_block_end (f + 1) (by omega) pos bi root prev tail hs ht
    | cons n rest =>
      rw [word_chain, Bool.and_eq_true] at hw
      obtain ⟨hn, hwr⟩ := hw
      cases n with
      | scalar c => simp [word_node] at hn
      | seq c => simp [word_node] at hn
      | map key value =>
        obtain ⟨hk, hv⟩ := word_value_cases key value hn
        have hR := tail_after rest ind bi tail hwr hbi ht
        rcases hv with rfl | ⟨w, rfl, hww⟩ | ⟨c, vs, rfl, hit⟩ | ⟨k, v, vs, rfl, hch⟩
        · rw [write_map_absent] at hs hf
          have hlen : (write_chain rest ind false).length < f := by
            simp only [List.length_append, List.length_cons, List.nil_append] at hf
            omega
          refine parse_map_step f ind bi key [] [] [] rest root prev pos tail hk (Or.inl rfl)
            hbi hlk hs ?_ (fun root1 prev1 pos1 h1 h2 =>
              ih rest ind bi root1 prev1 pos1 tail hwr hlen hbi h1 ht h2)
          intro pos0 hfr
          rw [parse_implicit_empty]
          obtain ⟨pos1, h1, h2⟩ := parse_block_end f (by omega) pos0 (ind + 1) [] none _
            (Or.inl hfr) hR
          exact ⟨pos1, h1, Or.inr h2⟩
        · rw [write_map_scalar] at hs hf
          have hlen : (write_chain rest ind false).length < f := by
            simp only [List.length_append, List.length_cons, List.nil_append] at hf
            omega
          refine parse_map_step f ind bi key (' ' :: w) [] [.scalar w] rest root prev pos tail hk
            (Or.inr ⟨w, hww, rfl⟩) hbi hlk hs ?_ (fun root1 prev1 pos1 h1 h2 =>
              ih rest ind bi root1 prev1 pos1 tail hwr hlen hbi h1 ht h2)
          intro pos0 hfr
          rw [parse_implicit_word _ pos0 ind w hww hfr.1]
          exact ⟨pos0, rfl, Or.inl hfr⟩
        · rw [write_map_seq] at hs hf
          have hlen : (write_chain rest ind false).length < f
              ∧ (write_chain (.seq c :: vs) (ind + 2) false).length < f := by
            simp only [List.length_append, List.length_cons] at hf
            omega
          refine parse_map_step f ind bi key [] _ (.seq c :: vs) rest root prev pos tail hk
            (Or.inl rfl) hbi hlk hs ?_ (fun root1 prev1 pos1 h1 h2 =>
              ih rest ind bi root1 prev1 pos1 tail hwr hlen.1 hbi h1 ht h2)
          intro pos0 hfr
          rw [parse_implicit_empty]
          obtain ⟨pos1, h1, h2⟩ := parse_items _ hit f (ind + 2) (ind + 1) [] none pos0 _
            hlen.2 (by omega) (by omega) (Or.inl ⟨rfl, rfl⟩) hR (Or.inl hfr)
          exact ⟨pos1, h1, Or.inr h2⟩
        · rw [write_map_map] at hs hf
          have hlen : (write_chain rest ind false).length < f
              ∧ (write_chain (.map k v :: vs) (ind + 2) false).length < f := by
            simp only [List.length_append, List.length_cons] at hf
            omega
          refine parse_map_step f ind bi key [] _ (.map k v :: vs) rest root prev pos tail hk
            (Or.inl rfl) hbi hlk hs ?_ (fun root1 prev1 pos1 h1 h2 =>
              ih rest ind bi root1 prev1 pos1 tail hwr hlen.1 hbi h1 ht h2)
          intro pos0 hfr
          rw [parse_implicit_empty]
          obtain ⟨pos1, h1, h2⟩ := ih _ (ind + 2) (ind + 1) [] none pos0 _ hch
            hlen.2 (by omega) (Or.inl ⟨rfl, rfl⟩) hR (Or.inl hfr)
          exact ⟨pos1, h1, Or.inr h2⟩

/-- Parsing what the emitter writes for a document of mappings of words,
nested to any depth, gives the document back. -/
theorem parse_write_words (doc : List yaml_node) (h : word_chain doc = true) :
    yaml_parse_string (yaml_write_stream doc 0 false) = doc := by
  have hw : yaml_write_stream doc 0 false = write_chain doc 0 false := by
    cases doc with
    | nil => simp [yaml_write_stream, _yaml_write_stream, write_chain]
    | cons n rest => simp [yaml_write_stream, _yaml_write_stream]
  rw [hw]
  unfold yaml_parse_string yaml_parse_stream
  obtain ⟨pos1, h1, h2⟩ := parse_word_chain (2 * (write_chain doc 0 false).length + 4) doc 0 0
    [] none
    { fd := write_chain doc 0 false, lineno := 0, error := false, eof := false, line := none }
    [] h (by omega) le_rfl (Or.inl ⟨rfl, rfl⟩) (Or.inl rfl)
    (Or.inl ⟨rfl, rfl, rfl, by simp⟩)
  simp only [h1, h2.1, Bool.false_eq_true, if_false, List.nil_append]

/-- C39: for every document built from mappings whose keys are words
(non-empty texts of letters, digits and underscores) and whose values are
absent, one scalar that is a word, a list of sequence elements with one word
each, or again such mappings, nested to any depth, parsing the text that
`yaml_write_stream` writes for it (indent 0, all siblings) gives the document
back: the same nodes with the same keys and scalars. -/
theorem C39_parse_write_nested (doc : List yaml_node) (h : word_chain doc = true) :
    yaml_parse_string (yaml_write_stream doc 0 false) = doc :=
  parse_write_words doc h

/-- Witness of C39: the document `nested_doc` and its text. -/
theorem C39_parse_write_nested_witness :
    word_chain nested_doc = true
    ∧ yaml_parse_string (yaml_write_stream nested_doc 0 false) = nested_doc
    ∧ yaml_write_stream nested_doc 0 false
      = "a:\n  b: x\n  c:\n  d:\n    - p\n    - q\ne:\n".toList :=
  ⟨by decide, C39_parse_write_nested nested_doc (by decide), by decide⟩

theorem suffix_sbelow {P x : node_id} (h : P <:+ x) (hne : x ≠ P) : sbelow P x := by
  obtain ⟨y, hy⟩ := h
  rcases List.eq_nil_or_concat y with rfl | ⟨z, a, rfl⟩
  · exact absurd (by simpa using hy.symm) hne
  · exact ⟨a, z, by rw [← hy]; simp⟩

/-- A node that is there has its parents. -/
theorem deref_suffix (doc : List yaml_node) : ∀ (y P : node_id), P ≠ [] →
    (yaml_deref doc (y ++ P)).isSome = true → (yaml_deref doc P).isSome = true
  | [], P, _, h => by simpa using h
  | a :: y, P, hP, h => by
    have hz : y ++ P ≠ [] := by simp [hP]
    apply deref_suffix doc y P hP
    cases hzz : y ++ P with
    | nil => exact absurd hzz hz
    | cons b r =>
      simp only [List.cons_append, hzz, yaml_deref, yaml_chain] at h ⊢
      cases hc : yaml_chain doc (b :: r) with
      | nil => simp [hc] at h
      | cons n t => simp

theorem chain_child (doc : List yaml_node) (p : node_id) (hp : p ≠ []) (n : yaml_node)
    (rest : List yaml_node) (h : yaml_chain doc p = n :: rest) :
    yaml_chain doc (0 :: p) = get_child n := by
  cases p with
  | nil => exact absurd rfl hp
  | cons i q => simp [yaml_chain, h]

theorem unassign_one_res (st : match_state) (p x : node_id) :
    (unassign_one st p).res x = if x = p then [] else st.res x := rfl

theorem cleared_nil (doc : List yaml_node) (st : match_state) (i : Nat) (par : node_id)
    (hc : yaml_chain doc (i :: par) = []) : cleared doc st st i par := by
  refine ⟨fun _ _ => rfl, fun _ => Or.inr rfl, fun x i1 hi hx hd => ?_⟩
  obtain ⟨y, hy⟩ := hx
  rw [← hy] at hd
  have h1 := deref_suffix doc y (i1 :: par) (by simp) hd
  rw [yaml_deref, yaml_chain_drop] at h1
  rw [yaml_chain_drop] at hc
  have hl : (yaml_chain doc (0 :: par)).length ≤ i := by
    have := congrArg List.length hc
    simp at this
    omega
  rw [List.drop_eq_nil_of_le (by omega)] at h1
  simp at h1

/-- The lists of bound resources after `unassign_req` for the node with the
identity `i :: par`, from what is known of the loop over its children: the
lists of the node and of the nodes below it are empty, the others are as
before. -/
theorem cleared_node (doc : List yaml_node) (st st1 : match_state) (i : Nat) (par : node_id)
    (h : cleared doc (unassign_one st (i :: par)) st1 0 (i :: par)) :
    (∀ x, ¬ (i :: par) <:+ x → st1.res x = st.res x)
    ∧ (∀ x, st1.res x = [] ∨ st1.res x = st.res x)
    ∧ (∀ x, (i :: par) <:+ x → (yaml_deref doc x).isSome = true → st1.res x = []) := by
  obtain ⟨c1, c2, c3⟩ := h
  refine ⟨fun x hx => ?_, fun x => ?_, fun x hx hd => ?_⟩
  · rw [c1 x (fun i1 _ h1 => hx ((List.suffix_cons i1 _).trans h1)), unassign_one_res,
      if_neg (fun e => hx (by rw [e]))]
  · rcases c2 x with h | h
    · exact Or.inl h
    · rw [h, unassign_one_res]
      split
      · exact Or.inl rfl
      · exact Or.inr rfl
  · by_cases e : x = i :: par
    · rw [c1 x (fun i1 _ h1 => by
        rw [e] at h1
        have := h1.length_le
        simp at this), unassign_one_res, if_pos e]
    · obtain ⟨a, ha⟩ := suffix_sbelow hx e
      exact c3 x a (Nat.zero_le a) ha hd

theorem cleared_cons (doc : List yaml_node) (st st1 st2 : match_state) (i : Nat) (par : node_id)
    (hn : (∀ x, ¬ (i :: par) <:+ x → st1.res x = st.res x)
      ∧ (∀ x, st1.res x = [] ∨ st1.res x = st.res x)
      ∧ (∀ x, (i :: par) <:+ x → (yaml_deref doc x).isSome = true → st1.res x = []))
    (hc : cleared doc st1 st2 (i + 1) par) : cleared doc st st2 i par := by
  obtain ⟨n1, n2, n3⟩ := hn
  obtain ⟨c1, c2, c3⟩ := hc
  refine ⟨fun x hx => ?_, fun x => ?_, fun x i1 hi hx hd => ?_⟩
  · rw [c1 x (fun i1 hi => hx i1 (by omega)), n1 x (hx i (le_refl i))]
  · rcases c2 x with h | h
    · exact Or.inl h
    · rw [h]; exact n2 x
  · by_cases e : i1 = i
    · subst e
      rcases c2 x with h | h
      · exact h
      · rw [h]; exact n3 x hx hd
    · exact c3 x i1 (by omega) hx hd

mutual
/-- The lists of bound resources after `unassign_req` for the node `n` with
the identity `i :: par`. -/
theorem unassign_req_tree (doc : List yaml_node) : ∀ (n : yaml_node) (st : match_state)
    (i : Nat) (par : node_id) (rest : List yaml_node),
    yaml_chain doc (i :: par) = n :: rest →
    cleared doc (unassign_one st (i :: par)) (unassign_req st (i :: par) n) 0 (i :: par)
  | .scalar c, st, i, par, rest, hc => by
    rw [unassign_req_eq]
    simp only [get_child, unassign_chain]
    exact cleared_nil doc _ 0 _ (chain_child doc (i :: par) (by simp) _ rest hc)
  | .seq c, st, i, par, rest, hc => by
    rw [unassign_req_eq]
    exact unassign_chain_tree doc c (unassign_one st (i :: par)) 0 (i :: par)
      (chain_child doc (i :: par) (by simp) _ rest hc)
  | .map k v, st, i, par, rest, hc => by
    rw [unassign_req_eq]
    exact unassign_chain_tree doc v (unassign_one st (i :: par)) 0 (i :: par)
      (chain_child doc (i :: par) (by simp) _ rest hc)
/-- See `unassign_req_tree`. -/
theorem unassign_chain_tree (doc : List yaml_node) : ∀ (nodes : List yaml_node)
    (st : match_state) (i : Nat) (par : node_id),
    yaml_chain doc (i :: par) = nodes →
    cleared doc st (unassign_chain st (i :: par) nodes) i par
  | [], st, i, par, hc => by
    simp only [unassign_chain]
    exact cleared_nil doc st i par hc
  | n :: rest, st, i, par, hc => by
    rw [unassign_chain]
    exact cleared_cons doc st _ _ i par
      (cleared_node doc st _ i par (unassign_req_tree doc n st i par rest hc))
      (unassign_chain_tree doc rest (unassign_req st (i :: par) n) (i + 1) par
        (yaml_chain_succ doc i par n rest hc))
end

theorem word_none_local (x : Option yaml_node) (h : word_of x = none) : is_syslocal x = false := by
  unfold word_of at h
  unfold is_syslocal
  cases hk : get_key x with
  | none => rfl
  | some k => rw [hk] at h; simp at h

/-- A list with one resource at most has no resource behind a compatible
one. -/
theorem compatible_behind_one (cfg : match_cfg) (rp sp : node_id)
    (h : (yaml_chain cfg.res (0 :: sp)).length ≤ 1) : compatible_behind cfg rp sp := by
  intro i j0 j hle hc hw
  rcases Nat.eq_or_lt_of_le hle with e | hlt
  · rw [← e]; exact hc.2
  · have hd : yaml_deref cfg.res (j :: sp) = none := by
      rw [yaml_deref_get, List.getElem?_eq_none (by omega)]
    rw [hd] at hw ⊢
    rw [word_none_local _ hw.symm]
    rfl

theorem disks_parsed :
    yaml_parse_string two_disks_req_text
      = [.map "system".toList (yaml_chain disks_req [0, 0])]
    ∧ yaml_parse_string two_disks_rev_text = disks_rev := by
  constructor <;> rfl

end Tela
